import Mathlib

/-!
# The asio dispatcher (`task_io_service`) and the IOCP accept operation

A shallow embedding of `asio/detail/task_io_service.hpp` and of
`asio/detail/win_iocp_socket_accept_op.hpp`.

The dispatcher is embedded at pointer level.  Handler objects live in a heap
(`heap`, addressed by position), the queue is the pair of raw pointers
`handler_queue_` / `handler_queue_end_` threaded through the `next_` fields,
and the idle ring is threaded through the `prev` / `next` fields of the
`idle_thread_info` of each thread.  Every block of code that the source runs
while holding `mutex_` is one atomic transition.  Dereferencing a pointer that
does not address a live object is undefined behaviour in the source and is
`none` here.

The counter `outstanding_work_` is a C++ `int`: it is embedded as an `Int`
that every `++` and `--` brings back into the range of a 32-bit two's
complement `int` (`to_int`), so that it wraps around at `INT_MAX` and at
`INT_MIN`.
-/

namespace asio.detail

/-- The value of a C++ `int` (32 bits, two's complement) after an arithmetic
operation whose mathematical result is `x`. -/
def to_int (x : Int) : Int :=
  (x + 2 ^ 31) % 2 ^ 32 - 2 ^ 31

/-! ## Data model -/

/-- A non-null `handler_base*`: either `&task_handler_` or the address of a
heap-allocated `handler_wrapper`. The null pointer is `none` of
`Option handler_ref`. -/
inductive handler_ref where
  | task : handler_ref
  | wrapper (addr : Nat) : handler_ref
  deriving DecidableEq

/-- What the code of a user handler (or of the polling task, or of a thread
outside `run`) may do with the dispatcher: call one of its public member
functions, or throw. User handlers are named by natural numbers. -/
inductive Cmd where
  | post (handler : Nat) : Cmd
  | dispatch (handler : Nat) : Cmd
  | interrupt : Cmd
  | reset : Cmd
  | work_started : Cmd
  | work_finished : Cmd
  | throws : Cmd
  deriving DecidableEq

/-- Calls that leave the dispatcher, in the order in which they happen:
the upcall `handler()` made on thread `t`, `task_.run(block)` called on thread
`t`, `task_.interrupt()`, `wakeup_event.signal()` on the idle node of thread
`u`, and the two ways in which `run()` ends on thread `t`. -/
inductive Event where
  | invoke (t : Nat) (handler : Nat) : Event
  | task_run (t : Nat) (block : Bool) : Event
  | task_interrupt : Event
  | signal (u : Nat) : Event
  | run_return (t : Nat) : Event
  | run_throw (t : Nat) : Event
  deriving DecidableEq

/-- A `handler_wrapper<Handler>` object: the `next_` link of its
`handler_base` and the wrapped `handler_` (by name). -/
structure handler_wrapper where
  next_ : Option handler_ref
  handler_ : Nat
  deriving DecidableEq

/-- The `idle_thread_info` local of `run()`; `prev` and `next` point to the
`idle_thread_info` of a thread, named by the index of that thread. -/
structure idle_thread_info where
  wakeup_event : Bool
  prev : Nat
  next : Nat
  deriving DecidableEq

/-- Where a thread is with respect to `run()`: not inside it, inside
`task_.run(block)` with the calls in `k` still to make, inside `h->call()`
with the calls in `k` still to make, or inside `wakeup_event.wait()`. -/
inductive Pc where
  | outside : Pc
  | in_task (block : Bool) (k : List Cmd) : Pc
  | in_handler (k : List Cmd) : Pc
  | waiting : Pc
  deriving DecidableEq

/-- A thread that may call `run()`, with the locals of that call. -/
structure run_thread where
  pc : Pc
  this_idle_thread : idle_thread_info
  deriving DecidableEq

/-- The thread record after the write `next = v` to its idle node. -/
def run_thread.with_next (th : run_thread) (v : Nat) : run_thread :=
  { th with this_idle_thread := { th.this_idle_thread with next := v } }

/-- The thread record after the write `prev = v` to its idle node. -/
def run_thread.with_prev (th : run_thread) (v : Nat) : run_thread :=
  { th with this_idle_thread := { th.this_idle_thread with prev := v } }

/-- The thread record after its `wakeup_event` is put in signalled state `b`. -/
def run_thread.with_event (th : run_thread) (b : Bool) : run_thread :=
  { th with this_idle_thread := { th.this_idle_thread with wakeup_event := b } }

/-- The data members of `task_io_service`, together with the heap of handler
objects, the threads, what the successive calls of `task_.run` are going to
do (`task_script`), and the calls made so far (`trace`). -/
structure task_io_service where
  heap : List (Option handler_wrapper)
  task_handler_next_ : Option handler_ref
  outstanding_work_ : Int
  handler_queue_ : Option handler_ref
  handler_queue_end_ : Option handler_ref
  interrupted_ : Bool
  first_idle_thread_ : Option Nat
  threads : List run_thread
  task_script : List (List Cmd)
  trace : List Event
  deriving DecidableEq

/-- The code of the user handlers: the calls each named handler makes. -/
abbrev Program := Nat → List Cmd

namespace task_io_service

/-- The constructor: the queue holds `&task_handler_` only, whose `next_` is
null; `n` threads exist, none inside `run()`. -/
def init (n : Nat) (script : List (List Cmd)) : task_io_service :=
  { heap := []
    task_handler_next_ := none
    outstanding_work_ := 0
    handler_queue_ := some handler_ref.task
    handler_queue_end_ := some handler_ref.task
    interrupted_ := false
    first_idle_thread_ := none
    threads := (List.range n).map fun i =>
      { pc := Pc.outside, this_idle_thread := { wakeup_event := false, prev := i, next := i } }
    task_script := script
    trace := [] }

/-! ## Pointer access -/

/-- Read `r->next_`. -/
def get_next_ (s : task_io_service) (r : handler_ref) : Option (Option handler_ref) :=
  match r with
  | handler_ref.task => some s.task_handler_next_
  | handler_ref.wrapper a =>
    match s.heap[a]? with
    | some (some c) => some c.next_
    | _ => none

/-- Write `r->next_ = p`. -/
def set_next_ (s : task_io_service) (r : handler_ref) (p : Option handler_ref) :
    Option task_io_service :=
  match r with
  | handler_ref.task => some { s with task_handler_next_ := p }
  | handler_ref.wrapper a =>
    match s.heap[a]? with
    | some (some c) => some { s with heap := s.heap.set a (some { c with next_ := p }) }
    | _ => none

/-- Read `u->next` of an idle node. -/
def idle_next (s : task_io_service) (u : Nat) : Option Nat :=
  match s.threads[u]? with
  | some th => some th.this_idle_thread.next
  | none => none

/-- Read `u->prev` of an idle node. -/
def idle_prev (s : task_io_service) (u : Nat) : Option Nat :=
  match s.threads[u]? with
  | some th => some th.this_idle_thread.prev
  | none => none

/-- Write `u->next = v`. -/
def set_idle_next (s : task_io_service) (u v : Nat) : Option task_io_service :=
  match s.threads[u]? with
  | some th => some { s with threads := s.threads.set u (th.with_next v) }
  | none => none

/-- Write `u->prev = v`. -/
def set_idle_prev (s : task_io_service) (u v : Nat) : Option task_io_service :=
  match s.threads[u]? with
  | some th => some { s with threads := s.threads.set u (th.with_prev v) }
  | none => none

/-- Write the signalled state of `u->wakeup_event`. -/
def set_event (s : task_io_service) (u : Nat) (b : Bool) : Option task_io_service :=
  match s.threads[u]? with
  | some th => some { s with threads := s.threads.set u (th.with_event b) }
  | none => none

/-- The call `u->wakeup_event.signal()`. -/
def signal (s : task_io_service) (u : Nat) : Option task_io_service :=
  match set_event s u true with
  | some s1 => some { s1 with trace := s1.trace ++ [Event.signal u] }
  | none => none

/-- Move thread `t` to `pc`. -/
def set_pc (s : task_io_service) (t : Nat) (pc : Pc) : Option task_io_service :=
  match s.threads[t]? with
  | some th => some { s with threads := s.threads.set t { th with pc := pc } }
  | none => none

/-- The call `task_.interrupt()`. -/
def task_interrupt (s : task_io_service) : task_io_service :=
  { s with trace := s.trace ++ [Event.task_interrupt] }

/-- The test `call_stack<task_io_service>::contains(this)` on thread `t`:
the marker is pushed by `run()` on entry and popped on exit. -/
def call_stack_contains (s : task_io_service) (t : Nat) : Bool :=
  match s.threads[t]? with
  | some th => th.pc != Pc.outside
  | none => false

/-! ## The private member functions -/

/-- The function `interrupt_one_idle_thread`; the Boolean is its result. -/
def interrupt_one_idle_thread (s : task_io_service) : Option (task_io_service × Bool) :=
  match s.first_idle_thread_ with
  | some f =>
    match signal s f with
    | some s1 =>
      match idle_next s1 f with
      | some n => some ({ s1 with first_idle_thread_ := some n }, true)
      | none => none
    | none => none
  | none => some (s, false)

/-- The `while` loop of `interrupt_all_idle_threads`, at most `fuel` passes.
It ends when `current_idle_thread` is back at `first`. -/
def signal_loop (first : Nat) : Nat → Nat → task_io_service → Option task_io_service
  | 0, cur, s => if cur = first then some s else none
  | fuel + 1, cur, s =>
    if cur = first then some s
    else
      match signal s cur with
      | some s1 =>
        match idle_next s1 cur with
        | some n => signal_loop first fuel n s1
        | none => none
      | none => none

/-- The function `interrupt_all_idle_threads`. The loop visits idle nodes of
threads; once it has made as many passes as there are threads without coming
back to `first_idle_thread_` it has visited some node twice and never ends,
which is `none`. -/
def interrupt_all_idle_threads (s : task_io_service) : Option task_io_service :=
  match s.first_idle_thread_ with
  | some f =>
    match signal s f with
    | some s1 =>
      match idle_next s1 f with
      | some n => signal_loop f s.threads.length n s1
      | none => none
    | none => none
  | none => some s

/-- The function `interrupt_all_threads`. -/
def interrupt_all_threads (s : task_io_service) : Option task_io_service :=
  match interrupt_all_idle_threads { s with interrupted_ := true } with
  | some s1 =>
    if s1.task_handler_next_ = none ∧ s1.handler_queue_end_ ≠ some handler_ref.task then
      some (task_interrupt s1)
    else some s1
  | none => none

/-! ## The public member functions other than `run` -/

/-- The function `interrupt`. -/
def interrupt (s : task_io_service) : Option task_io_service :=
  interrupt_all_threads s

/-- The function `reset`. -/
def reset (s : task_io_service) : task_io_service :=
  { s with interrupted_ := false }

/-- The function `work_started`. -/
def work_started (s : task_io_service) : task_io_service :=
  { s with outstanding_work_ := to_int (s.outstanding_work_ + 1) }

/-- The function `work_finished`. -/
def work_finished (s : task_io_service) : Option task_io_service :=
  let s1 : task_io_service := { s with outstanding_work_ := to_int (s.outstanding_work_ - 1) }
  if s1.outstanding_work_ = 0 then interrupt_all_threads s1 else some s1

/-- The first lines of `post`: allocate and construct the `handler_wrapper`
at a fresh address, with a null `next_`. -/
def new_wrapper (s : task_io_service) (handler : Nat) : task_io_service :=
  { s with heap := s.heap ++ [some { next_ := none, handler_ := handler }] }

/-- The block of `post` that adds the handler at `ptr` to the end of the queue. -/
def enqueue (s : task_io_service) (ptr : handler_ref) : Option task_io_service :=
  match s.handler_queue_end_ with
  | some e =>
    match set_next_ s e (some ptr) with
    | some s1 => some { s1 with handler_queue_end_ := some ptr }
    | none => none
  | none => some { s with handler_queue_ := some ptr, handler_queue_end_ := some ptr }

/-- The last lines of `post`: wake up a thread to execute the handler, else
interrupt the task when it is neither linked to a successor nor the end of
the queue. -/
def wake_one (s : task_io_service) : Option task_io_service :=
  match interrupt_one_idle_thread s with
  | some (s1, true) => some s1
  | some (s1, false) =>
    if s1.task_handler_next_ = none ∧ s1.handler_queue_end_ ≠ some handler_ref.task then
      some (task_interrupt s1)
    else some s1
  | none => none

/-- The function `post`: allocate the wrapper, link it at the end of the
queue, count it as unfinished work, wake one consumer. -/
def post (s : task_io_service) (handler : Nat) : Option task_io_service :=
  match enqueue (new_wrapper s handler) (handler_ref.wrapper s.heap.length) with
  | some s1 => wake_one { s1 with outstanding_work_ := to_int (s1.outstanding_work_ + 1) }
  | none => none

/-- The upcall `handler()` made in place by thread `t`: the calls of the
handler come before what the thread still had to do. -/
def upcall (prog : Program) (s : task_io_service) (t : Nat) (handler : Nat) :
    Option task_io_service :=
  match s.threads[t]? with
  | some th =>
    let pc1 : Pc :=
      match th.pc with
      | Pc.in_handler k => Pc.in_handler (prog handler ++ k)
      | Pc.in_task b k => Pc.in_task b (prog handler ++ k)
      | pc0 => pc0
    some { s with threads := s.threads.set t { th with pc := pc1 }
                  trace := s.trace ++ [Event.invoke t handler] }
  | none => none

/-- The function `dispatch`, called on thread `t`. -/
def dispatch (prog : Program) (s : task_io_service) (t : Nat) (handler : Nat) :
    Option task_io_service :=
  if call_stack_contains s t then upcall prog s t handler else post s handler

/-- Thread `t` makes the call `c`. Throwing is not a call. -/
def exec (prog : Program) (s : task_io_service) (t : Nat) : Cmd → Option task_io_service
  | Cmd.post h => post s h
  | Cmd.dispatch h => dispatch prog s t h
  | Cmd.interrupt => interrupt s
  | Cmd.reset => some (reset s)
  | Cmd.work_started => some (work_started s)
  | Cmd.work_finished => work_finished s
  | Cmd.throws => none

/-! ## The function `run` -/

/-- The destructor of the `cleanup` object of the task branch: reinsert the
task at the end of the handler queue. -/
def task_cleanup (s : task_io_service) : Option task_io_service :=
  enqueue { s with task_handler_next_ := none } handler_ref.task

/-- The destructor of the `cleanup` object of the handler branch. -/
def handler_cleanup (s : task_io_service) : task_io_service :=
  { s with outstanding_work_ := to_int (s.outstanding_work_ - 1) }

/-- The `else` branch of the loop body up to `lock.unlock()`: link the idle
node of thread `t` into the ring, make it the first idle thread, clear its
event and wait. -/
def park (s : task_io_service) (t : Nat) : Option task_io_service :=
  let linked : Option task_io_service :=
    match s.first_idle_thread_ with
    | some f =>
      match set_idle_next s t f with
      | some s1 =>
        match idle_prev s1 f with
        | some fp =>
          match set_idle_prev s1 t fp with
          | some s2 =>
            match idle_prev s2 f with
            | some fp2 =>
              match set_idle_next s2 fp2 t with
              | some s3 => set_idle_prev s3 f t
              | none => none
            | none => none
          | none => none
        | none => none
      | none => none
    | none => some s
  match linked with
  | some s1 =>
    match set_event { s1 with first_idle_thread_ := some t } t false with
    | some s2 => set_pc s2 t Pc.waiting
    | none => none
  | none => none

/-- The `else` branch of the loop body after `lock.lock()`: take the idle
node of thread `t` out of the ring. -/
def unpark (s : task_io_service) (t : Nat) : Option task_io_service :=
  match idle_next s t with
  | some n =>
    if n = t then some { s with first_idle_thread_ := none }
    else
      let s0 := if s.first_idle_thread_ = some t then { s with first_idle_thread_ := some n } else s
      match idle_prev s0 t with
      | some p =>
        match set_idle_prev s0 n p with
        | some s1 =>
          match idle_prev s1 t, idle_next s1 t with
          | some p1, some n1 =>
            match set_idle_next s1 p1 n1 with
            | some s2 =>
              match set_idle_next s2 t t with
              | some s3 => set_idle_prev s3 t t
              | none => none
            | none => none
          | _, _ => none
        | none => none
      | none => none
  | none => none

/-- What follows the loop: interrupt all threads unless already interrupted,
then return. -/
def run_exit (s : task_io_service) (t : Nat) : Option task_io_service :=
  let after : Option task_io_service :=
    if s.interrupted_ = false then interrupt_all_threads s else some s
  match after with
  | some s1 => set_pc { s1 with trace := s1.trace ++ [Event.run_return t] } t Pc.outside
  | none => none

/-- An exception leaves `run()` on thread `t`. -/
def run_unwind (s : task_io_service) (t : Nat) : Option task_io_service :=
  set_pc { s with trace := s.trace ++ [Event.run_throw t] } t Pc.outside

/-- Thread `t` holds the lock and is at the test of the `while` loop. It
leaves the loop, or takes the first handler off the queue and starts it (the
task, or a user handler whose wrapper `do_call` frees before the upcall), or
parks. -/
def run_loop (prog : Program) (s : task_io_service) (t : Nat) : Option task_io_service :=
  if s.interrupted_ = false ∧ 0 < s.outstanding_work_ then
    match s.handler_queue_ with
    | some h =>
      match get_next_ s h with
      | some nx =>
        let s0 := { s with handler_queue_ := nx
                           handler_queue_end_ := if nx = none then none else s.handler_queue_end_ }
        let more_handlers : Bool := nx != none
        match h with
        | handler_ref.task =>
          set_pc { s0 with task_script := s0.task_script.tail
                           trace := s0.trace ++ [Event.task_run t (!more_handlers)] }
            t (Pc.in_task (!more_handlers) (s0.task_script.headD []))
        | handler_ref.wrapper a =>
          match s0.heap[a]? with
          | some (some c) =>
            set_pc { s0 with heap := s0.heap.set a none
                             trace := s0.trace ++ [Event.invoke t c.handler_] }
              t (Pc.in_handler (prog c.handler_))
          | _ => none
      | none => none
    | none => park s t
  else run_exit s t

/-- Thread `t` calls `run()`: it sets up its idle node, takes the lock and
reaches the loop. -/
def run_begin (prog : Program) (s : task_io_service) (t : Nat) : Option task_io_service :=
  match s.threads[t]? with
  | some th =>
    if th.pc = Pc.outside then
      match set_idle_prev s t t with
      | some s1 =>
        match set_idle_next s1 t t with
        | some s2 => run_loop prog s2 t
        | none => none
      | none => none
    else none
  | none => none

/-- The next move of thread `t` inside `run()`: the next call of the running
handler or task; at its end (or when it throws) the cleanup and then the loop
again (or the unwinding); for a parked thread whose event is signalled, the
unlinking and then the loop again. -/
def thread_step (prog : Program) (s : task_io_service) (t : Nat) : Option task_io_service :=
  match s.threads[t]? with
  | some th =>
    match th.pc with
    | Pc.outside => none
    | Pc.waiting =>
      if th.this_idle_thread.wakeup_event = true then
        match unpark s t with
        | some s1 => run_loop prog s1 t
        | none => none
      else none
    | Pc.in_handler [] => run_loop prog (handler_cleanup s) t
    | Pc.in_handler (Cmd.throws :: _) => run_unwind (handler_cleanup s) t
    | Pc.in_handler (c :: k) =>
      match set_pc s t (Pc.in_handler k) with
      | some s1 => exec prog s1 t c
      | none => none
    | Pc.in_task _ [] =>
      match task_cleanup s with
      | some s1 => run_loop prog s1 t
      | none => none
    | Pc.in_task _ (Cmd.throws :: _) =>
      match task_cleanup s with
      | some s1 => run_unwind s1 t
      | none => none
    | Pc.in_task b (c :: k) =>
      match set_pc s t (Pc.in_task b k) with
      | some s1 => exec prog s1 t c
      | none => none
  | none => none

/-- Whether thread `t` is outside `run()`. -/
def is_outside (s : task_io_service) (t : Nat) : Bool :=
  match s.threads[t]? with
  | some th => th.pc = Pc.outside
  | none => true

/-- Thread `t` keeps moving, alone, until it has left `run()`; `none` when it
has not left after `fuel` moves or cannot move. -/
def run_steps (prog : Program) (t : Nat) : Nat → task_io_service → Option task_io_service
  | 0, s => if is_outside s t then some s else none
  | fuel + 1, s =>
    if is_outside s t then some s
    else
      match thread_step prog s t with
      | some s1 => run_steps prog t fuel s1
      | none => none

/-- The state after thread `t`, alone, has made up to `fuel` moves inside
`run()`; it stops early when the thread has left `run()` or cannot move. -/
def run_for (prog : Program) (t : Nat) : Nat → task_io_service → task_io_service
  | 0, s => s
  | fuel + 1, s =>
    if is_outside s t then s
    else
      match thread_step prog s t with
      | some s1 => run_for prog t fuel s1
      | none => s

/-- The function `run`, called on thread `t` with no other thread moving. -/
def run (prog : Program) (fuel : Nat) (s : task_io_service) (t : Nat) :
    Option task_io_service :=
  match run_begin prog s t with
  | some s1 => run_steps prog t fuel s1
  | none => none

/-! ## Interleavings -/

/-- One atomic transition: thread `t`, which is not inside `run()`, makes the
call `c`; thread `t` enters `run()`; thread `t` makes its next move inside
`run()`. -/
inductive Action where
  | call (t : Nat) (c : Cmd) : Action
  | run (t : Nat) : Action
  | move (t : Nat) : Action
  deriving DecidableEq

/-- The transition function; `none` when the action is not possible. -/
def step (prog : Program) (s : task_io_service) : Action → Option task_io_service
  | Action.call t c => if call_stack_contains s t then none else exec prog s t c
  | Action.run t => run_begin prog s t
  | Action.move t => thread_step prog s t

/-- Post the handlers of a list one after the other. -/
def post_all (s : task_io_service) : List Nat → Option task_io_service
  | [] => some s
  | h :: hs =>
    match post s h with
    | some s1 => post_all s1 hs
    | none => none

/-- The upcalls recorded in a trace, in order. -/
def invocations : List Event → List Nat
  | [] => []
  | Event.invoke _ h :: es => h :: invocations es
  | _ :: es => invocations es

end task_io_service

/-! ## The accept operation `win_iocp_socket_accept_op` -/

/-- An `asio::error_code`: a value and a category; category `0` is the system
category. -/
structure error_code where
  value : Int
  category : Nat
  deriving DecidableEq

/-- The constants of the platform headers and of `asio/error.hpp` that
`do_complete` uses. `WSAECONNABORTED` is the value of
`asio::error::connection_aborted` and `WSAEINVAL` that of
`asio::error::invalid_argument`, both of the system category; `size_t_bits`
is the width of `std::size_t`. -/
structure win_constants where
  ERROR_NETNAME_DELETED : Int
  WSAECONNABORTED : Int
  WSA_IO_PENDING : Int
  WSAEINVAL : Int
  invalid_socket : Nat
  size_t_bits : Nat
  deriving DecidableEq

/-- The values the constants have in the Windows headers (64-bit). -/
def winsock : win_constants :=
  { ERROR_NETNAME_DELETED := 64
    WSAECONNABORTED := 10053
    WSA_IO_PENDING := 997
    WSAEINVAL := 10022
    invalid_socket := 2 ^ 64 - 1
    size_t_bits := 64 }

/-- The error `asio::error::connection_aborted` as an `error_code`. -/
def connection_aborted (K : win_constants) : error_code :=
  { value := K.WSAECONNABORTED, category := 0 }

/-- The error `asio::error::invalid_argument` as an `error_code`. -/
def invalid_argument (K : win_constants) : error_code :=
  { value := K.WSAEINVAL, category := 0 }

/-- The conversion `static_cast<std::size_t>(n)` of an `int`. -/
def to_size_t (K : win_constants) (n : Int) : Nat :=
  (n % 2 ^ K.size_t_bits).toNat

/-- What the platform answers during one call of `do_complete`: the socket
returned by `socket_ops::socket` and the error it sets, the result of
`AcceptEx` and of `WSAGetLastError`, the `remote_addr_length` written by
`GetAcceptExSockaddrs`, the `capacity()` of the endpoint, and the errors set
by `socket_ops::setsockopt` and by `peer_.assign`. -/
structure platform where
  socket_result : Nat
  socket_ec : error_code
  accept_result : Bool
  last_error : Int
  remote_addr_length : Int
  capacity : Nat
  setsockopt_ec : error_code
  assign_ec : error_code
  deriving DecidableEq

/-- The data members of the operation that `do_complete` reads or writes:
the listening `socket_`, the socket held by `new_socket_`, whether
`peer_endpoint_` is non-null, and `enable_connection_aborted_`. -/
structure accept_op where
  socket_ : Nat
  new_socket_ : Nat
  has_peer_endpoint_ : Bool
  enable_connection_aborted_ : Bool
  deriving DecidableEq

/-- What `do_complete` does to the world, in order: `o->reset()`,
`o->new_socket_.reset()`, `socket_ops::socket`, `::AcceptEx` on a listening
and a new socket, `iocp_service_.work_started()`,
`iocp_service_.on_completion(o, ec)`, `iocp_service_.on_pending(o)`,
`GetAcceptExSockaddrs`, `socket_ops::setsockopt` on a socket,
`peer_.assign` of a socket with an endpoint (`none`: default constructed,
`some n`: resized to `n`), the write `*o->peer_endpoint_ = peer_endpoint`,
`o->new_socket_.release()`, `p.reset()`, and the upcall of the user handler
with an error. -/
inductive Effect where
  | overlapped_reset : Effect
  | new_socket_reset : Effect
  | socket_create : Effect
  | accept_ex (listener new_socket : Nat) : Effect
  | work_started : Effect
  | on_completion (ec : error_code) : Effect
  | on_pending : Effect
  | get_sockaddrs : Effect
  | setsockopt (socket : Nat) : Effect
  | peer_assign (socket : Nat) (endpoint : Option Nat) : Effect
  | write_peer_endpoint (endpoint : Option Nat) : Effect
  | new_socket_release : Effect
  | free_op : Effect
  | upcall (ec : error_code) : Effect
  deriving DecidableEq

/-- The result of one call of `do_complete`: what it did, and the operation
object when it is still alive (ownership handed on), `none` once freed. -/
structure completion where
  effects : List Effect
  op : Option accept_op
  deriving DecidableEq

namespace win_iocp_socket_accept_op

/-- The locals of `do_complete` on the way through the finalize path. -/
structure frame where
  o : accept_op
  ec : error_code
  peer_endpoint : Option Nat
  effects : List Effect
  deriving DecidableEq

/-- The block "Get the address of the peer". -/
def get_peer_address (K : win_constants) (env : platform) (f : frame) : frame :=
  if f.ec.value = 0 then
    if env.capacity < to_size_t K env.remote_addr_length then
      { f with ec := invalid_argument K, effects := f.effects ++ [Effect.get_sockaddrs] }
    else
      { f with peer_endpoint := some (to_size_t K env.remote_addr_length)
               effects := f.effects ++ [Effect.get_sockaddrs] }
  else f

/-- The block that sets `SO_UPDATE_ACCEPT_CONTEXT`. -/
def update_accept_context (env : platform) (f : frame) : frame :=
  if f.ec.value = 0 then
    { f with ec := env.setsockopt_ec
             effects := f.effects ++ [Effect.setsockopt f.o.new_socket_] }
  else f

/-- The block that transfers ownership of the socket to the peer object. -/
def assign_peer (K : win_constants) (env : platform) (f : frame) : frame :=
  if f.ec.value = 0 then
    if env.assign_ec.value = 0 then
      { f with ec := env.assign_ec
               o := { f.o with new_socket_ := K.invalid_socket }
               effects := f.effects ++
                 [Effect.peer_assign f.o.new_socket_ f.peer_endpoint, Effect.new_socket_release] }
    else
      { f with ec := env.assign_ec
               effects := f.effects ++ [Effect.peer_assign f.o.new_socket_ f.peer_endpoint] }
  else f

/-- The block "Pass endpoint back to caller". -/
def pass_endpoint (f : frame) : frame :=
  if f.o.has_peer_endpoint_ = true then
    { f with effects := f.effects ++ [Effect.write_peer_endpoint f.peer_endpoint] }
  else f

/-- The end of `do_complete`: copy the handler, free the operation, and make
the upcall if there is an owner. -/
def finish (owner : Bool) (ec : error_code) (effects : List Effect) : completion :=
  { effects := effects ++ [Effect.free_op] ++ (if owner = true then [Effect.upcall ec] else [])
    op := none }

/-- The rest of the `if (owner)` block from "Get the address of the peer" on,
followed by the end of `do_complete`. -/
def finalize (K : win_constants) (env : platform) (o : accept_op) (ec : error_code)
    (effects : List Effect) : completion :=
  let f := pass_endpoint (assign_peer K env (update_accept_context env
    (get_peer_address K env { o := o, ec := ec, peer_endpoint := none, effects := effects })))
  finish true f.ec f.effects

/-- The block "Map Windows error ERROR_NETNAME_DELETED to connection_aborted". -/
def map_netname_deleted (K : win_constants) (ec : error_code) : error_code :=
  if ec.value = K.ERROR_NETNAME_DELETED then connection_aborted K else ec

/-- The function `do_complete`; `owner` tells whether the owner pointer is
non-null. -/
def do_complete (K : win_constants) (env : platform) (owner : Bool) (o : accept_op)
    (ec : error_code) (_bytes_transferred : Nat) : completion :=
  if owner = true then
    let ec1 := map_netname_deleted K ec
    if ec1 = connection_aborted K ∧ o.enable_connection_aborted_ = false then
      let o1 : accept_op := { o with new_socket_ := env.socket_result }
      let eff1 := [Effect.overlapped_reset, Effect.new_socket_reset, Effect.socket_create]
      if o1.new_socket_ ≠ K.invalid_socket then
        let eff2 := eff1 ++ [Effect.accept_ex o1.socket_ o1.new_socket_]
        let ec2 : error_code := { value := env.last_error, category := 0 }
        if env.accept_result = false ∧ env.last_error ≠ K.WSA_IO_PENDING then
          if env.last_error = K.ERROR_NETNAME_DELETED ∨ env.last_error = K.WSAECONNABORTED then
            { effects := eff2 ++ [Effect.work_started, Effect.on_completion ec2], op := some o1 }
          else finalize K env o1 ec2 eff2
        else
          { effects := eff2 ++ [Effect.work_started, Effect.on_pending], op := some o1 }
      else finalize K env o1 env.socket_ec eff1
    else finalize K env o ec1 []
  else finish false ec []

end win_iocp_socket_accept_op

end asio.detail

/-! ## Notions used to state the properties -/

namespace asio.detail

namespace win_iocp_socket_accept_op

/-- Effects that only the finalize path of `do_complete` produces. -/
def is_finalize_step : Effect → Bool
  | Effect.get_sockaddrs => true
  | Effect.setsockopt _ => true
  | Effect.peer_assign _ _ => true
  | Effect.write_peer_endpoint _ => true
  | Effect.new_socket_release => true
  | _ => false

end win_iocp_socket_accept_op

/-- The kind of place a thread is at: what is left of `Pc` when the calls
still to make are forgotten. -/
inductive Kind where
  | outside : Kind
  | task (block : Bool) : Kind
  | handler : Kind
  | waiting : Kind
  deriving DecidableEq

/-- The kind of a program counter. -/
def Pc.kind : Pc → Kind
  | Pc.outside => Kind.outside
  | Pc.in_task b _ => Kind.task b
  | Pc.in_handler _ => Kind.handler
  | Pc.waiting => Kind.waiting

/-- Whether a thread is inside `task_.run`. -/
def Kind.is_task : Kind → Bool
  | Kind.task _ => true
  | _ => false

/-- Whether a thread is inside `h->call()`. -/
def Kind.is_handler : Kind → Bool
  | Kind.handler => true
  | _ => false

/-- Whether a pointer addresses a heap-allocated wrapper (a user handler). -/
def handler_ref.is_wrapper : handler_ref → Bool
  | handler_ref.wrapper _ => true
  | handler_ref.task => false

namespace task_io_service

/-- Following `next_` from `p` visits exactly the objects of `L`, in order,
and ends at the null pointer. -/
def chain (s : task_io_service) : Option handler_ref → List handler_ref → Prop
  | p, [] => p = none
  | p, r :: L =>
    p = some r ∧
      match get_next_ s r with
      | some nx => chain s nx L
      | none => False

/-- The queue of `s` is the list `L` of handler objects: `handler_queue_`
leads through `L` to null, `handler_queue_end_` is the last object of `L`
(null when `L` is empty), and no object is linked twice. -/
structure queue_is (s : task_io_service) (L : List handler_ref) : Prop where
  links : chain s s.handler_queue_ L
  last : s.handler_queue_end_ = L.getLast?
  nodup : L.Nodup

/-- The user handler wrapped by the object at `r` (none for the task). -/
def handler_of (s : task_io_service) (r : handler_ref) : Option Nat :=
  match r with
  | handler_ref.task => none
  | handler_ref.wrapper a =>
    match s.heap[a]? with
    | some (some c) => some c.handler_
    | _ => none

/-- Where the threads are. -/
def kinds (s : task_io_service) : List Kind :=
  s.threads.map fun th => th.pc.kind

/-- The state `s1` differs from `s` at most in the idle nodes,
`first_idle_thread_` and the trace. -/
structure ring_frame (s s1 : task_io_service) : Prop where
  heap : s1.heap = s.heap
  task_next : s1.task_handler_next_ = s.task_handler_next_
  work : s1.outstanding_work_ = s.outstanding_work_
  head : s1.handler_queue_ = s.handler_queue_
  tail : s1.handler_queue_end_ = s.handler_queue_end_
  interrupted : s1.interrupted_ = s.interrupted_
  script : s1.task_script = s.task_script
  kinds : kinds s1 = kinds s

/-- What an operation on the queue leaves alone: the counter, the flag, the
threads, the idle ring, the script of the task and the trace. -/
structure queue_frame (s s1 : task_io_service) : Prop where
  work : s1.outstanding_work_ = s.outstanding_work_
  interrupted : s1.interrupted_ = s.interrupted_
  first_idle : s1.first_idle_thread_ = s.first_idle_thread_
  threads : s1.threads = s.threads
  script : s1.task_script = s.task_script
  trace : s1.trace = s.trace

/-- The call that an action makes on the dispatcher, if it makes one. -/
def cmd_of (s : task_io_service) : Action → Option Cmd
  | Action.call _ c => some c
  | Action.run _ => none
  | Action.move t =>
    match s.threads[t]? with
    | some th =>
      match th.pc with
      | Pc.in_handler (c :: _) => some c
      | Pc.in_task _ (c :: _) => some c
      | _ => none
    | none => none

/-- The number of `work_started` calls not yet matched by a `work_finished`
after a call, given the number `k` before it; `none` when the call is a
`work_finished` with nothing to match. -/
def balance (k : Nat) : Option Cmd → Option Nat
  | some Cmd.work_started => some (k + 1)
  | some Cmd.work_finished => if k = 0 then none else some (k - 1)
  | _ => some k

/-- What a call adds to the number of unmatched `work_started` calls. -/
def delta : Option Cmd → Int
  | some Cmd.work_started => 1
  | some Cmd.work_finished => -1
  | _ => 0

/-- The states reachable from a freshly constructed dispatcher by atomic
transitions. -/
inductive reach (prog : Program) : task_io_service → Prop where
  | init (n : Nat) (script : List (List Cmd)) : reach prog (init n script)
  | step (s s1 : task_io_service) (a : Action) :
      reach prog s → step prog s a = some s1 → reach prog s1

/-- The states reachable from a freshly constructed dispatcher by atomic
transitions in which every `work_finished` matches an earlier
`work_started`, with the number of `work_started` calls still unmatched. -/
inductive balanced_reach (prog : Program) : task_io_service → Nat → Prop where
  | init (n : Nat) (script : List (List Cmd)) : balanced_reach prog (init n script) 0
  | step (s s1 : task_io_service) (k k1 : Nat) (a : Action) :
      balanced_reach prog s k → step prog s a = some s1 → balance k (cmd_of s a) = some k1 →
      balanced_reach prog s1 k1

/-- The invariant of the dispatcher in a state whose queue is `L`, whose
threads are at `ks`, and in which `k` calls of `work_started` are unmatched
(`k` is negative when `work_finished` was called more often):
exactly one of "the task is in the queue" and "a thread is inside
`task_.run`" holds, a thread inside `task_.run` blocks exactly when
`task_handler_.next_` is null, and `outstanding_work_` counts, as a C++
`int`, the queued user handlers, the threads inside a user handler and the
unmatched `work_started` calls. -/
structure inv_at (s : task_io_service) (ks : List Kind) (L : List handler_ref) (k : Int) :
    Prop where
  queue : queue_is s L
  task_once : L.count handler_ref.task + ks.countP Kind.is_task = 1
  blocking : ∀ b, Kind.task b ∈ ks → (b = true ↔ s.task_handler_next_ = none)
  work : s.outstanding_work_ =
    to_int ((L.countP handler_ref.is_wrapper : Int) + (ks.countP Kind.is_handler : Int) + k)

/-- The invariant of the dispatcher, see `inv_at`. -/
def inv (s : task_io_service) (L : List handler_ref) (k : Int) : Prop :=
  inv_at s (kinds s) L k

/-- Following `next` from the idle node `cur` visits exactly the nodes of
`R`, none of which is `first`, and then arrives at `first`. -/
def next_path (s : task_io_service) (first : Nat) : List Nat → Nat → Prop
  | [], cur => cur = first
  | u :: R, cur =>
    cur = u ∧ u ≠ first ∧
      match idle_next s u with
      | some n => next_path s first R n
      | none => False

/-- The idle ring of `s` is well formed and consists of the idle nodes of
the threads `R`, starting at `first_idle_thread_`: following `next` from
`first_idle_thread_` goes through `R` once and comes back, no node occurs
twice, and `prev` is the inverse of `next` on the ring. The empty ring is
the null `first_idle_thread_`. -/
def ring_is (s : task_io_service) (R : List Nat) : Prop :=
  match R with
  | [] => s.first_idle_thread_ = none
  | f :: rest =>
    s.first_idle_thread_ = some f ∧ (f :: rest).Nodup ∧
      (match idle_next s f with
        | some n => next_path s f rest n
        | none => False) ∧
      ∀ u ∈ f :: rest, ∀ n, idle_next s u = some n → idle_prev s n = some u

/-- The threads after the events of the threads in `R` have been signalled. -/
def mark (R : List Nat) (ths : List run_thread) : List run_thread :=
  R.foldl (fun l u =>
    match l[u]? with
    | some th => l.set u (th.with_event true)
    | none => l) ths

/-- The state after the events of the threads in `R` have been signalled, in
the order of `R`. -/
def signalled (R : List Nat) (s : task_io_service) : task_io_service :=
  { s with threads := mark R s.threads, trace := s.trace ++ R.map Event.signal }

/-- The state `s1` is `s` after the interruption cascade over the idle ring
`R`: `interrupted_` is set, the event of every thread of `R` has been
signalled once, in ring order, the task has been interrupted after that
exactly when `task_handler_.next_` is null and the task is not the end of the
queue, and nothing else has changed (the heap, the queue, the counter, the
ring pointers and where the threads are). -/
structure cascade (s : task_io_service) (R : List Nat) (s1 : task_io_service) : Prop where
  interrupted : s1.interrupted_ = true
  trace : s1.trace = s.trace ++ R.map Event.signal ++
    (if s.task_handler_next_ = none ∧ s.handler_queue_end_ ≠ some handler_ref.task then
      [Event.task_interrupt] else [])
  threads : ∀ u, s1.threads[u]? =
    (s.threads[u]?).map fun th => if u ∈ R then th.with_event true else th
  first_idle : s1.first_idle_thread_ = s.first_idle_thread_
  heap : s1.heap = s.heap
  head : s1.handler_queue_ = s.handler_queue_
  tail : s1.handler_queue_end_ = s.handler_queue_end_
  task_next : s1.task_handler_next_ = s.task_handler_next_
  work : s1.outstanding_work_ = s.outstanding_work_
  script : s1.task_script = s.task_script

/-- Code that is quiet: the only call it makes on the dispatcher is
`reset()` (no `post`, `dispatch`, `interrupt`, `work_started` or
`work_finished`), and it does not throw. -/
def quiet (k : List Cmd) : Prop :=
  ∀ c ∈ k, c = Cmd.reset

/-- The number of moves one thread makes to deliver the handlers `hs`: for
each handler its calls and its return. -/
def moves (prog : Program) (hs : List Nat) : Nat :=
  (hs.map fun h => (prog h).length + 1).sum

/-- Thread `t` runs alone on a dispatcher that is not interrupted and has
no idle thread, with a task that is quiet. -/
structure solo (s : task_io_service) (t : Nat) : Prop where
  valid : t < s.threads.length
  not_interrupted : s.interrupted_ = false
  no_idle : s.first_idle_thread_ = none
  quiet_task : ∀ c ∈ s.task_script, quiet c

/-- Thread `t` is inside a blocking `task_.run(true)` that is quiet, the
queue is empty and work is outstanding: the thread has nothing to deliver
and keeps polling. -/
structure polling (s : task_io_service) (t : Nat) : Prop where
  alone : solo s t
  pc : ∃ th k, s.threads[t]? = some th ∧ th.pc = Pc.in_task true k ∧ quiet k
  queue : queue_is s []
  work : 0 < s.outstanding_work_

/-- The state `s2` is what thread `t`, running alone from `s`, reaches after
it has delivered the handlers `hs`: exactly the handlers `hs` have been
invoked since `s`, in order; `outstanding_work_` is down to `extra`; when
`extra` is zero `run()` has returned normally on `t`, with `interrupted_` set
and only the task left in the queue. -/
structure drained (s : task_io_service) (t : Nat) (hs : List Nat) (extra : Nat)
    (s2 : task_io_service) : Prop where
  invoked : invocations s2.trace = invocations s.trace ++ hs
  work : s2.outstanding_work_ = extra
  returned : extra = 0 →
    is_outside s2 t = true ∧ s2.interrupted_ = true ∧
      s2.trace.getLast? = some (Event.run_return t) ∧ queue_is s2 [handler_ref.task]

/-- A dispatcher with three threads after `work_started()`: thread 2 has
entered `run()` and is inside a blocking `task_.run(true)`, then thread 0 and
thread 1 have entered `run()` and are parked in the idle ring. -/
def parked_example : task_io_service :=
  { heap := []
    task_handler_next_ := none
    outstanding_work_ := 1
    handler_queue_ := none
    handler_queue_end_ := none
    interrupted_ := false
    first_idle_thread_ := some 1
    threads :=
      [{ pc := Pc.waiting, this_idle_thread := { wakeup_event := false, prev := 1, next := 1 } },
       { pc := Pc.waiting, this_idle_thread := { wakeup_event := false, prev := 0, next := 0 } },
       { pc := Pc.in_task true [],
         this_idle_thread := { wakeup_event := false, prev := 2, next := 2 } }]
    task_script := []
    trace := [Event.task_run 2 true] }

/-- An interrupted dispatcher with one thread and the handler `5` queued
behind the task. -/
def interrupted_example : task_io_service :=
  { heap := [some { next_ := none, handler_ := 5 }]
    task_handler_next_ := some (handler_ref.wrapper 0)
    outstanding_work_ := 1
    handler_queue_ := some handler_ref.task
    handler_queue_end_ := some (handler_ref.wrapper 0)
    interrupted_ := true
    first_idle_thread_ := none
    threads :=
      [{ pc := Pc.outside, this_idle_thread := { wakeup_event := false, prev := 0, next := 0 } }]
    task_script := []
    trace := [] }

/-- A program in which handler `1` calls `dispatch(7)` and then `post(9)`,
and no other handler makes a call. -/
def nested_example : Program :=
  fun h => if h = 1 then [Cmd.dispatch 7, Cmd.post 9] else []

/-- A program in which handler `1` calls `interrupt()` and no other handler
makes a call. -/
def interrupting_program : Program :=
  fun h => if h = 1 then [Cmd.interrupt] else []

/-- A program in which handler `1` throws and no other handler makes a
call. -/
def throwing_program : Program :=
  fun h => if h = 1 then [Cmd.throws] else []

/-- A dispatcher with one thread after `post(1)`, `post(2)` and `run()`: the
thread has run the task, which is back at the end of the queue, and is inside
handler `1`, which is about to throw; handler `2` is queued. -/
def throwing_example : task_io_service :=
  { heap := [none, some { next_ := some handler_ref.task, handler_ := 2 }]
    task_handler_next_ := none
    outstanding_work_ := 2
    handler_queue_ := some (handler_ref.wrapper 1)
    handler_queue_end_ := some handler_ref.task
    interrupted_ := false
    first_idle_thread_ := none
    threads :=
      [{ pc := Pc.in_handler [Cmd.throws],
         this_idle_thread := { wakeup_event := false, prev := 0, next := 0 } }]
    task_script := []
    trace := [Event.task_run 0 false, Event.invoke 0 1] }

/-- A dispatcher with four threads after `work_started()`: thread 2 is
inside a blocking `task_.run(true)`, thread 0 and then thread 1 have parked
(the ring is thread 1, thread 0), and thread 3 is outside `run()`. -/
def two_parked_example : task_io_service :=
  { heap := []
    task_handler_next_ := none
    outstanding_work_ := 1
    handler_queue_ := none
    handler_queue_end_ := none
    interrupted_ := false
    first_idle_thread_ := some 1
    threads :=
      [{ pc := Pc.waiting, this_idle_thread := { wakeup_event := false, prev := 1, next := 1 } },
       { pc := Pc.waiting, this_idle_thread := { wakeup_event := false, prev := 0, next := 0 } },
       { pc := Pc.in_task true [],
         this_idle_thread := { wakeup_event := false, prev := 2, next := 2 } },
       { pc := Pc.outside, this_idle_thread := { wakeup_event := false, prev := 3, next := 3 } }]
    task_script := []
    trace := [Event.task_run 2 true] }

end task_io_service

end asio.detail

/-! ## Notions used to state the properties of sequences of calls -/

namespace asio.detail

/-- Whether an effect is the upcall of the user handler. -/
def Effect.is_upcall : Effect → Bool
  | Effect.upcall _ => true
  | _ => false

namespace win_iocp_socket_accept_op

/-- The successive completions of one accept operation: each element of the
list is what the platform answers during one call of `do_complete`, with the
error code and the byte count that call receives. The operation is completed
again as long as it is alive; once it has been freed no further call is
made on it. -/
def drive (K : win_constants) (o : accept_op) :
    List (platform × error_code × Nat) → List completion
  | [] => []
  | c :: rest =>
    let r := do_complete K c.1 true o c.2.1 c.2.2
    r :: match r.op with
      | some o1 => drive K o1 rest
      | none => []

/-- What one call of `do_complete` does when it reissues the accept and the
reissue is pending: the effects of the retry procedure on the listening
socket `listener` with the new socket `fresh`. -/
def reissued (listener fresh : Nat) : List Effect :=
  [Effect.overlapped_reset, Effect.new_socket_reset, Effect.socket_create,
    Effect.accept_ex listener fresh, Effect.work_started, Effect.on_pending]

/-- All the effects of a sequence of completions, in order. -/
def all_effects (cs : List completion) : List Effect :=
  (cs.map fun c => c.effects).flatten

end win_iocp_socket_accept_op

namespace task_io_service

/-- Follow `next_` links `n` times, starting from the pointer `p`. Following
the link of the null pointer, or of a pointer to a freed object, is
undefined. -/
def follow (s : task_io_service) : Nat → Option handler_ref → Option (Option handler_ref)
  | 0, p => some p
  | _ + 1, none => none
  | n + 1, some r =>
    match get_next_ s r with
    | some nx => follow s n nx
    | none => none

/-- Whether a call is `work_started` (counted as a number). -/
def started : Option Cmd → Nat
  | some Cmd.work_started => 1
  | _ => 0

/-- Whether a call is `work_finished` (counted as a number). -/
def finished : Option Cmd → Nat
  | some Cmd.work_finished => 1
  | _ => 0

/-- The states reachable from a freshly constructed dispatcher by atomic
transitions, with the number of calls of `work_started` and the number of
calls of `work_finished` made on the way. -/
inductive counted_reach (prog : Program) : task_io_service → Nat → Nat → Prop where
  | init (n : Nat) (script : List (List Cmd)) : counted_reach prog (init n script) 0 0
  | step (s s1 : task_io_service) (a : Action) (ws wf : Nat) :
      counted_reach prog s ws wf → step prog s a = some s1 →
      counted_reach prog s1 (ws + started (cmd_of s a)) (wf + finished (cmd_of s a))

/-- The state `s1` has the links of the idle nodes, `first_idle_thread_` and
the number of threads of `s`. -/
structure link_frame (s s1 : task_io_service) : Prop where
  next : ∀ w, idle_next s1 w = idle_next s w
  prev : ∀ w, idle_prev s1 w = idle_prev s w
  first : s1.first_idle_thread_ = s.first_idle_thread_
  length : s1.threads.length = s.threads.length

/-- The invariant of the idle ring in a state whose threads are at `ks`: the
ring is the well-formed ring `R`, the threads of `R` are exactly the parked
threads (those inside `wakeup_event.wait()`), and the idle node of every
other thread is linked to itself. -/
structure ring_inv_at (s : task_io_service) (ks : List Kind) (R : List Nat) : Prop where
  ring : ring_is s R
  parked : ∀ u, u ∈ R ↔ ks[u]? = some Kind.waiting
  self : ∀ u, u < s.threads.length → u ∉ R → idle_next s u = some u ∧ idle_prev s u = some u

/-- The invariant of the idle ring, see `ring_inv_at`. -/
def ring_inv (s : task_io_service) (R : List Nat) : Prop :=
  ring_inv_at s (kinds s) R

end task_io_service

end asio.detail

/-! ## The C++ `int` -/

namespace asio.detail

/-- An integer in the range of `int` is its own value as an `int`. -/
theorem to_int_of_range {x : Int} (h1 : -2 ^ 31 ≤ x) (h2 : x < 2 ^ 31) : to_int x = x := by
  unfold to_int; omega

/-- Every `int` lies between `INT_MIN` and `INT_MAX`. -/
theorem to_int_range (x : Int) : -2 ^ 31 ≤ to_int x ∧ to_int x < 2 ^ 31 := by
  unfold to_int; omega

theorem to_int_add (a b : Int) : to_int (to_int a + b) = to_int (a + b) := by
  unfold to_int; omega

theorem to_int_sub (a b : Int) : to_int (to_int a - b) = to_int (a - b) := by
  unfold to_int; omega

theorem to_int_zero : to_int 0 = 0 := by decide

/-- As long as it stays below `2 ^ 31`, a counter incremented `n` times has
grown by `n`. -/
theorem iterate_incr (n : Nat) : ∀ w : Int, -2 ^ 31 ≤ w → w + (n : Int) < 2 ^ 31 →
    (fun x => to_int (x + 1))^[n] w = w + (n : Int) := by
  induction n with
  | zero => intro w _ _; simp
  | succ n ih =>
    intro w h1 h2
    rw [Function.iterate_succ_apply]
    have hlo : -2 ^ 31 ≤ w + 1 := by omega
    have hhi : w + 1 < 2 ^ 31 := by push_cast at h2; omega
    have e : to_int (w + 1) = w + 1 := to_int_of_range hlo hhi
    show (fun x => to_int (x + 1))^[n] (to_int (w + 1)) = _
    rw [e, ih (w + 1) (by omega) (by push_cast at h2; omega)]
    push_cast
    ring

end asio.detail

/-! ## Basic facts about the pointer operations -/

namespace asio.detail

namespace task_io_service

theorem ring_frame.refl (s : task_io_service) : ring_frame s s :=
  ⟨rfl, rfl, rfl, rfl, rfl, rfl, rfl, rfl⟩

theorem ring_frame.trans {s s1 s2 : task_io_service} (h1 : ring_frame s s1)
    (h2 : ring_frame s1 s2) : ring_frame s s2 :=
  ⟨h2.heap.trans h1.heap, h2.task_next.trans h1.task_next, h2.work.trans h1.work,
    h2.head.trans h1.head, h2.tail.trans h1.tail, h2.interrupted.trans h1.interrupted,
    h2.script.trans h1.script, h2.kinds.trans h1.kinds⟩

theorem map_pc_set (l : List run_thread) (u : Nat) (th th1 : run_thread)
    (h : l[u]? = some th) (hpc : th1.pc = th.pc) :
    (l.set u th1).map (fun x => x.pc.kind) = l.map (fun x => x.pc.kind) := by
  apply List.ext_getElem?
  intro i
  by_cases hi : u = i
  · subst hi
    have hlt : u < l.length := (List.getElem?_eq_some.1 h).1
    have hget : l[u] = th := (List.getElem?_eq_some.1 h).2
    simp [List.getElem?_set, List.getElem?_map, hpc, hlt, hget]
  · simp [List.getElem?_map, List.getElem?_set_ne hi]

theorem set_idle_next_some {s s1 : task_io_service} {u v : Nat}
    (h : set_idle_next s u v = some s1) :
    ∃ th, s.threads[u]? = some th ∧
      s1 = { s with threads := s.threads.set u (th.with_next v) } := by
  unfold set_idle_next at h
  split at h
  · rename_i th hth
    exact ⟨th, hth, by simpa using h.symm⟩
  · cases h

theorem set_idle_prev_some {s s1 : task_io_service} {u v : Nat}
    (h : set_idle_prev s u v = some s1) :
    ∃ th, s.threads[u]? = some th ∧
      s1 = { s with threads := s.threads.set u (th.with_prev v) } := by
  unfold set_idle_prev at h
  split at h
  · rename_i th hth
    exact ⟨th, hth, by simpa using h.symm⟩
  · cases h

theorem set_event_some {s s1 : task_io_service} {u : Nat} {b : Bool}
    (h : set_event s u b = some s1) :
    ∃ th, s.threads[u]? = some th ∧
      s1 = { s with threads := s.threads.set u (th.with_event b) } := by
  unfold set_event at h
  split at h
  · rename_i th hth
    exact ⟨th, hth, by simpa using h.symm⟩
  · cases h

theorem set_pc_some {s s1 : task_io_service} {t : Nat} {pc : Pc}
    (h : set_pc s t pc = some s1) :
    ∃ th, s.threads[t]? = some th ∧
      s1 = { s with threads := s.threads.set t { th with pc := pc } } := by
  unfold set_pc at h
  split at h
  · rename_i th hth
    exact ⟨th, hth, by simpa using h.symm⟩
  · cases h

theorem signal_some {s s1 : task_io_service} {u : Nat} (h : signal s u = some s1) :
    ∃ th, s.threads[u]? = some th ∧
      s1 = { s with threads := s.threads.set u (th.with_event true)
                    trace := s.trace ++ [Event.signal u] } := by
  unfold signal at h
  split at h
  · rename_i s0 hs0
    obtain ⟨th, hth, rfl⟩ := set_event_some hs0
    exact ⟨th, hth, by simpa using h.symm⟩
  · cases h

theorem set_idle_next_frame {s s1 : task_io_service} {u v : Nat}
    (h : set_idle_next s u v = some s1) : ring_frame s s1 := by
  obtain ⟨th, hth, rfl⟩ := set_idle_next_some h
  exact ⟨rfl, rfl, rfl, rfl, rfl, rfl, rfl, map_pc_set _ _ _ _ hth rfl⟩

theorem set_idle_prev_frame {s s1 : task_io_service} {u v : Nat}
    (h : set_idle_prev s u v = some s1) : ring_frame s s1 := by
  obtain ⟨th, hth, rfl⟩ := set_idle_prev_some h
  exact ⟨rfl, rfl, rfl, rfl, rfl, rfl, rfl, map_pc_set _ _ _ _ hth rfl⟩

theorem set_event_frame {s s1 : task_io_service} {u : Nat} {b : Bool}
    (h : set_event s u b = some s1) : ring_frame s s1 := by
  obtain ⟨th, hth, rfl⟩ := set_event_some h
  exact ⟨rfl, rfl, rfl, rfl, rfl, rfl, rfl, map_pc_set _ _ _ _ hth rfl⟩

theorem signal_frame {s s1 : task_io_service} {u : Nat} (h : signal s u = some s1) :
    ring_frame s s1 := by
  obtain ⟨th, hth, rfl⟩ := signal_some h
  exact ⟨rfl, rfl, rfl, rfl, rfl, rfl, rfl, map_pc_set _ _ _ _ hth rfl⟩

theorem task_interrupt_frame (s : task_io_service) : ring_frame s (task_interrupt s) :=
  ⟨rfl, rfl, rfl, rfl, rfl, rfl, rfl, rfl⟩

theorem set_first_idle_frame (s : task_io_service) (f : Option Nat) :
    ring_frame s { s with first_idle_thread_ := f } :=
  ⟨rfl, rfl, rfl, rfl, rfl, rfl, rfl, rfl⟩

theorem interrupt_one_idle_thread_frame {s s1 : task_io_service} {b : Bool}
    (h : interrupt_one_idle_thread s = some (s1, b)) : ring_frame s s1 := by
  unfold interrupt_one_idle_thread at h
  split at h
  · split at h
    · rename_i s0 hs0
      split at h
      · simp only [Option.some.injEq, Prod.mk.injEq] at h
        rw [← h.1]
        exact (signal_frame hs0).trans (set_first_idle_frame _ _)
      · cases h
    · cases h
  · simp only [Option.some.injEq, Prod.mk.injEq] at h
    rw [← h.1]
    exact ring_frame.refl s

theorem signal_loop_frame (first : Nat) :
    ∀ (fuel cur : Nat) (s s1 : task_io_service),
      signal_loop first fuel cur s = some s1 → ring_frame s s1 := by
  intro fuel
  induction fuel with
  | zero =>
    intro cur s s1 h
    unfold signal_loop at h
    split at h
    · simp only [Option.some.injEq] at h
      rw [← h]
      exact ring_frame.refl s
    · cases h
  | succ n ih =>
    intro cur s s1 h
    unfold signal_loop at h
    split at h
    · simp only [Option.some.injEq] at h
      rw [← h]
      exact ring_frame.refl s
    · split at h
      · rename_i s0 hs0
        split at h
        · exact (signal_frame hs0).trans (ih _ _ _ h)
        · cases h
      · cases h

theorem interrupt_all_idle_threads_frame {s s1 : task_io_service}
    (h : interrupt_all_idle_threads s = some s1) : ring_frame s s1 := by
  unfold interrupt_all_idle_threads at h
  split at h
  · split at h
    · rename_i s0 hs0
      split at h
      · exact (signal_frame hs0).trans (signal_loop_frame _ _ _ _ _ h)
      · cases h
    · cases h
  · simp only [Option.some.injEq] at h
    rw [← h]
    exact ring_frame.refl s

end task_io_service

end asio.detail

/-! ## The queue as a linked list -/

namespace asio.detail

namespace task_io_service

theorem chain_cons (s : task_io_service) (p : Option handler_ref) (r : handler_ref)
    (L : List handler_ref) :
    chain s p (r :: L) ↔ p = some r ∧ ∃ nx, get_next_ s r = some nx ∧ chain s nx L := by
  rw [chain]
  constructor
  · rintro ⟨hp, h⟩
    refine ⟨hp, ?_⟩
    cases hg : get_next_ s r with
    | none => rw [hg] at h; exact h.elim
    | some nx => rw [hg] at h; exact ⟨nx, rfl, h⟩
  · rintro ⟨hp, nx, hg, h⟩
    refine ⟨hp, ?_⟩
    rw [hg]
    exact h

theorem chain_nil (s : task_io_service) (p : Option handler_ref) :
    chain s p [] ↔ p = none := by
  rw [chain]

theorem chain_congr (s s1 : task_io_service) :
    ∀ (L : List handler_ref) (p : Option handler_ref),
      (∀ r ∈ L, get_next_ s1 r = get_next_ s r) → chain s p L → chain s1 p L := by
  intro L
  induction L with
  | nil =>
    intro p _ h
    rw [chain_nil] at h ⊢
    exact h
  | cons r L ih =>
    intro p hsame h
    rw [chain_cons] at h ⊢
    obtain ⟨hp, nx, hg, hc⟩ := h
    refine ⟨hp, nx, ?_, ih nx (fun x hx => hsame x (List.mem_cons_of_mem _ hx)) hc⟩
    rw [hsame r (List.mem_cons_self _ _)]
    exact hg

theorem chain_live (s : task_io_service) :
    ∀ (L : List handler_ref) (p : Option handler_ref), chain s p L →
      ∀ r ∈ L, ∃ nx, get_next_ s r = some nx := by
  intro L
  induction L with
  | nil => intro p _ r hr; cases hr
  | cons x L ih =>
    intro p h r hr
    rw [chain_cons] at h
    obtain ⟨_, nx, hg, hc⟩ := h
    rcases List.mem_cons.1 hr with rfl | hr
    · exact ⟨nx, hg⟩
    · exact ih nx hc r hr

theorem get_next_wrapper_some {s : task_io_service} {a : Nat} {nx : Option handler_ref}
    (h : get_next_ s (handler_ref.wrapper a) = some nx) :
    ∃ c, s.heap[a]? = some (some c) ∧ c.next_ = nx := by
  unfold get_next_ at h
  simp only at h
  split at h
  · rename_i c hc
    exact ⟨c, hc, by simpa using h⟩
  · cases h

theorem get_next_wrapper_lt {s : task_io_service} {a : Nat} {nx : Option handler_ref}
    (h : get_next_ s (handler_ref.wrapper a) = some nx) : a < s.heap.length := by
  obtain ⟨c, hc, _⟩ := get_next_wrapper_some h
  exact (List.getElem?_eq_some.1 hc).1

/-- Writing `e->next_` succeeds on a live object, changes that link only and
no other field. -/
theorem set_next_spec {s : task_io_service} {e : handler_ref} {nx : Option handler_ref}
    (hlive : get_next_ s e = some nx) (p : Option handler_ref) :
    ∃ s1, set_next_ s e p = some s1 ∧ get_next_ s1 e = some p ∧
      (∀ r, r ≠ e → get_next_ s1 r = get_next_ s r) ∧
      (∀ r, handler_of s1 r = handler_of s r) ∧
      s1.heap.length = s.heap.length ∧
      (e ≠ handler_ref.task → s1.task_handler_next_ = s.task_handler_next_) ∧
      s1.outstanding_work_ = s.outstanding_work_ ∧ s1.handler_queue_ = s.handler_queue_ ∧
      s1.handler_queue_end_ = s.handler_queue_end_ ∧ s1.interrupted_ = s.interrupted_ ∧
      s1.first_idle_thread_ = s.first_idle_thread_ ∧ s1.threads = s.threads ∧
      s1.task_script = s.task_script ∧ s1.trace = s.trace := by
  cases e with
  | task =>
    refine ⟨{ s with task_handler_next_ := p }, rfl, rfl, ?_, ?_, rfl, ?_, rfl, rfl, rfl, rfl,
      rfl, rfl, rfl, rfl⟩
    · intro r hr
      cases r with
      | task => exact absurd rfl hr
      | wrapper a => rfl
    · intro r
      cases r <;> rfl
    · intro h; exact absurd rfl h
  | wrapper a =>
    obtain ⟨c, hc, _⟩ := get_next_wrapper_some hlive
    have hlt : a < s.heap.length := (List.getElem?_eq_some.1 hc).1
    refine ⟨{ s with heap := s.heap.set a (some { c with next_ := p }) }, ?_, ?_, ?_, ?_, ?_,
      ?_, rfl, rfl, rfl, rfl, rfl, rfl, rfl, rfl⟩
    · simp [set_next_, hc]
    · simp [get_next_, List.getElem?_set, hlt]
    · intro r hr
      cases r with
      | task => rfl
      | wrapper b =>
        have hab : a ≠ b := fun h => hr (by rw [h])
        simp [get_next_, List.getElem?_set_ne hab]
    · intro r
      cases r with
      | task => rfl
      | wrapper b =>
        by_cases hab : a = b
        · subst hab
          simp [handler_of, List.getElem?_set, hlt, hc]
        · simp [handler_of, List.getElem?_set_ne hab]
    · simp
    · intro _; rfl

/-- Linking a live, unlinked object `ptr` whose `next_` is null behind a
chain that ends in `e`. -/
theorem chain_snoc (s s1 : task_io_service) (e ptr : handler_ref) :
    ∀ (L : List handler_ref) (p : Option handler_ref),
      chain s p (L ++ [e]) → (L ++ [e]).Nodup → ptr ∉ L ++ [e] →
      (∀ r, r ≠ e → get_next_ s1 r = get_next_ s r) →
      get_next_ s1 e = some (some ptr) → get_next_ s ptr = some none →
      chain s1 p (L ++ [e] ++ [ptr]) := by
  intro L
  induction L with
  | nil =>
    intro p h _ hptr hsame he hp
    simp only [List.nil_append] at h hptr ⊢
    rw [chain_cons] at h
    have hne : ptr ≠ e := fun hh => hptr (by simp [hh])
    rw [List.singleton_append, chain_cons]
    refine ⟨h.1, some ptr, he, ?_⟩
    rw [chain_cons]
    refine ⟨rfl, none, ?_, (chain_nil _ _).2 rfl⟩
    rw [hsame ptr hne]
    exact hp
  | cons r L ih =>
    intro p h hnd hptr hsame he hp
    simp only [List.cons_append] at h hnd hptr ⊢
    rw [chain_cons] at h ⊢
    obtain ⟨hpr, nx, hg, hc⟩ := h
    have hre : r ≠ e := by
      intro hh
      have := (List.nodup_cons.1 hnd).1
      exact this (by simp [hh])
    refine ⟨hpr, nx, ?_, ?_⟩
    · rw [hsame r hre]; exact hg
    · have := ih nx hc (List.nodup_cons.1 hnd).2
        (fun hh => hptr (List.mem_cons_of_mem _ hh)) hsame he hp
      simpa using this

/-- The effect of the block of `post` (and of the task cleanup) that links
an object at the end of the queue. -/
theorem enqueue_spec {s : task_io_service} {L : List handler_ref} {ptr : handler_ref}
    (hq : queue_is s L) (hptr : ptr ∉ L) (hnull : get_next_ s ptr = some none) :
    ∃ s1, enqueue s ptr = some s1 ∧ queue_is s1 (L ++ [ptr]) ∧
      (∀ r, handler_of s1 r = handler_of s r) ∧
      s1.heap.length = s.heap.length ∧
      (handler_ref.task ∉ L → ptr ≠ handler_ref.task →
        s1.task_handler_next_ = s.task_handler_next_) ∧
      s1.outstanding_work_ = s.outstanding_work_ ∧ s1.interrupted_ = s.interrupted_ ∧
      s1.first_idle_thread_ = s.first_idle_thread_ ∧ s1.threads = s.threads ∧
      s1.task_script = s.task_script ∧ s1.trace = s.trace := by
  rcases List.eq_nil_or_concat L with rfl | ⟨L0, e, hL⟩
  · have hE : s.handler_queue_end_ = none := by simpa using hq.last
    refine ⟨{ s with handler_queue_ := some ptr, handler_queue_end_ := some ptr }, ?_, ?_, ?_,
      rfl, ?_, rfl, rfl, rfl, rfl, rfl, rfl⟩
    · simp [enqueue, hE]
    · refine ⟨?_, by simp, by simp⟩
      simp only [List.nil_append]
      rw [chain_cons]
      exact ⟨rfl, none, hnull, (chain_nil _ _).2 rfl⟩
    · intro r; rfl
    · intro _ _; rfl
  · rw [List.concat_eq_append] at hL
    subst hL
    have hE : s.handler_queue_end_ = some e := by simpa using hq.last
    obtain ⟨nx, hlive⟩ := chain_live s _ _ hq.links e (by simp)
    obtain ⟨s1, hs1, hself, hother, hho, hlen, htn, hw, hhead, htail, hi, hfi, hth, hsc, htr⟩ :=
      set_next_spec hlive (some ptr)
    refine ⟨{ s1 with handler_queue_end_ := some ptr }, ?_, ?_, hho, hlen, ?_, hw, hi, hfi, hth,
      hsc, htr⟩
    · simp [enqueue, hE, hs1]
    · refine ⟨?_, by simp, ?_⟩
      · have := chain_snoc s s1 e ptr L0 s.handler_queue_ hq.links hq.nodup hptr hother hself hnull
        have h2 : chain { s1 with handler_queue_end_ := some ptr } s.handler_queue_
            (L0 ++ [e] ++ [ptr]) := chain_congr s1 _ _ _ (fun _ _ => rfl) this
        simpa [hhead] using h2
      · rw [List.nodup_append]
        refine ⟨hq.nodup, by simp, ?_⟩
        intro a ha hb
        simp only [List.mem_singleton] at hb
        exact hptr (hb ▸ ha)
    · intro htask _
      apply htn
      intro he
      exact htask (by simp [he])

theorem new_wrapper_get_next (s : task_io_service) (h : Nat) (r : handler_ref)
    (nx : Option handler_ref) (hlive : get_next_ s r = some nx) :
    get_next_ (new_wrapper s h) r = some nx := by
  cases r with
  | task => exact hlive
  | wrapper a =>
    obtain ⟨c, hc, hn⟩ := get_next_wrapper_some hlive
    have hlt : a < s.heap.length := (List.getElem?_eq_some.1 hc).1
    simp [get_next_, new_wrapper, List.getElem?_append_left hlt, hc, hn]

theorem new_wrapper_handler_of (s : task_io_service) (h : Nat) (r : handler_ref)
    (nx : Option handler_ref) (hlive : get_next_ s r = some nx) :
    handler_of (new_wrapper s h) r = handler_of s r := by
  cases r with
  | task => rfl
  | wrapper a =>
    obtain ⟨c, hc, hn⟩ := get_next_wrapper_some hlive
    have hlt : a < s.heap.length := (List.getElem?_eq_some.1 hc).1
    simp [handler_of, new_wrapper, List.getElem?_append_left hlt, hc]

theorem new_wrapper_fresh (s : task_io_service) (h : Nat) :
    get_next_ (new_wrapper s h) (handler_ref.wrapper s.heap.length) = some none ∧
    handler_of (new_wrapper s h) (handler_ref.wrapper s.heap.length) = some h := by
  simp [get_next_, handler_of, new_wrapper]

theorem new_wrapper_queue {s : task_io_service} {L : List handler_ref} (h : Nat)
    (hq : queue_is s L) :
    queue_is (new_wrapper s h) L ∧ handler_ref.wrapper s.heap.length ∉ L := by
  have hl := chain_live s _ _ hq.links
  refine ⟨⟨?_, hq.last, hq.nodup⟩, ?_⟩
  · apply chain_congr s _ _ _ _ hq.links
    intro r hr
    obtain ⟨nx, hnx⟩ := hl r hr
    rw [hnx]
    exact new_wrapper_get_next s h r nx hnx
  · intro hmem
    obtain ⟨nx, hnx⟩ := hl _ hmem
    exact absurd (get_next_wrapper_lt hnx) (lt_irrefl _)

end task_io_service

end asio.detail

/-! ## The invariant is preserved by every transition -/

namespace asio.detail

namespace task_io_service

theorem countP_set_add {α : Type} (p : α → Bool) :
    ∀ (l : List α) (i : Nat) (x : α) (hi : i < l.length),
      (l.set i x).countP p + (if p l[i] = true then 1 else 0) =
        l.countP p + (if p x = true then 1 else 0) := by
  intro l
  induction l with
  | nil => intro i x hi; simp at hi
  | cons a l ih =>
    intro i x hi
    cases i with
    | zero =>
      simp only [List.set_cons_zero, List.countP_cons, List.getElem_cons_zero]
      omega
    | succ j =>
      have hj : j < l.length := by simpa using hi
      have := ih j x hj
      simp only [List.set_cons_succ, List.countP_cons, List.getElem_cons_succ]
      omega

theorem kinds_length (s : task_io_service) : (kinds s).length = s.threads.length := by
  simp [kinds]

theorem kinds_get (s : task_io_service) (t : Nat) (th : run_thread)
    (h : s.threads[t]? = some th) : (kinds s)[t]? = some th.pc.kind := by
  simp [kinds, List.getElem?_map, h]

theorem set_pc_kinds {s s1 : task_io_service} {t : Nat} {pc : Pc}
    (h : set_pc s t pc = some s1) : kinds s1 = (kinds s).set t pc.kind := by
  obtain ⟨th, _, rfl⟩ := set_pc_some h
  simp [kinds, List.map_set]

theorem set_pc_fields {s s1 : task_io_service} {t : Nat} {pc : Pc}
    (h : set_pc s t pc = some s1) :
    s1.heap = s.heap ∧ s1.task_handler_next_ = s.task_handler_next_ ∧
      s1.outstanding_work_ = s.outstanding_work_ ∧ s1.handler_queue_ = s.handler_queue_ ∧
      s1.handler_queue_end_ = s.handler_queue_end_ ∧ s1.interrupted_ = s.interrupted_ ∧
      s1.first_idle_thread_ = s.first_idle_thread_ ∧ s1.task_script = s.task_script ∧
      s1.trace = s.trace := by
  obtain ⟨th, _, rfl⟩ := set_pc_some h
  exact ⟨rfl, rfl, rfl, rfl, rfl, rfl, rfl, rfl, rfl⟩

theorem get_next_congr {s s1 : task_io_service} (hheap : s1.heap = s.heap)
    (htn : s1.task_handler_next_ = s.task_handler_next_) (r : handler_ref) :
    get_next_ s1 r = get_next_ s r := by
  cases r with
  | task => simp [get_next_, htn]
  | wrapper a => simp [get_next_, hheap]

theorem queue_is_congr {s s1 : task_io_service} {L : List handler_ref}
    (hheap : s1.heap = s.heap) (htn : s1.task_handler_next_ = s.task_handler_next_)
    (hQ : s1.handler_queue_ = s.handler_queue_)
    (hE : s1.handler_queue_end_ = s.handler_queue_end_) (h : queue_is s L) :
    queue_is s1 L := by
  refine ⟨?_, hE.trans h.last, h.nodup⟩
  rw [hQ]
  exact chain_congr s s1 L _ (fun r _ => get_next_congr hheap htn r) h.links

theorem inv_at_congr {s s1 : task_io_service} {ks : List Kind} {L : List handler_ref} {k : Int}
    (hheap : s1.heap = s.heap) (htn : s1.task_handler_next_ = s.task_handler_next_)
    (hw : s1.outstanding_work_ = s.outstanding_work_)
    (hQ : s1.handler_queue_ = s.handler_queue_)
    (hE : s1.handler_queue_end_ = s.handler_queue_end_) (h : inv_at s ks L k) :
    inv_at s1 ks L k :=
  ⟨queue_is_congr hheap htn hQ hE h.queue, h.task_once,
    fun b hb => by rw [htn]; exact h.blocking b hb, by rw [hw]; exact h.work⟩

theorem inv_frame {s s1 : task_io_service} {L : List handler_ref} {k : Int}
    (hf : ring_frame s s1) (h : inv s L k) : inv s1 L k := by
  unfold inv at h ⊢
  rw [hf.kinds]
  exact inv_at_congr hf.heap hf.task_next hf.work hf.head hf.tail h

theorem wake_one_frame {s s1 : task_io_service} (h : wake_one s = some s1) :
    ring_frame s s1 := by
  unfold wake_one at h
  split at h
  · rename_i s0 hs0
    simp only [Option.some.injEq] at h
    rw [← h]
    exact interrupt_one_idle_thread_frame hs0
  · rename_i s0 hs0
    have hf := interrupt_one_idle_thread_frame hs0
    split at h
    · simp only [Option.some.injEq] at h
      rw [← h]
      exact hf.trans (task_interrupt_frame _)
    · simp only [Option.some.injEq] at h
      rw [← h]
      exact hf
  · cases h

/-- What `interrupt_all_threads` changes besides the idle nodes and the
trace: it sets `interrupted_`. -/
theorem interrupt_all_threads_frame {s s1 : task_io_service}
    (h : interrupt_all_threads s = some s1) :
    ring_frame { s with interrupted_ := true } s1 := by
  unfold interrupt_all_threads at h
  split at h
  · rename_i s0 hs0
    have hf := interrupt_all_idle_threads_frame hs0
    split at h
    · simp only [Option.some.injEq] at h
      rw [← h]
      exact hf.trans (task_interrupt_frame _)
    · simp only [Option.some.injEq] at h
      rw [← h]
      exact hf
  · cases h

theorem inv_interrupt_all_threads {s s1 : task_io_service} {L : List handler_ref} {k : Int}
    (h : interrupt_all_threads s = some s1) (hi : inv s L k) : inv s1 L k := by
  have hf := interrupt_all_threads_frame h
  apply inv_frame hf
  exact @inv_at_congr s _ _ L k rfl rfl rfl rfl rfl hi

/-- The first half of `post`: the new wrapper is linked at the end of the
queue and nothing else changes. -/
theorem post_enqueue_spec {s : task_io_service} {L : List handler_ref} (h : Nat)
    (hq : queue_is s L) :
    ∃ s0, enqueue (new_wrapper s h) (handler_ref.wrapper s.heap.length) = some s0 ∧
      post s h = wake_one { s0 with outstanding_work_ := to_int (s0.outstanding_work_ + 1) } ∧
      queue_is s0 (L ++ [handler_ref.wrapper s.heap.length]) ∧
      handler_of s0 (handler_ref.wrapper s.heap.length) = some h ∧
      (∀ r ∈ L, handler_of s0 r = handler_of s r) ∧
      s0.heap.length = s.heap.length + 1 ∧
      (handler_ref.task ∉ L → s0.task_handler_next_ = s.task_handler_next_) ∧
      s0.outstanding_work_ = s.outstanding_work_ ∧ s0.interrupted_ = s.interrupted_ ∧
      s0.first_idle_thread_ = s.first_idle_thread_ ∧ s0.threads = s.threads ∧
      s0.task_script = s.task_script ∧ s0.trace = s.trace := by
  obtain ⟨hq1, hfresh⟩ := new_wrapper_queue h hq
  obtain ⟨hnull, hho⟩ := new_wrapper_fresh s h
  obtain ⟨s0, hs0, hq0, hho0, hlen, htn, hw, hi, hfi, hth, hsc, htr⟩ :=
    enqueue_spec hq1 hfresh hnull
  refine ⟨s0, hs0, ?_, hq0, ?_, ?_, ?_, ?_, hw, hi, hfi, hth, hsc, htr⟩
  · simp [post, hs0]
  · rw [hho0]; exact hho
  · intro r hr
    rw [hho0]
    obtain ⟨nx, hnx⟩ := chain_live s _ _ hq.links r hr
    exact new_wrapper_handler_of s h r nx hnx
  · rw [hlen]; simp [new_wrapper]
  · intro htask
    exact htn htask (by simp)

theorem inv_post {s s1 : task_io_service} {L : List handler_ref} {k : Int} {h : Nat}
    (hp : post s h = some s1) (hi : inv s L k) :
    inv s1 (L ++ [handler_ref.wrapper s.heap.length]) k := by
  obtain ⟨s0, _, hpost, hq0, _, _, _, htn, hw, _, _, hth, _, _⟩ := post_enqueue_spec h hi.queue
  rw [hpost] at hp
  apply inv_frame (wake_one_frame hp)
  have hk : kinds { s0 with outstanding_work_ := to_int (s0.outstanding_work_ + 1) } = kinds s := by
    simp [kinds, hth]
  unfold inv
  rw [hk]
  refine ⟨@queue_is_congr s0 _ _ rfl rfl rfl rfl hq0, ?_, ?_, ?_⟩
  · have := hi.task_once
    simpa [List.count_append] using this
  · intro b hb
    have hb2 := hi.blocking b hb
    have hnot : handler_ref.task ∉ L := by
      intro hmem
      have h1 := hi.task_once
      have h2 : 0 < L.count handler_ref.task := List.count_pos_iff.2 hmem
      have h3 : 0 < (kinds s).countP Kind.is_task :=
        List.countP_pos_iff.2 ⟨_, hb, rfl⟩
      omega
    show (b = true ↔ s0.task_handler_next_ = none)
    rw [htn hnot]
    exact hb2
  · have := hi.work
    show to_int (s0.outstanding_work_ + 1) = _
    rw [hw, this, to_int_add]
    congr 1
    simp [List.countP_append, handler_ref.is_wrapper]
    ring

end task_io_service

end asio.detail

namespace asio.detail

namespace task_io_service

theorem count_set_outside (p : Kind → Bool) (hp : p Kind.outside = false) (ks : List Kind)
    (t : Nat) (x : Kind) (ht : t < ks.length) :
    (ks.set t x).countP p = (ks.set t Kind.outside).countP p + (if p x = true then 1 else 0) := by
  have hlen : t < (ks.set t Kind.outside).length := by simpa using ht
  have h := countP_set_add p (ks.set t Kind.outside) t x hlen
  simp only [List.set_set, List.getElem_set_self, hp] at h
  simpa using h

theorem mem_set_outside (ks : List Kind) (t : Nat) (x y : Kind) (h : y ∈ ks.set t x) :
    y = x ∨ y ∈ ks.set t Kind.outside := by
  obtain ⟨i, hi⟩ := List.mem_iff_getElem?.1 h
  by_cases hit : t = i
  · subst hit
    rw [List.getElem?_set] at hi
    simp only [if_true] at hi
    split at hi
    · left; simpa using hi.symm
    · cases hi
  · right
    rw [List.getElem?_set_ne hit] at hi
    apply List.mem_iff_getElem?.2
    exact ⟨i, by rw [List.getElem?_set_ne hit]; exact hi⟩

theorem kinds_set_self (s : task_io_service) (t : Nat) (x : Kind)
    (h : (kinds s)[t]? = some x) : (kinds s).set t x = kinds s := by
  apply List.ext_getElem?
  intro i
  by_cases hit : t = i
  · subst hit
    have hlt : t < (kinds s).length := (List.getElem?_eq_some.1 h).1
    simp [List.getElem?_set, hlt, h]
  · rw [List.getElem?_set_ne hit]

/-- From the invariant to the invariant in which thread `t` is not counted,
when `t` is neither inside the task nor inside a handler. -/
theorem inv_at_of_neutral {s : task_io_service} {L : List handler_ref} {k : Int} {t : Nat} {x : Kind}
    (hi : inv s L k) (hx : (kinds s)[t]? = some x) (h1 : x.is_task = false)
    (h2 : x.is_handler = false) : inv_at s ((kinds s).set t Kind.outside) L k := by
  have hlt : t < (kinds s).length := (List.getElem?_eq_some.1 hx).1
  have hself := kinds_set_self s t x hx
  have c1 := count_set_outside Kind.is_task rfl (kinds s) t x hlt
  have c2 := count_set_outside Kind.is_handler rfl (kinds s) t x hlt
  rw [hself] at c1 c2
  simp only [h1, h2] at c1 c2
  refine ⟨hi.queue, ?_, ?_, ?_⟩
  · have := hi.task_once
    simp at c1
    omega
  · intro b hb
    rcases List.mem_or_eq_of_mem_set hb with h | h
    · exact hi.blocking b h
    · cases h
  · have := hi.work
    simp at c2
    rw [this, c2]

/-- From the invariant in which thread `t` is not counted to the invariant,
once `t` has moved to a place that is neither inside the task nor inside a
handler. -/
theorem inv_of_set_pc_neutral {s s1 : task_io_service} {L : List handler_ref} {k : Int} {t : Nat}
    {pc : Pc} (hi : inv_at s ((kinds s).set t Kind.outside) L k)
    (hs : set_pc s t pc = some s1) (h1 : pc.kind.is_task = false)
    (h2 : pc.kind.is_handler = false) : inv s1 L k := by
  obtain ⟨th, hth, _⟩ := set_pc_some hs
  have hlt : t < (kinds s).length := by
    rw [kinds_length]; exact (List.getElem?_eq_some.1 hth).1
  obtain ⟨e1, e2, e3, e4, e5, _, _, _, _⟩ := set_pc_fields hs
  have hk := set_pc_kinds hs
  have c1 := count_set_outside Kind.is_task rfl (kinds s) t pc.kind hlt
  have c2 := count_set_outside Kind.is_handler rfl (kinds s) t pc.kind hlt
  simp only [h1, h2] at c1 c2
  unfold inv
  rw [hk]
  refine ⟨queue_is_congr e1 e2 e4 e5 hi.queue, ?_, ?_, ?_⟩
  · have := hi.task_once
    simp at c1
    omega
  · intro b hb
    rw [e2]
    rcases mem_set_outside _ _ _ _ hb with h | h
    · rw [← h] at h1
      simp [Kind.is_task] at h1
    · exact hi.blocking b h
  · have := hi.work
    simp at c2
    rw [e3, this, c2]

theorem map_pc_set_kind (l : List run_thread) (u : Nat) (th th1 : run_thread)
    (h : l[u]? = some th) (hpc : th1.pc.kind = th.pc.kind) :
    (l.set u th1).map (fun x => x.pc.kind) = l.map (fun x => x.pc.kind) := by
  apply List.ext_getElem?
  intro i
  by_cases hi : u = i
  · subst hi
    have hlt : u < l.length := (List.getElem?_eq_some.1 h).1
    have hget : l[u] = th := (List.getElem?_eq_some.1 h).2
    simp [List.getElem?_set, List.getElem?_map, hpc, hlt, hget]
  · simp [List.getElem?_map, List.getElem?_set_ne hi]

theorem upcall_frame {prog : Program} {s s1 : task_io_service} {t h : Nat}
    (hu : upcall prog s t h = some s1) : ring_frame s s1 := by
  unfold upcall at hu
  split at hu
  · rename_i th hth
    simp only [Option.some.injEq] at hu
    rw [← hu]
    refine ⟨rfl, rfl, rfl, rfl, rfl, rfl, rfl, ?_⟩
    apply map_pc_set_kind _ _ _ _ hth
    cases th.pc <;> rfl
  · cases hu

theorem inv_exec {prog : Program} {s s1 : task_io_service} {L : List handler_ref}
    {k : Int} {t : Nat} {c : Cmd} (he : exec prog s t c = some s1) (hi : inv s L k) :
    ∃ L1, inv s1 L1 (k + delta (some c)) := by
  cases c with
  | post h =>
    simp only [delta, add_zero]
    exact ⟨_, inv_post he hi⟩
  | dispatch h =>
    simp only [delta, add_zero]
    simp only [exec, dispatch] at he
    split at he
    · exact ⟨L, inv_frame (upcall_frame he) hi⟩
    · exact ⟨_, inv_post he hi⟩
  | interrupt =>
    simp only [delta, add_zero]
    exact ⟨L, inv_interrupt_all_threads he hi⟩
  | reset =>
    simp only [delta, add_zero]
    simp only [exec, reset, Option.some.injEq] at he
    rw [← he]
    exact ⟨L, @inv_at_congr s _ _ L k rfl rfl rfl rfl rfl hi⟩
  | work_started =>
    simp only [delta]
    simp only [exec, work_started, Option.some.injEq] at he
    rw [← he]
    refine ⟨L, ?_⟩
    show inv_at _ (kinds s) L (k + 1)
    refine ⟨@queue_is_congr s _ _ rfl rfl rfl rfl hi.queue, hi.task_once, hi.blocking, ?_⟩
    have := hi.work
    show to_int (s.outstanding_work_ + 1) = _
    rw [this, to_int_add]
    congr 1
    ring
  | work_finished =>
    simp only [delta]
    have hinv : inv { s with outstanding_work_ := to_int (s.outstanding_work_ - 1) } L (k + -1) := by
      show inv_at _ (kinds s) L (k + -1)
      refine ⟨@queue_is_congr s _ _ rfl rfl rfl rfl hi.queue, hi.task_once, hi.blocking, ?_⟩
      have := hi.work
      show to_int (s.outstanding_work_ - 1) = _
      rw [this, to_int_sub]
      congr 1
      ring
    simp only [exec, work_finished] at he
    split at he
    · exact ⟨L, inv_interrupt_all_threads he hinv⟩
    · simp only [Option.some.injEq] at he
      rw [← he]
      exact ⟨L, hinv⟩
  | throws => simp [exec] at he

end task_io_service

end asio.detail

namespace asio.detail

namespace task_io_service

/-! ### The cases of the loop in `run` -/

theorem run_loop_exit (prog : Program) (s : task_io_service) (t : Nat)
    (h : ¬ (s.interrupted_ = false ∧ 0 < s.outstanding_work_)) :
    run_loop prog s t = run_exit s t := by
  simp only [run_loop, if_neg h]

theorem run_loop_park (prog : Program) (s : task_io_service) (t : Nat)
    (h : s.interrupted_ = false ∧ 0 < s.outstanding_work_) (hQ : s.handler_queue_ = none) :
    run_loop prog s t = park s t := by
  simp only [run_loop, if_pos h, hQ]

theorem run_loop_task (prog : Program) (s : task_io_service) (t : Nat)
    (h : s.interrupted_ = false ∧ 0 < s.outstanding_work_)
    (hQ : s.handler_queue_ = some handler_ref.task) :
    run_loop prog s t =
      set_pc { s with handler_queue_ := s.task_handler_next_
                      handler_queue_end_ :=
                        if s.task_handler_next_ = none then none else s.handler_queue_end_
                      task_script := s.task_script.tail
                      trace := s.trace ++ [Event.task_run t (!(s.task_handler_next_ != none))] }
        t (Pc.in_task (!(s.task_handler_next_ != none)) (s.task_script.headD [])) := by
  simp only [run_loop, if_pos h, hQ, get_next_]

theorem run_loop_wrapper (prog : Program) (s : task_io_service) (t a : Nat) (c : handler_wrapper)
    (h : s.interrupted_ = false ∧ 0 < s.outstanding_work_)
    (hQ : s.handler_queue_ = some (handler_ref.wrapper a)) (hc : s.heap[a]? = some (some c)) :
    run_loop prog s t =
      set_pc { s with handler_queue_ := c.next_
                      handler_queue_end_ := if c.next_ = none then none else s.handler_queue_end_
                      heap := s.heap.set a none
                      trace := s.trace ++ [Event.invoke t c.handler_] }
        t (Pc.in_handler (prog c.handler_)) := by
  simp only [run_loop, if_pos h, hQ, get_next_, hc]

theorem chain_some {s : task_io_service} {h : handler_ref} {L : List handler_ref}
    (hc : chain s (some h) L) :
    ∃ L1, L = h :: L1 ∧ ∃ nx, get_next_ s h = some nx ∧ chain s nx L1 := by
  cases L with
  | nil => rw [chain_nil] at hc; cases hc
  | cons r L1 =>
    rw [chain_cons] at hc
    obtain ⟨hr, nx, hg, hch⟩ := hc
    simp only [Option.some.injEq] at hr
    subst hr
    exact ⟨L1, rfl, nx, hg, hch⟩

/-- The queue after its first object has been detached. -/
theorem queue_is_pop {s : task_io_service} {h : handler_ref} {L : List handler_ref}
    {nx : Option handler_ref} (hq : queue_is s (h :: L)) (hg : get_next_ s h = some nx) :
    chain s nx L ∧ (if nx = none then none else s.handler_queue_end_) = L.getLast? ∧
      L.Nodup ∧ h ∉ L ∧ (nx = none ↔ L = []) := by
  have hl := hq.links
  rw [chain_cons] at hl
  obtain ⟨_, nx1, hg1, hch⟩ := hl
  rw [hg] at hg1
  simp only [Option.some.injEq] at hg1
  subst hg1
  have hnd := List.nodup_cons.1 hq.nodup
  have hiff : nx = none ↔ L = [] := by
    cases L with
    | nil => rw [chain_nil] at hch; simp [hch]
    | cons r L1 =>
      rw [chain_cons] at hch
      simp [hch.1]
  refine ⟨hch, ?_, hnd.2, hnd.1, hiff⟩
  by_cases hn : nx = none
  · rw [if_pos hn, hiff.1 hn]; rfl
  · rw [if_neg hn, hq.last]
    cases L with
    | nil => exact absurd (hiff.2 rfl) hn
    | cons r L1 => simp [List.getLast?_cons_cons]

theorem unpark_frame {s s1 : task_io_service} {t : Nat} (h : unpark s t = some s1) :
    ring_frame s s1 := by
  unfold unpark at h
  split at h
  · split at h
    · simp only [Option.some.injEq] at h
      rw [← h]
      exact set_first_idle_frame _ _
    · rename_i n hn hnt
      have h0 : ring_frame s (if s.first_idle_thread_ = some t then
          { s with first_idle_thread_ := some n } else s) := by
        split
        · exact set_first_idle_frame _ _
        · exact ring_frame.refl s
      simp only at h
      split at h
      · split at h
        · rename_i s2 hs2
          split at h
          · split at h
            · rename_i s3 hs3
              split at h
              · rename_i s4 hs4
                exact (((h0.trans (set_idle_prev_frame hs2)).trans (set_idle_next_frame hs3)).trans
                  (set_idle_next_frame hs4)).trans (set_idle_prev_frame h)
              · cases h
            · cases h
          · cases h
        · cases h
      · cases h
  · cases h

theorem park_spec {s s1 : task_io_service} {t : Nat} (h : park s t = some s1) :
    ∃ s2, ring_frame s s2 ∧ set_pc s2 t Pc.waiting = some s1 := by
  unfold park at h
  simp only at h
  split at h
  · rename_i s2 hs2
    have hf : ring_frame s s2 := by
      split at hs2
      · split at hs2
        · rename_i a1 ha1
          split at hs2
          · split at hs2
            · rename_i a2 ha2
              split at hs2
              · split at hs2
                · rename_i a3 ha3
                  exact ((set_idle_next_frame ha1).trans (set_idle_prev_frame ha2)).trans
                    ((set_idle_next_frame ha3).trans (set_idle_prev_frame hs2))
                · cases hs2
              · cases hs2
            · cases hs2
          · cases hs2
        · cases hs2
      · simp only [Option.some.injEq] at hs2
        rw [← hs2]
        exact ring_frame.refl s
    split at h
    · rename_i s3 hs3
      exact ⟨s3, (hf.trans (set_first_idle_frame _ _)).trans (set_event_frame hs3), h⟩
    · cases h
  · cases h

end task_io_service

end asio.detail

namespace asio.detail

namespace task_io_service

theorem run_exit_spec {s s1 : task_io_service} {t : Nat} (h : run_exit s t = some s1) :
    ∃ s2, (s2 = s ∨ ring_frame { s with interrupted_ := true } s2) ∧
      s2.interrupted_ = true ∧
      set_pc { s2 with trace := s2.trace ++ [Event.run_return t] } t Pc.outside = some s1 := by
  unfold run_exit at h
  simp only at h
  split at h
  · rename_i s2 hs2
    refine ⟨s2, ?_, ?_, h⟩
    · split at hs2
      · right; exact interrupt_all_threads_frame hs2
      · left; simpa using hs2.symm
    · split at hs2
      · rw [(interrupt_all_threads_frame hs2).interrupted]
      · rename_i hi
        simp only [Option.some.injEq] at hs2
        rw [← hs2]
        simpa using hi
  · cases h

/-- The loop of `run`, entered by thread `t`, re-establishes the invariant. -/
theorem inv_run_loop {prog : Program} {s s1 : task_io_service} {L : List handler_ref}
    {k : Int} {t : Nat} (h : run_loop prog s t = some s1)
    (hi : inv_at s ((kinds s).set t Kind.outside) L k) : ∃ L1, inv s1 L1 k := by
  by_cases hcond : s.interrupted_ = false ∧ 0 < s.outstanding_work_
  · cases hQ : s.handler_queue_ with
    | none =>
      rw [run_loop_park prog s t hcond hQ] at h
      obtain ⟨s2, hf, hs⟩ := park_spec h
      refine ⟨L, inv_of_set_pc_neutral ?_ hs rfl rfl⟩
      rw [hf.kinds]
      exact inv_at_congr hf.heap hf.task_next hf.work hf.head hf.tail hi
    | some r =>
      have hlinks := hi.queue.links
      rw [hQ] at hlinks
      obtain ⟨L1, rfl, nx, hg, _⟩ := chain_some hlinks
      obtain ⟨hch, hlast, hnd, hnotin, hiff⟩ := queue_is_pop hi.queue hg
      cases r with
      | task =>
        rw [run_loop_task prog s t hcond hQ] at h
        have hnx : s.task_handler_next_ = nx := by simpa [get_next_] using hg
        obtain ⟨th, hth, _⟩ := set_pc_some h
        have hlt : t < (kinds s).length := by
          rw [kinds_length]; exact (List.getElem?_eq_some.1 hth).1
        obtain ⟨e1, e2, e3, e4, e5, _, _, _, _⟩ := set_pc_fields h
        have hk : kinds s1 = (kinds s).set t (Kind.task (!(s.task_handler_next_ != none))) :=
          set_pc_kinds h
        have c1 := count_set_outside Kind.is_task rfl (kinds s) t
          (Kind.task (!(s.task_handler_next_ != none))) hlt
        have c2 := count_set_outside Kind.is_handler rfl (kinds s) t
          (Kind.task (!(s.task_handler_next_ != none))) hlt
        have hto := hi.task_once
        have hw := hi.work
        simp only [List.count_cons_self, List.countP_cons, handler_ref.is_wrapper] at hto hw
        have hcount0 : List.count handler_ref.task L1 = 0 := List.count_eq_zero.2 hnotin
        refine ⟨L1, ?_⟩
        unfold inv
        rw [hk]
        refine ⟨⟨?_, ?_, hnd⟩, ?_, ?_, ?_⟩
        · rw [e4]
          apply chain_congr s s1 L1 _ (fun r _ => get_next_congr e1 e2 r)
          show chain s s.task_handler_next_ L1
          rw [hnx]; exact hch
        · rw [e5]
          show (if s.task_handler_next_ = none then none else s.handler_queue_end_) = _
          rw [hnx]; exact hlast
        · rw [c1]
          simp only [Kind.is_task, if_true]
          omega
        · intro b hb
          rw [e2]
          show b = true ↔ s.task_handler_next_ = none
          rcases mem_set_outside _ _ _ _ hb with hb1 | hb1
          · simp only [Kind.task.injEq] at hb1
            rw [hb1]
            cases s.task_handler_next_ <;> simp
          · have h0 : List.countP Kind.is_task ((kinds s).set t Kind.outside) = 0 := by omega
            have := List.countP_eq_zero.1 h0 _ hb1
            simp [Kind.is_task] at this
        · rw [e3]
          show s.outstanding_work_ = _
          rw [c2, hw]
          simp [Kind.is_handler]
      | wrapper a =>
        obtain ⟨c, hc, hcn⟩ := get_next_wrapper_some hg
        rw [run_loop_wrapper prog s t a c hcond hQ hc] at h
        obtain ⟨th, hth, _⟩ := set_pc_some h
        have hlt : t < (kinds s).length := by
          rw [kinds_length]; exact (List.getElem?_eq_some.1 hth).1
        obtain ⟨e1, e2, e3, e4, e5, _, _, _, _⟩ := set_pc_fields h
        have hk : kinds s1 = (kinds s).set t Kind.handler := set_pc_kinds h
        have c1 := count_set_outside Kind.is_task rfl (kinds s) t Kind.handler hlt
        have c2 := count_set_outside Kind.is_handler rfl (kinds s) t Kind.handler hlt
        have hto := hi.task_once
        have hw := hi.work
        simp only [List.countP_cons, handler_ref.is_wrapper] at hw
        have hcnt : List.count handler_ref.task (handler_ref.wrapper a :: L1) =
            List.count handler_ref.task L1 := by
          rw [List.count_cons_of_ne]; simp
        rw [hcnt] at hto
        refine ⟨L1, ?_⟩
        unfold inv
        rw [hk]
        refine ⟨⟨?_, ?_, hnd⟩, ?_, ?_, ?_⟩
        · rw [e4]
          show chain s1 c.next_ L1
          rw [hcn]
          apply chain_congr s s1 L1 _ _ hch
          intro r hr
          cases r with
          | task => simp [get_next_, e2]
          | wrapper b =>
            have hab : a ≠ b := by
              intro hab
              apply hnotin
              rw [hab]; exact hr
            simp only [get_next_, e1]
            show (match (s.heap.set a none)[b]? with
              | some (some c) => some c.next_
              | _ => none) = _
            rw [List.getElem?_set_ne hab]
        · rw [e5]
          show (if c.next_ = none then none else s.handler_queue_end_) = _
          rw [hcn]; exact hlast
        · rw [c1]
          simp only [Kind.is_task]
          simpa using hto
        · intro b hb
          rw [e2]
          show b = true ↔ s.task_handler_next_ = none
          rcases mem_set_outside _ _ _ _ hb with hb1 | hb1
          · cases hb1
          · exact hi.blocking b hb1
        · rw [e3]
          show s.outstanding_work_ = _
          rw [c2, hw]
          simp only [Kind.is_handler, if_true]
          congr 1
          push_cast
          ring
  · rw [run_loop_exit prog s t hcond] at h
    obtain ⟨s2, hs2, _, hs⟩ := run_exit_spec h
    refine ⟨L, inv_of_set_pc_neutral ?_ hs rfl rfl⟩
    show inv_at _ ((kinds s2).set t Kind.outside) L k
    rcases hs2 with rfl | hf
    · exact @inv_at_congr s2 _ _ L k rfl rfl rfl rfl rfl hi
    · rw [hf.kinds]
      exact @inv_at_congr s _ _ L k hf.heap hf.task_next hf.work hf.head hf.tail hi

end task_io_service

end asio.detail

namespace asio.detail

namespace task_io_service

/-- The cleanup after a user handler, seen from the invariant. -/
theorem inv_at_handler_done {s : task_io_service} {L : List handler_ref} {k : Int} {t : Nat}
    (hi : inv s L k) (hx : (kinds s)[t]? = some Kind.handler) :
    inv_at (handler_cleanup s) ((kinds (handler_cleanup s)).set t Kind.outside) L k := by
  have hlt : t < (kinds s).length := (List.getElem?_eq_some.1 hx).1
  have hself := kinds_set_self s t _ hx
  have c1 := count_set_outside Kind.is_task rfl (kinds s) t Kind.handler hlt
  have c2 := count_set_outside Kind.is_handler rfl (kinds s) t Kind.handler hlt
  rw [hself] at c1 c2
  simp only [Kind.is_task, Kind.is_handler, if_true] at c1 c2
  show inv_at _ ((kinds s).set t Kind.outside) L k
  refine ⟨@queue_is_congr s _ _ rfl rfl rfl rfl hi.queue, ?_, ?_, ?_⟩
  · have := hi.task_once
    simp at c1
    omega
  · intro b hb
    rcases List.mem_or_eq_of_mem_set hb with h | h
    · exact hi.blocking b h
    · cases h
  · have := hi.work
    show to_int (s.outstanding_work_ - 1) = _
    rw [this, c2, to_int_sub]
    congr 1
    push_cast
    omega

/-- The cleanup after the task, seen from the invariant. -/
theorem inv_at_task_done {s s1 : task_io_service} {L : List handler_ref} {k : Int} {t : Nat} {b : Bool}
    (hi : inv s L k) (hx : (kinds s)[t]? = some (Kind.task b))
    (hc : task_cleanup s = some s1) :
    inv_at s1 ((kinds s1).set t Kind.outside) (L ++ [handler_ref.task]) k := by
  have hlt : t < (kinds s).length := (List.getElem?_eq_some.1 hx).1
  have hself := kinds_set_self s t _ hx
  have c1 := count_set_outside Kind.is_task rfl (kinds s) t (Kind.task b) hlt
  have c2 := count_set_outside Kind.is_handler rfl (kinds s) t (Kind.task b) hlt
  rw [hself] at c1 c2
  simp only [Kind.is_task, Kind.is_handler, if_true] at c1 c2
  have hto := hi.task_once
  have hnot : handler_ref.task ∉ L := by
    intro hmem
    have h2 : 0 < L.count handler_ref.task := List.count_pos_iff.2 hmem
    omega
  have hq0 : queue_is { s with task_handler_next_ := none } L := by
    refine ⟨?_, hi.queue.last, hi.queue.nodup⟩
    apply chain_congr s _ L _ _ hi.queue.links
    intro r hr
    cases r with
    | task => exact absurd hr hnot
    | wrapper a => rfl
  obtain ⟨s2, hs2, hq2, _, _, _, hw, _, _, hth, _, _⟩ :=
    @enqueue_spec { s with task_handler_next_ := none } L handler_ref.task hq0 hnot rfl
  have hs12 : s1 = s2 := by
    unfold task_cleanup at hc
    rw [hs2] at hc
    simpa using hc.symm
  subst hs12
  have hk : kinds s1 = kinds s := by simp [kinds, hth]
  rw [hk]
  refine ⟨hq2, ?_, ?_, ?_⟩
  · rw [List.count_append]
    simp only [List.count_cons_self, List.count_nil]
    omega
  · intro b1 hb1
    have h0 : List.countP Kind.is_task ((kinds s).set t Kind.outside) = 0 := by omega
    have := List.countP_eq_zero.1 h0 _ hb1
    simp [Kind.is_task] at this
  · rw [hw]
    have := hi.work
    show s.outstanding_work_ = _
    rw [this, c2, List.countP_append]
    simp [handler_ref.is_wrapper]

theorem inv_run_unwind {s s1 : task_io_service} {L : List handler_ref} {k : Int} {t : Nat}
    (hi : inv_at s ((kinds s).set t Kind.outside) L k) (h : run_unwind s t = some s1) :
    inv s1 L k := by
  unfold run_unwind at h
  refine inv_of_set_pc_neutral ?_ h rfl rfl
  exact @inv_at_congr s _ _ L k rfl rfl rfl rfl rfl hi

theorem inv_set_pc_same_kind {s s1 : task_io_service} {L : List handler_ref} {k : Int} {t : Nat}
    {pc : Pc} (hi : inv s L k) (hx : (kinds s)[t]? = some pc.kind)
    (hs : set_pc s t pc = some s1) : inv s1 L k := by
  obtain ⟨e1, e2, e3, e4, e5, _, _, _, _⟩ := set_pc_fields hs
  unfold inv
  rw [set_pc_kinds hs, kinds_set_self s t _ hx]
  exact inv_at_congr e1 e2 e3 e4 e5 hi

theorem inv_thread_step {prog : Program} {s s1 : task_io_service} {L : List handler_ref}
    {k : Int} {t : Nat} (h : thread_step prog s t = some s1) (hi : inv s L k) :
    ∃ L1, inv s1 L1 (k + delta (cmd_of s (Action.move t))) := by
  unfold thread_step at h
  split at h
  · rename_i th hth
    have hkind := kinds_get s t th hth
    simp only [cmd_of, hth]
    split at h
    · cases h
    · rename_i hpc
      rw [hpc] at hkind
      simp only [hpc, delta, add_zero]
      split at h
      · split at h
        · rename_i s2 hs2
          have hf := unpark_frame hs2
          have hi2 := inv_frame hf hi
          rw [← hf.kinds] at hkind
          exact inv_run_loop h (inv_at_of_neutral hi2 hkind rfl rfl)
        · cases h
      · cases h
    · rename_i hpc
      rw [hpc] at hkind
      simp only [hpc, delta, add_zero]
      exact inv_run_loop h (inv_at_handler_done hi hkind)
    · rename_i hpc
      rw [hpc] at hkind
      simp only [hpc, delta, add_zero]
      exact ⟨L, inv_run_unwind (inv_at_handler_done hi hkind) h⟩
    · rename_i c k0 hnot hpc
      rw [hpc] at hkind
      simp only [hpc]
      have hkind2 : (kinds s)[t]? = some (Pc.in_handler k0).kind := hkind
      split at h
      · rename_i s2 hs2
        exact inv_exec h (inv_set_pc_same_kind hi hkind2 hs2)
      · cases h
    · rename_i hpc
      rw [hpc] at hkind
      simp only [hpc, delta, add_zero]
      split at h
      · rename_i s2 hs2
        exact inv_run_loop h (inv_at_task_done hi hkind hs2)
      · cases h
    · rename_i hpc
      rw [hpc] at hkind
      simp only [hpc, delta, add_zero]
      split at h
      · rename_i s2 hs2
        exact ⟨_, inv_run_unwind (inv_at_task_done hi hkind hs2) h⟩
      · cases h
    · rename_i b c k0 hnot hpc
      rw [hpc] at hkind
      simp only [hpc]
      have hkind2 : (kinds s)[t]? = some (Pc.in_task b k0).kind := hkind
      split at h
      · rename_i s2 hs2
        exact inv_exec h (inv_set_pc_same_kind hi hkind2 hs2)
      · cases h
  · cases h

theorem inv_run_begin {prog : Program} {s s1 : task_io_service} {L : List handler_ref}
    {k : Int} {t : Nat} (h : run_begin prog s t = some s1) (hi : inv s L k) :
    ∃ L1, inv s1 L1 k := by
  unfold run_begin at h
  split at h
  · rename_i th hth
    have hkind := kinds_get s t th hth
    split at h
    · rename_i hpc
      rw [hpc] at hkind
      split at h
      · rename_i s2 hs2
        split at h
        · rename_i s3 hs3
          have hf := (set_idle_prev_frame hs2).trans (set_idle_next_frame hs3)
          have hi3 := inv_frame hf hi
          rw [← hf.kinds] at hkind
          exact inv_run_loop h (inv_at_of_neutral hi3 hkind rfl rfl)
        · cases h
      · cases h
    · cases h
  · cases h

theorem inv_step {prog : Program} {s s1 : task_io_service} {L : List handler_ref}
    {k : Int} {a : Action} (h : step prog s a = some s1) (hi : inv s L k) :
    ∃ L1, inv s1 L1 (k + delta (cmd_of s a)) := by
  cases a with
  | call t c =>
    simp only [step] at h
    split at h
    · cases h
    · exact inv_exec h hi
  | run t =>
    simp only [cmd_of, delta, add_zero]
    exact inv_run_begin h hi
  | move t => exact inv_thread_step h hi

theorem kinds_init (n : Nat) (script : List (List Cmd)) :
    kinds (init n script) = List.replicate n Kind.outside := by
  apply List.ext_getElem?
  intro i
  simp only [kinds, init, List.map_map, List.getElem?_map, List.getElem?_range',
    List.getElem?_replicate]
  by_cases hi : i < n
  · simp [List.getElem?_range, hi, Pc.kind]
  · simp [List.getElem?_range, hi]
    omega

theorem inv_init (n : Nat) (script : List (List Cmd)) :
    inv (init n script) [handler_ref.task] 0 := by
  unfold inv
  rw [kinds_init]
  refine ⟨⟨?_, rfl, by simp⟩, ?_, ?_, ?_⟩
  · rw [chain_cons]
    exact ⟨rfl, none, rfl, (chain_nil _ _).2 rfl⟩
  · have : List.countP Kind.is_task (List.replicate n Kind.outside) = 0 := by
      rw [List.countP_eq_zero]
      intro x hx
      rw [List.eq_of_mem_replicate hx]
      simp [Kind.is_task]
    rw [this]
    simp
  · intro b hb
    have := List.eq_of_mem_replicate hb
    cases this
  · have : List.countP Kind.is_handler (List.replicate n Kind.outside) = 0 := by
      rw [List.countP_eq_zero]
      intro x hx
      rw [List.eq_of_mem_replicate hx]
      simp [Kind.is_handler]
    rw [this]
    simp [init, handler_ref.is_wrapper, to_int_zero]

/-- Every reachable state satisfies the invariant. -/
theorem inv_of_reach {prog : Program} {s : task_io_service} (h : reach prog s) :
    ∃ L k, inv s L k := by
  induction h with
  | init n script => exact ⟨_, 0, inv_init n script⟩
  | step s s1 a _ hstep ih =>
    obtain ⟨L, k, hL⟩ := ih
    obtain ⟨L1, h1⟩ := inv_step hstep hL
    exact ⟨L1, _, h1⟩

theorem balance_delta {k k1 : Nat} {c : Option Cmd} (h : balance k c = some k1) :
    (k1 : Int) = (k : Int) + delta c := by
  unfold balance at h
  split at h
  · simp only [Option.some.injEq] at h
    subst h
    simp [delta]
  · split at h
    · cases h
    · simp only [Option.some.injEq] at h
      subst h
      simp only [delta]
      omega
  · rename_i h1 h2
    simp only [Option.some.injEq] at h
    subst h
    have : delta c = 0 := by
      unfold delta
      split
      · exact absurd rfl h1
      · exact absurd rfl h2
      · rfl
    rw [this]; simp

/-- Every state reached with balanced `work_started` / `work_finished`
calls satisfies the invariant with the number of unmatched calls. -/
theorem inv_of_balanced_reach {prog : Program} {s : task_io_service} {k : Nat}
    (h : balanced_reach prog s k) : ∃ L, inv s L (k : Int) := by
  induction h with
  | init n script => exact ⟨_, inv_init n script⟩
  | step s s1 k k1 a _ hstep hbal ih =>
    obtain ⟨L, hL⟩ := ih
    obtain ⟨L1, h1⟩ := inv_step hstep hL
    rw [balance_delta hbal]
    exact ⟨L1, h1⟩

end task_io_service

end asio.detail

/-! ## What the operations leave alone, in every state -/

namespace asio.detail

namespace task_io_service

theorem set_next_frame {s s1 : task_io_service} {e : handler_ref} {p : Option handler_ref}
    (h : set_next_ s e p = some s1) : queue_frame s s1 := by
  unfold set_next_ at h
  split at h
  · simp only [Option.some.injEq] at h
    rw [← h]
    exact ⟨rfl, rfl, rfl, rfl, rfl, rfl⟩
  · split at h
    · simp only [Option.some.injEq] at h
      rw [← h]
      exact ⟨rfl, rfl, rfl, rfl, rfl, rfl⟩
    · cases h

theorem enqueue_frame {s s1 : task_io_service} {ptr : handler_ref}
    (h : enqueue s ptr = some s1) : queue_frame s s1 := by
  unfold enqueue at h
  split at h
  · split at h
    · rename_i s2 hs2
      have hf := set_next_frame hs2
      simp only [Option.some.injEq] at h
      rw [← h]
      exact ⟨hf.work, hf.interrupted, hf.first_idle, hf.threads, hf.script, hf.trace⟩
    · cases h
  · simp only [Option.some.injEq] at h
    rw [← h]
    exact ⟨rfl, rfl, rfl, rfl, rfl, rfl⟩

theorem kinds_congr {s s1 : task_io_service} (h : s1.threads = s.threads) :
    kinds s1 = kinds s := by
  simp [kinds, h]

/-- The function `post` changes neither the flag nor where the threads are,
and increments the counter. -/
theorem post_control {s s1 : task_io_service} {h : Nat} (hp : post s h = some s1) :
    s1.interrupted_ = s.interrupted_ ∧ kinds s1 = kinds s ∧
      s1.outstanding_work_ = to_int (s.outstanding_work_ + 1) ∧
      s1.task_script = s.task_script := by
  unfold post at hp
  split at hp
  · rename_i s2 hs2
    have hf := enqueue_frame hs2
    have hw := wake_one_frame hp
    refine ⟨?_, ?_, ?_, ?_⟩
    · rw [hw.interrupted]; exact hf.interrupted
    · rw [hw.kinds]; exact kinds_congr hf.threads
    · rw [hw.work]
      show to_int (s2.outstanding_work_ + 1) = _
      rw [hf.work]; rfl
    · rw [hw.script]; exact hf.script
  · cases hp

theorem exec_kinds {prog : Program} {s s1 : task_io_service} {t : Nat} {c : Cmd}
    (h : exec prog s t c = some s1) : kinds s1 = kinds s := by
  cases c with
  | post hd => exact (post_control h).2.1
  | dispatch hd =>
    simp only [exec, dispatch] at h
    split at h
    · exact (upcall_frame h).kinds
    · exact (post_control h).2.1
  | interrupt => exact (interrupt_all_threads_frame h).kinds
  | reset =>
    simp only [exec, reset, Option.some.injEq] at h
    rw [← h]; rfl
  | work_started =>
    simp only [exec, work_started, Option.some.injEq] at h
    rw [← h]; rfl
  | work_finished =>
    simp only [exec, work_finished] at h
    split at h
    · exact (interrupt_all_threads_frame h).kinds
    · simp only [Option.some.injEq] at h
      rw [← h]; rfl
  | throws => simp [exec] at h

/-- No call other than `reset` clears `interrupted_`. -/
theorem exec_sticky {prog : Program} {s s1 : task_io_service} {t : Nat} {c : Cmd}
    (h : exec prog s t c = some s1) (hc : c ≠ Cmd.reset) (hi : s.interrupted_ = true) :
    s1.interrupted_ = true := by
  cases c with
  | post hd => rw [(post_control h).1]; exact hi
  | dispatch hd =>
    simp only [exec, dispatch] at h
    split at h
    · rw [(upcall_frame h).interrupted]; exact hi
    · rw [(post_control h).1]; exact hi
  | interrupt => rw [(interrupt_all_threads_frame h).interrupted]
  | reset => exact absurd rfl hc
  | work_started =>
    simp only [exec, work_started, Option.some.injEq] at h
    rw [← h]; exact hi
  | work_finished =>
    simp only [exec, work_finished] at h
    split at h
    · rw [(interrupt_all_threads_frame h).interrupted]
    · simp only [Option.some.injEq] at h
      rw [← h]; exact hi
  | throws => simp [exec] at h

theorem is_outside_eq (s : task_io_service) (t : Nat) :
    is_outside s t = true ↔ (kinds s)[t]? = none ∨ (kinds s)[t]? = some Kind.outside := by
  unfold is_outside kinds
  rw [List.getElem?_map]
  cases h : s.threads[t]? with
  | none => simp
  | some th =>
    cases hp : th.pc <;> simp [hp, Pc.kind]

theorem is_outside_set_pc {s s1 : task_io_service} {t : Nat} {pc : Pc}
    (h : set_pc s t pc = some s1) : (kinds s1)[t]? = some pc.kind := by
  obtain ⟨th, hth, _⟩ := set_pc_some h
  have hlt : t < (kinds s).length := by
    rw [kinds_length]; exact (List.getElem?_eq_some.1 hth).1
  rw [set_pc_kinds h, List.getElem?_set]
  simp [hlt]

/-- When the loop of `run` leaves thread `t` outside `run`, then `run` has
returned normally and `interrupted_` is set; when `interrupted_` was clear at
the loop test, the loop was left because no work is outstanding, and it is
`run` that has set `interrupted_`. -/
theorem run_loop_outside {prog : Program} {s s1 : task_io_service} {t : Nat}
    (h : run_loop prog s t = some s1) (ho : is_outside s1 t = true) :
    s1.interrupted_ = true ∧ s1.trace.getLast? = some (Event.run_return t) ∧
      (s.interrupted_ = false → s1.outstanding_work_ ≤ 0) := by
  rw [is_outside_eq] at ho
  by_cases hcond : s.interrupted_ = false ∧ 0 < s.outstanding_work_
  · exfalso
    cases hQ : s.handler_queue_ with
    | none =>
      rw [run_loop_park prog s t hcond hQ] at h
      obtain ⟨s2, _, hs⟩ := park_spec h
      have := is_outside_set_pc hs
      rw [this] at ho
      simp [Pc.kind] at ho
    | some r =>
      unfold run_loop at h
      rw [if_pos hcond] at h
      simp only [hQ] at h
      split at h
      · split at h
        · have := is_outside_set_pc h
          rw [this] at ho
          simp [Pc.kind] at ho
        · split at h
          · have := is_outside_set_pc h
            rw [this] at ho
            simp [Pc.kind] at ho
          · cases h
      · cases h
  · rw [run_loop_exit prog s t hcond] at h
    obtain ⟨s2, hs2, hI, hs⟩ := run_exit_spec h
    obtain ⟨_, _, e3, _, _, e6, _, _, e9⟩ := set_pc_fields hs
    refine ⟨by rw [e6]; exact hI, ?_, ?_⟩
    · rw [e9]
      simp
    · intro hi
      have hw : s2.outstanding_work_ = s.outstanding_work_ := by
        rcases hs2 with rfl | hf
        · rfl
        · exact hf.work
      rw [e3]
      show s2.outstanding_work_ ≤ 0
      rw [hw]
      by_contra hpos
      exact hcond ⟨hi, by omega⟩

theorem run_loop_sticky {prog : Program} {s s1 : task_io_service} {t : Nat}
    (h : run_loop prog s t = some s1) (hi : s.interrupted_ = true) :
    s1.interrupted_ = true := by
  have hcond : ¬ (s.interrupted_ = false ∧ 0 < s.outstanding_work_) := by simp [hi]
  rw [run_loop_exit prog s t hcond] at h
  obtain ⟨s2, _, hI, hs⟩ := run_exit_spec h
  obtain ⟨_, _, _, _, _, e6, _, _, _⟩ := set_pc_fields hs
  rw [e6]; exact hI

end task_io_service

end asio.detail

/-! ## The accept operation -/

namespace asio.detail

namespace win_iocp_socket_accept_op

theorem get_peer_address_effects (K : win_constants) (env : platform) (f : frame) :
    ∃ mid, (get_peer_address K env f).effects = f.effects ++ mid ∧
      ∀ e ∈ mid, is_finalize_step e = true := by
  unfold get_peer_address
  split_ifs
  · exact ⟨[Effect.get_sockaddrs], rfl, by simp [is_finalize_step]⟩
  · exact ⟨[Effect.get_sockaddrs], rfl, by simp [is_finalize_step]⟩
  · exact ⟨[], by simp, by simp⟩

theorem update_accept_context_effects (env : platform) (f : frame) :
    ∃ mid, (update_accept_context env f).effects = f.effects ++ mid ∧
      ∀ e ∈ mid, is_finalize_step e = true := by
  unfold update_accept_context
  split_ifs
  · exact ⟨[Effect.setsockopt f.o.new_socket_], rfl, by simp [is_finalize_step]⟩
  · exact ⟨[], by simp, by simp⟩

theorem assign_peer_effects (K : win_constants) (env : platform) (f : frame) :
    ∃ mid, (assign_peer K env f).effects = f.effects ++ mid ∧
      ∀ e ∈ mid, is_finalize_step e = true := by
  unfold assign_peer
  split_ifs
  · exact ⟨_, rfl, by simp [is_finalize_step]⟩
  · exact ⟨_, rfl, by simp [is_finalize_step]⟩
  · exact ⟨[], by simp, by simp⟩

theorem pass_endpoint_effects (f : frame) :
    ∃ mid, (pass_endpoint f).effects = f.effects ++ mid ∧
      ∀ e ∈ mid, is_finalize_step e = true := by
  unfold pass_endpoint
  split_ifs
  · exact ⟨_, rfl, by simp [is_finalize_step]⟩
  · exact ⟨[], by simp, by simp⟩

theorem finalize_effects (K : win_constants) (env : platform) (o : accept_op) (ec : error_code)
    (eff : List Effect) :
    ∃ mid ec1, finalize K env o ec eff =
        { effects := eff ++ mid ++ [Effect.free_op, Effect.upcall ec1], op := none } ∧
      ∀ e ∈ mid, is_finalize_step e = true := by
  obtain ⟨m1, h1, p1⟩ := get_peer_address_effects K env
    { o := o, ec := ec, peer_endpoint := none, effects := eff }
  obtain ⟨m2, h2, p2⟩ := update_accept_context_effects env (get_peer_address K env
    { o := o, ec := ec, peer_endpoint := none, effects := eff })
  obtain ⟨m3, h3, p3⟩ := assign_peer_effects K env (update_accept_context env (get_peer_address K env
    { o := o, ec := ec, peer_endpoint := none, effects := eff }))
  obtain ⟨m4, h4, p4⟩ := pass_endpoint_effects (assign_peer K env (update_accept_context env
    (get_peer_address K env { o := o, ec := ec, peer_endpoint := none, effects := eff })))
  refine ⟨m1 ++ m2 ++ m3 ++ m4, (pass_endpoint (assign_peer K env (update_accept_context env
    (get_peer_address K env { o := o, ec := ec, peer_endpoint := none, effects := eff })))).ec,
    ?_, ?_⟩
  · simp only [finalize, finish, h4, h3, h2, h1, if_true, List.append_assoc, List.singleton_append,
      List.nil_append, List.cons_append]
  · intro e he
    simp only [List.mem_append] at he
    rcases he with ((he | he) | he) | he
    · exact p1 e he
    · exact p2 e he
    · exact p3 e he
    · exact p4 e he

theorem finalize_of_error (K : win_constants) (env : platform) (o : accept_op) (ec : error_code)
    (eff : List Effect) (hec : ec.value ≠ 0) :
    finalize K env o ec eff =
      finish true ec (eff ++ if o.has_peer_endpoint_ = true then
        [Effect.write_peer_endpoint none] else []) := by
  simp only [finalize, get_peer_address, update_accept_context, assign_peer, pass_endpoint,
    if_neg hec]
  split_ifs <;> simp

theorem do_complete_of_no_retry (K : win_constants) (env : platform) (o : accept_op)
    (ec : error_code) (bytes_transferred : Nat)
    (hc : ¬ (map_netname_deleted K ec = connection_aborted K ∧
      o.enable_connection_aborted_ = false)) :
    do_complete K env true o ec bytes_transferred =
      finalize K env o (map_netname_deleted K ec) [] := by
  simp only [do_complete, if_true, if_neg hc]

theorem finalize_no_retry_effects (K : win_constants) (env : platform) (eff : List Effect)
    (h1 : Effect.overlapped_reset ∉ eff) (h2 : ∀ l n, Effect.accept_ex l n ∉ eff)
    (o1 : accept_op) (ec1 : error_code) :
    Effect.overlapped_reset ∉ (finalize K env o1 ec1 eff).effects ∧
      ∀ l n, Effect.accept_ex l n ∉ (finalize K env o1 ec1 eff).effects := by
  obtain ⟨mid, ec2, h, hm⟩ := finalize_effects K env o1 ec1 eff
  rw [h]
  constructor
  · simp only [List.mem_append, List.mem_cons, List.mem_singleton, not_or]
    refine ⟨⟨h1, fun hh => ?_⟩, by simp, by simp⟩
    simpa [is_finalize_step] using hm _ hh
  · intro l n
    simp only [List.mem_append, List.mem_cons, List.mem_singleton, not_or]
    refine ⟨⟨h2 l n, fun hh => ?_⟩, by simp, by simp⟩
    simpa [is_finalize_step] using hm _ hh

/-- C9. Called with a null owner, `do_complete` frees the operation storage
once and does nothing else, whatever the error code, the byte count and the
state of the operation: no upcall of the user handler, no socket created, no
accept reissued, no `work_started`, no write to the peer socket or to the
peer endpoint of the caller. -/
theorem do_complete_null_owner (K : win_constants) (env : platform) (o : accept_op)
    (ec : error_code) (bytes_transferred : Nat) :
    do_complete K env false o ec bytes_transferred =
      { effects := [Effect.free_op], op := none } := by
  simp [do_complete, finish]

/-- C10. With a non-null owner, `do_complete` maps a network-name-deleted
error to `connection_aborted` and enters the retry procedure (which starts
with `o->reset()`) exactly when the mapped error is `connection_aborted` and
`enable_connection_aborted_` is false. When the flag is true and the error is
network-name-deleted or `connection_aborted`, nothing is reissued and the
user handler is upcalled once, with `connection_aborted`; for any other error
there is no retry whatever the flag. -/
theorem do_complete_accept_decision (K : win_constants) (env : platform) (o : accept_op)
    (ec : error_code) (bytes_transferred : Nat) :
    (ec.value = K.ERROR_NETNAME_DELETED → map_netname_deleted K ec = connection_aborted K) ∧
    (Effect.overlapped_reset ∈ (do_complete K env true o ec bytes_transferred).effects ↔
      (map_netname_deleted K ec = connection_aborted K ∧ o.enable_connection_aborted_ = false)) ∧
    (K.WSAECONNABORTED ≠ 0 → o.enable_connection_aborted_ = true →
      (ec.value = K.ERROR_NETNAME_DELETED ∨ ec = connection_aborted K) →
      do_complete K env true o ec bytes_transferred =
        { effects := (if o.has_peer_endpoint_ = true then [Effect.write_peer_endpoint none]
            else []) ++ [Effect.free_op, Effect.upcall (connection_aborted K)]
          op := none }) ∧
    (ec.value ≠ K.ERROR_NETNAME_DELETED → ec ≠ connection_aborted K →
      Effect.overlapped_reset ∉ (do_complete K env true o ec bytes_transferred).effects ∧
      ∀ l n, Effect.accept_ex l n ∉ (do_complete K env true o ec bytes_transferred).effects) := by
  refine ⟨fun h => by simp [map_netname_deleted, h], ?_, ?_, ?_⟩
  · constructor
    · intro h
      by_contra hc
      rw [do_complete_of_no_retry K env o ec bytes_transferred hc] at h
      exact (finalize_no_retry_effects K env [] (by simp) (by simp) o _).1 h
    · intro hc
      simp only [do_complete, if_true, if_pos hc]
      split_ifs
      · simp
      · obtain ⟨mid, ec2, h, -⟩ := finalize_effects K env
          { o with new_socket_ := env.socket_result }
          { value := env.last_error, category := 0 }
          ([Effect.overlapped_reset, Effect.new_socket_reset, Effect.socket_create] ++
            [Effect.accept_ex o.socket_ env.socket_result])
        rw [h]; simp
      · simp
      · obtain ⟨mid, ec2, h, -⟩ := finalize_effects K env
          { o with new_socket_ := env.socket_result } env.socket_ec
          [Effect.overlapped_reset, Effect.new_socket_reset, Effect.socket_create]
        rw [h]; simp
  · intro hK hflag hec
    have hmap : map_netname_deleted K ec = connection_aborted K := by
      unfold map_netname_deleted
      rcases hec with h | h
      · rw [if_pos h]
      · split_ifs <;> simp [h]
    have hc : ¬ (map_netname_deleted K ec = connection_aborted K ∧
        o.enable_connection_aborted_ = false) := by simp [hflag]
    rw [do_complete_of_no_retry K env o ec bytes_transferred hc, hmap,
      finalize_of_error K env o _ _ (by simpa [connection_aborted] using hK)]
    simp [finish]
  · intro h1 h2
    have hc : ¬ (map_netname_deleted K ec = connection_aborted K ∧
        o.enable_connection_aborted_ = false) := by
      simp [map_netname_deleted, if_neg h1, h2]
    rw [do_complete_of_no_retry K env o ec bytes_transferred hc]
    exact finalize_no_retry_effects K env [] (by simp) (by simp) o _

/-- Witness of C10: a network-name-deleted completion of an operation that
surfaces aborted connections. -/
theorem do_complete_accept_decision_witness :
    winsock.WSAECONNABORTED ≠ 0 ∧
    do_complete winsock
      { socket_result := 5, socket_ec := ⟨0, 0⟩, accept_result := false, last_error := 997,
        remote_addr_length := 16, capacity := 128, setsockopt_ec := ⟨0, 0⟩, assign_ec := ⟨0, 0⟩ }
      true
      { socket_ := 3, new_socket_ := 4, has_peer_endpoint_ := true,
        enable_connection_aborted_ := true }
      ⟨64, 0⟩ 0 =
      { effects := [Effect.write_peer_endpoint none, Effect.free_op,
          Effect.upcall (connection_aborted winsock)], op := none } :=
  ⟨by decide, (do_complete_accept_decision winsock _ _ ⟨64, 0⟩ 0).2.2.1 (by decide) rfl
    (Or.inl rfl)⟩

end win_iocp_socket_accept_op

end asio.detail

/-! ## The accept operation: the retry procedure and the finalize path -/

namespace asio.detail

namespace win_iocp_socket_accept_op

theorem do_complete_of_retry (K : win_constants) (env : platform) (o : accept_op)
    (ec : error_code) (bytes_transferred : Nat)
    (hc : map_netname_deleted K ec = connection_aborted K ∧
      o.enable_connection_aborted_ = false)
    (hsock : env.socket_result ≠ K.invalid_socket) :
    do_complete K env true o ec bytes_transferred =
      if env.accept_result = false ∧ env.last_error ≠ K.WSA_IO_PENDING then
        if env.last_error = K.ERROR_NETNAME_DELETED ∨ env.last_error = K.WSAECONNABORTED then
          { effects := [Effect.overlapped_reset, Effect.new_socket_reset, Effect.socket_create,
              Effect.accept_ex o.socket_ env.socket_result, Effect.work_started,
              Effect.on_completion { value := env.last_error, category := 0 }]
            op := some { o with new_socket_ := env.socket_result } }
        else
          finalize K env { o with new_socket_ := env.socket_result }
            { value := env.last_error, category := 0 }
            [Effect.overlapped_reset, Effect.new_socket_reset, Effect.socket_create,
              Effect.accept_ex o.socket_ env.socket_result]
      else
        { effects := reissued o.socket_ env.socket_result
          op := some { o with new_socket_ := env.socket_result } } := by
  simp only [do_complete, if_true, if_pos hc, if_pos hsock, reissued, List.cons_append,
    List.nil_append]

theorem finalize_overflow (K : win_constants) (env : platform) (o : accept_op)
    (ec : error_code) (eff : List Effect) (hec : ec.value = 0) (hI : K.WSAEINVAL ≠ 0)
    (hcap : env.capacity < to_size_t K env.remote_addr_length) :
    finalize K env o ec eff =
      { effects := eff ++ [Effect.get_sockaddrs] ++
          (if o.has_peer_endpoint_ = true then [Effect.write_peer_endpoint none] else []) ++
          [Effect.free_op, Effect.upcall (invalid_argument K)]
        op := none } := by
  have hI2 : (invalid_argument K).value ≠ 0 := hI
  simp only [finalize, get_peer_address, update_accept_context, assign_peer, pass_endpoint,
    if_pos hec, if_pos hcap, if_neg hI2, finish, if_true]
  split_ifs <;> simp

theorem finalize_within (K : win_constants) (env : platform) (o : accept_op)
    (ec : error_code) (eff : List Effect) (hec : ec.value = 0)
    (hcap : to_size_t K env.remote_addr_length ≤ env.capacity) :
    finalize K env o ec eff =
      { effects := eff ++ [Effect.get_sockaddrs, Effect.setsockopt o.new_socket_] ++
          (if env.setsockopt_ec.value = 0 then
            Effect.peer_assign o.new_socket_ (some (to_size_t K env.remote_addr_length)) ::
              (if env.assign_ec.value = 0 then [Effect.new_socket_release] else [])
            else []) ++
          (if o.has_peer_endpoint_ = true then
            [Effect.write_peer_endpoint (some (to_size_t K env.remote_addr_length))] else []) ++
          [Effect.free_op,
            Effect.upcall (if env.setsockopt_ec.value = 0 then env.assign_ec
              else env.setsockopt_ec)]
        op := none } := by
  have hcap2 : ¬ env.capacity < to_size_t K env.remote_addr_length := Nat.not_lt.2 hcap
  simp only [finalize, get_peer_address, update_accept_context, assign_peer, pass_endpoint,
    if_pos hec, if_neg hcap2, finish, if_true]
  split_ifs <;> simp

theorem map_of_success (K : win_constants) (ec : error_code) (hN : K.ERROR_NETNAME_DELETED ≠ 0)
    (hA : K.WSAECONNABORTED ≠ 0) (hec : ec.value = 0) :
    map_netname_deleted K ec = ec ∧ ec ≠ connection_aborted K := by
  constructor
  · unfold map_netname_deleted
    rw [if_neg]
    rw [hec]
    exact fun h => hN h.symm
  · intro h
    rw [h] at hec
    exact hA hec

theorem to_size_t_of_nonneg (K : win_constants) (n : Int) (h0 : 0 ≤ n)
    (hlt : n < 2 ^ K.size_t_bits) : (to_size_t K n : Int) = n := by
  unfold to_size_t
  rw [Int.emod_eq_of_lt h0 hlt]
  exact Int.toNat_of_nonneg h0

/-- C11. When the retry procedure reissues the accept (the mapped error is
`connection_aborted`, `enable_connection_aborted_` is false and a new socket
could be created) and `AcceptEx` fails with network-name-deleted or with
connection-aborted, `do_complete` calls `work_started` once, hands the
operation to `on_completion` with the new error, and returns; when `AcceptEx`
fails with `WSA_IO_PENDING`, `do_complete` calls `work_started` once, hands
the operation to `on_pending`, and returns. In both cases the operation is
still alive (not freed), the user handler is not called, and neither the peer
socket nor the peer endpoint of the caller is touched: these are all the
effects of the call. -/
theorem do_complete_retry_hand_off (K : win_constants) (env : platform) (o : accept_op)
    (ec : error_code) (bytes_transferred : Nat)
    (hp1 : K.ERROR_NETNAME_DELETED ≠ K.WSA_IO_PENDING)
    (hp2 : K.WSAECONNABORTED ≠ K.WSA_IO_PENDING)
    (hc : map_netname_deleted K ec = connection_aborted K ∧
      o.enable_connection_aborted_ = false)
    (hsock : env.socket_result ≠ K.invalid_socket) (hacc : env.accept_result = false) :
    ((env.last_error = K.ERROR_NETNAME_DELETED ∨ env.last_error = K.WSAECONNABORTED) →
      do_complete K env true o ec bytes_transferred =
        { effects := [Effect.overlapped_reset, Effect.new_socket_reset, Effect.socket_create,
            Effect.accept_ex o.socket_ env.socket_result, Effect.work_started,
            Effect.on_completion { value := env.last_error, category := 0 }]
          op := some { o with new_socket_ := env.socket_result } }) ∧
    (env.last_error = K.WSA_IO_PENDING →
      do_complete K env true o ec bytes_transferred =
        { effects := [Effect.overlapped_reset, Effect.new_socket_reset, Effect.socket_create,
            Effect.accept_ex o.socket_ env.socket_result, Effect.work_started,
            Effect.on_pending]
          op := some { o with new_socket_ := env.socket_result } }) := by
  rw [do_complete_of_retry K env o ec bytes_transferred hc hsock]
  constructor
  · intro h
    have hne : env.last_error ≠ K.WSA_IO_PENDING := by
      rcases h with h | h
      · rw [h]; exact hp1
      · rw [h]; exact hp2
    rw [if_pos ⟨hacc, hne⟩, if_pos h]
  · intro h
    rw [if_neg (fun hh => hh.2 h)]
    rfl

/-- Witness of C11: a network-name-deleted completion whose reissue is
pending. -/
theorem do_complete_retry_hand_off_witness :
    do_complete winsock
      { socket_result := 5, socket_ec := ⟨0, 0⟩, accept_result := false, last_error := 997,
        remote_addr_length := 16, capacity := 128, setsockopt_ec := ⟨0, 0⟩, assign_ec := ⟨0, 0⟩ }
      true
      { socket_ := 3, new_socket_ := 4, has_peer_endpoint_ := true,
        enable_connection_aborted_ := false }
      ⟨64, 0⟩ 0 =
      { effects := [Effect.overlapped_reset, Effect.new_socket_reset, Effect.socket_create,
          Effect.accept_ex 3 5, Effect.work_started, Effect.on_pending]
        op := some ⟨3, 5, true, false⟩ } :=
  (do_complete_retry_hand_off winsock _ _ ⟨64, 0⟩ 0 (by decide) (by decide)
    ⟨by decide, rfl⟩ (by decide) rfl).2 rfl

/-- C12. When the reissued `AcceptEx` fails (returns `FALSE`) with an error
that is neither `WSA_IO_PENDING` nor network-name-deleted nor
connection-aborted, `do_complete` does not return early: it goes through the
finalize path of the same call with that error, frees the operation and
upcalls the user handler once, with effects of the finalize path only in
between and no `work_started`; when the error is not zero the handler
receives exactly that error. When `AcceptEx` returns `TRUE` (it succeeded at
once) `do_complete` does as for a pending accept: `work_started`,
`on_pending`, and return, the operation still alive and the handler not
called. -/
theorem do_complete_reissue_falls_through (K : win_constants) (env : platform) (o : accept_op)
    (ec : error_code) (bytes_transferred : Nat)
    (hc : map_netname_deleted K ec = connection_aborted K ∧
      o.enable_connection_aborted_ = false)
    (hsock : env.socket_result ≠ K.invalid_socket) :
    (env.accept_result = false → env.last_error ≠ K.WSA_IO_PENDING →
      env.last_error ≠ K.ERROR_NETNAME_DELETED → env.last_error ≠ K.WSAECONNABORTED →
      (∃ mid ec1, do_complete K env true o ec bytes_transferred =
          { effects := [Effect.overlapped_reset, Effect.new_socket_reset, Effect.socket_create,
              Effect.accept_ex o.socket_ env.socket_result] ++ mid ++
              [Effect.free_op, Effect.upcall ec1]
            op := none } ∧
        (∀ e ∈ mid, is_finalize_step e = true) ∧
        (env.last_error ≠ 0 → ec1 = { value := env.last_error, category := 0 } ∧
          mid = if o.has_peer_endpoint_ = true then [Effect.write_peer_endpoint none]
            else []))) ∧
    (env.accept_result = true →
      do_complete K env true o ec bytes_transferred =
        { effects := [Effect.overlapped_reset, Effect.new_socket_reset, Effect.socket_create,
            Effect.accept_ex o.socket_ env.socket_result, Effect.work_started,
            Effect.on_pending]
          op := some { o with new_socket_ := env.socket_result } }) := by
  rw [do_complete_of_retry K env o ec bytes_transferred hc hsock]
  constructor
  · intro hacc h1 h2 h3
    rw [if_pos ⟨hacc, h1⟩, if_neg (fun h => h.elim h2 h3)]
    by_cases h0 : env.last_error = 0
    · obtain ⟨mid, ec1, h, hm⟩ := finalize_effects K env
        { o with new_socket_ := env.socket_result } { value := env.last_error, category := 0 }
        [Effect.overlapped_reset, Effect.new_socket_reset, Effect.socket_create,
          Effect.accept_ex o.socket_ env.socket_result]
      exact ⟨mid, ec1, h, hm, fun hne => absurd h0 hne⟩
    · refine ⟨if o.has_peer_endpoint_ = true then [Effect.write_peer_endpoint none] else [],
        { value := env.last_error, category := 0 }, ?_, ?_, fun _ => ⟨rfl, rfl⟩⟩
      · rw [finalize_of_error K env _ _ _ h0]
        simp [finish]
      · intro e he
        split_ifs at he
        · simp only [List.mem_singleton] at he
          rw [he]; rfl
        · cases he
  · intro hacc
    rw [if_neg (fun h => by rw [hacc] at h; exact absurd h.1 (by decide))]
    rfl

/-- Witness of C12: the reissued accept fails with `WSAENOBUFS` (10055). -/
theorem do_complete_reissue_falls_through_witness :
    do_complete winsock
      { socket_result := 5, socket_ec := ⟨0, 0⟩, accept_result := false, last_error := 10055,
        remote_addr_length := 16, capacity := 128, setsockopt_ec := ⟨0, 0⟩, assign_ec := ⟨0, 0⟩ }
      true
      { socket_ := 3, new_socket_ := 4, has_peer_endpoint_ := false,
        enable_connection_aborted_ := false }
      ⟨64, 0⟩ 0 =
      { effects := [Effect.overlapped_reset, Effect.new_socket_reset, Effect.socket_create,
          Effect.accept_ex 3 5, Effect.free_op, Effect.upcall ⟨10055, 0⟩]
        op := none } := by
  obtain ⟨mid, ec1, h, _, h2⟩ := (do_complete_reissue_falls_through winsock
    { socket_result := 5, socket_ec := ⟨0, 0⟩, accept_result := false, last_error := 10055,
      remote_addr_length := 16, capacity := 128, setsockopt_ec := ⟨0, 0⟩, assign_ec := ⟨0, 0⟩ }
    { socket_ := 3, new_socket_ := 4, has_peer_endpoint_ := false,
      enable_connection_aborted_ := false }
    ⟨64, 0⟩ 0 ⟨by decide, rfl⟩ (by decide)).1 rfl (by decide) (by decide) (by decide)
  obtain ⟨e1, e2⟩ := h2 (by decide)
  rw [h, e1, e2]
  rfl

/-- Counterexample to C12 as stated: the reissued `AcceptEx` succeeds at once
(it returns `TRUE`, and the last error is neither `WSA_IO_PENDING` nor
network-name-deleted nor connection-aborted), and `do_complete` returns early
after `work_started` and `on_pending`, with the operation alive and without
the upcall. -/
theorem do_complete_synchronous_success :
    do_complete winsock
      { socket_result := 5, socket_ec := ⟨0, 0⟩, accept_result := true, last_error := 0,
        remote_addr_length := 16, capacity := 128, setsockopt_ec := ⟨0, 0⟩, assign_ec := ⟨0, 0⟩ }
      true
      { socket_ := 3, new_socket_ := 4, has_peer_endpoint_ := true,
        enable_connection_aborted_ := false }
      ⟨64, 0⟩ 0 =
      { effects := [Effect.overlapped_reset, Effect.new_socket_reset, Effect.socket_create,
          Effect.accept_ex 3 5, Effect.work_started, Effect.on_pending]
        op := some ⟨3, 5, true, false⟩ } := by
  decide

/-- C13. In the finalize path of a completion with a non-null owner and no
error, the length `remote_addr_length` is compared, as a `std::size_t`, with
the capacity of the endpoint. When it is larger the error becomes
`invalid_argument`: `SO_UPDATE_ACCEPT_CONTEXT` is not set, the new socket is
not assigned to the peer, and the user handler is upcalled once, with
`invalid_argument`. When it is not larger the endpoint is resized to exactly
that length and the check sets no error: the option is set on the new socket,
and the error the handler receives is that of `setsockopt` or of
`peer_.assign`. The cast leaves a non-negative length unchanged. -/
theorem finalize_bounds_check (K : win_constants) (env : platform) (o : accept_op)
    (ec : error_code) (bytes_transferred : Nat) (hN : K.ERROR_NETNAME_DELETED ≠ 0)
    (hA : K.WSAECONNABORTED ≠ 0) (hI : K.WSAEINVAL ≠ 0) (hec : ec.value = 0) :
    (env.capacity < to_size_t K env.remote_addr_length →
      do_complete K env true o ec bytes_transferred =
        { effects := [Effect.get_sockaddrs] ++
            (if o.has_peer_endpoint_ = true then [Effect.write_peer_endpoint none] else []) ++
            [Effect.free_op, Effect.upcall (invalid_argument K)]
          op := none }) ∧
    (to_size_t K env.remote_addr_length ≤ env.capacity →
      get_peer_address K env { o := o, ec := ec, peer_endpoint := none, effects := [] } =
        { o := o, ec := ec, peer_endpoint := some (to_size_t K env.remote_addr_length),
          effects := [Effect.get_sockaddrs] } ∧
      do_complete K env true o ec bytes_transferred =
        { effects := [Effect.get_sockaddrs, Effect.setsockopt o.new_socket_] ++
            (if env.setsockopt_ec.value = 0 then
              Effect.peer_assign o.new_socket_ (some (to_size_t K env.remote_addr_length)) ::
                (if env.assign_ec.value = 0 then [Effect.new_socket_release] else [])
              else []) ++
            (if o.has_peer_endpoint_ = true then
              [Effect.write_peer_endpoint (some (to_size_t K env.remote_addr_length))]
              else []) ++
            [Effect.free_op,
              Effect.upcall (if env.setsockopt_ec.value = 0 then env.assign_ec
                else env.setsockopt_ec)]
          op := none }) ∧
    (0 ≤ env.remote_addr_length → env.remote_addr_length < 2 ^ K.size_t_bits →
      (to_size_t K env.remote_addr_length : Int) = env.remote_addr_length) := by
  obtain ⟨hmap, hne⟩ := map_of_success K ec hN hA hec
  have hc : ¬ (map_netname_deleted K ec = connection_aborted K ∧
      o.enable_connection_aborted_ = false) := by
    rw [hmap]
    exact fun h => hne h.1
  rw [do_complete_of_no_retry K env o ec bytes_transferred hc, hmap]
  refine ⟨fun hcap => ?_, fun hcap => ⟨?_, ?_⟩, to_size_t_of_nonneg K _⟩
  · rw [finalize_overflow K env o ec [] hec hI hcap]
    simp
  · simp [get_peer_address, hec, Nat.not_lt.2 hcap]
  · rw [finalize_within K env o ec [] hec hcap]
    simp

/-- Witness of C13: a remote address of 200 bytes for an endpoint of capacity
128. -/
theorem finalize_bounds_check_witness :
    do_complete winsock
      { socket_result := 5, socket_ec := ⟨0, 0⟩, accept_result := false, last_error := 0,
        remote_addr_length := 200, capacity := 128, setsockopt_ec := ⟨0, 0⟩,
        assign_ec := ⟨0, 0⟩ }
      true
      { socket_ := 3, new_socket_ := 4, has_peer_endpoint_ := true,
        enable_connection_aborted_ := false }
      ⟨0, 0⟩ 0 =
      { effects := [Effect.get_sockaddrs, Effect.write_peer_endpoint none, Effect.free_op,
          Effect.upcall (invalid_argument winsock)]
        op := none } :=
  (finalize_bounds_check winsock
    { socket_result := 5, socket_ec := ⟨0, 0⟩, accept_result := false, last_error := 0,
      remote_addr_length := 200, capacity := 128, setsockopt_ec := ⟨0, 0⟩, assign_ec := ⟨0, 0⟩ }
    { socket_ := 3, new_socket_ := 4, has_peer_endpoint_ := true,
      enable_connection_aborted_ := false }
    ⟨0, 0⟩ 0 (by decide) (by decide) (by decide) rfl).1 (by decide)

end win_iocp_socket_accept_op

end asio.detail

/-! ## The accept operation: a sequence of completions -/

namespace asio.detail

namespace win_iocp_socket_accept_op

theorem drive_single (K : win_constants) (o : accept_op) (c : platform × error_code × Nat) :
    drive K o [c] = [do_complete K c.1 true o c.2.1 c.2.2] := by
  simp only [drive]
  split <;> rfl

theorem drive_cons_alive (K : win_constants) (o o1 : accept_op)
    (c : platform × error_code × Nat) (rest : List (platform × error_code × Nat))
    (eff : List Effect)
    (h : do_complete K c.1 true o c.2.1 c.2.2 = { effects := eff, op := some o1 }) :
    drive K o (c :: rest) = { effects := eff, op := some o1 } :: drive K o1 rest := by
  simp only [drive, h]

theorem do_complete_pending (K : win_constants) (o : accept_op)
    (c : platform × error_code × Nat)
    (hflag : o.enable_connection_aborted_ = false)
    (hc : c.2.1.value = K.ERROR_NETNAME_DELETED ∧ c.1.socket_result ≠ K.invalid_socket ∧
      c.1.accept_result = false ∧ c.1.last_error = K.WSA_IO_PENDING) :
    do_complete K c.1 true o c.2.1 c.2.2 =
      { effects := reissued o.socket_ c.1.socket_result
        op := some { o with new_socket_ := c.1.socket_result } } := by
  have hmap : map_netname_deleted K c.2.1 = connection_aborted K := by
    unfold map_netname_deleted
    rw [if_pos hc.1]
  rw [do_complete_of_retry K c.1 o c.2.1 c.2.2 ⟨hmap, hflag⟩ hc.2.1,
    if_neg (fun h => h.2 hc.2.2.2)]

/-- The completions that report network-name-deleted and whose reissue is
pending, one after the other: each call reissues the accept on a fresh socket
and keeps the operation alive. -/
theorem drive_pending (K : win_constants)
    (r : platform × error_code × Nat) (tail : List (platform × error_code × Nat)) :
    ∀ (rs : List (platform × error_code × Nat)) (o : accept_op),
      o.enable_connection_aborted_ = false →
      (∀ c ∈ rs ++ [r], c.2.1.value = K.ERROR_NETNAME_DELETED ∧
        c.1.socket_result ≠ K.invalid_socket ∧ c.1.accept_result = false ∧
        c.1.last_error = K.WSA_IO_PENDING) →
      drive K o (rs ++ [r] ++ tail) =
        (rs ++ [r]).map (fun c =>
          ({ effects := reissued o.socket_ c.1.socket_result
             op := some { o with new_socket_ := c.1.socket_result } } : completion)) ++
        drive K { o with new_socket_ := r.1.socket_result } tail := by
  intro rs
  induction rs with
  | nil =>
    intro o hflag hall
    have h := do_complete_pending K o r hflag (hall r (by simp))
    simp only [List.nil_append, List.singleton_append, List.map_cons, List.map_nil,
      List.cons_append]
    rw [drive_cons_alive K o _ r tail _ h]
  | cons c rs ih =>
    intro o hflag hall
    have h := do_complete_pending K o c hflag (hall c (by simp))
    have hrest := ih { o with new_socket_ := c.1.socket_result } hflag
      (fun x hx => hall x (by simp only [List.cons_append, List.mem_cons]; exact Or.inr hx))
    simp only [List.cons_append, List.map_cons]
    rw [drive_cons_alive K o _ c (rs ++ [r] ++ tail) _ h, hrest]

theorem count_reissued (listener fresh : Nat) :
    (reissued listener fresh).count Effect.work_started = 1 ∧
    (reissued listener fresh).count Effect.free_op = 0 ∧
    (reissued listener fresh).countP Effect.is_upcall = 0 := by
  refine ⟨?_, ?_, ?_⟩ <;> simp [reissued, List.count_cons, Effect.is_upcall]

theorem all_effects_pending (o : accept_op) :
    ∀ (rs : List (platform × error_code × Nat)),
      (all_effects (rs.map (fun c =>
        ({ effects := reissued o.socket_ c.1.socket_result
           op := some { o with new_socket_ := c.1.socket_result } } : completion)))).count
          Effect.work_started = rs.length ∧
      (all_effects (rs.map (fun c =>
        ({ effects := reissued o.socket_ c.1.socket_result
           op := some { o with new_socket_ := c.1.socket_result } } : completion)))).count
          Effect.free_op = 0 ∧
      (all_effects (rs.map (fun c =>
        ({ effects := reissued o.socket_ c.1.socket_result
           op := some { o with new_socket_ := c.1.socket_result } } : completion)))).countP
          Effect.is_upcall = 0 := by
  intro rs
  induction rs with
  | nil => simp [all_effects]
  | cons c rs ih =>
    obtain ⟨h1, h2, h3⟩ := count_reissued o.socket_ c.1.socket_result
    obtain ⟨i1, i2, i3⟩ := ih
    simp only [all_effects] at i1 i2 i3 ⊢
    simp only [List.map_cons, List.flatten_cons, List.count_append, List.countP_append,
      List.length_cons, h1, h2, h3, i1, i2, i3]
    exact ⟨Nat.add_comm 1 rs.length, trivial, trivial⟩

theorem all_effects_append (a b : List completion) :
    all_effects (a ++ b) = all_effects a ++ all_effects b := by
  simp [all_effects]

/-- C14. With `enable_connection_aborted_` false, let the first `k`
completions of one accept operation (`k = rs.length + 1`) report
network-name-deleted, each reissue creating a socket and being pending, and
let the next completion report success with a remote address that fits the
endpoint and with `setsockopt` and `peer_.assign` succeeding. Then
`do_complete` is called `k + 1` times; the first `k` calls reissue the accept
and keep the operation alive; the last call sets the option on the socket
created by the last reissue, assigns that socket to the peer, releases it,
frees the operation and upcalls the user handler with no error. Over all the
calls `work_started` is called exactly `k` times, the operation is freed
exactly once and the user handler is upcalled exactly once. -/
theorem accept_retry_end_to_end (K : win_constants) (o : accept_op)
    (rs : List (platform × error_code × Nat)) (r final : platform × error_code × Nat)
    (hN : K.ERROR_NETNAME_DELETED ≠ 0) (hA : K.WSAECONNABORTED ≠ 0)
    (hflag : o.enable_connection_aborted_ = false)
    (hretry : ∀ c ∈ rs ++ [r], c.2.1.value = K.ERROR_NETNAME_DELETED ∧
      c.1.socket_result ≠ K.invalid_socket ∧ c.1.accept_result = false ∧
      c.1.last_error = K.WSA_IO_PENDING)
    (hfinal : final.2.1.value = 0 ∧
      to_size_t K final.1.remote_addr_length ≤ final.1.capacity ∧
      final.1.setsockopt_ec.value = 0 ∧ final.1.assign_ec.value = 0) :
    drive K o (rs ++ [r] ++ [final]) =
      (rs ++ [r]).map (fun c =>
        ({ effects := reissued o.socket_ c.1.socket_result
           op := some { o with new_socket_ := c.1.socket_result } } : completion)) ++
      [{ effects := [Effect.get_sockaddrs, Effect.setsockopt r.1.socket_result,
            Effect.peer_assign r.1.socket_result
              (some (to_size_t K final.1.remote_addr_length)),
            Effect.new_socket_release] ++
            (if o.has_peer_endpoint_ = true then
              [Effect.write_peer_endpoint (some (to_size_t K final.1.remote_addr_length))]
              else []) ++
            [Effect.free_op, Effect.upcall final.1.assign_ec]
         op := none }] ∧
    (all_effects (drive K o (rs ++ [r] ++ [final]))).count Effect.work_started =
      rs.length + 1 ∧
    (all_effects (drive K o (rs ++ [r] ++ [final]))).count Effect.free_op = 1 ∧
    (all_effects (drive K o (rs ++ [r] ++ [final]))).countP Effect.is_upcall = 1 := by
  obtain ⟨hec, hcap, hso, has⟩ := hfinal
  obtain ⟨hmap, hne⟩ := map_of_success K final.2.1 hN hA hec
  have hc : ¬ (map_netname_deleted K final.2.1 = connection_aborted K ∧
      ({ o with new_socket_ := r.1.socket_result } : accept_op).enable_connection_aborted_ =
        false) := by
    rw [hmap]
    exact fun h => hne h.1
  have hlast : drive K { o with new_socket_ := r.1.socket_result } [final] =
      [{ effects := [Effect.get_sockaddrs, Effect.setsockopt r.1.socket_result,
            Effect.peer_assign r.1.socket_result
              (some (to_size_t K final.1.remote_addr_length)),
            Effect.new_socket_release] ++
            (if o.has_peer_endpoint_ = true then
              [Effect.write_peer_endpoint (some (to_size_t K final.1.remote_addr_length))]
              else []) ++
            [Effect.free_op, Effect.upcall final.1.assign_ec]
         op := none }] := by
    rw [drive_single, do_complete_of_no_retry K final.1 _ final.2.1 final.2.2 hc, hmap,
      finalize_within K final.1 _ final.2.1 [] hec hcap]
    simp [hso, has]
  have hdrive := drive_pending K r [final] rs o hflag hretry
  rw [hlast] at hdrive
  refine ⟨hdrive, ?_, ?_, ?_⟩
  · rw [hdrive, all_effects_append, List.count_append, (all_effects_pending o (rs ++ [r])).1]
    simp only [all_effects, List.map_cons, List.map_nil, List.flatten_cons, List.flatten_nil,
      List.append_nil, List.length_append, List.length_singleton]
    split_ifs <;> simp [List.count_cons]
  · rw [hdrive, all_effects_append, List.count_append, (all_effects_pending o (rs ++ [r])).2.1]
    simp only [all_effects, List.map_cons, List.map_nil, List.flatten_cons, List.flatten_nil,
      List.append_nil]
    split_ifs <;> simp [List.count_cons]
  · rw [hdrive, all_effects_append, List.countP_append,
      (all_effects_pending o (rs ++ [r])).2.2]
    simp only [all_effects, List.map_cons, List.map_nil, List.flatten_cons, List.flatten_nil,
      List.append_nil]
    split_ifs <;> simp [List.countP_cons, Effect.is_upcall]

/-- Witness of C14: two completions with network-name-deleted, then
success. -/
theorem accept_retry_end_to_end_witness :
    drive winsock ⟨3, 4, false, false⟩
      [(⟨5, ⟨0, 0⟩, false, 997, 0, 128, ⟨0, 0⟩, ⟨0, 0⟩⟩, ⟨64, 0⟩, 0),
       (⟨6, ⟨0, 0⟩, false, 997, 0, 128, ⟨0, 0⟩, ⟨0, 0⟩⟩, ⟨64, 0⟩, 0),
       (⟨7, ⟨0, 0⟩, false, 0, 16, 128, ⟨0, 0⟩, ⟨0, 0⟩⟩, ⟨0, 0⟩, 0)] =
      [{ effects := reissued 3 5, op := some ⟨3, 5, false, false⟩ },
       { effects := reissued 3 6, op := some ⟨3, 6, false, false⟩ },
       { effects := [Effect.get_sockaddrs, Effect.setsockopt 6,
           Effect.peer_assign 6 (some 16), Effect.new_socket_release, Effect.free_op,
           Effect.upcall ⟨0, 0⟩]
         op := none }] :=
  (accept_retry_end_to_end winsock ⟨3, 4, false, false⟩
    [(⟨5, ⟨0, 0⟩, false, 997, 0, 128, ⟨0, 0⟩, ⟨0, 0⟩⟩, ⟨64, 0⟩, 0)]
    (⟨6, ⟨0, 0⟩, false, 997, 0, 128, ⟨0, 0⟩, ⟨0, 0⟩⟩, ⟨64, 0⟩, 0)
    (⟨7, ⟨0, 0⟩, false, 0, 16, 128, ⟨0, 0⟩, ⟨0, 0⟩⟩, ⟨0, 0⟩, 0)
    (by decide) (by decide) rfl (by decide) (by decide)).1

end win_iocp_socket_accept_op

end asio.detail

/-! ## The run loop and the interrupted flag -/

namespace asio.detail

namespace task_io_service

theorem thread_step_outside {prog : Program} {s s1 : task_io_service} {t : Nat}
    (h : thread_step prog s t = some s1) (ho : is_outside s1 t = true) :
    (s1.interrupted_ = true ∧ s1.trace.getLast? = some (Event.run_return t) ∧
        (s.interrupted_ = false → s1.outstanding_work_ ≤ 0)) ∨
      s1.trace.getLast? = some (Event.run_throw t) := by
  have hthrow : ∀ s0, run_unwind s0 t = some s1 →
      s1.trace.getLast? = some (Event.run_throw t) := by
    intro s0 h0
    unfold run_unwind at h0
    obtain ⟨_, _, _, _, _, _, _, _, e9⟩ := set_pc_fields h0
    rw [e9]; simp
  have hexec : ∀ s0 (pc : Pc) c, pc.kind ≠ Kind.outside → set_pc s t pc = some s0 →
      exec prog s0 t c = some s1 → False := by
    intro s0 pc c hpc h0 he
    have hk := is_outside_set_pc h0
    rw [← exec_kinds he] at hk
    rw [is_outside_eq, hk] at ho
    simp at ho
    exact hpc ho
  unfold thread_step at h
  split at h
  · split at h
    · cases h
    · split at h
      · split at h
        · rename_i s2 hs2
          obtain ⟨r1, r2, r3⟩ := run_loop_outside h ho
          exact Or.inl ⟨r1, r2, fun hi => r3 (by rw [(unpark_frame hs2).interrupted]; exact hi)⟩
        · cases h
      · cases h
    · obtain ⟨r1, r2, r3⟩ := run_loop_outside h ho
      exact Or.inl ⟨r1, r2, fun hi => r3 hi⟩
    · exact Or.inr (hthrow _ h)
    · split at h
      · rename_i s2 hs2
        exact (hexec s2 _ _ (by simp [Pc.kind]) hs2 h).elim
      · cases h
    · split at h
      · rename_i s2 hs2
        obtain ⟨r1, r2, r3⟩ := run_loop_outside h ho
        unfold task_cleanup at hs2
        exact Or.inl ⟨r1, r2, fun hi => r3 (by rw [(enqueue_frame hs2).interrupted]; exact hi)⟩
      · cases h
    · split at h
      · exact Or.inr (hthrow _ h)
      · cases h
    · split at h
      · rename_i s2 hs2
        exact (hexec s2 _ _ (by simp [Pc.kind]) hs2 h).elim
      · cases h
  · cases h

theorem run_begin_outside {prog : Program} {s s1 : task_io_service} {t : Nat}
    (h : run_begin prog s t = some s1) (ho : is_outside s1 t = true) :
    s1.interrupted_ = true ∧ s1.trace.getLast? = some (Event.run_return t) ∧
      (s.interrupted_ = false → s1.outstanding_work_ ≤ 0) := by
  unfold run_begin at h
  split at h
  · split at h
    · split at h
      · rename_i s2 hs2
        split at h
        · rename_i s3 hs3
          obtain ⟨r1, r2, r3⟩ := run_loop_outside h ho
          refine ⟨r1, r2, fun hi => r3 ?_⟩
          rw [(set_idle_next_frame hs3).interrupted, (set_idle_prev_frame hs2).interrupted]
          exact hi
        · cases h
      · cases h
    · cases h
  · cases h

theorem thread_step_sticky {prog : Program} {s s1 : task_io_service} {t : Nat}
    (h : thread_step prog s t = some s1) (hc : cmd_of s (Action.move t) ≠ some Cmd.reset)
    (hi : s.interrupted_ = true) : s1.interrupted_ = true := by
  unfold thread_step at h
  split at h
  · rename_i th hth
    simp only [cmd_of, hth] at hc
    split at h
    · cases h
    · split at h
      · split at h
        · rename_i s2 hs2
          exact run_loop_sticky h (by rw [(unpark_frame hs2).interrupted]; exact hi)
        · cases h
      · cases h
    · exact run_loop_sticky h hi
    · unfold run_unwind at h
      obtain ⟨_, _, _, _, _, e6, _, _, _⟩ := set_pc_fields h
      rw [e6]; exact hi
    · rename_i c k0 hnot hpc
      simp only [hpc] at hc
      split at h
      · rename_i s2 hs2
        obtain ⟨_, _, _, _, _, e6, _, _, _⟩ := set_pc_fields hs2
        exact exec_sticky h (fun hh => hc (by rw [hh])) (by rw [e6]; exact hi)
      · cases h
    · split at h
      · rename_i s2 hs2
        unfold task_cleanup at hs2
        exact run_loop_sticky h (by rw [(enqueue_frame hs2).interrupted]; exact hi)
      · cases h
    · split at h
      · rename_i s2 hs2
        unfold task_cleanup at hs2
        unfold run_unwind at h
        obtain ⟨_, _, _, _, _, e6, _, _, _⟩ := set_pc_fields h
        rw [e6]
        show s2.interrupted_ = true
        rw [(enqueue_frame hs2).interrupted]; exact hi
      · cases h
    · rename_i b c k0 hnot hpc
      simp only [hpc] at hc
      split at h
      · rename_i s2 hs2
        obtain ⟨_, _, _, _, _, e6, _, _, _⟩ := set_pc_fields hs2
        exact exec_sticky h (fun hh => hc (by rw [hh])) (by rw [e6]; exact hi)
      · cases h
  · cases h

theorem run_begin_sticky {prog : Program} {s s1 : task_io_service} {t : Nat}
    (h : run_begin prog s t = some s1) (hi : s.interrupted_ = true) :
    s1.interrupted_ = true := by
  unfold run_begin at h
  split at h
  · split at h
    · split at h
      · rename_i s2 hs2
        split at h
        · rename_i s3 hs3
          apply run_loop_sticky h
          rw [(set_idle_next_frame hs3).interrupted, (set_idle_prev_frame hs2).interrupted]
          exact hi
        · cases h
      · cases h
    · cases h
  · cases h

/-- C3. When `interrupted_` is set, `run()` called on any thread `t` that is
outside `run` returns at once: the only call it makes is its own return (no
upcall, no `task_.run`), the thread is not parked, and the heap, the queue
pointers, `outstanding_work_`, `interrupted_` and `first_idle_thread_` are
unchanged, whatever the queue holds and whatever the counter is. -/
theorem run_when_interrupted (prog : Program) (fuel : Nat) (s : task_io_service) (t : Nat)
    (th : run_thread) (hth : s.threads[t]? = some th) (hpc : th.pc = Pc.outside)
    (hi : s.interrupted_ = true) :
    ∃ s1, run prog fuel s t = some s1 ∧
      s1.trace = s.trace ++ [Event.run_return t] ∧ is_outside s1 t = true ∧
      s1.heap = s.heap ∧ s1.handler_queue_ = s.handler_queue_ ∧
      s1.handler_queue_end_ = s.handler_queue_end_ ∧
      s1.task_handler_next_ = s.task_handler_next_ ∧
      s1.outstanding_work_ = s.outstanding_work_ ∧ s1.interrupted_ = true ∧
      s1.first_idle_thread_ = s.first_idle_thread_ ∧ s1.task_script = s.task_script ∧
      kinds s1 = kinds s := by
  have hlt : t < s.threads.length := (List.getElem?_eq_some.1 hth).1
  have h1 : set_idle_prev s t t = some { s with threads := s.threads.set t (th.with_prev t) } := by
    simp [set_idle_prev, hth]
  have h2 : set_idle_next { s with threads := s.threads.set t (th.with_prev t) } t t =
      some { s with threads := s.threads.set t ((th.with_prev t).with_next t) } := by
    simp [set_idle_next, List.getElem?_set, hlt]
  have hcond : ¬ ((false : Bool) = true) := by simp
  have h3 : run_begin prog s t =
      some { s with threads := s.threads.set t { ((th.with_prev t).with_next t) with pc := Pc.outside }
                    trace := s.trace ++ [Event.run_return t] } := by
    simp only [run_begin, hth, hpc, if_true, h1, h2]
    simp [run_loop, run_exit, hi, set_pc, List.getElem?_set, hlt]
  have hrun : run prog fuel s t =
      some { s with threads := s.threads.set t { ((th.with_prev t).with_next t) with pc := Pc.outside }
                    trace := s.trace ++ [Event.run_return t] } := by
    simp only [run, h3]
    cases fuel <;> simp [run_steps, is_outside, List.getElem?_set, hlt]
  refine ⟨_, hrun, rfl, ?_, rfl, rfl, rfl, rfl, rfl, hi, rfl, rfl, ?_⟩
  · simp [is_outside, List.getElem?_set, hlt]
  · show List.map _ (s.threads.set t _) = _
    exact map_pc_set_kind _ _ th _ hth (by simp [hpc, run_thread.with_next, run_thread.with_prev])

/-- Witness of C3: an interrupted dispatcher with a queued handler. -/
theorem run_when_interrupted_witness :
    ∃ s1, run (fun _ => []) 5
        { init 1 [] with interrupted_ := true, outstanding_work_ := 3 } 0 = some s1 ∧
      s1.trace = [Event.run_return 0] ∧ is_outside s1 0 = true ∧
      s1.heap = [] ∧ s1.handler_queue_ = some handler_ref.task ∧
      s1.handler_queue_end_ = some handler_ref.task ∧
      s1.task_handler_next_ = none ∧
      s1.outstanding_work_ = 3 ∧ s1.interrupted_ = true ∧
      s1.first_idle_thread_ = none ∧ s1.task_script = [] ∧
      kinds s1 = [Kind.outside] :=
  run_when_interrupted (fun _ => []) 5
    { init 1 [] with interrupted_ := true, outstanding_work_ := 3 } 0
    { pc := Pc.outside, this_idle_thread := { wakeup_event := false, prev := 0, next := 0 } }
    rfl rfl rfl

end task_io_service

end asio.detail

/-! ## The work counter and `post` -/

namespace asio.detail

namespace task_io_service

theorem chain_next_of_not_last (s : task_io_service) (e : handler_ref) :
    ∀ (L : List handler_ref) (p : Option handler_ref), chain s p (L ++ [e]) →
      ∀ r ∈ L, ∃ r1, get_next_ s r = some (some r1) := by
  intro L
  induction L with
  | nil => intro p _ r hr; cases hr
  | cons r0 L ih =>
    intro p h r hr
    simp only [List.cons_append] at h
    rw [chain_cons] at h
    obtain ⟨_, nx, hg, hc⟩ := h
    rcases List.mem_cons.1 hr with rfl | hr
    · cases L with
      | nil =>
        simp only [List.nil_append] at hc
        rw [chain_cons] at hc
        exact ⟨e, by rw [hg, hc.1]⟩
      | cons r1 L1 =>
        simp only [List.cons_append] at hc
        rw [chain_cons] at hc
        exact ⟨r1, by rw [hg, hc.1]⟩
    · exact ih nx hc r hr

theorem kind_task_mem (s : task_io_service) (b : Bool) :
    Kind.task b ∈ kinds s ↔ ∃ th ∈ s.threads, ∃ c, th.pc = Pc.in_task b c := by
  unfold kinds
  rw [List.mem_map]
  constructor
  · rintro ⟨th, hth, hk⟩
    refine ⟨th, hth, ?_⟩
    cases hp : th.pc with
    | in_task b1 c =>
      rw [hp] at hk
      simp only [Pc.kind, Kind.task.injEq] at hk
      exact ⟨c, by rw [hk]⟩
    | outside => rw [hp] at hk; cases hk
    | in_handler c => rw [hp] at hk; cases hk
    | waiting => rw [hp] at hk; cases hk
  · rintro ⟨th, hth, c, hc⟩
    exact ⟨th, hth, by rw [hc]; rfl⟩

theorem chain_unique (s : task_io_service) :
    ∀ (L L1 : List handler_ref) (p : Option handler_ref),
      chain s p L → chain s p L1 → L1 = L := by
  intro L
  induction L with
  | nil =>
    intro L1 p h h1
    rw [chain_nil] at h
    subst h
    cases L1 with
    | nil => rfl
    | cons r L1 =>
      rw [chain_cons] at h1
      cases h1.1
  | cons r L ih =>
    intro L1 p h h1
    rw [chain_cons] at h
    obtain ⟨hp, nx, hg, hc⟩ := h
    subst hp
    obtain ⟨L2, rfl, nx2, hg2, hc2⟩ := chain_some h1
    rw [hg] at hg2
    simp only [Option.some.injEq] at hg2
    subst hg2
    rw [ih L2 nx hc hc2]

/-- C6 (as amended). In every state reachable from a freshly constructed
dispatcher by `post`, `dispatch`, steps of `run`, `interrupt`, `reset`,
`work_started` and `work_finished`, where every call of `work_finished`
matches an earlier call of `work_started`, `outstanding_work_` is
non-negative as long as the work it counts (the handlers in the queue `L`,
the threads inside a handler and the `k` unmatched calls of `work_started`)
is less than `2 ^ 31`, the range of the `int`. -/
theorem outstanding_work_nonneg (prog : Program) (s : task_io_service) (k : Nat)
    (L : List handler_ref) (h : balanced_reach prog s k) (hq : queue_is s L)
    (hb : L.countP handler_ref.is_wrapper + (kinds s).countP Kind.is_handler + k < 2 ^ 31) :
    0 ≤ s.outstanding_work_ ∧
      s.outstanding_work_ = (L.countP handler_ref.is_wrapper : Int) +
        ((kinds s).countP Kind.is_handler : Int) + (k : Int) := by
  obtain ⟨L1, hL⟩ := inv_of_balanced_reach h
  have e : L = L1 := chain_unique s L1 L _ hL.queue.links hq.links
  subst e
  have hw := hL.work
  have hb2 : (L.countP handler_ref.is_wrapper : Int) +
      ((kinds s).countP Kind.is_handler : Int) + (k : Int) < 2 ^ 31 := by exact_mod_cast hb
  have hb1 : (0 : Int) ≤ (L.countP handler_ref.is_wrapper : Int) +
      ((kinds s).countP Kind.is_handler : Int) + (k : Int) := by omega
  have hb0 : -2 ^ 31 ≤ (L.countP handler_ref.is_wrapper : Int) +
      ((kinds s).countP Kind.is_handler : Int) + (k : Int) := by omega
  rw [to_int_of_range hb0 hb2] at hw
  exact ⟨by rw [hw]; exact hb1, hw⟩

/-- Witness of C6: a dispatcher after `work_started()` and the matching
`work_finished()`. -/
theorem outstanding_work_nonneg_witness :
    balanced_reach (fun _ => []) { init 1 [] with interrupted_ := true } 0 ∧
    0 ≤ ({ init 1 [] with interrupted_ := true } : task_io_service).outstanding_work_ :=
  ⟨balanced_reach.step _ _ 1 0 (Action.call 0 Cmd.work_finished)
      (balanced_reach.step _ _ 0 1 (Action.call 0 Cmd.work_started)
        (balanced_reach.init 1 []) rfl rfl) rfl rfl,
    (outstanding_work_nonneg (fun _ => []) _ 0 [handler_ref.task]
      (balanced_reach.step _ _ 1 0 (Action.call 0 Cmd.work_finished)
        (balanced_reach.step _ _ 0 1 (Action.call 0 Cmd.work_started)
          (balanced_reach.init 1 []) rfl rfl) rfl rfl)
      (@queue_is_congr (init 1 []) _ _ rfl rfl rfl rfl (inv_init 1 []).queue)
      (by decide)).1⟩

/-- C6 fails as stated: `work_finished` on a freshly constructed dispatcher
is a transition, and it leaves `outstanding_work_` at `-1`. -/
theorem outstanding_work_negative :
    step (fun _ => []) (init 1 []) (Action.call 0 Cmd.work_finished) =
      some { init 1 [] with outstanding_work_ := -1 } ∧
    reach (fun _ => []) { init 1 [] with outstanding_work_ := -1 } ∧
    ({ init 1 [] with outstanding_work_ := -1 } : task_io_service).outstanding_work_ < 0 :=
  ⟨rfl, reach.step _ _ (Action.call 0 Cmd.work_finished) (reach.init 1 []) rfl, by decide⟩

/-- C7. In every state that satisfies the invariant of the dispatcher (with
queue `L`), `post(h)` links a new wrapper of `h` at the end of the queue,
increments `outstanding_work_` (which adds one to it unless it was
`INT_MAX`), and wakes at most one consumer: when
`first_idle_thread_` points to a thread it signals that thread and no other,
moves `first_idle_thread_` to its `next`, and does not interrupt the task;
when no thread is idle it signals nobody, and it interrupts the task exactly
when the task is not in the queue and a thread is inside a blocking
`task_.run(true)`. -/
theorem post_wakes_one_consumer (s : task_io_service) (L : List handler_ref) (k : Int)
    (h : Nat) (hi : inv s L k)
    (hfirst : ∀ f, s.first_idle_thread_ = some f → f < s.threads.length) :
    ∃ s1, post s h = some s1 ∧
      queue_is s1 (L ++ [handler_ref.wrapper s.heap.length]) ∧
      handler_of s1 (handler_ref.wrapper s.heap.length) = some h ∧
      (∀ r ∈ L, handler_of s1 r = handler_of s r) ∧
      (s1.outstanding_work_ = to_int (s.outstanding_work_ + 1) ∧
        (s.outstanding_work_ + 1 < 2 ^ 31 →
          s1.outstanding_work_ = s.outstanding_work_ + 1)) ∧
      s1.interrupted_ = s.interrupted_ ∧ kinds s1 = kinds s ∧
      (∀ f th, s.first_idle_thread_ = some f → s.threads[f]? = some th →
        s1.trace = s.trace ++ [Event.signal f] ∧
        s1.first_idle_thread_ = some th.this_idle_thread.next ∧
        s1.threads = s.threads.set f (th.with_event true)) ∧
      (s.first_idle_thread_ = none →
        s1.first_idle_thread_ = none ∧ s1.threads = s.threads ∧
        (s1.trace = s.trace ++ [Event.task_interrupt] ∨ s1.trace = s.trace) ∧
        (s1.trace = s.trace ++ [Event.task_interrupt] ↔
          (handler_ref.task ∉ L ∧ ∃ th ∈ s.threads, ∃ c, th.pc = Pc.in_task true c))) := by
  obtain ⟨s0, _, hpost, hq0, hname, hnames, _, htn, hw, hint, hfi, hth, _, htr⟩ :=
    post_enqueue_spec h hi.queue
  have hqc : ∀ s1 : task_io_service, s1.heap = s0.heap →
      s1.task_handler_next_ = s0.task_handler_next_ → s1.handler_queue_ = s0.handler_queue_ →
      s1.handler_queue_end_ = s0.handler_queue_end_ →
      queue_is s1 (L ++ [handler_ref.wrapper s.heap.length]) ∧
      handler_of s1 (handler_ref.wrapper s.heap.length) = some h ∧
      (∀ r ∈ L, handler_of s1 r = handler_of s r) := by
    intro s1 e1 e2 e3 e4
    have hho : ∀ r, handler_of s1 r = handler_of s0 r := by
      intro r
      cases r with
      | task => rfl
      | wrapper a => simp [handler_of, e1]
    refine ⟨queue_is_congr e1 e2 e3 e4 hq0, by rw [hho]; exact hname, ?_⟩
    intro r hr
    rw [hho]; exact hnames r hr
  have hW : ∀ x : Int, x = to_int (s0.outstanding_work_ + 1) →
      x = to_int (s.outstanding_work_ + 1) ∧
        (s.outstanding_work_ + 1 < 2 ^ 31 → x = s.outstanding_work_ + 1) := by
    intro x hx
    rw [hw] at hx
    refine ⟨hx, fun hlt => ?_⟩
    rw [hx]
    have hr := to_int_range ((L.countP handler_ref.is_wrapper : Int) +
      ((kinds s).countP Kind.is_handler : Int) + k)
    rw [← hi.work] at hr
    have hlo : -2 ^ 31 ≤ s.outstanding_work_ + 1 := by omega
    exact to_int_of_range hlo hlt
  -- whether `task_handler_.next_` is null after the new wrapper is linked
  have hend : s0.handler_queue_end_ ≠ some handler_ref.task := by
    rw [hq0.last]; simp
  have hnull : s0.task_handler_next_ = none ↔
      (handler_ref.task ∉ L ∧ ∃ th ∈ s.threads, ∃ c, th.pc = Pc.in_task true c) := by
    rw [← kind_task_mem]
    by_cases hmem : handler_ref.task ∈ L
    · obtain ⟨r1, hr1⟩ := chain_next_of_not_last s0 _ L _ hq0.links _ hmem
      have : s0.task_handler_next_ = some r1 := by simpa [get_next_] using hr1
      simp [this, hmem]
    · rw [htn hmem]
      have hto := hi.task_once
      have h0 : L.count handler_ref.task = 0 := List.count_eq_zero.2 hmem
      have h1 : 0 < (kinds s).countP Kind.is_task := by omega
      obtain ⟨x, hx, hxt⟩ := List.countP_pos_iff.1 h1
      cases x with
      | task b =>
        have hb := hi.blocking b hx
        constructor
        · intro hn
          have : b = true := hb.2 hn
          rw [this] at hx
          exact ⟨hmem, hx⟩
        · intro hh
          exact (hi.blocking true hh.2).1 rfl
      | outside => simp [Kind.is_task] at hxt
      | handler => simp [Kind.is_task] at hxt
      | waiting => simp [Kind.is_task] at hxt
  cases hf : s.first_idle_thread_ with
  | none =>
    have hone : interrupt_one_idle_thread
        { s0 with outstanding_work_ := to_int (s0.outstanding_work_ + 1) } =
        some ({ s0 with outstanding_work_ := to_int (s0.outstanding_work_ + 1) }, false) := by
      simp [interrupt_one_idle_thread, hfi, hf]
    by_cases hn : s0.task_handler_next_ = none
    · have hcond : s0.task_handler_next_ = none ∧
          s0.handler_queue_end_ ≠ some handler_ref.task := ⟨hn, hend⟩
      have hp : post s h = some (task_interrupt
          { s0 with outstanding_work_ := to_int (s0.outstanding_work_ + 1) }) := by
        rw [hpost]
        simp only [wake_one, hone]
        rw [if_pos hcond]
      obtain ⟨q1, q2, q3⟩ := hqc (task_interrupt
        { s0 with outstanding_work_ := to_int (s0.outstanding_work_ + 1) }) rfl rfl rfl rfl
      refine ⟨_, hp, q1, q2, q3, hW _ rfl, by simp [task_interrupt, hint],
        by simp [task_interrupt, kinds, hth], ?_, ?_⟩
      · intro f th hff; cases hff
      · intro _
        refine ⟨by simp [task_interrupt, hfi, hf], by simp [task_interrupt, hth],
          Or.inl (by simp [task_interrupt, htr]), ?_⟩
        constructor
        · intro _; exact hnull.1 hn
        · intro _; simp [task_interrupt, htr]
    · have hcond : ¬ (s0.task_handler_next_ = none ∧
          s0.handler_queue_end_ ≠ some handler_ref.task) := fun hh => hn hh.1
      have hp : post s h = some { s0 with outstanding_work_ := to_int (s0.outstanding_work_ + 1) } := by
        rw [hpost]
        simp only [wake_one, hone]
        rw [if_neg hcond]
      obtain ⟨q1, q2, q3⟩ := hqc { s0 with outstanding_work_ := to_int (s0.outstanding_work_ + 1) }
        rfl rfl rfl rfl
      refine ⟨_, hp, q1, q2, q3, hW _ rfl, by simp [hint], by simp [kinds, hth], ?_, ?_⟩
      · intro f th hff; cases hff
      · intro _
        refine ⟨by simp [hfi, hf], by simp [hth], Or.inr (by simp [htr]), ?_⟩
        constructor
        · intro hh
          simp [htr] at hh
        · intro hh
          exact absurd (hnull.2 hh) hn
  | some f =>
    have hlt := hfirst f hf
    have hget : s.threads[f]? = some s.threads[f] := List.getElem?_eq_getElem hlt
    have hone : interrupt_one_idle_thread
        { s0 with outstanding_work_ := to_int (s0.outstanding_work_ + 1) } =
        some ({ s0 with outstanding_work_ := to_int (s0.outstanding_work_ + 1)
                        threads := s.threads.set f (s.threads[f].with_event true)
                        trace := s.trace ++ [Event.signal f]
                        first_idle_thread_ := some s.threads[f].this_idle_thread.next }, true) := by
      simp [interrupt_one_idle_thread, hfi, hf, signal, set_event, hth, hget, idle_next,
        List.getElem?_set, hlt, htr, run_thread.with_event]
    have hp : post s h =
        some { s0 with outstanding_work_ := to_int (s0.outstanding_work_ + 1)
                       threads := s.threads.set f (s.threads[f].with_event true)
                       trace := s.trace ++ [Event.signal f]
                       first_idle_thread_ := some s.threads[f].this_idle_thread.next } := by
      rw [hpost]
      simp only [wake_one, hone]
    obtain ⟨q1, q2, q3⟩ := hqc
      { s0 with outstanding_work_ := to_int (s0.outstanding_work_ + 1)
                threads := s.threads.set f (s.threads[f].with_event true)
                trace := s.trace ++ [Event.signal f]
                first_idle_thread_ := some s.threads[f].this_idle_thread.next }
      rfl rfl rfl rfl
    refine ⟨_, hp, q1, q2, q3, hW _ rfl, by simp [hint], ?_, ?_, ?_⟩
    · show List.map _ (s.threads.set f _) = _
      exact map_pc_set _ _ _ _ hget rfl
    · intro f1 th hff hth1
      simp only [Option.some.injEq] at hff
      subst hff
      rw [hget] at hth1
      simp only [Option.some.injEq] at hth1
      subst hth1
      exact ⟨rfl, rfl, rfl⟩
    · intro hh; cases hh

end task_io_service

end asio.detail

/-! ## The interruption cascade -/

namespace asio.detail

namespace task_io_service

theorem mark_nil (l : List run_thread) : mark [] l = l := rfl

theorem mark_cons (u : Nat) (R : List Nat) (l : List run_thread) :
    mark (u :: R) l = mark R (mark [u] l) := rfl

theorem with_event_idem (th : run_thread) :
    (th.with_event true).with_event true = th.with_event true := rfl

theorem mark_single_get (u v : Nat) (l : List run_thread) :
    (mark [u] l)[v]? = (l[v]?).map fun th => if v = u then th.with_event true else th := by
  simp only [mark, List.foldl_cons, List.foldl_nil]
  cases hu : l[u]? with
  | none =>
    simp only
    by_cases hvu : v = u
    · subst hvu; simp [hu]
    · simp [hvu]
  | some th =>
    simp only
    have hlt : u < l.length := (List.getElem?_eq_some.1 hu).1
    by_cases hvu : v = u
    · subst hvu
      simp [List.getElem?_set, hlt, hu]
    · have : u ≠ v := fun h => hvu h.symm
      rw [List.getElem?_set_ne this]
      simp [hvu]

theorem mark_get : ∀ (R : List Nat) (l : List run_thread) (v : Nat),
    (mark R l)[v]? = (l[v]?).map fun th => if v ∈ R then th.with_event true else th := by
  intro R
  induction R with
  | nil => intro l v; simp [mark_nil]
  | cons u R ih =>
    intro l v
    rw [mark_cons, ih, mark_single_get]
    cases l[v]? with
    | none => rfl
    | some th =>
      simp only [Option.map_some', List.mem_cons]
      by_cases hvu : v = u
      · by_cases hvR : v ∈ R <;> simp [hvu, hvR, with_event_idem]
      · by_cases hvR : v ∈ R <;> simp [hvu, hvR]

theorem signalled_nil (s : task_io_service) : signalled [] s = s := by
  show ({ s with threads := s.threads, trace := s.trace ++ [] } : task_io_service) = s
  rw [List.append_nil]

theorem signalled_cons (u : Nat) (R : List Nat) (s : task_io_service) :
    signalled (u :: R) s = signalled R (signalled [u] s) := by
  have htr : s.trace ++ (u :: R).map Event.signal =
      (s.trace ++ [u].map Event.signal) ++ R.map Event.signal := by simp
  unfold signalled
  rw [htr]
  rfl

theorem signal_eq (s : task_io_service) (u : Nat) (h : u < s.threads.length) :
    signal s u = some (signalled [u] s) := by
  have hget : s.threads[u]? = some s.threads[u] := List.getElem?_eq_getElem h
  simp [signal, set_event, hget, signalled, mark]

theorem idle_next_signalled (R : List Nat) (s : task_io_service) (v : Nat) :
    idle_next (signalled R s) v = idle_next s v := by
  simp only [idle_next, signalled, mark_get]
  cases s.threads[v]? with
  | none => rfl
  | some th =>
    simp only [Option.map_some']
    split <;> rfl

theorem idle_prev_signalled (R : List Nat) (s : task_io_service) (v : Nat) :
    idle_prev (signalled R s) v = idle_prev s v := by
  simp only [idle_prev, signalled, mark_get]
  cases s.threads[v]? with
  | none => rfl
  | some th =>
    simp only [Option.map_some']
    split <;> rfl

theorem idle_next_lt {s : task_io_service} {u n : Nat} (h : idle_next s u = some n) :
    u < s.threads.length := by
  unfold idle_next at h
  split at h
  · rename_i th hth
    exact (List.getElem?_eq_some.1 hth).1
  · cases h

theorem next_path_congr {s s1 : task_io_service} (first : Nat)
    (hsame : ∀ v, idle_next s1 v = idle_next s v) :
    ∀ (R : List Nat) (cur : Nat), next_path s first R cur → next_path s1 first R cur := by
  intro R
  induction R with
  | nil => intro cur h; exact h
  | cons u R ih =>
    intro cur h
    rw [next_path] at h ⊢
    refine ⟨h.1, h.2.1, ?_⟩
    rw [hsame]
    cases hn : idle_next s u with
    | none => rw [hn] at h; exact h.2.2
    | some n =>
      rw [hn] at h
      exact ih n h.2.2

theorem next_path_lt {s : task_io_service} (first : Nat) :
    ∀ (R : List Nat) (cur : Nat), next_path s first R cur → ∀ u ∈ R, u < s.threads.length := by
  intro R
  induction R with
  | nil => intro cur _ u hu; cases hu
  | cons v R ih =>
    intro cur h u hu
    rw [next_path] at h
    cases hn : idle_next s v with
    | none => rw [hn] at h; exact h.2.2.elim
    | some n =>
      rw [hn] at h
      rcases List.mem_cons.1 hu with rfl | hu
      · exact idle_next_lt hn
      · exact ih n h.2.2 u hu

/-- The loop of `interrupt_all_idle_threads` signals the rest of the ring
and stops. -/
theorem signal_loop_ring (first : Nat) :
    ∀ (R : List Nat) (fuel cur : Nat) (s : task_io_service), R.length ≤ fuel →
      next_path s first R cur → signal_loop first fuel cur s = some (signalled R s) := by
  intro R
  induction R with
  | nil =>
    intro fuel cur s _ h
    rw [next_path] at h
    rw [signalled_nil]
    cases fuel <;> simp [signal_loop, h]
  | cons u R ih =>
    intro fuel cur s hfuel h
    rw [next_path] at h
    obtain ⟨hcur, hne, hnext⟩ := h
    subst hcur
    cases hn : idle_next s cur with
    | none => rw [hn] at hnext; exact hnext.elim
    | some n =>
      rw [hn] at hnext
      cases fuel with
      | zero => simp at hfuel
      | succ f =>
        have hlt := idle_next_lt hn
        have hsame : ∀ v, idle_next (signalled [cur] s) v = idle_next s v :=
          idle_next_signalled [cur] s
        rw [signal_loop, if_neg hne, signal_eq s cur hlt]
        simp only [hsame, hn]
        rw [ih f n (signalled [cur] s) (by simpa using hfuel)
          (next_path_congr first hsame R n hnext), ← signalled_cons]

theorem nodup_length_le (R : List Nat) (n : Nat) (hnd : R.Nodup) (hlt : ∀ u ∈ R, u < n) :
    R.length ≤ n := by
  have h1 : R.toFinset ⊆ Finset.range n := by
    intro u hu
    rw [List.mem_toFinset] at hu
    exact Finset.mem_range.2 (hlt u hu)
  have h2 := Finset.card_le_card h1
  rw [List.toFinset_card_of_nodup hnd, Finset.card_range] at h2
  exact h2

/-- On a well-formed ring the traversal of `interrupt_all_idle_threads`
terminates, having signalled every node of the ring once. -/
theorem interrupt_all_idle_threads_ring {s : task_io_service} {R : List Nat}
    (hr : ring_is s R) : interrupt_all_idle_threads s = some (signalled R s) := by
  cases R with
  | nil =>
    simp only [ring_is] at hr
    simp [interrupt_all_idle_threads, hr, signalled_nil]
  | cons f rest =>
    simp only [ring_is] at hr
    obtain ⟨hf, hnd, hpath, _⟩ := hr
    cases hn : idle_next s f with
    | none => rw [hn] at hpath; exact hpath.elim
    | some n =>
      rw [hn] at hpath
      have hlt := idle_next_lt hn
      have hsame : ∀ v, idle_next (signalled [f] s) v = idle_next s v :=
        idle_next_signalled [f] s
      have hlen : rest.length ≤ s.threads.length :=
        nodup_length_le rest _ (List.nodup_cons.1 hnd).2 (next_path_lt f rest n hpath)
      simp only [interrupt_all_idle_threads, hf, signal_eq s f hlt, hsame, hn]
      rw [signal_loop_ring f rest _ n (signalled [f] s) hlen
        (next_path_congr f hsame rest n hpath), ← signalled_cons]

theorem ring_is_congr {s s1 : task_io_service} {R : List Nat}
    (hfirst : s1.first_idle_thread_ = s.first_idle_thread_)
    (hnext : ∀ v, idle_next s1 v = idle_next s v) (hprev : ∀ v, idle_prev s1 v = idle_prev s v)
    (hr : ring_is s R) : ring_is s1 R := by
  cases R with
  | nil =>
    simp only [ring_is] at hr ⊢
    rw [hfirst]; exact hr
  | cons f rest =>
    simp only [ring_is] at hr ⊢
    obtain ⟨hf, hnd, hpath, hinv⟩ := hr
    refine ⟨by rw [hfirst]; exact hf, hnd, ?_, ?_⟩
    · rw [hnext]
      cases hn : idle_next s f with
      | none => rw [hn] at hpath; exact hpath.elim
      | some n =>
        rw [hn] at hpath
        exact next_path_congr f hnext rest n hpath
    · intro u hu n hn
      rw [hnext] at hn
      rw [hprev]
      exact hinv u hu n hn

/-- The function `interrupt_all_threads` on a well-formed ring. -/
theorem interrupt_all_threads_ring {s : task_io_service} {R : List Nat} (hr : ring_is s R) :
    interrupt_all_threads s =
      some (if s.task_handler_next_ = none ∧ s.handler_queue_end_ ≠ some handler_ref.task then
        task_interrupt (signalled R { s with interrupted_ := true })
        else signalled R { s with interrupted_ := true }) := by
  have hr1 : ring_is { s with interrupted_ := true } R :=
    @ring_is_congr s _ R rfl (fun _ => rfl) (fun _ => rfl) hr
  simp only [interrupt_all_threads, interrupt_all_idle_threads_ring hr1]
  by_cases hc : s.task_handler_next_ = none ∧ s.handler_queue_end_ ≠ some handler_ref.task
  · rw [if_pos hc, if_pos]
    exact hc
  · rw [if_neg hc, if_neg]
    exact hc

theorem cascade_of_ring {s : task_io_service} {R : List Nat} (hr : ring_is s R) :
    ∃ s1, interrupt_all_threads s = some s1 ∧ cascade s R s1 ∧ ring_is s1 R := by
  rw [interrupt_all_threads_ring hr]
  refine ⟨_, rfl, ?_, ?_⟩
  · by_cases hc : s.task_handler_next_ = none ∧ s.handler_queue_end_ ≠ some handler_ref.task
    · rw [if_pos hc]
      refine ⟨rfl, ?_, ?_, rfl, rfl, rfl, rfl, rfl, rfl, rfl⟩
      · simp [task_interrupt, signalled, if_pos hc]
      · intro u
        simp [task_interrupt, signalled, mark_get]
    · rw [if_neg hc]
      refine ⟨rfl, ?_, ?_, rfl, rfl, rfl, rfl, rfl, rfl, rfl⟩
      · simp [signalled, if_neg hc]
      · intro u
        simp [signalled, mark_get]
  · have hr1 : ring_is { s with interrupted_ := true } R :=
      @ring_is_congr s _ R rfl (fun _ => rfl) (fun _ => rfl) hr
    have hr2 : ring_is (signalled R { s with interrupted_ := true }) R :=
      @ring_is_congr { s with interrupted_ := true }
        (signalled R { s with interrupted_ := true }) R rfl
        (idle_next_signalled R _) (idle_prev_signalled R _) hr1
    by_cases hc : s.task_handler_next_ = none ∧ s.handler_queue_end_ ≠ some handler_ref.task
    · rw [if_pos hc]
      exact @ring_is_congr (signalled R { s with interrupted_ := true })
        (task_interrupt (signalled R { s with interrupted_ := true })) R rfl
        (fun _ => rfl) (fun _ => rfl) hr2
    · rw [if_neg hc]
      exact hr2

theorem mark_mark (R : List Nat) (l : List run_thread) : mark R (mark R l) = mark R l := by
  apply List.ext_getElem?
  intro v
  rw [mark_get, mark_get]
  cases l[v]? with
  | none => rfl
  | some th =>
    simp only [Option.map_some']
    by_cases hv : v ∈ R <;> simp [hv, with_event_idem]

end task_io_service

end asio.detail

namespace asio.detail

namespace task_io_service

theorem ring_is_nodup {s : task_io_service} {R : List Nat} (hr : ring_is s R) : R.Nodup := by
  cases R with
  | nil => exact List.nodup_nil
  | cons f rest =>
    simp only [ring_is] at hr
    exact hr.2.1

theorem interrupt_twice {s : task_io_service} {R : List Nat} (hr : ring_is s R) :
    ∃ s1 s2, interrupt s = some s1 ∧ interrupt s1 = some s2 ∧
      { s2 with trace := s1.trace } = s1 := by
  obtain ⟨s1, h1, _, hr1⟩ := cascade_of_ring hr
  have e1 := interrupt_all_threads_ring hr
  rw [h1] at e1
  have e2 := interrupt_all_threads_ring hr1
  simp only [Option.some.injEq] at e1
  refine ⟨s1, _, h1, e2, ?_⟩
  by_cases hc : s.task_handler_next_ = none ∧ s.handler_queue_end_ ≠ some handler_ref.task
  · rw [if_pos hc] at e1
    have hc1 : s1.task_handler_next_ = none ∧ s1.handler_queue_end_ ≠ some handler_ref.task := by
      rw [e1]; exact hc
    rw [if_pos hc1]
    have hm : mark R s1.threads = s1.threads := by
      rw [e1]
      exact mark_mark R s.threads
    have hI : s1.interrupted_ = true := by rw [e1]; rfl
    simp only [task_interrupt, signalled, hm]
    cases s1
    simp only at hI
    simp [hI]
  · rw [if_neg hc] at e1
    have hc1 : ¬ (s1.task_handler_next_ = none ∧
        s1.handler_queue_end_ ≠ some handler_ref.task) := by
      rw [e1]; exact hc
    rw [if_neg hc1]
    have hm : mark R s1.threads = s1.threads := by
      rw [e1]
      exact mark_mark R s.threads
    have hI : s1.interrupted_ = true := by rw [e1]; rfl
    simp only [signalled, hm]
    cases s1
    simp only at hI
    simp [hI]

/-- C8. On a well-formed idle ring `R` (of any size), `interrupt()` sets
`interrupted_` and signals the wakeup event of every thread of the ring
exactly once (the traversal terminates), without changing the queue, the
counter or the ring; a second `interrupt()` yields the same state again, up
to the record of the calls made. The function `work_finished()` does the same
cascade exactly when it brings `outstanding_work_` to zero (for a counter in
the range of `int`: exactly when the counter was one), and otherwise only
decrements the counter. -/
theorem interruption_cascade (s : task_io_service) (R : List Nat) (hr : ring_is s R) :
    R.Nodup ∧
    (∃ s1 s2, interrupt s = some s1 ∧ cascade s R s1 ∧ ring_is s1 R ∧
      interrupt s1 = some s2 ∧ { s2 with trace := s1.trace } = s1) ∧
    (to_int (s.outstanding_work_ - 1) = 0 →
      ∃ s1, work_finished s = some s1 ∧
        cascade { s with outstanding_work_ := to_int (s.outstanding_work_ - 1) } R s1) ∧
    (to_int (s.outstanding_work_ - 1) ≠ 0 →
      work_finished s = some { s with outstanding_work_ := to_int (s.outstanding_work_ - 1) }) ∧
    (-2 ^ 31 ≤ s.outstanding_work_ → s.outstanding_work_ < 2 ^ 31 →
      (to_int (s.outstanding_work_ - 1) = 0 ↔ s.outstanding_work_ - 1 = 0)) := by
  refine ⟨ring_is_nodup hr, ?_, ?_, ?_, ?_⟩
  · obtain ⟨s1, h1, hc, hr1⟩ := cascade_of_ring hr
    obtain ⟨s1a, s2, h1a, h2, heq⟩ := interrupt_twice hr
    have : s1a = s1 := by
      have h1b : interrupt s = some s1 := h1
      rw [h1a] at h1b
      simpa using h1b
    subst this
    exact ⟨s1a, s2, h1, hc, hr1, h2, heq⟩
  · intro hz
    have hr0 : ring_is { s with outstanding_work_ := to_int (s.outstanding_work_ - 1) } R :=
      @ring_is_congr s _ R rfl (fun _ => rfl) (fun _ => rfl) hr
    obtain ⟨s1, h1, hc, _⟩ := cascade_of_ring hr0
    refine ⟨s1, ?_, hc⟩
    unfold work_finished
    simp only
    rw [if_pos hz]
    exact h1
  · intro hz
    unfold work_finished
    simp only
    rw [if_neg hz]
  · intro h1 h2
    unfold to_int
    omega

end task_io_service

end asio.detail

/-! ## Linking an idle node into the ring -/

namespace asio.detail

namespace task_io_service

theorem set_idle_next_view (s : task_io_service) (u v : Nat) (hu : u < s.threads.length) :
    ∃ s1, set_idle_next s u v = some s1 ∧
      (∀ w, idle_next s1 w = if w = u then some v else idle_next s w) ∧
      (∀ w, idle_prev s1 w = idle_prev s w) ∧
      s1.threads.length = s.threads.length ∧ s1.first_idle_thread_ = s.first_idle_thread_ := by
  have hget : s.threads[u]? = some s.threads[u] := List.getElem?_eq_getElem hu
  refine ⟨{ s with threads := s.threads.set u (s.threads[u].with_next v) }, ?_, ?_, ?_, ?_, rfl⟩
  · simp only [set_idle_next, hget]
  · intro w
    by_cases hw : w = u
    · subst hw
      simp [idle_next, List.getElem?_set, hu, run_thread.with_next]
    · simp only [idle_next, if_neg hw]
      rw [List.getElem?_set_ne (Ne.symm hw)]
  · intro w
    by_cases hw : w = u
    · subst hw
      simp [idle_prev, List.getElem?_set, hu, hget, run_thread.with_next]
    · simp only [idle_prev]
      rw [List.getElem?_set_ne (Ne.symm hw)]
  · simp

theorem set_idle_prev_view (s : task_io_service) (u v : Nat) (hu : u < s.threads.length) :
    ∃ s1, set_idle_prev s u v = some s1 ∧
      (∀ w, idle_prev s1 w = if w = u then some v else idle_prev s w) ∧
      (∀ w, idle_next s1 w = idle_next s w) ∧
      s1.threads.length = s.threads.length ∧ s1.first_idle_thread_ = s.first_idle_thread_ := by
  have hget : s.threads[u]? = some s.threads[u] := List.getElem?_eq_getElem hu
  refine ⟨{ s with threads := s.threads.set u (s.threads[u].with_prev v) }, ?_, ?_, ?_, ?_, rfl⟩
  · simp only [set_idle_prev, hget]
  · intro w
    by_cases hw : w = u
    · subst hw
      simp [idle_prev, List.getElem?_set, hu, run_thread.with_prev]
    · simp only [idle_prev, if_neg hw]
      rw [List.getElem?_set_ne (Ne.symm hw)]
  · intro w
    by_cases hw : w = u
    · subst hw
      simp [idle_next, List.getElem?_set, hu, hget, run_thread.with_prev]
    · simp only [idle_next]
      rw [List.getElem?_set_ne (Ne.symm hw)]
  · simp

theorem set_event_view (s : task_io_service) (t : Nat) (b : Bool) (ht : t < s.threads.length) :
    ∃ s1, set_event s t b = some s1 ∧
      (∀ w, idle_next s1 w = idle_next s w) ∧ (∀ w, idle_prev s1 w = idle_prev s w) ∧
      s1.threads.length = s.threads.length ∧ s1.first_idle_thread_ = s.first_idle_thread_ ∧
      ∃ th, s1.threads[t]? = some th ∧ th.this_idle_thread.wakeup_event = b := by
  have hget : s.threads[t]? = some s.threads[t] := List.getElem?_eq_getElem ht
  refine ⟨{ s with threads := s.threads.set t (s.threads[t].with_event b) }, ?_, ?_, ?_, ?_, rfl,
    ?_⟩
  · simp only [set_event, hget]
  · intro w
    by_cases hw : w = t
    · subst hw
      simp [idle_next, List.getElem?_set, ht, hget, run_thread.with_event]
    · simp only [idle_next]
      rw [List.getElem?_set_ne (Ne.symm hw)]
  · intro w
    by_cases hw : w = t
    · subst hw
      simp [idle_prev, List.getElem?_set, ht, hget, run_thread.with_event]
    · simp only [idle_prev]
      rw [List.getElem?_set_ne (Ne.symm hw)]
  · simp
  · exact ⟨s.threads[t].with_event b, by simp [List.getElem?_set, ht], rfl⟩

theorem set_pc_view (s : task_io_service) (t : Nat) (pc : Pc) (th : run_thread)
    (hth : s.threads[t]? = some th) :
    ∃ s1, set_pc s t pc = some s1 ∧
      (∀ w, idle_next s1 w = idle_next s w) ∧ (∀ w, idle_prev s1 w = idle_prev s w) ∧
      s1.threads.length = s.threads.length ∧ s1.first_idle_thread_ = s.first_idle_thread_ ∧
      s1.threads[t]? = some { th with pc := pc } := by
  have ht : t < s.threads.length := (List.getElem?_eq_some.1 hth).1
  refine ⟨{ s with threads := s.threads.set t { th with pc := pc } }, ?_, ?_, ?_, ?_, rfl, ?_⟩
  · simp only [set_pc, hth]
  · intro w
    by_cases hw : w = t
    · subst hw
      simp [idle_next, List.getElem?_set, ht, hth]
    · simp only [idle_next]
      rw [List.getElem?_set_ne (Ne.symm hw)]
  · intro w
    by_cases hw : w = t
    · subst hw
      simp [idle_prev, List.getElem?_set, ht, hth]
    · simp only [idle_prev]
      rw [List.getElem?_set_ne (Ne.symm hw)]
  · simp
  · simp [List.getElem?_set, ht]

/-- The end of `park`: the event of thread `t` is cleared and the thread
waits; the links of the idle nodes are not touched. -/
theorem wait_view (s : task_io_service) (t : Nat) (ht : t < s.threads.length) :
    ∃ s1 s2, set_event s t false = some s1 ∧ set_pc s1 t Pc.waiting = some s2 ∧
      (∀ w, idle_next s2 w = idle_next s w) ∧ (∀ w, idle_prev s2 w = idle_prev s w) ∧
      s2.first_idle_thread_ = s.first_idle_thread_ ∧
      (∃ th, s2.threads[t]? = some th ∧ th.pc = Pc.waiting ∧
        th.this_idle_thread.wakeup_event = false) := by
  obtain ⟨s1, h1, n1, p1, l1, f1, th, hth, hev⟩ := set_event_view s t false ht
  obtain ⟨s2, h2, n2, p2, _, f2, hth2⟩ := set_pc_view s1 t Pc.waiting th hth
  exact ⟨s1, s2, h1, h2, fun w => (n2 w).trans (n1 w), fun w => (p2 w).trans (p1 w),
    f2.trans f1, _, hth2, rfl, hev⟩

/-- The last node of a path is linked to the node the path leads to. -/
theorem next_path_end (s : task_io_service) (first p : Nat) :
    ∀ (R : List Nat) (cur : Nat), next_path s first (R ++ [p]) cur →
      idle_next s p = some first := by
  intro R
  induction R with
  | nil =>
    intro cur h
    rw [List.nil_append, next_path] at h
    cases hn : idle_next s p with
    | none => rw [hn] at h; exact h.2.2.elim
    | some n =>
      rw [hn] at h
      have h2 : n = first := h.2.2
      rw [h2]
  | cons u R ih =>
    intro cur h
    rw [List.cons_append, next_path] at h
    cases hn : idle_next s u with
    | none => rw [hn] at h; exact h.2.2.elim
    | some n =>
      rw [hn] at h
      exact ih n h.2.2

/-- The link of a node of a path leads to a node of the path or to the node
the path leads to. -/
theorem next_path_closed (s : task_io_service) (first : Nat) :
    ∀ (R : List Nat) (cur : Nat), next_path s first R cur →
      (cur ∈ R ∨ cur = first) ∧
      ∀ u ∈ R, ∀ n, idle_next s u = some n → n ∈ R ∨ n = first := by
  intro R
  induction R with
  | nil =>
    intro cur h
    rw [next_path] at h
    exact ⟨Or.inr h, fun u hu => by cases hu⟩
  | cons v R ih =>
    intro cur h
    rw [next_path] at h
    obtain ⟨hcur, _, hnext⟩ := h
    cases hn : idle_next s v with
    | none => rw [hn] at hnext; exact hnext.elim
    | some n =>
      rw [hn] at hnext
      obtain ⟨h1, h2⟩ := ih n hnext
      refine ⟨Or.inl (by rw [hcur]; exact List.mem_cons_self _ _), ?_⟩
      intro u hu m hm
      rcases List.mem_cons.1 hu with rfl | hu
      · rw [hn] at hm
        simp only [Option.some.injEq] at hm
        subst hm
        rcases h1 with h1 | h1
        · exact Or.inl (List.mem_cons_of_mem _ h1)
        · exact Or.inr h1
      · rcases h2 u hu m hm with h3 | h3
        · exact Or.inl (List.mem_cons_of_mem _ h3)
        · exact Or.inr h3

/-- A path whose last node is relinked to `t` leads to `t`. -/
theorem next_path_redirect (s s1 : task_io_service) (first p t : Nat) :
    ∀ (R : List Nat) (cur : Nat), next_path s first (R ++ [p]) cur →
      (∀ u ∈ R ++ [p], u ≠ t) → (∀ u ∈ R, idle_next s1 u = idle_next s u) →
      idle_next s1 p = some t → next_path s1 t (R ++ [p]) cur := by
  intro R
  induction R with
  | nil =>
    intro cur h hne _ hp
    rw [List.nil_append, next_path] at h ⊢
    refine ⟨h.1, hne p (by simp), ?_⟩
    rw [hp]
    exact rfl
  | cons u R ih =>
    intro cur h hne hsame hp
    rw [List.cons_append, next_path] at h ⊢
    refine ⟨h.1, hne u (by simp), ?_⟩
    rw [hsame u (List.mem_cons_self _ _)]
    cases hn : idle_next s u with
    | none => rw [hn] at h; exact h.2.2.elim
    | some n =>
      rw [hn] at h
      exact ih n h.2.2 (fun x hx => hne x (List.mem_cons_of_mem _ hx))
        (fun x hx => hsame x (List.mem_cons_of_mem _ hx)) hp

/-- In a well-formed ring the `prev` of the first node is the last node. -/
theorem ring_prev_first {s : task_io_service} {f : Nat} {R : List Nat} {p : Nat}
    (hr : ring_is s (f :: (R ++ [p]))) : idle_next s p = some f ∧ idle_prev s f = some p := by
  simp only [ring_is] at hr
  obtain ⟨_, _, hpath, hinv⟩ := hr
  cases hn : idle_next s f with
  | none => rw [hn] at hpath; exact hpath.elim
  | some n =>
    rw [hn] at hpath
    have hend := next_path_end s f p R n hpath
    exact ⟨hend, hinv p (by simp) f hend⟩

theorem ring_single {s : task_io_service} {f : Nat} (hr : ring_is s [f]) :
    idle_next s f = some f ∧ idle_prev s f = some f := by
  simp only [ring_is] at hr
  obtain ⟨_, _, hpath, hinv⟩ := hr
  cases hn : idle_next s f with
  | none => rw [hn] at hpath; exact hpath.elim
  | some n =>
    rw [hn] at hpath
    have h2 : n = f := hpath
    subst h2
    exact ⟨rfl, hinv n (by simp) n hn⟩

theorem ring_is_lt {s : task_io_service} {R : List Nat} (hr : ring_is s R) :
    ∀ u ∈ R, u < s.threads.length := by
  cases R with
  | nil => intro u hu; cases hu
  | cons f rest =>
    simp only [ring_is] at hr
    obtain ⟨_, _, hpath, _⟩ := hr
    cases hn : idle_next s f with
    | none => rw [hn] at hpath; exact hpath.elim
    | some n =>
      rw [hn] at hpath
      intro u hu
      rcases List.mem_cons.1 hu with rfl | hu
      · exact idle_next_lt hn
      · exact next_path_lt f rest n hpath u hu

/-- The links of a ring stay inside the ring. -/
theorem ring_next_mem {s : task_io_service} {R : List Nat} (hr : ring_is s R) :
    ∀ u ∈ R, ∀ n, idle_next s u = some n → n ∈ R := by
  cases R with
  | nil => intro u hu; cases hu
  | cons f rest =>
    simp only [ring_is] at hr
    obtain ⟨_, _, hpath, _⟩ := hr
    cases hn : idle_next s f with
    | none => rw [hn] at hpath; exact hpath.elim
    | some n =>
      rw [hn] at hpath
      obtain ⟨h1, h2⟩ := next_path_closed s f rest n hpath
      intro u hu m hm
      rcases List.mem_cons.1 hu with rfl | hu
      · rw [hn] at hm
        simp only [Option.some.injEq] at hm
        subst hm
        rcases h1 with h1 | h1
        · exact List.mem_cons_of_mem _ h1
        · rw [h1]; exact List.mem_cons_self _ _
      · rcases h2 u hu m hm with h3 | h3
        · exact List.mem_cons_of_mem _ h3
        · rw [h3]; exact List.mem_cons_self _ _

/-- A state whose links are those of a well-formed ring `f :: rest`, except
that the last node of the ring is linked to the new node `t`, which is linked
to `f`, holds the well-formed ring `t :: f :: rest`. -/
theorem ring_is_insert {s s1 : task_io_service} {t f p : Nat} {rest : List Nat}
    (hr : ring_is s (f :: rest)) (hnot : t ∉ f :: rest)
    (hlast : (f :: rest).getLast? = some p)
    (hfirst : s1.first_idle_thread_ = some t)
    (hnext : ∀ w, idle_next s1 w =
      if w = p then some t else if w = t then some f else idle_next s w)
    (hprev : ∀ w, idle_prev s1 w =
      if w = f then some t else if w = t then some p else idle_prev s w) :
    ring_is s1 (t :: f :: rest) := by
  have hmem := ring_next_mem hr
  have hr0 := hr
  simp only [ring_is] at hr
  obtain ⟨_, hnd, hpath, hinv⟩ := hr
  have hpmem : p ∈ f :: rest := List.mem_of_getLast?_eq_some hlast
  have hpt : p ≠ t := fun h => hnot (h ▸ hpmem)
  have hft : f ≠ t := fun h => hnot (h ▸ List.mem_cons_self _ _)
  obtain ⟨ys, hys⟩ := List.getLast?_eq_some_iff.1 hlast
  have hpf : idle_next s p = some f ∧ idle_prev s f = some p := by
    cases ys with
    | nil =>
      simp only [List.nil_append, List.cons.injEq] at hys
      obtain ⟨rfl, rfl⟩ := hys
      exact ring_single hr0
    | cons y ys =>
      simp only [List.cons_append, List.cons.injEq] at hys
      obtain ⟨rfl, rfl⟩ := hys
      exact ring_prev_first hr0
  simp only [ring_is]
  refine ⟨hfirst, List.nodup_cons.2 ⟨hnot, hnd⟩, ?_, ?_⟩
  · rw [hnext t, if_neg (Ne.symm hpt), if_pos rfl]
    show next_path s1 t (f :: rest) f
    rw [next_path]
    refine ⟨rfl, hft, ?_⟩
    cases ys with
    | nil =>
      simp only [List.nil_append, List.cons.injEq] at hys
      obtain ⟨rfl, rfl⟩ := hys
      rw [hnext f, if_pos rfl]
      exact rfl
    | cons y ys =>
      simp only [List.cons_append, List.cons.injEq] at hys
      obtain ⟨rfl, rfl⟩ := hys
      have hnd2 := List.nodup_cons.1 hnd
      have hfp : f ≠ p := fun h => hnd2.1 (by rw [h]; simp)
      rw [hnext f, if_neg hfp, if_neg hft]
      cases hn : idle_next s f with
      | none => rw [hn] at hpath; exact hpath.elim
      | some n =>
        rw [hn] at hpath
        refine next_path_redirect s s1 f p t ys n hpath
          (fun u hu => fun h => hnot (h ▸ List.mem_cons_of_mem _ hu)) ?_ ?_
        · intro u hu
          have hnd3 : (ys ++ [p]).Nodup := hnd2.2
          have hup : u ≠ p := by
            intro h
            subst h
            have := List.nodup_append.1 hnd3
            exact this.2.2 hu (by simp)
          have hut : u ≠ t := fun h => hnot (h ▸ List.mem_cons_of_mem _ (by simp [hu]))
          rw [hnext u, if_neg hup, if_neg hut]
        · rw [hnext p, if_pos rfl]
  · intro u hu n hn
    rw [hnext u] at hn
    by_cases hup : u = p
    · rw [if_pos hup] at hn
      simp only [Option.some.injEq] at hn
      subst hn
      rw [hprev t, if_neg (Ne.symm hft), if_pos rfl, hup]
    · rw [if_neg hup] at hn
      by_cases hut : u = t
      · rw [if_pos hut] at hn
        simp only [Option.some.injEq] at hn
        subst hn
        rw [hprev f, if_pos rfl, hut]
      · rw [if_neg hut] at hn
        have humem : u ∈ f :: rest := by
          rcases List.mem_cons.1 hu with h | h
          · exact absurd h hut
          · exact h
        have hnmem := hmem u humem n hn
        have hnt : n ≠ t := fun h => hnot (h ▸ hnmem)
        have hnf : n ≠ f := by
          intro h
          subst h
          have h1 := hinv u humem n hn
          rw [hpf.2] at h1
          simp only [Option.some.injEq] at h1
          exact hup h1.symm
        rw [hprev n, if_neg hnf, if_neg hnt]
        exact hinv u humem n hn

end task_io_service

end asio.detail

namespace asio.detail

namespace task_io_service

/-- In a well-formed ring the last node is linked to the first, whose `prev`
it is. -/
theorem ring_last {s : task_io_service} {f p : Nat} {rest : List Nat}
    (hr : ring_is s (f :: rest)) (hlast : (f :: rest).getLast? = some p) :
    idle_next s p = some f ∧ idle_prev s f = some p := by
  obtain ⟨ys, hys⟩ := List.getLast?_eq_some_iff.1 hlast
  cases ys with
  | nil =>
    simp only [List.nil_append, List.cons.injEq] at hys
    obtain ⟨rfl, rfl⟩ := hys
    exact ring_single hr
  | cons y ys =>
    simp only [List.cons_append, List.cons.injEq] at hys
    obtain ⟨rfl, rfl⟩ := hys
    exact ring_prev_first hr

/-- The function `park` on a well-formed ring: the idle node of the thread
is linked in front of the first idle thread and becomes the first. -/
theorem park_ring {s : task_io_service} {t f p : Nat} {rest : List Nat}
    (hr : ring_is s (f :: rest)) (ht : t < s.threads.length) (hnot : t ∉ f :: rest)
    (hlast : (f :: rest).getLast? = some p) :
    ∃ s1, park s t = some s1 ∧ ring_is s1 (t :: f :: rest) ∧
      (∃ th, s1.threads[t]? = some th ∧ th.pc = Pc.waiting ∧
        th.this_idle_thread.wakeup_event = false) ∧
      idle_next s1 t = some f ∧ idle_prev s1 t = some p ∧ idle_next s1 p = some t ∧
      idle_prev s1 f = some t := by
  have hr0 := hr
  simp only [ring_is] at hr
  obtain ⟨hfirst, _, _, _⟩ := hr
  have hlts := ring_is_lt hr0
  have hpmem : p ∈ f :: rest := List.mem_of_getLast?_eq_some hlast
  have hpt : p ≠ t := fun h => hnot (h ▸ hpmem)
  have hft : f ≠ t := fun h => hnot (h ▸ List.mem_cons_self _ _)
  obtain ⟨_, hpf⟩ := ring_last hr0 hlast
  obtain ⟨s1, h1, n1, p1, l1, _⟩ := set_idle_next_view s t f ht
  have hp1 : idle_prev s1 f = some p := by rw [p1, hpf]
  obtain ⟨s2, h2, p2, n2, l2, _⟩ := set_idle_prev_view s1 t p (by rw [l1]; exact ht)
  have hp2 : idle_prev s2 f = some p := by rw [p2, if_neg hft, hp1]
  obtain ⟨s3, h3, n3, p3, l3, _⟩ := set_idle_next_view s2 p t
    (by rw [l2, l1]; exact hlts p hpmem)
  obtain ⟨s4, h4, p4, n4, l4, _⟩ := set_idle_prev_view s3 f t
    (by rw [l3, l2, l1]; exact hlts f (List.mem_cons_self _ _))
  have ht4 : t < ({ s4 with first_idle_thread_ := some t } : task_io_service).threads.length := by
    show t < s4.threads.length
    rw [l4, l3, l2, l1]; exact ht
  obtain ⟨s5, s6, h5, h6, n6, p6, f6, hth⟩ :=
    wait_view { s4 with first_idle_thread_ := some t } t ht4
  have hnext : ∀ w, idle_next s6 w =
      if w = p then some t else if w = t then some f else idle_next s w := by
    intro w
    rw [n6]
    show idle_next s4 w = _
    rw [n4, n3, n2, n1]
  have hprev : ∀ w, idle_prev s6 w =
      if w = f then some t else if w = t then some p else idle_prev s w := by
    intro w
    rw [p6]
    show idle_prev s4 w = _
    rw [p4, p3, p2, p1]
  have hpark : park s t = some s6 := by
    simp only [park, hfirst, h1, hp1, h2, hp2, h3, h4, h5, h6]
  refine ⟨s6, hpark, ring_is_insert hr0 hnot hlast f6 hnext hprev, hth, ?_, ?_, ?_, ?_⟩
  · rw [hnext, if_neg (Ne.symm hpt), if_pos rfl]
  · rw [hprev, if_neg (Ne.symm hft), if_pos rfl]
  · rw [hnext, if_pos rfl]
  · rw [hprev, if_pos rfl]

/-- The function `park` on the empty ring: the idle node of the thread,
which is linked to itself, becomes the ring. -/
theorem park_empty {s : task_io_service} {t : Nat} (hr : s.first_idle_thread_ = none)
    (ht : t < s.threads.length) (hn : idle_next s t = some t) (hp : idle_prev s t = some t) :
    ∃ s1, park s t = some s1 ∧ ring_is s1 [t] ∧
      (∃ th, s1.threads[t]? = some th ∧ th.pc = Pc.waiting ∧
        th.this_idle_thread.wakeup_event = false) ∧
      idle_next s1 t = some t ∧ idle_prev s1 t = some t := by
  have ht0 : t < ({ s with first_idle_thread_ := some t } : task_io_service).threads.length := ht
  obtain ⟨s5, s6, h5, h6, n6, p6, f6, hth⟩ :=
    wait_view { s with first_idle_thread_ := some t } t ht0
  have hnext : idle_next s6 t = some t := by rw [n6]; exact hn
  have hprev : idle_prev s6 t = some t := by rw [p6]; exact hp
  have hpark : park s t = some s6 := by
    simp only [park, hr, h5, h6]
  refine ⟨s6, hpark, ?_, hth, hnext, hprev⟩
  simp only [ring_is]
  refine ⟨f6, by simp, ?_, ?_⟩
  · rw [hnext]
    exact rfl
  · intro u hu n hun
    simp only [List.mem_singleton] at hu
    subst hu
    rw [hnext] at hun
    simp only [Option.some.injEq] at hun
    subst hun
    exact hprev

/-- C19. When a thread `t` parks while the idle ring `R` is not empty, its
idle node is linked into the ring in front of the first idle thread `f`: `f`
becomes the successor of the new node, the former predecessor `p` of `f`
(the last node of the ring) becomes its predecessor, and
`first_idle_thread_` is updated to `t`, so that the ring is `t :: R`; when
the ring is empty the node, linked to itself, becomes the only element and
`first_idle_thread_` points at it. In both cases the event of the thread is
cleared and the thread waits. This is what the loop of `run` does when the
queue is empty. -/
theorem park_links_before_first_idle (prog : Program) (s : task_io_service) (t : Nat)
    (R : List Nat) (hr : ring_is s R) (ht : t < s.threads.length) (hnot : t ∉ R)
    (hself : R = [] → idle_next s t = some t ∧ idle_prev s t = some t) :
    ∃ s1, park s t = some s1 ∧ ring_is s1 (t :: R) ∧ s1.first_idle_thread_ = some t ∧
      (∃ th, s1.threads[t]? = some th ∧ th.pc = Pc.waiting ∧
        th.this_idle_thread.wakeup_event = false) ∧
      (∀ f p, s.first_idle_thread_ = some f → idle_prev s f = some p →
        idle_next s1 t = some f ∧ idle_prev s1 t = some p ∧ idle_next s1 p = some t ∧
        idle_prev s1 f = some t) ∧
      (s.first_idle_thread_ = none → idle_next s1 t = some t ∧ idle_prev s1 t = some t) ∧
      (s.interrupted_ = false ∧ 0 < s.outstanding_work_ → s.handler_queue_ = none →
        run_loop prog s t = some s1) := by
  cases R with
  | nil =>
    have hfirst : s.first_idle_thread_ = none := hr
    obtain ⟨hn, hp⟩ := hself rfl
    obtain ⟨s1, h1, hring, hth, e1, e2⟩ := park_empty hfirst ht hn hp
    refine ⟨s1, h1, hring, hring.1, hth, ?_, fun _ => ⟨e1, e2⟩, ?_⟩
    · intro f p hf
      rw [hfirst] at hf
      cases hf
    · intro hcond hQ
      rw [run_loop_park prog s t hcond hQ, h1]
  | cons f rest =>
    have hfirst : s.first_idle_thread_ = some f := hr.1
    obtain ⟨p, hlast⟩ : ∃ p, (f :: rest).getLast? = some p := by
      cases h : (f :: rest).getLast? with
      | none => simp at h
      | some p => exact ⟨p, rfl⟩
    obtain ⟨_, hpf⟩ := ring_last hr hlast
    obtain ⟨s1, h1, hring, hth, e1, e2, e3, e4⟩ := park_ring hr ht hnot hlast
    refine ⟨s1, h1, hring, hring.1, hth, ?_, ?_, ?_⟩
    · intro f1 p1 hf hp
      rw [hfirst] at hf
      simp only [Option.some.injEq] at hf
      subst hf
      rw [hpf] at hp
      simp only [Option.some.injEq] at hp
      subst hp
      exact ⟨e1, e2, e3, e4⟩
    · intro hf
      rw [hfirst] at hf
      cases hf
    · intro hcond hQ
      rw [run_loop_park prog s t hcond hQ, h1]

theorem two_parked_example_reach : reach (fun _ => []) two_parked_example :=
  reach.step _ _ (Action.run 1)
    (reach.step _ _ (Action.run 0)
      (reach.step _ _ (Action.run 2)
        (reach.step _ _ (Action.call 3 Cmd.work_started) (reach.init 4 []) rfl) rfl) rfl) rfl

theorem two_parked_example_ring : ring_is two_parked_example [1, 0] := by
  refine ⟨rfl, by decide, ⟨rfl, by decide, rfl⟩, ?_⟩
  intro u hu n hn
  simp only [List.mem_cons, List.mem_singleton, List.not_mem_nil, or_false] at hu
  rcases hu with rfl | rfl
  · have : n = 0 := by
      simpa [idle_next, two_parked_example] using hn.symm
    subst this
    rfl
  · have : n = 1 := by
      simpa [idle_next, two_parked_example] using hn.symm
    subst this
    rfl

/-- Witness of C19: thread 3 parks on the ring of thread 1 and thread 0. -/
theorem park_links_before_first_idle_witness :
    ∃ s1, park two_parked_example 3 = some s1 ∧ ring_is s1 [3, 1, 0] ∧
      s1.first_idle_thread_ = some 3 := by
  obtain ⟨s1, h1, h2, h3, _⟩ := park_links_before_first_idle (fun _ => []) two_parked_example 3
    [1, 0] two_parked_example_ring (by decide) (by decide) (fun h => by cases h)
  exact ⟨s1, h1, h2, h3⟩

/-- Counterexample to C19 as stated: thread 3 enters `run` and parks while
thread 1 is the first idle thread of the ring of thread 1 and thread 0.
Afterwards the predecessor of the new node is thread 0, not the old first
idle thread, and the successor of the old first idle thread is still thread
0, not the new node: the new node is linked in front of the old first idle
thread, with the old first idle thread as its successor. -/
theorem park_not_after_first_idle :
    ∃ s1, step (fun _ => []) two_parked_example (Action.run 3) = some s1 ∧
      two_parked_example.first_idle_thread_ = some 1 ∧
      s1.first_idle_thread_ = some 3 ∧
      idle_prev s1 3 = some 0 ∧ idle_next s1 1 = some 0 ∧
      idle_next s1 3 = some 1 ∧ idle_prev s1 1 = some 3 :=
  ⟨_, rfl, rfl, rfl, rfl, rfl, rfl, rfl⟩

end task_io_service

end asio.detail

/-! ## Successive posts go round the idle ring -/

namespace asio.detail

namespace task_io_service

/-- A path to `f`, followed by `f` itself, is a path to the node `g` that
`f` is linked to. -/
theorem next_path_retarget (s : task_io_service) (f g : Nat) (hfg : f ≠ g)
    (hn : idle_next s f = some g) :
    ∀ (R : List Nat) (cur : Nat), next_path s f R cur → (∀ u ∈ R, u ≠ g) →
      next_path s g (R ++ [f]) cur := by
  intro R
  induction R with
  | nil =>
    intro cur h _
    have hcur : cur = f := h
    rw [List.nil_append, next_path]
    refine ⟨hcur, hfg, ?_⟩
    rw [hn]
    exact rfl
  | cons u R ih =>
    intro cur h hne
    rw [next_path] at h
    rw [List.cons_append, next_path]
    refine ⟨h.1, hne u (List.mem_cons_self _ _), ?_⟩
    cases hm : idle_next s u with
    | none => rw [hm] at h; exact h.2.2.elim
    | some m =>
      rw [hm] at h
      exact ih m h.2.2 (fun x hx => hne x (List.mem_cons_of_mem _ hx))

/-- Advancing `first_idle_thread_` to the next node rotates the ring. -/
theorem ring_is_rotate {s s1 : task_io_service} {f n : Nat} {rest : List Nat}
    (hr : ring_is s (f :: rest)) (hn : idle_next s f = some n)
    (hfirst : s1.first_idle_thread_ = some n)
    (hnext : ∀ w, idle_next s1 w = idle_next s w)
    (hprev : ∀ w, idle_prev s1 w = idle_prev s w) : ring_is s1 (rest ++ [f]) := by
  simp only [ring_is] at hr
  obtain ⟨_, hnd, hpath, hinv⟩ := hr
  rw [hn] at hpath
  have hnd1 : (rest ++ [f]).Nodup := List.nodup_append_comm.1 hnd
  have hinv1 : ∀ u ∈ rest ++ [f], ∀ m, idle_next s1 u = some m → idle_prev s1 m = some u := by
    intro u hu m hm
    rw [hnext] at hm
    rw [hprev]
    exact hinv u (by
      rcases List.mem_append.1 hu with h | h
      · exact List.mem_cons_of_mem _ h
      · simp only [List.mem_singleton] at h
        rw [h]; exact List.mem_cons_self _ _) m hm
  cases rest with
  | nil =>
    have hnf : n = f := hpath
    subst hnf
    simp only [List.nil_append, ring_is]
    refine ⟨hfirst, hnd1, ?_, hinv1⟩
    rw [hnext, hn]
    exact rfl
  | cons g rest =>
    have hpath1 : next_path s f (g :: rest) n := hpath
    rw [next_path] at hpath1
    obtain ⟨hng, hgf, hrest⟩ := hpath1
    subst hng
    simp only [List.cons_append, ring_is]
    refine ⟨hfirst, hnd1, ?_, hinv1⟩
    rw [hnext]
    cases hm : idle_next s n with
    | none => rw [hm] at hrest; exact hrest.elim
    | some m =>
      rw [hm] at hrest
      apply next_path_congr n hnext
      apply next_path_retarget s f n (Ne.symm hgf) hn rest m hrest
      intro u hu hun
      have h2 := (List.nodup_cons.1 hnd).2
      exact (List.nodup_cons.1 h2).1 (hun ▸ hu)

/-- The function `wake_one` when there is an idle thread: the first idle
thread is signalled and `first_idle_thread_` advances. -/
theorem wake_one_ring {s : task_io_service} {f n : Nat} (hfirst : s.first_idle_thread_ = some f)
    (hlt : f < s.threads.length) (hn : idle_next s f = some n) :
    wake_one s = some { signalled [f] s with first_idle_thread_ := some n } := by
  simp only [wake_one, interrupt_one_idle_thread, hfirst, signal_eq s f hlt,
    idle_next_signalled, hn]

/-- The function `post` in a state with a non-empty idle ring: the first
idle thread is signalled and `first_idle_thread_` advances to the next
node. -/
theorem post_ring {s : task_io_service} {L : List handler_ref} {f : Nat} {rest : List Nat}
    (h : Nat) (hq : queue_is s L) (hr : ring_is s (f :: rest)) :
    ∃ s1, post s h = some s1 ∧ s1.trace = s.trace ++ [Event.signal f] ∧
      ring_is s1 (rest ++ [f]) ∧ queue_is s1 (L ++ [handler_ref.wrapper s.heap.length]) ∧
      (∀ w, idle_next s1 w = idle_next s w) ∧ (∀ w, idle_prev s1 w = idle_prev s w) ∧
      s1.outstanding_work_ = to_int (s.outstanding_work_ + 1) := by
  obtain ⟨s0, _, hpost, hq0, _, _, _, _, hw, _, hfi, hth, _, htr⟩ := post_enqueue_spec h hq
  have hlt : f < s.threads.length := ring_is_lt hr f (List.mem_cons_self _ _)
  have hfirst : s.first_idle_thread_ = some f := hr.1
  obtain ⟨n, hn⟩ : ∃ n, idle_next s f = some n := by
    have hget : s.threads[f]? = some s.threads[f] := List.getElem?_eq_getElem hlt
    exact ⟨s.threads[f].this_idle_thread.next, by simp only [idle_next, hget]⟩
  have hnext0 : ∀ w, idle_next
      ({ s0 with outstanding_work_ := to_int (s0.outstanding_work_ + 1) } : task_io_service) w =
      idle_next s w := by
    intro w
    simp only [idle_next, hth]
  have hprev0 : ∀ w, idle_prev
      ({ s0 with outstanding_work_ := to_int (s0.outstanding_work_ + 1) } : task_io_service) w =
      idle_prev s w := by
    intro w
    simp only [idle_prev, hth]
  have hlt0 : f < ({ s0 with outstanding_work_ := to_int (s0.outstanding_work_ + 1) } :
      task_io_service).threads.length := by
    show f < s0.threads.length
    rw [hth]; exact hlt
  have hp : post s h = some { signalled [f]
      { s0 with outstanding_work_ := to_int (s0.outstanding_work_ + 1) } with
        first_idle_thread_ := some n } := by
    rw [hpost]
    exact wake_one_ring (hfi.trans hfirst) hlt0 ((hnext0 f).trans hn)
  have hnext1 : ∀ w, idle_next ({ signalled [f]
      { s0 with outstanding_work_ := to_int (s0.outstanding_work_ + 1) } with
        first_idle_thread_ := some n } : task_io_service) w = idle_next s w := by
    intro w
    show idle_next (signalled [f] { s0 with outstanding_work_ := to_int (s0.outstanding_work_ + 1) }) w = _
    rw [idle_next_signalled, hnext0]
  have hprev1 : ∀ w, idle_prev ({ signalled [f]
      { s0 with outstanding_work_ := to_int (s0.outstanding_work_ + 1) } with
        first_idle_thread_ := some n } : task_io_service) w = idle_prev s w := by
    intro w
    show idle_prev (signalled [f] { s0 with outstanding_work_ := to_int (s0.outstanding_work_ + 1) }) w = _
    rw [idle_prev_signalled, hprev0]
  refine ⟨_, hp, ?_, ring_is_rotate hr hn rfl hnext1 hprev1,
    @queue_is_congr s0 _ _ rfl rfl rfl rfl hq0, hnext1, hprev1, ?_⟩
  · show s0.trace ++ [Event.signal f] = _
    rw [htr]
  · show to_int (s0.outstanding_work_ + 1) = _
    rw [hw]

/-- As many posts as the first part `R1` of the ring has nodes signal the
nodes of `R1`, in ring order, and leave the ring rotated by `R1`. -/
theorem post_all_ring : ∀ (R1 R2 : List Nat) (hs : List Nat) (s : task_io_service)
    (L : List handler_ref), queue_is s L → ring_is s (R1 ++ R2) → hs.length = R1.length →
    ∃ s1 ws, post_all s hs = some s1 ∧ s1.trace = s.trace ++ R1.map Event.signal ∧
      ring_is s1 (R2 ++ R1) ∧ queue_is s1 (L ++ ws) ∧
      (∀ w, idle_next s1 w = idle_next s w) ∧ (∀ w, idle_prev s1 w = idle_prev s w) ∧
      s1.outstanding_work_ = (fun x => to_int (x + 1))^[hs.length] s.outstanding_work_ := by
  intro R1
  induction R1 with
  | nil =>
    intro R2 hs s L hq hr hlen
    have hnil : hs = [] := List.length_eq_zero.1 hlen
    subst hnil
    refine ⟨s, [], rfl, by simp, by simpa using hr, by simpa using hq, fun _ => rfl,
      fun _ => rfl, by simp⟩
  | cons f R1 ih =>
    intro R2 hs s L hq hr hlen
    cases hs with
    | nil => simp at hlen
    | cons h hs =>
      have hr0 : ring_is s (f :: (R1 ++ R2)) := hr
      obtain ⟨s1, h1, htr1, hr1, hq1, n1, p1, hw1⟩ := post_ring h hq hr0
      have hr2 : ring_is s1 (R1 ++ (R2 ++ [f])) := by
        rw [← List.append_assoc]; exact hr1
      obtain ⟨s2, ws, h2, htr2, hr3, hq2, n2, p2, hw2⟩ :=
        ih (R2 ++ [f]) hs s1 _ hq1 hr2 (by simpa using hlen)
      refine ⟨s2, handler_ref.wrapper s.heap.length :: ws, ?_, ?_, ?_, ?_,
        fun w => (n2 w).trans (n1 w), fun w => (p2 w).trans (p1 w), ?_⟩
      · simp only [post_all, h1, h2]
      · rw [htr2, htr1]
        simp
      · simpa using hr3
      · simpa using hq2
      · rw [hw2, hw1]
        simp only [List.length_cons]
        rw [Function.iterate_succ_apply]

/-- C20. In a state with a well-formed queue whose idle ring is
`R1 ++ R2`, as many successive posts as `R1` has nodes, with no other step
in between, signal exactly the threads of `R1`, each once, in ring order,
and leave `first_idle_thread_` at the first node of `R2 ++ R1`, the links of
the ring unchanged; the counter has been incremented once by each post (it
has grown by their number when it stays in the range of `int`). In particular, with `k` threads parked in the ring `R`
(no thread occurs twice in it), `k` successive posts signal every idle thread
exactly once and `first_idle_thread_` ends at the node it started from. -/
theorem round_robin_wakeup (s : task_io_service) (L : List handler_ref) (R1 R2 : List Nat)
    (hs : List Nat) (hq : queue_is s L) (hr : ring_is s (R1 ++ R2))
    (hlen : hs.length = R1.length) :
    ∃ s1, post_all s hs = some s1 ∧ s1.trace = s.trace ++ R1.map Event.signal ∧
      (R1 ++ R2).Nodup ∧ ring_is s1 (R2 ++ R1) ∧
      (∀ w, idle_next s1 w = idle_next s w) ∧ (∀ w, idle_prev s1 w = idle_prev s w) ∧
      (s1.outstanding_work_ = (fun x => to_int (x + 1))^[hs.length] s.outstanding_work_ ∧
        (-2 ^ 31 ≤ s.outstanding_work_ → s.outstanding_work_ + (hs.length : Int) < 2 ^ 31 →
          s1.outstanding_work_ = s.outstanding_work_ + (hs.length : Int))) ∧
      (R2 = [] → s1.first_idle_thread_ = s.first_idle_thread_ ∧ ring_is s1 R1) := by
  obtain ⟨s1, ws, h1, htr, hr1, _, n1, p1, hw⟩ := post_all_ring R1 R2 hs s L hq hr hlen
  refine ⟨s1, h1, htr, ring_is_nodup hr, hr1, n1, p1,
    ⟨hw, fun h1 h2 => by rw [hw]; exact iterate_incr _ _ h1 h2⟩, ?_⟩
  intro h2
  subst h2
  have hr2 : ring_is s1 R1 := by simpa using hr1
  have hr3 : ring_is s R1 := by simpa using hr
  refine ⟨?_, hr2⟩
  cases R1 with
  | nil =>
    have e1 : s1.first_idle_thread_ = none := hr2
    have e2 : s.first_idle_thread_ = none := hr3
    rw [e1, e2]
  | cons f rest =>
    rw [hr2.1, hr3.1]

end task_io_service

end asio.detail

/-! ## Taking an idle node out of the ring -/

namespace asio.detail

namespace task_io_service

/-- A well-formed ring read from another of its nodes: when
`first_idle_thread_` is moved to the node `x` of the ring, the ring is the
same cycle started at `x`. -/
theorem ring_is_rotate_to : ∀ (a b : List Nat) (x : Nat) (s s1 : task_io_service),
    ring_is s (a ++ x :: b) → s1.first_idle_thread_ = some x →
    (∀ w, idle_next s1 w = idle_next s w) → (∀ w, idle_prev s1 w = idle_prev s w) →
    ring_is s1 (x :: b ++ a) := by
  intro a
  induction a with
  | nil =>
    intro b x s s1 hr hfirst hnext hprev
    have hr0 : ring_is s (x :: b) := hr
    rw [List.append_nil]
    exact ring_is_congr (hfirst.trans hr0.1.symm) hnext hprev hr0
  | cons f a ih =>
    intro b x s s1 hr hfirst hnext hprev
    have hr0 : ring_is s (f :: (a ++ x :: b)) := hr
    have hlt : f < s.threads.length := ring_is_lt hr0 f (List.mem_cons_self _ _)
    have hget : s.threads[f]? = some s.threads[f] := List.getElem?_eq_getElem hlt
    have hn : idle_next s f = some s.threads[f].this_idle_thread.next := by
      simp only [idle_next, hget]
    have hr1 : ring_is
        ({ s with first_idle_thread_ := some s.threads[f].this_idle_thread.next } :
          task_io_service) ((a ++ x :: b) ++ [f]) :=
      ring_is_rotate hr0 hn rfl (fun _ => rfl) (fun _ => rfl)
    have hr2 : ring_is
        ({ s with first_idle_thread_ := some s.threads[f].this_idle_thread.next } :
          task_io_service) (a ++ x :: (b ++ [f])) := by
      simpa using hr1
    have hr3 := ih (b ++ [f]) x _ s1 hr2 hfirst hnext hprev
    simpa using hr3

/-- In a well-formed ring every node is the `next` of its `prev`, which is a
node of the ring. -/
theorem ring_prev_mem {s : task_io_service} {R : List Nat} (hr : ring_is s R) :
    ∀ u ∈ R, ∃ p ∈ R, idle_next s p = some u ∧ idle_prev s u = some p := by
  intro u hu
  obtain ⟨a, b, hab⟩ := List.append_of_mem hu
  subst hab
  have hr1 : ring_is ({ s with first_idle_thread_ := some u } : task_io_service)
      (u :: b ++ a) :=
    ring_is_rotate_to a b u s _ hr rfl (fun _ => rfl) (fun _ => rfl)
  obtain ⟨p, hlast⟩ : ∃ p, (u :: (b ++ a)).getLast? = some p := by
    cases h : (u :: (b ++ a)).getLast? with
    | none => simp at h
    | some p => exact ⟨p, rfl⟩
  have hr2 : ring_is ({ s with first_idle_thread_ := some u } : task_io_service)
      (u :: (b ++ a)) := hr1
  obtain ⟨h1, h2⟩ := ring_last hr2 hlast
  have hpmem : p ∈ u :: (b ++ a) := List.mem_of_getLast?_eq_some hlast
  refine ⟨p, ?_, h1, h2⟩
  simp only [List.mem_cons, List.mem_append] at hpmem ⊢
  tauto

/-- The links after the first node `t` of a ring of at least two nodes has
been taken out: the ring is the rest. -/
theorem ring_is_remove_head {s s1 : task_io_service} {t g l : Nat} {rest : List Nat}
    (hr : ring_is s (t :: g :: rest)) (hlast : (g :: rest).getLast? = some l)
    (hfirst : s1.first_idle_thread_ = some g)
    (hnext : ∀ w, idle_next s1 w =
      if w = t then some t else if w = l then some g else idle_next s w)
    (hprev : ∀ w, idle_prev s1 w =
      if w = t then some t else if w = g then some l else idle_prev s w) :
    ring_is s1 (g :: rest) := by
  have hmem := ring_next_mem hr
  have hlast2 : (t :: g :: rest).getLast? = some l := by
    rw [List.getLast?_cons_cons]; exact hlast
  obtain ⟨hlt, hptl⟩ := ring_last hr hlast2
  have hr0 := hr
  simp only [ring_is] at hr
  obtain ⟨_, hnd, hpath, hinv⟩ := hr
  have hnd1 := List.nodup_cons.1 hnd
  have hnd2 := List.nodup_cons.1 hnd1.2
  have hgt : g ≠ t := fun h => hnd1.1 (by rw [← h]; exact List.mem_cons_self _ _)
  have hlmem : l ∈ g :: rest := List.mem_of_getLast?_eq_some hlast
  have hlt2 : l ≠ t := fun h => hnd1.1 (by rw [← h]; exact hlmem)
  -- the link of `t` leads to `g`
  obtain ⟨n, hn⟩ : ∃ n, idle_next s t = some n := by
    cases h : idle_next s t with
    | none => rw [h] at hpath; exact hpath.elim
    | some n => exact ⟨n, rfl⟩
  rw [hn] at hpath
  have hpath1 : next_path s t (g :: rest) n := hpath
  rw [next_path] at hpath1
  obtain ⟨hng, _, hrest⟩ := hpath1
  subst hng
  have hprevn : idle_prev s n = some t := hinv t (List.mem_cons_self _ _) n hn
  simp only [ring_is]
  refine ⟨hfirst, hnd1.2, ?_, ?_⟩
  · obtain ⟨ys, hys⟩ := List.getLast?_eq_some_iff.1 hlast
    cases ys with
    | nil =>
      simp only [List.nil_append, List.cons.injEq] at hys
      obtain ⟨rfl, rfl⟩ := hys
      rw [hnext n, if_neg hgt, if_pos rfl]
      exact rfl
    | cons y ys =>
      simp only [List.cons_append, List.cons.injEq] at hys
      obtain ⟨rfl, rfl⟩ := hys
      have hnl : n ≠ l := fun h => hnd2.1 (by rw [h]; simp)
      rw [hnext n, if_neg hgt, if_neg hnl]
      cases hm : idle_next s n with
      | none => rw [hm] at hrest; exact hrest.elim
      | some m =>
        rw [hm] at hrest
        refine next_path_redirect s s1 t l n ys m hrest ?_ ?_ ?_
        · intro u hu hun
          exact hnd2.1 (hun ▸ hu)
        · intro u hu
          have hut : u ≠ t := fun h =>
            hnd1.1 (by rw [← h]; exact List.mem_cons_of_mem _ (by simp [hu]))
          have hul : u ≠ l := by
            intro h
            subst h
            have := List.nodup_append.1 hnd2.2
            exact this.2.2 hu (by simp)
          rw [hnext u, if_neg hut, if_neg hul]
        · rw [hnext l, if_neg hlt2, if_pos rfl]
  · intro u hu m hm
    have hut : u ≠ t := fun h => hnd1.1 (by rw [← h]; exact hu)
    rw [hnext u, if_neg hut] at hm
    by_cases hul : u = l
    · rw [if_pos hul] at hm
      simp only [Option.some.injEq] at hm
      subst hm
      rw [hprev n, if_neg hgt, if_pos rfl, hul]
    · rw [if_neg hul] at hm
      have humem : u ∈ t :: n :: rest := List.mem_cons_of_mem _ hu
      have hmt : m ≠ t := by
        intro h
        subst h
        have h1 := hinv u humem m hm
        rw [hptl] at h1
        simp only [Option.some.injEq] at h1
        exact hul h1.symm
      have hmn : m ≠ n := by
        intro h
        subst h
        have h1 := hinv u humem m hm
        rw [hprevn] at h1
        simp only [Option.some.injEq] at h1
        exact hut h1.symm
      rw [hprev m, if_neg hmt, if_neg hmn]
      exact hinv u humem m hm

/-- The function `unpark` on a node `t` whose links are `n` and `p`, with
`n` different from `t`: what it writes. -/
theorem unpark_view {s : task_io_service} {t n p : Nat} (ht : t < s.threads.length)
    (hn : idle_next s t = some n) (hp : idle_prev s t = some p) (hnt : n ≠ t)
    (hnlt : n < s.threads.length) (hplt : p < s.threads.length) :
    ∃ s1, unpark s t = some s1 ∧
      s1.first_idle_thread_ =
        (if s.first_idle_thread_ = some t then some n else s.first_idle_thread_) ∧
      (∀ w, idle_next s1 w =
        if w = t then some t else if w = p then some n else idle_next s w) ∧
      (∀ w, idle_prev s1 w =
        if w = t then some t else if w = n then some p else idle_prev s w) := by
  have key : ∀ s0 : task_io_service, s0.threads = s.threads →
      ∃ s1, (match idle_prev s0 t with
        | some p =>
          match set_idle_prev s0 n p with
          | some s1 =>
            match idle_prev s1 t, idle_next s1 t with
            | some p1, some n1 =>
              match set_idle_next s1 p1 n1 with
              | some s2 =>
                match set_idle_next s2 t t with
                | some s3 => set_idle_prev s3 t t
                | none => none
              | none => none
            | _, _ => none
          | none => none
        | none => none) = some s1 ∧
        s1.first_idle_thread_ = s0.first_idle_thread_ ∧
        (∀ w, idle_next s1 w =
          if w = t then some t else if w = p then some n else idle_next s w) ∧
        (∀ w, idle_prev s1 w =
          if w = t then some t else if w = n then some p else idle_prev s w) := by
    intro s0 hth
    have hn0 : ∀ w, idle_next s0 w = idle_next s w := by
      intro w; simp only [idle_next, hth]
    have hp0 : ∀ w, idle_prev s0 w = idle_prev s w := by
      intro w; simp only [idle_prev, hth]
    have hl0 : s0.threads.length = s.threads.length := by rw [hth]
    obtain ⟨s1, h1, p1, n1, l1, f1⟩ := set_idle_prev_view s0 n p (by rw [hl0]; exact hnlt)
    have hpt1 : idle_prev s1 t = some p := by
      rw [p1, if_neg (Ne.symm hnt), hp0, hp]
    have hnt1 : idle_next s1 t = some n := by rw [n1, hn0, hn]
    obtain ⟨s2, h2, n2, p2, l2, f2⟩ := set_idle_next_view s1 p n (by rw [l1, hl0]; exact hplt)
    obtain ⟨s3, h3, n3, p3, l3, f3⟩ := set_idle_next_view s2 t t (by rw [l2, l1, hl0]; exact ht)
    obtain ⟨s4, h4, p4, n4, l4, f4⟩ := set_idle_prev_view s3 t t
      (by rw [l3, l2, l1, hl0]; exact ht)
    refine ⟨s4, ?_, ?_, ?_, ?_⟩
    · simp only [hp0, hp, h1, hpt1, hnt1, h2, h3, h4]
    · rw [f4, f3, f2, f1]
    · intro w
      rw [n4, n3, n2, n1, hn0]
    · intro w
      rw [p4, p3, p2, p1, hp0]
  by_cases hf : s.first_idle_thread_ = some t
  · obtain ⟨s1, h1, f1, n1, p1⟩ := key { s with first_idle_thread_ := some n } rfl
    refine ⟨s1, ?_, ?_, n1, p1⟩
    · simp only [unpark, hn, if_neg hnt, if_pos hf]
      exact h1
    · rw [f1, if_pos hf]
  · obtain ⟨s1, h1, f1, n1, p1⟩ := key s rfl
    refine ⟨s1, ?_, ?_, n1, p1⟩
    · simp only [unpark, hn, if_neg hnt, if_neg hf]
      exact h1
    · rw [f1, if_neg hf]

/-- The function `unpark` on a node of a well-formed ring: the node is taken
out and linked to itself, the other nodes form a well-formed ring, and the
nodes outside the ring are not touched. -/
theorem unpark_ring {s : task_io_service} {a b : List Nat} {t : Nat}
    (hr : ring_is s (a ++ t :: b)) :
    ∃ s1, unpark s t = some s1 ∧ ring_is s1 (a ++ b) ∧
      (∀ u, u ∉ a ++ t :: b → idle_next s1 u = idle_next s u ∧ idle_prev s1 u = idle_prev s u) ∧
      idle_next s1 t = some t ∧ idle_prev s1 t = some t ∧
      (a ++ b = [] → s1 = { s with first_idle_thread_ := none }) := by
  have hlts := ring_is_lt hr
  have hnd := ring_is_nodup hr
  have ht : t < s.threads.length := hlts t (by simp)
  have hr1 : ring_is ({ s with first_idle_thread_ := some t } : task_io_service)
      (t :: (b ++ a)) :=
    ring_is_rotate_to a b t s _ hr rfl (fun _ => rfl) (fun _ => rfl)
  cases hba : b ++ a with
  | nil =>
    have hb : b = [] := (List.append_eq_nil.1 hba).1
    have ha : a = [] := (List.append_eq_nil.1 hba).2
    subst hb ha
    rw [hba] at hr1
    obtain ⟨hn, hp⟩ := ring_single hr1
    have hn0 : idle_next s t = some t := hn
    have hp0 : idle_prev s t = some t := hp
    refine ⟨{ s with first_idle_thread_ := none }, ?_, rfl, fun u _ => ⟨rfl, rfl⟩, hn0, hp0,
      fun _ => rfl⟩
    simp only [unpark, hn0, if_true]
  | cons g rest =>
    rw [hba] at hr1
    have hgmem : g ∈ a ++ t :: b := by
      have : g ∈ b ++ a := by rw [hba]; exact List.mem_cons_self _ _
      simp only [List.mem_append, List.mem_cons] at this ⊢
      tauto
    obtain ⟨l, hlast⟩ : ∃ l, (g :: rest).getLast? = some l := by
      cases h : (g :: rest).getLast? with
      | none => simp at h
      | some l => exact ⟨l, rfl⟩
    have hlmem0 : l ∈ g :: rest := List.mem_of_getLast?_eq_some hlast
    have hlmem : l ∈ a ++ t :: b := by
      have : l ∈ b ++ a := by rw [hba]; exact hlmem0
      simp only [List.mem_append, List.mem_cons] at this ⊢
      tauto
    have hlast2 : (t :: g :: rest).getLast? = some l := by
      rw [List.getLast?_cons_cons]; exact hlast
    obtain ⟨_, hpt⟩ := ring_last hr1 hlast2
    have hpt0 : idle_prev s t = some l := hpt
    have hnd1 : (t :: g :: rest).Nodup := ring_is_nodup hr1
    have hgt : g ≠ t := fun h =>
      (List.nodup_cons.1 hnd1).1 (by rw [← h]; exact List.mem_cons_self _ _)
    have hnt0 : idle_next s t = some g := by
      have h1 := hr1
      simp only [ring_is] at h1
      obtain ⟨_, _, hpath, _⟩ := h1
      cases hn : idle_next ({ s with first_idle_thread_ := some t } : task_io_service) t with
      | none => rw [hn] at hpath; exact hpath.elim
      | some n =>
        rw [hn] at hpath
        have hpath1 : next_path _ t (g :: rest) n := hpath
        rw [next_path] at hpath1
        have hn2 : idle_next s t = some n := hn
        rw [hn2, hpath1.1]
    obtain ⟨s1, h1, f1, n1, p1⟩ := unpark_view ht hnt0 hpt0 hgt (hlts g hgmem) (hlts l hlmem)
    have hrS : ring_is ({ s1 with first_idle_thread_ := some g } : task_io_service)
        (g :: rest) := by
      refine ring_is_remove_head hr1 hlast rfl ?_ ?_
      · intro w
        show idle_next s1 w = _
        rw [n1]; rfl
      · intro w
        show idle_prev s1 w = _
        rw [p1]; rfl
    refine ⟨s1, h1, ?_, ?_, ?_, ?_, ?_⟩
    · cases a with
      | nil =>
        have hb : b = g :: rest := by simpa using hba
        have hfirst : s.first_idle_thread_ = some t := hr.1
        rw [List.nil_append, hb]
        refine @ring_is_congr { s1 with first_idle_thread_ := some g } s1 _ ?_
          (fun _ => rfl) (fun _ => rfl) hrS
        rw [f1, if_pos hfirst]
      | cons f a =>
        have hfirst : s.first_idle_thread_ = some f := hr.1
        have hft : f ≠ t := by
          intro h
          have h2 : (f :: (a ++ t :: b)).Nodup := hnd
          exact (List.nodup_cons.1 h2).1 (by rw [h]; simp)
        have hf1 : s1.first_idle_thread_ = some f := by
          rw [f1, hfirst, if_neg]
          simp only [Option.some.injEq]
          exact hft
        have hrS2 : ring_is ({ s1 with first_idle_thread_ := some g } : task_io_service)
            (b ++ f :: a) := by
          rw [hba]; exact hrS
        have := ring_is_rotate_to b a f _ s1 hrS2 hf1 (fun _ => rfl) (fun _ => rfl)
        simpa using this
    · intro u hu
      have hut : u ≠ t := fun h => hu (by rw [h]; simp)
      have hul : u ≠ l := fun h => hu (by rw [h]; exact hlmem)
      have hug : u ≠ g := fun h => hu (by rw [h]; exact hgmem)
      rw [n1, p1, if_neg hut, if_neg hul, if_neg hut, if_neg hug]
      exact ⟨rfl, rfl⟩
    · rw [n1, if_pos rfl]
    · rw [p1, if_pos rfl]
    · intro hab
      have : b ++ a = [] := by
        obtain ⟨h1, h2⟩ := List.append_eq_nil.1 hab
        rw [h1, h2]; rfl
      rw [hba] at this
      cases this

end task_io_service

end asio.detail

/-! ## One thread draining the queue -/

namespace asio.detail

namespace task_io_service

theorem invocations_append (a b : List Event) :
    invocations (a ++ b) = invocations a ++ invocations b := by
  induction a with
  | nil => rfl
  | cons e a ih =>
    cases e <;> simp [invocations, ih]

theorem run_for_outside (prog : Program) (t fuel : Nat) (s : task_io_service)
    (h : is_outside s t = true) : run_for prog t fuel s = s := by
  cases fuel with
  | zero => rfl
  | succ f => simp [run_for, h]

theorem run_for_step (prog : Program) (t fuel : Nat) (s s1 : task_io_service)
    (ho : is_outside s t = false) (h : thread_step prog s t = some s1) :
    run_for prog t (fuel + 1) s = run_for prog t fuel s1 := by
  simp [run_for, ho, h]

theorem run_steps_of_run_for (prog : Program) (t : Nat) :
    ∀ (fuel : Nat) (s : task_io_service), is_outside (run_for prog t fuel s) t = true →
      run_steps prog t fuel s = some (run_for prog t fuel s) := by
  intro fuel
  induction fuel with
  | zero =>
    intro s h
    simp only [run_for] at h
    simp [run_steps, run_for, h]
  | succ f ih =>
    intro s h
    by_cases ho : is_outside s t = true
    · simp [run_steps, run_for, ho]
    · have ho1 : is_outside s t = false := by simpa using ho
      cases hs : thread_step prog s t with
      | none =>
        simp only [run_for, ho1, hs] at h
        simp only [Bool.false_eq_true, if_false] at h
        exact absurd h ho
      | some s1 =>
        rw [run_for_step prog t f s s1 ho1 hs] at h ⊢
        simp only [run_steps, ho1, hs]
        exact ih s1 h

theorem is_outside_false_of_kind {s : task_io_service} {t : Nat} {x : Kind}
    (h : (kinds s)[t]? = some x) (hx : x ≠ Kind.outside) : is_outside s t = false := by
  cases ho : is_outside s t with
  | false => rfl
  | true =>
    rw [is_outside_eq, h] at ho
    simp at ho
    exact absurd ho hx

theorem thread_step_handler_done (prog : Program) (s : task_io_service) (t : Nat)
    (th : run_thread) (hth : s.threads[t]? = some th) (hpc : th.pc = Pc.in_handler []) :
    thread_step prog s t = run_loop prog (handler_cleanup s) t := by
  simp [thread_step, hth, hpc]

theorem thread_step_task_done (prog : Program) (s s1 : task_io_service) (t : Nat) (b : Bool)
    (th : run_thread) (hth : s.threads[t]? = some th) (hpc : th.pc = Pc.in_task b [])
    (hc : task_cleanup s = some s1) :
    thread_step prog s t = run_loop prog s1 t := by
  simp [thread_step, hth, hpc, hc]

theorem is_outside_of_pc {s : task_io_service} {t : Nat} {th : run_thread}
    (hth : s.threads[t]? = some th) (hpc : th.pc.kind ≠ Kind.outside) :
    is_outside s t = false :=
  is_outside_false_of_kind (kinds_get s t th hth) hpc

theorem quiet_nil : quiet [] := fun _ h => by cases h

theorem quiet_of_nil {k : List Cmd} (h : k = []) : quiet k := by
  subst h; exact quiet_nil

theorem quiet_cons {c : Cmd} {k : List Cmd} (h : quiet (c :: k)) : c = Cmd.reset ∧ quiet k :=
  ⟨h c (List.mem_cons_self _ _), fun x hx => h x (List.mem_cons_of_mem _ hx)⟩

theorem moves_cons (prog : Program) (h : Nat) (hs : List Nat) :
    moves prog (h :: hs) = (prog h).length + 1 + moves prog hs := by
  simp [moves]

theorem moves_append (prog : Program) (a b : List Nat) :
    moves prog (a ++ b) = moves prog a + moves prog b := by
  simp [moves]

/-- Handlers that make no call take one move each. -/
theorem moves_of_no_call (prog : Program) (hs : List Nat) (h : ∀ x ∈ hs, prog x = []) :
    moves prog hs = hs.length := by
  induction hs with
  | nil => rfl
  | cons x hs ih =>
    rw [moves_cons, h x (List.mem_cons_self _ _), ih (fun y hy => h y (List.mem_cons_of_mem _ hy))]
    simp only [List.length_nil, List.length_cons]
    omega

theorem set_of_get {α : Type} {l : List α} {i : Nat} {x : α} (h : l[i]? = some x) :
    l.set i x = l := by
  apply List.ext_getElem?
  intro j
  by_cases hij : i = j
  · subst hij
    have hlt : i < l.length := (List.getElem?_eq_some.1 h).1
    simp [List.getElem?_set, hlt, h]
  · rw [List.getElem?_set_ne hij]

/-- On a dispatcher that is not interrupted, `reset()` changes nothing. -/
theorem reset_of_clear (s : task_io_service) (h : s.interrupted_ = false) : reset s = s := by
  cases s
  simp only at h
  simp [reset, h]

/-- A handler that calls `reset()` on a dispatcher that is not interrupted
goes on with its next call. -/
theorem thread_step_reset_handler (prog : Program) (s : task_io_service) (t : Nat)
    (th : run_thread) (k : List Cmd) (hth : s.threads[t]? = some th)
    (hpc : th.pc = Pc.in_handler (Cmd.reset :: k)) (hI : s.interrupted_ = false) :
    thread_step prog s t =
      some { s with threads := s.threads.set t { th with pc := Pc.in_handler k } } := by
  have h1 : thread_step prog s t =
      some (reset { s with threads := s.threads.set t { th with pc := Pc.in_handler k } }) := by
    simp [thread_step, hth, hpc, set_pc, exec]
  rw [h1]
  exact congrArg some (reset_of_clear _ hI)

/-- The task that calls `reset()` on a dispatcher that is not interrupted
goes on with its next call. -/
theorem thread_step_reset_task (prog : Program) (s : task_io_service) (t : Nat)
    (th : run_thread) (b : Bool) (k : List Cmd) (hth : s.threads[t]? = some th)
    (hpc : th.pc = Pc.in_task b (Cmd.reset :: k)) (hI : s.interrupted_ = false) :
    thread_step prog s t =
      some { s with threads := s.threads.set t { th with pc := Pc.in_task b k } } := by
  have h1 : thread_step prog s t =
      some (reset { s with threads := s.threads.set t { th with pc := Pc.in_task b k } }) := by
    simp [thread_step, hth, hpc, set_pc, exec]
  rw [h1]
  exact congrArg some (reset_of_clear _ hI)

/-- A quiet handler, on a dispatcher that is not interrupted, arrives at its
end after as many moves as it makes calls, having changed nothing. -/
theorem run_for_quiet_handler (prog : Program) (t : Nat) :
    ∀ (k : List Cmd), quiet k → ∀ (s : task_io_service) (th : run_thread) (f : Nat),
      s.threads[t]? = some th → th.pc = Pc.in_handler k → s.interrupted_ = false →
      run_for prog t (k.length + f) s =
        run_for prog t f
          { s with threads := s.threads.set t { th with pc := Pc.in_handler [] } } := by
  intro k
  induction k with
  | nil =>
    intro _ s th f hth hpc _
    have e1 : ({ th with pc := Pc.in_handler [] } : run_thread) = th := by
      cases th
      simp only at hpc
      simp [hpc]
    rw [e1, set_of_get hth]
    simp
  | cons c k ih =>
    intro hq s th f hth hpc hI
    obtain ⟨hc, hk⟩ := quiet_cons hq
    subst hc
    have hlt : t < s.threads.length := (List.getElem?_eq_some.1 hth).1
    have ho : is_outside s t = false := is_outside_of_pc hth (by rw [hpc]; simp [Pc.kind])
    have e : (Cmd.reset :: k).length + f = (k.length + f) + 1 := by
      simp only [List.length_cons]; omega
    have h2 := ih hk { s with threads := s.threads.set t { th with pc := Pc.in_handler k } }
      { th with pc := Pc.in_handler k } f (by simp [List.getElem?_set, hlt]) rfl hI
    simp only [List.set_set] at h2
    rw [e, run_for_step prog t _ s _ ho (thread_step_reset_handler prog s t th k hth hpc hI)]
    exact h2

/-- A quiet task, on a dispatcher that is not interrupted, arrives at its
end after as many moves as it makes calls, having changed nothing. -/
theorem run_for_quiet_task (prog : Program) (t : Nat) (b : Bool) :
    ∀ (k : List Cmd), quiet k → ∀ (s : task_io_service) (th : run_thread) (f : Nat),
      s.threads[t]? = some th → th.pc = Pc.in_task b k → s.interrupted_ = false →
      run_for prog t (k.length + f) s =
        run_for prog t f
          { s with threads := s.threads.set t { th with pc := Pc.in_task b [] } } := by
  intro k
  induction k with
  | nil =>
    intro _ s th f hth hpc _
    have e1 : ({ th with pc := Pc.in_task b [] } : run_thread) = th := by
      cases th
      simp only at hpc
      simp [hpc]
    rw [e1, set_of_get hth]
    simp
  | cons c k ih =>
    intro hq s th f hth hpc hI
    obtain ⟨hc, hk⟩ := quiet_cons hq
    subst hc
    have hlt : t < s.threads.length := (List.getElem?_eq_some.1 hth).1
    have ho : is_outside s t = false := is_outside_of_pc hth (by rw [hpc]; simp [Pc.kind])
    have e : (Cmd.reset :: k).length + f = (k.length + f) + 1 := by
      simp only [List.length_cons]; omega
    have h2 := ih hk { s with threads := s.threads.set t { th with pc := Pc.in_task b k } }
      { th with pc := Pc.in_task b k } f (by simp [List.getElem?_set, hlt]) rfl hI
    simp only [List.set_set] at h2
    rw [e, run_for_step prog t _ s _ ho (thread_step_reset_task prog s t th b k hth hpc hI)]
    exact h2

/-- Leaving the loop when no work is outstanding and no thread is idle. -/
theorem step_exit (prog : Program) (s : task_io_service) (t : Nat) (ha : solo s t)
    (hq : queue_is s [handler_ref.task]) (hw : s.outstanding_work_ = 0) :
    ∃ s1, run_loop prog s t = some s1 ∧ is_outside s1 t = true ∧ s1.interrupted_ = true ∧
      s1.trace = s.trace ++ [Event.run_return t] ∧ s1.outstanding_work_ = 0 ∧
      queue_is s1 [handler_ref.task] := by
  have hcond : ¬ (s.interrupted_ = false ∧ 0 < s.outstanding_work_) := by
    rw [hw]; simp
  have hE : s.handler_queue_end_ = some handler_ref.task := by simpa using hq.last
  have hint : interrupt_all_threads s = some { s with interrupted_ := true } := by
    simp [interrupt_all_threads, interrupt_all_idle_threads, ha.no_idle, hE]
  have hexit : run_exit s t = set_pc
      { s with interrupted_ := true, trace := s.trace ++ [Event.run_return t] } t Pc.outside := by
    simp [run_exit, ha.not_interrupted, hint]
  have hv : t < s.threads.length := ha.valid
  have hget : s.threads[t]? = some s.threads[t] := List.getElem?_eq_getElem hv
  rw [run_loop_exit prog s t hcond, hexit]
  simp only [set_pc, hget]
  refine ⟨_, rfl, ?_, rfl, rfl, hw, ?_⟩
  · simp [is_outside, List.getElem?_set, ha.valid]
  · exact @queue_is_congr s _ _ rfl rfl rfl rfl hq

/-- Taking a user handler off the queue and starting it. -/
theorem pop_wrapper (prog : Program) (s : task_io_service) (t a h : Nat)
    (L : List handler_ref) (ha : solo s t) (hq : queue_is s (handler_ref.wrapper a :: L))
    (hw : 0 < s.outstanding_work_) (hh : handler_of s (handler_ref.wrapper a) = some h) :
    ∃ s1 th, run_loop prog s t = some s1 ∧ s1.threads[t]? = some th ∧
      th.pc = Pc.in_handler (prog h) ∧ solo s1 t ∧ queue_is s1 L ∧
      (∀ r ∈ L, handler_of s1 r = handler_of s r) ∧
      s1.outstanding_work_ = s.outstanding_work_ ∧ s1.task_script = s.task_script ∧
      s1.trace = s.trace ++ [Event.invoke t h] := by
  have hcond : s.interrupted_ = false ∧ 0 < s.outstanding_work_ := ⟨ha.not_interrupted, hw⟩
  have hQ : s.handler_queue_ = some (handler_ref.wrapper a) := by
    have := hq.links
    rw [chain_cons] at this
    exact this.1
  obtain ⟨nx, hg⟩ := chain_live s _ _ hq.links (handler_ref.wrapper a) (by simp)
  obtain ⟨c, hc, hcn⟩ := get_next_wrapper_some hg
  have hch : c.handler_ = h := by
    simpa [handler_of, hc] using hh
  obtain ⟨hchain, hlast, hnd, hnotin, _⟩ := queue_is_pop hq hg
  have hv : t < s.threads.length := ha.valid
  have hget : s.threads[t]? = some s.threads[t] := List.getElem?_eq_getElem hv
  rw [run_loop_wrapper prog s t a c hcond hQ hc, hch]
  simp only [set_pc, hget]
  refine ⟨_, { pc := Pc.in_handler (prog h), this_idle_thread := s.threads[t].this_idle_thread },
    rfl, ?_, rfl, ?_, ?_, ?_, rfl, rfl, rfl⟩
  · simp [List.getElem?_set, hv]
  · exact ⟨by simpa using hv, ha.not_interrupted, ha.no_idle, ha.quiet_task⟩
  · refine ⟨?_, ?_, hnd⟩
    · show chain _ c.next_ L
      rw [hcn]
      apply chain_congr s _ L _ _ hchain
      intro r hr
      cases r with
      | task => rfl
      | wrapper b =>
        have hab : a ≠ b := by
          intro hab
          apply hnotin
          rw [hab]; exact hr
        simp [get_next_, List.getElem?_set_ne hab]
    · show (if c.next_ = none then none else s.handler_queue_end_) = _
      rw [hcn]; exact hlast
  · intro r hr
    cases r with
    | task => rfl
    | wrapper b =>
      have hab : a ≠ b := by
        intro hab
        apply hnotin
        rw [hab]; exact hr
      simp [handler_of, List.getElem?_set_ne hab]

/-- Taking a quiet user handler off the queue and running it to its end. -/
theorem step_wrapper (prog : Program) (s : task_io_service) (t a h : Nat)
    (L : List handler_ref) (ha : solo s t) (hq : queue_is s (handler_ref.wrapper a :: L))
    (hw : 0 < s.outstanding_work_) (hh : handler_of s (handler_ref.wrapper a) = some h)
    (hp : quiet (prog h)) :
    ∃ s1 s2, run_loop prog s t = some s1 ∧
      (∀ f, run_for prog t ((prog h).length + f) s1 = run_for prog t f s2) ∧
      is_outside s2 t = false ∧
      thread_step prog s2 t = run_loop prog (handler_cleanup s2) t ∧
      solo (handler_cleanup s2) t ∧ queue_is (handler_cleanup s2) L ∧
      (∀ r ∈ L, handler_of (handler_cleanup s2) r = handler_of s r) ∧
      (handler_cleanup s2).outstanding_work_ = to_int (s.outstanding_work_ - 1) ∧
      (handler_cleanup s2).task_script = s.task_script ∧
      (handler_cleanup s2).trace = s.trace ++ [Event.invoke t h] := by
  obtain ⟨s1, th, h1, hth, hpc, ha1, hq1, hho1, hw1, hsc1, htr1⟩ :=
    pop_wrapper prog s t a h L ha hq hw hh
  have hlt : t < s1.threads.length := ha1.valid
  have hth2 : ({ s1 with threads := s1.threads.set t { th with pc := Pc.in_handler [] } } :
      task_io_service).threads[t]? = some { th with pc := Pc.in_handler [] } := by
    simp [List.getElem?_set, hlt]
  refine ⟨s1, { s1 with threads := s1.threads.set t { th with pc := Pc.in_handler [] } }, h1,
    fun f => run_for_quiet_handler prog t _ hp s1 th f hth hpc ha1.not_interrupted,
    is_outside_of_pc hth2 (by simp [Pc.kind]),
    thread_step_handler_done prog _ t _ hth2 rfl, ?_, ?_, ?_, ?_, hsc1, htr1⟩
  · exact ⟨by simpa [handler_cleanup] using hlt, ha1.not_interrupted, ha1.no_idle, ha1.quiet_task⟩
  · exact @queue_is_congr s1 _ _ rfl rfl rfl rfl hq1
  · intro r hr
    rw [← hho1 r hr]
    cases r <;> rfl
  · show to_int (s1.outstanding_work_ - 1) = _
    rw [hw1]

end task_io_service

end asio.detail

namespace asio.detail

namespace task_io_service

theorem quiet_head (script : List (List Cmd)) (h : ∀ c ∈ script, quiet c) :
    quiet (script.headD []) ∧ ∀ c ∈ script.tail, quiet c := by
  cases script with
  | nil => exact ⟨quiet_nil, fun c hc => by cases hc⟩
  | cons c0 rest =>
    exact ⟨h c0 (List.mem_cons_self _ _), fun c hc => h c (List.mem_cons_of_mem _ hc)⟩

/-- Taking the task off the queue: the thread enters `task_.run(block)`,
where `block` tells whether the queue is now empty. -/
theorem pop_task (prog : Program) (s : task_io_service) (t : Nat) (L : List handler_ref)
    (ha : solo s t) (hq : queue_is s (handler_ref.task :: L)) (hw : 0 < s.outstanding_work_) :
    ∃ s1 th b, run_loop prog s t = some s1 ∧ s1.threads[t]? = some th ∧
      th.pc = Pc.in_task b (s.task_script.headD []) ∧ (b = true ↔ L = []) ∧ solo s1 t ∧
      queue_is { s1 with task_handler_next_ := none } L ∧
      (s1.task_handler_next_ = none ↔ L = []) ∧
      s1.heap = s.heap ∧ s1.outstanding_work_ = s.outstanding_work_ ∧
      s1.trace = s.trace ++ [Event.task_run t b] := by
  have hcond : s.interrupted_ = false ∧ 0 < s.outstanding_work_ := ⟨ha.not_interrupted, hw⟩
  have hQ : s.handler_queue_ = some handler_ref.task := by
    have := hq.links
    rw [chain_cons] at this
    exact this.1
  have hg : get_next_ s handler_ref.task = some s.task_handler_next_ := rfl
  obtain ⟨hchain, hlast, hnd, hnotin, hiff⟩ := queue_is_pop hq hg
  obtain ⟨_, htail⟩ := quiet_head s.task_script ha.quiet_task
  have hv : t < s.threads.length := ha.valid
  have hget : s.threads[t]? = some s.threads[t] := List.getElem?_eq_getElem hv
  rw [run_loop_task prog s t hcond hQ]
  simp only [set_pc, hget]
  refine ⟨_, { pc := Pc.in_task (!(s.task_handler_next_ != none)) (s.task_script.headD []),
               this_idle_thread := s.threads[t].this_idle_thread },
    !(s.task_handler_next_ != none), rfl, ?_, rfl, ?_, ?_, ?_, hiff, rfl, rfl, rfl⟩
  · simp [List.getElem?_set, hv]
  · rw [← hiff]
    cases s.task_handler_next_ <;> simp
  · exact ⟨by simpa using hv, ha.not_interrupted, ha.no_idle, htail⟩
  · refine ⟨?_, hlast, hnd⟩
    apply chain_congr s _ L _ _ hchain
    intro r hr
    cases r with
    | task => exact absurd hr hnotin
    | wrapper a => rfl

/-- The quiet task, run without blocking, goes back to the end of the
queue. -/
theorem step_task (prog : Program) (s : task_io_service) (t : Nat) (L : List handler_ref)
    (ha : solo s t) (hq : queue_is s (handler_ref.task :: L)) (hL : L ≠ [])
    (hw : 0 < s.outstanding_work_) :
    ∃ s1 s2 s3, run_loop prog s t = some s1 ∧
      (∀ f, run_for prog t ((s.task_script.headD []).length + f) s1 = run_for prog t f s2) ∧
      is_outside s2 t = false ∧
      thread_step prog s2 t = run_loop prog s3 t ∧ solo s3 t ∧
      queue_is s3 (L ++ [handler_ref.task]) ∧
      (∀ r, handler_of s3 r = handler_of s r) ∧
      s3.outstanding_work_ = s.outstanding_work_ ∧
      s3.task_script = s.task_script.tail ∧
      s3.trace = s.trace ++ [Event.task_run t false] := by
  obtain ⟨hk, _⟩ := quiet_head s.task_script ha.quiet_task
  have hcond : s.interrupted_ = false ∧ 0 < s.outstanding_work_ := ⟨ha.not_interrupted, hw⟩
  have hQ : s.handler_queue_ = some handler_ref.task := by
    have := hq.links
    rw [chain_cons] at this
    exact this.1
  have hsc : ∀ s1, run_loop prog s t = some s1 → s1.task_script = s.task_script.tail := by
    intro s1 h1
    rw [run_loop_task prog s t hcond hQ] at h1
    rw [(set_pc_fields h1).2.2.2.2.2.2.2.1]
  obtain ⟨s1, th, b, h1, hth, hpc, hb, ha1, hq1, _, hheap, hw1, htr⟩ := pop_task prog s t L ha hq hw
  have hbf : b = false := by
    cases b with
    | false => rfl
    | true => exact absurd (hb.1 rfl) hL
  subst hbf
  have hlt : t < s1.threads.length := ha1.valid
  have hth2 : ({ s1 with threads := s1.threads.set t { th with pc := Pc.in_task false [] } } :
      task_io_service).threads[t]? = some { th with pc := Pc.in_task false [] } := by
    simp [List.getElem?_set, hlt]
  have hnotin : handler_ref.task ∉ L := (List.nodup_cons.1 hq.nodup).1
  have hq2 : queue_is ({ s1 with threads := s1.threads.set t { th with pc := Pc.in_task false [] }
                                 task_handler_next_ := none } : task_io_service) L :=
    @queue_is_congr { s1 with task_handler_next_ := none } _ _ rfl rfl rfl rfl hq1
  obtain ⟨s3, hs3, hq3, hho, _, _, hw3, hi3, hfi3, hth3, hsc3, htr3⟩ :=
    @enqueue_spec _ L handler_ref.task hq2 hnotin rfl
  have hclean : task_cleanup
      { s1 with threads := s1.threads.set t { th with pc := Pc.in_task false [] } } =
      some s3 := hs3
  refine ⟨s1, _, s3, h1,
    fun f => run_for_quiet_task prog t false _ hk s1 th f hth hpc ha1.not_interrupted,
    is_outside_of_pc hth2 (by simp [Pc.kind]),
    thread_step_task_done prog _ s3 t false _ hth2 rfl hclean, ?_, hq3, ?_, ?_, ?_, ?_⟩
  · exact ⟨by rw [hth3]; simpa using hlt, by rw [hi3]; exact ha1.not_interrupted,
      by rw [hfi3]; exact ha1.no_idle, by rw [hsc3]; exact ha1.quiet_task⟩
  · intro r
    rw [hho]
    cases r with
    | task => rfl
    | wrapper a => simp [handler_of, hheap]
  · rw [hw3]; exact hw1
  · rw [hsc3]; exact hsc s1 h1
  · rw [htr3]; exact htr

theorem polling_outside {s : task_io_service} {t : Nat} (h : polling s t) :
    is_outside s t = false := by
  obtain ⟨th, k, hth, hpc, _⟩ := h.pc
  apply @is_outside_false_of_kind _ t (Kind.task true)
  · rw [kinds_get s t th hth, hpc]; rfl
  · simp

/-- A polling thread goes on polling and invokes nothing. -/
theorem polling_step (prog : Program) (s : task_io_service) (t : Nat) (h : polling s t) :
    ∃ s1, thread_step prog s t = some s1 ∧ polling s1 t ∧
      invocations s1.trace = invocations s.trace ∧
      s1.outstanding_work_ = s.outstanding_work_ := by
  obtain ⟨th, k, hth, hpc, hk⟩ := h.pc
  have hlt : t < s.threads.length := h.alone.valid
  cases k with
  | cons c k =>
    obtain ⟨hc, hk1⟩ := quiet_cons hk
    subst hc
    refine ⟨_, thread_step_reset_task prog s t th true k hth hpc h.alone.not_interrupted,
      ⟨⟨by simpa using hlt, h.alone.not_interrupted, h.alone.no_idle, h.alone.quiet_task⟩,
        ⟨{ th with pc := Pc.in_task true k }, k, by simp [List.getElem?_set, hlt], rfl, hk1⟩,
        @queue_is_congr s _ _ rfl rfl rfl rfl h.queue, h.work⟩, rfl, rfl⟩
  | nil =>
    have hq0 : queue_is { s with task_handler_next_ := none } [] :=
      ⟨(chain_nil _ _).2 ((chain_nil _ _).1 h.queue.links), h.queue.last, List.nodup_nil⟩
    obtain ⟨s2, hs2, hq2, _, _, _, hw2, hi2, hfi2, hth2, hsc2, htr2⟩ :=
      @enqueue_spec { s with task_handler_next_ := none } [] handler_ref.task hq0 (by simp) rfl
    have hclean : task_cleanup s = some s2 := hs2
    have ha2 : solo s2 t :=
      ⟨by rw [hth2]; exact h.alone.valid, by rw [hi2]; exact h.alone.not_interrupted,
        by rw [hfi2]; exact h.alone.no_idle, by rw [hsc2]; exact h.alone.quiet_task⟩
    have hw2p : 0 < s2.outstanding_work_ := by rw [hw2]; exact h.work
    obtain ⟨hk2, _⟩ := quiet_head s2.task_script ha2.quiet_task
    obtain ⟨s1, th1, b, h1, hth1, hpc1, hb, ha1, hq1, _, _, hw1, htr1⟩ :=
      pop_task prog s2 t [] ha2 (by simpa using hq2) hw2p
    have hbt : b = true := hb.2 rfl
    subst hbt
    refine ⟨s1, ?_, ⟨ha1, ⟨th1, _, hth1, hpc1, hk2⟩, ?_, by rw [hw1]; exact hw2p⟩, ?_,
      by rw [hw1, hw2]⟩
    · rw [thread_step_task_done prog s s2 t true th hth hpc hclean]
      exact h1
    · exact ⟨(chain_nil _ _).2 ((chain_nil _ _).1 hq1.links), hq1.last, List.nodup_nil⟩
    · rw [htr1, invocations_append, htr2]
      simp [invocations]

theorem polling_run_for (prog : Program) (t : Nat) :
    ∀ (fuel : Nat) (s : task_io_service), polling s t →
      invocations (run_for prog t fuel s).trace = invocations s.trace ∧
      (run_for prog t fuel s).outstanding_work_ = s.outstanding_work_ := by
  intro fuel
  induction fuel with
  | zero => intro s _; exact ⟨rfl, rfl⟩
  | succ f ih =>
    intro s h
    obtain ⟨s1, h1, hp1, hinv, hw⟩ := polling_step prog s t h
    rw [run_for_step prog t f s s1 (polling_outside h) h1]
    obtain ⟨i1, i2⟩ := ih s1 hp1
    exact ⟨i1.trans hinv, i2.trans hw⟩

end task_io_service

end asio.detail
namespace asio.detail

namespace task_io_service

theorem drained_of_step {s s2 X : task_io_service} {t : Nat} {pre hs : List Nat} {extra : Nat}
    (h : drained s2 t hs extra X) (htr : invocations s2.trace = invocations s.trace ++ pre) :
    drained s t (pre ++ hs) extra X :=
  ⟨by rw [h.invoked, htr, List.append_assoc], h.work, h.returned⟩

theorem map_handler_cons {s : task_io_service} {ws : List handler_ref} {h : Nat}
    {hs : List Nat} (hn : ws.map (handler_of s) = (h :: hs).map some) :
    ∃ a ws1, ws = handler_ref.wrapper a :: ws1 ∧
      handler_of s (handler_ref.wrapper a) = some h ∧ ws1.map (handler_of s) = hs.map some := by
  cases ws with
  | nil => simp at hn
  | cons r ws1 =>
    simp only [List.map_cons, List.cons.injEq] at hn
    cases r with
    | task => simp [handler_of] at hn
    | wrapper a => exact ⟨a, ws1, rfl, hn.1, hn.2⟩

/-- The counter after the cleanup of one of `n + 1` handlers that it counts
together with `extra` units of other work. -/
theorem to_int_pred_count (n extra : Nat) (h : n + 1 + extra < 2 ^ 31) :
    to_int ((n + 1 : Nat) + (extra : Int) - 1) = (n : Int) + (extra : Int) := by
  have e : ((n + 1 : Nat) : Int) + (extra : Int) - 1 = (n : Int) + (extra : Int) := by
    push_cast; ring
  rw [e]
  have h1 : -2 ^ 31 ≤ (n : Int) + (extra : Int) := by omega
  have h2 : (n : Int) + (extra : Int) < 2 ^ 31 := by omega
  exact to_int_of_range h1 h2

/-- With the task at the end of the queue, the thread delivers the handlers
in front of it one after the other. -/
theorem drain_tail (prog : Program) (t extra : Nat) :
    ∀ (hs : List Nat) (ws : List handler_ref) (s : task_io_service), solo s t →
      queue_is s (ws ++ [handler_ref.task]) → ws.map (handler_of s) = hs.map some →
      s.outstanding_work_ = (hs.length : Int) + (extra : Int) →
      hs.length + extra < 2 ^ 31 → (∀ h ∈ hs, quiet (prog h)) →
      ∃ s1, run_loop prog s t = some s1 ∧
        ∀ fuel, moves prog hs ≤ fuel → drained s t hs extra (run_for prog t fuel s1) := by
  intro hs
  induction hs with
  | nil =>
    intro ws s ha hq hn hw _ _
    have hws : ws = [] := by simpa using hn
    subst hws
    simp only [List.nil_append] at hq
    simp only [List.length_nil, Nat.cast_zero, zero_add] at hw
    cases extra with
    | zero =>
      obtain ⟨s1, h1, ho, hI, htr, hw1, hq1⟩ := step_exit prog s t ha hq (by simpa using hw)
      refine ⟨s1, h1, fun fuel _ => ?_⟩
      rw [run_for_outside prog t fuel s1 ho]
      refine ⟨?_, by simpa using hw1, fun _ => ⟨ho, hI, ?_, hq1⟩⟩
      · rw [htr, invocations_append]; simp [invocations]
      · rw [htr]; simp
    | succ e =>
      have hwp : 0 < s.outstanding_work_ := by rw [hw]; positivity
      obtain ⟨hk, _⟩ := quiet_head s.task_script ha.quiet_task
      obtain ⟨s1, th, b, h1, hth, hpc, hb, ha1, hq1, _, _, hw1, htr⟩ :=
        pop_task prog s t [] ha hq hwp
      have hbt : b = true := hb.2 rfl
      subst hbt
      have hpoll : polling s1 t :=
        ⟨ha1, ⟨th, _, hth, hpc, hk⟩,
          ⟨(chain_nil _ _).2 ((chain_nil _ _).1 hq1.links), hq1.last, List.nodup_nil⟩,
          by rw [hw1]; exact hwp⟩
      refine ⟨s1, h1, fun fuel _ => ?_⟩
      obtain ⟨i1, i2⟩ := polling_run_for prog t fuel s1 hpoll
      refine ⟨?_, by rw [i2, hw1, hw], fun h0 => by cases h0⟩
      rw [i1, htr, invocations_append]; simp [invocations]
  | cons h hs ih =>
    intro ws s ha hq hn hw hb hp
    obtain ⟨a, ws1, rfl, hh, hn1⟩ := map_handler_cons hn
    have hwp : 0 < s.outstanding_work_ := by
      rw [hw]; simp only [List.length_cons]; positivity
    obtain ⟨s1, s2, h1, hrun, ho, hstep, ha2, hq2, hho, hw2, _, htr⟩ :=
      step_wrapper prog s t a h (ws1 ++ [handler_ref.task]) ha hq hwp hh
        (hp h (List.mem_cons_self _ _))
    have hn2 : ws1.map (handler_of (handler_cleanup s2)) = hs.map some := by
      rw [← hn1]
      apply List.map_congr_left
      intro r hr
      exact hho r (List.mem_append_left _ hr)
    simp only [List.length_cons] at hb
    have hw3 : (handler_cleanup s2).outstanding_work_ = (hs.length : Int) + (extra : Int) := by
      rw [hw2, hw]
      simp only [List.length_cons]
      exact to_int_pred_count hs.length extra hb
    obtain ⟨s3, h3, hd⟩ := ih ws1 (handler_cleanup s2) ha2 hq2 hn2 hw3 (by omega)
      (fun x hx => hp x (List.mem_cons_of_mem _ hx))
    refine ⟨s1, h1, fun fuel hfuel => ?_⟩
    rw [moves_cons] at hfuel
    obtain ⟨f, rfl⟩ : ∃ f, fuel = (prog h).length + (f + 1) :=
      ⟨fuel - (prog h).length - 1, by omega⟩
    rw [hrun, run_for_step prog t f s2 s3 ho (hstep.trans h3)]
    have := hd f (by omega)
    have h2 : drained s t ([h] ++ hs) extra (run_for prog t f s3) := by
      apply drained_of_step this
      rw [htr, invocations_append]; simp [invocations]
    simpa using h2

/-- With handlers behind the task, the thread delivers the handlers in front
of the task, runs the task once without blocking, and delivers the
handlers that were behind it. -/
theorem drain_mid (prog : Program) (t extra : Nat) (hs2 : List Nat) (ws2 : List handler_ref)
    (hne : ws2 ≠ []) :
    ∀ (hs1 : List Nat) (ws1 : List handler_ref) (s : task_io_service), solo s t →
      queue_is s (ws1 ++ handler_ref.task :: ws2) → ws1.map (handler_of s) = hs1.map some →
      ws2.map (handler_of s) = hs2.map some →
      s.outstanding_work_ = (hs1.length : Int) + (hs2.length : Int) + (extra : Int) →
      hs1.length + hs2.length + extra < 2 ^ 31 →
      (∀ h ∈ hs1 ++ hs2, quiet (prog h)) →
      ∃ s1, run_loop prog s t = some s1 ∧
        ∀ fuel, moves prog hs1 + ((s.task_script.headD []).length + 1) + moves prog hs2 ≤ fuel →
          drained s t (hs1 ++ hs2) extra (run_for prog t fuel s1) := by
  intro hs1
  induction hs1 with
  | nil =>
    intro ws1 s ha hq hn1 hn2 hw hb hp
    have hws : ws1 = [] := by simpa using hn1
    subst hws
    simp only [List.nil_append] at hq hp ⊢
    simp only [List.length_nil, Nat.cast_zero, zero_add] at hw hb
    have hlen : 0 < hs2.length := by
      cases hs2 with
      | nil =>
        have : ws2 = [] := by simpa using hn2
        exact absurd this hne
      | cons x xs => simp
    have hwp : 0 < s.outstanding_work_ := by
      rw [hw]
      have : (0 : Int) < (hs2.length : Int) := by exact_mod_cast hlen
      positivity
    obtain ⟨s1, s2, s3, h1, hrun, ho, hstep, ha3, hq3, hho, hw3, _, htr⟩ :=
      step_task prog s t ws2 ha hq hne hwp
    have hn3 : ws2.map (handler_of s3) = hs2.map some := by
      rw [← hn2]
      exact List.map_congr_left (fun r _ => hho r)
    obtain ⟨s4, h4, hd⟩ := drain_tail prog t extra hs2 ws2 s3 ha3 hq3 hn3
      (by rw [hw3, hw]) hb hp
    refine ⟨s1, h1, fun fuel hfuel => ?_⟩
    have hm : moves prog [] = 0 := rfl
    rw [hm] at hfuel
    obtain ⟨f, rfl⟩ : ∃ f, fuel = (s.task_script.headD []).length + (f + 1) :=
      ⟨fuel - (s.task_script.headD []).length - 1, by omega⟩
    rw [hrun, run_for_step prog t f s2 s4 ho (hstep.trans h4)]
    have := hd f (by omega)
    have h2 : drained s t ([] ++ hs2) extra (run_for prog t f s4) := by
      apply drained_of_step this
      rw [htr, invocations_append]; simp [invocations]
    simpa using h2
  | cons h hs ih =>
    intro ws1 s ha hq hn1 hn2 hw hb hp
    obtain ⟨a, ws, rfl, hh, hn⟩ := map_handler_cons hn1
    have hwp : 0 < s.outstanding_work_ := by
      rw [hw]; simp only [List.length_cons]; positivity
    obtain ⟨s1, s2, h1, hrun, ho, hstep, ha2, hq2, hho, hw2, hsc2, htr⟩ :=
      step_wrapper prog s t a h (ws ++ handler_ref.task :: ws2) ha hq hwp hh
        (hp h (by simp))
    have hn3 : ws.map (handler_of (handler_cleanup s2)) = hs.map some := by
      rw [← hn]
      apply List.map_congr_left
      intro r hr
      exact hho r (List.mem_append_left _ hr)
    have hn4 : ws2.map (handler_of (handler_cleanup s2)) = hs2.map some := by
      rw [← hn2]
      apply List.map_congr_left
      intro r hr
      exact hho r (List.mem_append_right _ (List.mem_cons_of_mem _ hr))
    simp only [List.length_cons] at hb
    have hw3 : (handler_cleanup s2).outstanding_work_ =
        (hs.length : Int) + (hs2.length : Int) + (extra : Int) := by
      rw [hw2, hw]
      simp only [List.length_cons]
      have e := to_int_pred_count hs.length (hs2.length + extra) (by omega)
      have e1 : ((hs.length + 1 : Nat) : Int) + (hs2.length : Int) + (extra : Int) - 1 =
          ((hs.length + 1 : Nat) : Int) + ((hs2.length + extra : Nat) : Int) - 1 := by
        push_cast; ring
      rw [e1, e]
      push_cast; ring
    obtain ⟨s3, h3, hd⟩ := ih ws (handler_cleanup s2) ha2 hq2 hn3 hn4 hw3 (by omega)
      (fun x hx => hp x (by
        simp only [List.cons_append, List.mem_cons]
        exact Or.inr hx))
    rw [hsc2] at hd
    refine ⟨s1, h1, fun fuel hfuel => ?_⟩
    rw [moves_cons] at hfuel
    obtain ⟨f, rfl⟩ : ∃ f, fuel = (prog h).length + (f + 1) :=
      ⟨fuel - (prog h).length - 1, by omega⟩
    rw [hrun, run_for_step prog t f s2 s3 ho (hstep.trans h3)]
    have := hd f (by omega)
    have h2 : drained s t ([h] ++ (hs ++ hs2)) extra (run_for prog t f s3) := by
      apply drained_of_step this
      rw [htr, invocations_append]; simp [invocations]
    simpa using h2

/-- One thread, running alone, delivers the queued quiet handlers in queue
order, wherever the task is in the queue. -/
theorem drain (prog : Program) (t extra : Nat) (hs1 hs2 : List Nat)
    (ws1 ws2 : List handler_ref) (s : task_io_service) (ha : solo s t)
    (hq : queue_is s (ws1 ++ handler_ref.task :: ws2))
    (hn1 : ws1.map (handler_of s) = hs1.map some)
    (hn2 : ws2.map (handler_of s) = hs2.map some)
    (hw : s.outstanding_work_ = (hs1.length : Int) + (hs2.length : Int) + (extra : Int))
    (hb : hs1.length + hs2.length + extra < 2 ^ 31)
    (hp : ∀ h ∈ hs1 ++ hs2, quiet (prog h)) :
    ∃ s1, run_loop prog s t = some s1 ∧
      ∀ fuel, moves prog (hs1 ++ hs2) + (s.task_script.headD []).length + 1 ≤ fuel →
        drained s t (hs1 ++ hs2) extra (run_for prog t fuel s1) := by
  by_cases hne : ws2 = []
  · subst hne
    have h2 : hs2 = [] := by simpa using hn2.symm
    subst h2
    simp only [List.append_nil, List.length_nil, Nat.cast_zero, add_zero] at hw hp hb ⊢
    obtain ⟨s1, h1, hd⟩ := drain_tail prog t extra hs1 ws1 s ha hq hn1 hw hb hp
    exact ⟨s1, h1, fun fuel hfuel => hd fuel (by omega)⟩
  · obtain ⟨s1, h1, hd⟩ := drain_mid prog t extra hs2 ws2 hne hs1 ws1 s ha hq hn1 hn2 hw hb hp
    exact ⟨s1, h1, fun fuel hfuel => hd fuel (by rw [moves_append] at hfuel; omega)⟩

/-- The moves needed to deliver handlers that make no call, with a task
that makes none either. -/
theorem moves_of_inert (prog : Program) (hs : List Nat) (script : List (List Cmd))
    (hp : ∀ x ∈ hs, prog x = []) (hscript : ∀ c ∈ script, c = []) :
    moves prog hs + (script.headD []).length + 1 = hs.length + 1 := by
  rw [moves_of_no_call prog hs hp]
  cases script with
  | nil => rfl
  | cons c rest =>
    have : c = [] := hscript c (List.mem_cons_self _ _)
    subst this
    rfl

end task_io_service

end asio.detail

namespace asio.detail

namespace task_io_service

/-- The function `post` when the task is in the queue and no thread is idle:
nobody is woken. -/
theorem post_quiet {s : task_io_service} {L : List handler_ref} (h : Nat)
    (hq : queue_is s L) (htask : handler_ref.task ∈ L) (hidle : s.first_idle_thread_ = none) :
    ∃ s1, post s h = some s1 ∧
      queue_is s1 (L ++ [handler_ref.wrapper s.heap.length]) ∧
      handler_of s1 (handler_ref.wrapper s.heap.length) = some h ∧
      (∀ r ∈ L, handler_of s1 r = handler_of s r) ∧
      s1.outstanding_work_ = to_int (s.outstanding_work_ + 1) ∧
      s1.interrupted_ = s.interrupted_ ∧
      s1.first_idle_thread_ = none ∧ s1.threads = s.threads ∧
      s1.task_script = s.task_script ∧ s1.trace = s.trace := by
  obtain ⟨s0, _, hpost, hq0, hname, hnames, _, _, hw, hint, hfi, hth, hsc, htr⟩ :=
    post_enqueue_spec h hq
  obtain ⟨r1, hr1⟩ := chain_next_of_not_last s0 _ L _ hq0.links _ htask
  have hn : s0.task_handler_next_ = some r1 := by simpa [get_next_] using hr1
  have hone : interrupt_one_idle_thread
      { s0 with outstanding_work_ := to_int (s0.outstanding_work_ + 1) } =
      some ({ s0 with outstanding_work_ := to_int (s0.outstanding_work_ + 1) }, false) := by
    simp [interrupt_one_idle_thread, hfi, hidle]
  have hcond : ¬ (s0.task_handler_next_ = none ∧
      s0.handler_queue_end_ ≠ some handler_ref.task) := by
    rw [hn]; simp
  have hp : post s h = some { s0 with outstanding_work_ := to_int (s0.outstanding_work_ + 1) } := by
    rw [hpost]
    simp only [wake_one, hone]
    rw [if_neg hcond]
  have hho : ∀ r, handler_of { s0 with outstanding_work_ := to_int (s0.outstanding_work_ + 1) } r =
      handler_of s0 r := fun r => by cases r <;> rfl
  refine ⟨_, hp, @queue_is_congr s0 _ _ rfl rfl rfl rfl hq0, by rw [hho]; exact hname, ?_,
    by simp [hw], hint, by simp [hfi, hidle], hth, hsc, htr⟩
  intro r hr
  rw [hho]; exact hnames r hr

theorem post_all_spec : ∀ (hs : List Nat) (s : task_io_service) (L : List handler_ref),
    queue_is s L → handler_ref.task ∈ L → s.first_idle_thread_ = none →
    ∃ s1 ws, post_all s hs = some s1 ∧ queue_is s1 (L ++ ws) ∧
      ws.map (handler_of s1) = hs.map some ∧
      (∀ r ∈ L, handler_of s1 r = handler_of s r) ∧
      s1.outstanding_work_ = (fun x => to_int (x + 1))^[hs.length] s.outstanding_work_ ∧
      s1.interrupted_ = s.interrupted_ ∧ s1.first_idle_thread_ = none ∧
      s1.threads = s.threads ∧ s1.task_script = s.task_script ∧ s1.trace = s.trace := by
  intro hs
  induction hs with
  | nil =>
    intro s L hq _ hidle
    exact ⟨s, [], rfl, by simpa using hq, rfl, fun _ _ => rfl, by simp, rfl, hidle, rfl, rfl,
      rfl⟩
  | cons h hs ih =>
    intro s L hq htask hidle
    obtain ⟨s0, hp, hq0, hname, hnames, hw, hint, hfi, hth, hsc, htr⟩ :=
      post_quiet h hq htask hidle
    obtain ⟨s1, ws, hpa, hq1, hn1, hho1, hw1, hint1, hfi1, hth1, hsc1, htr1⟩ :=
      ih s0 (L ++ [handler_ref.wrapper s.heap.length]) hq0
        (List.mem_append_left _ htask) hfi
    refine ⟨s1, handler_ref.wrapper s.heap.length :: ws, ?_, by simpa using hq1, ?_, ?_, ?_,
      hint1.trans hint, hfi1, hth1.trans hth, hsc1.trans hsc, htr1.trans htr⟩
    · simp [post_all, hp, hpa]
    · simp only [List.map_cons, List.cons.injEq]
      refine ⟨?_, hn1⟩
      rw [hho1 _ (by simp)]
      exact hname
    · intro r hr
      rw [hho1 r (List.mem_append_left _ hr)]
      exact hnames r hr
    · rw [hw1, hw]
      simp only [List.length_cons]
      rw [Function.iterate_succ_apply]

theorem run_begin_eq (prog : Program) (s : task_io_service) (t : Nat) (th : run_thread)
    (hth : s.threads[t]? = some th) (hpc : th.pc = Pc.outside) :
    run_begin prog s t =
      run_loop prog { s with threads := s.threads.set t ((th.with_prev t).with_next t) } t := by
  have hlt : t < s.threads.length := (List.getElem?_eq_some.1 hth).1
  have h1 : set_idle_prev s t t = some { s with threads := s.threads.set t (th.with_prev t) } := by
    simp [set_idle_prev, hth]
  have h2 : set_idle_next { s with threads := s.threads.set t (th.with_prev t) } t t =
      some { s with threads := s.threads.set t ((th.with_prev t).with_next t) } := by
    simp [set_idle_next, List.getElem?_set, hlt]
  simp only [run_begin, hth, hpc, if_true, h1, h2]

/-- The state at the loop after `run()` has been entered: the idle node of
the thread is set up, everything else is as before. -/
theorem run_begin_spec (prog : Program) (s : task_io_service) (t : Nat) (th : run_thread)
    (L : List handler_ref) (hth : s.threads[t]? = some th) (hpc : th.pc = Pc.outside)
    (hq : queue_is s L) (hI : s.interrupted_ = false) (hidle : s.first_idle_thread_ = none)
    (hscript : ∀ c ∈ s.task_script, quiet c) :
    ∃ s0, run_begin prog s t = run_loop prog s0 t ∧ solo s0 t ∧ queue_is s0 L ∧
      (∀ r, handler_of s0 r = handler_of s r) ∧
      s0.outstanding_work_ = s.outstanding_work_ ∧ s0.task_script = s.task_script ∧
      s0.trace = s.trace := by
  have hlt : t < s.threads.length := (List.getElem?_eq_some.1 hth).1
  refine ⟨_, run_begin_eq prog s t th hth hpc, ⟨by simpa using hlt, hI, hidle, hscript⟩,
    @queue_is_congr s _ _ rfl rfl rfl rfl hq, fun r => by cases r <;> rfl, rfl, rfl, rfl⟩

theorem init_thread (n : Nat) (script : List (List Cmd)) (t : Nat) (ht : t < n) :
    (init n script).threads[t]? = some
      { pc := Pc.outside, this_idle_thread := { wakeup_event := false, prev := t, next := t } } := by
  simp [init, List.getElem?_map, List.getElem?_range ht]

theorem quiet_of_no_call {script : List (List Cmd)} (h : ∀ c ∈ script, c = []) :
    ∀ c ∈ script, quiet c :=
  fun c hc => quiet_of_nil (h c hc)

theorem queue_init (n : Nat) (script : List (List Cmd)) :
    queue_is (init n script) [handler_ref.task] := (inv_init n script).queue

end task_io_service

end asio.detail

/-! ## Delivery in posting order -/

namespace asio.detail

namespace task_io_service

/-- From the loop to `run`: when the thread ends outside `run`, `run` returns
the state the thread reached. -/
theorem run_of_drained (prog : Program) (s s0 s1 : task_io_service) (t fuel : Nat)
    (hs : List Nat) (hb : run_begin prog s t = run_loop prog s0 t)
    (h1 : run_loop prog s0 t = some s1)
    (hd : drained s0 t hs 0 (run_for prog t fuel s1)) :
    run prog fuel s t = some (run_for prog t fuel s1) := by
  unfold run
  rw [hb, h1]
  exact run_steps_of_run_for prog t fuel s1 (hd.returned rfl).1

/-- Once `run` has returned, more fuel does not change its result. -/
theorem run_steps_mono (prog : Program) (t : Nat) :
    ∀ (f : Nat) (s s1 : task_io_service), run_steps prog t f s = some s1 →
      ∀ k, run_steps prog t (f + k) s = some s1 := by
  intro f
  induction f with
  | zero =>
    intro s s1 h k
    by_cases ho : is_outside s t = true
    · have e : s1 = s := by simpa [run_steps, ho] using h.symm
      subst e
      cases k <;> simp [run_steps, ho]
    · simp [run_steps, ho] at h
  | succ f ih =>
    intro s s1 h k
    have e : f + 1 + k = (f + k) + 1 := by omega
    rw [e]
    by_cases ho : is_outside s t = true
    · have e : s1 = s := by simpa [run_steps, ho] using h.symm
      subst e
      simp [run_steps, ho]
    · cases hs : thread_step prog s t with
      | none => simp [run_steps, ho, hs] at h
      | some s2 =>
        simp only [run_steps, ho, hs, if_false] at h ⊢
        exact ih s2 s1 h k

theorem run_mono (prog : Program) (t f g : Nat) (s s1 : task_io_service)
    (h : run prog f s t = some s1) (hfg : f ≤ g) : run prog g s t = some s1 := by
  obtain ⟨k, rfl⟩ : ∃ k, g = f + k := ⟨g - f, by omega⟩
  cases hb : run_begin prog s t with
  | none => simp [run, hb] at h
  | some s0 =>
    simp only [run, hb] at h ⊢
    exact run_steps_mono prog t f s0 s1 h k

/-- C1 (as amended). On a freshly constructed dispatcher whose task is quiet
(it makes no call on the dispatcher other than `reset()` and does not throw),
`post(H1); ...; post(Hn)` with `n < 2 ^ 31`, followed by `run()` on one
thread `t`, for handlers that are quiet, invokes exactly `H1, ..., Hn`, in
this order, and `run()` returns normally with `outstanding_work_ = 0`. -/
theorem post_then_run_in_order (prog : Program) (n t : Nat) (script : List (List Cmd))
    (hs : List Nat) (ht : t < n) (hscript : ∀ c ∈ script, quiet c)
    (hprog : ∀ h ∈ hs, quiet (prog h)) (hlen : hs.length < 2 ^ 31) :
    ∃ s1, post_all (init n script) hs = some s1 ∧
      ∀ fuel, moves prog hs + (script.headD []).length + 1 ≤ fuel →
        ∃ s2, run prog fuel s1 t = some s2 ∧ invocations s2.trace = hs ∧
          s2.outstanding_work_ = 0 ∧ is_outside s2 t = true ∧
          s2.trace.getLast? = some (Event.run_return t) ∧ s2.interrupted_ = true ∧
          queue_is s2 [handler_ref.task] := by
  obtain ⟨s1, ws, hpa, hq1, hn1, _, hw1, hint1, hfi1, hth1, hsc1, htr1⟩ :=
    post_all_spec hs (init n script) [handler_ref.task] (queue_init n script) (by simp) rfl
  have hth : s1.threads[t]? = some
      { pc := Pc.outside, this_idle_thread := { wakeup_event := false, prev := t, next := t } } := by
    rw [hth1]; exact init_thread n script t ht
  obtain ⟨s0, hb, ha0, hq0, hho0, hw0, hsc0, htr0⟩ :=
    run_begin_spec prog s1 t _ _ hth rfl hq1 (by rw [hint1]; rfl) hfi1
      (by rw [hsc1]; exact hscript)
  have hn0 : ws.map (handler_of s0) = hs.map some := by
    rw [← hn1]
    exact List.map_congr_left (fun r _ => hho0 r)
  have hw : s0.outstanding_work_ = (([] : List Nat).length : Int) + (hs.length : Int) +
      ((0 : Nat) : Int) := by
    rw [hw0, hw1]
    have e : (init n script).outstanding_work_ = 0 := rfl
    rw [e, iterate_incr hs.length 0 (by omega) (by omega)]
    simp
  obtain ⟨s3, h3, hd⟩ := drain prog t 0 [] hs [] ws s0 ha0 (by simpa using hq0) rfl hn0 hw
    (by simpa using hlen) (by simpa using hprog)
  refine ⟨s1, hpa, fun fuel hfuel => ?_⟩
  have hsc : s0.task_script = script := by rw [hsc0, hsc1]; rfl
  have hdf := hd fuel (by rw [hsc]; simpa using hfuel)
  simp only [List.nil_append] at hdf
  obtain ⟨ho, hI, hlast, hqf⟩ := hdf.returned rfl
  refine ⟨_, run_of_drained prog s1 s0 s3 t fuel hs hb h3 hdf, ?_, by simpa using hdf.work, ho,
    hlast, hI, hqf⟩
  rw [hdf.invoked, htr0, htr1]
  simp [init, invocations]

/-- Witness of C1: three handlers, of which handler `11` calls `reset()`, on
a dispatcher with two threads. -/
theorem post_then_run_in_order_witness :
    ∃ s1, post_all (init 2 [[]]) [10, 11, 12] = some s1 ∧
      ∀ fuel, moves (fun h => if h = 11 then [Cmd.reset] else []) [10, 11, 12] +
          (([[]] : List (List Cmd)).headD []).length + 1 ≤ fuel →
        ∃ s2, run (fun h => if h = 11 then [Cmd.reset] else []) fuel s1 1 = some s2 ∧
          invocations s2.trace = [10, 11, 12] ∧
          s2.outstanding_work_ = 0 ∧ is_outside s2 1 = true ∧
          s2.trace.getLast? = some (Event.run_return 1) ∧ s2.interrupted_ = true ∧
          queue_is s2 [handler_ref.task] :=
  post_then_run_in_order (fun h => if h = 11 then [Cmd.reset] else []) 2 1 [[]] [10, 11, 12]
    (by decide) (fun c hc => by
      simp only [List.mem_singleton] at hc
      subst hc
      exact quiet_nil)
    (fun h _ c hc => by
      by_cases e : h = 11
      · simpa [e] using hc
      · simp [e] at hc)
    (by decide)

/-- C1 fails as stated: handler `1` neither posts nor throws, but it calls
`interrupt()`. After `post(1); post(2)` on a freshly constructed dispatcher,
`run()` invokes handler `1` only and returns with handler `2` still queued
and `outstanding_work_ = 1`, however long it is given. -/
theorem interrupt_stops_delivery :
    ∃ s1, post_all (init 1 []) [1, 2] = some s1 ∧
      ∃ s2, run interrupting_program 3 s1 0 = some s2 ∧
        (∀ fuel, 3 ≤ fuel → run interrupting_program fuel s1 0 = some s2) ∧
        invocations s2.trace = [1] ∧ s2.outstanding_work_ = 1 ∧ is_outside s2 0 = true ∧
        s2.trace.getLast? = some (Event.run_return 0) ∧
        handler_of s2 (handler_ref.wrapper 1) = some 2 :=
  ⟨_, rfl, _, rfl, fun fuel hf => run_mono interrupting_program 0 3 fuel _ _ rfl hf,
    rfl, rfl, rfl, rfl, rfl⟩

/-- C4 (as amended). The function `reset()` clears `interrupted_` and
changes nothing else. Hence, in a state with no thread inside `run` or idle,
whose queue holds the handlers `hs1`, the task and the handlers `hs2`
(quiet handlers and a quiet task: they make no call on the dispatcher other
than `reset()` and do not throw) and whose `outstanding_work_` counts these
handlers and `extra` units of other work (fewer than `2 ^ 31` in all),
`reset()` followed by `run()` on one thread invokes exactly the queued
handlers, in queue order, however long the thread runs, and returns normally
when `extra` is zero; a quiet handler `h` posted after the `reset()` is
delivered by that `run()` as well, after the others. -/
theorem reset_then_run_resumes (prog : Program) (s : task_io_service) (t : Nat)
    (th : run_thread) (ws1 ws2 : List handler_ref) (hs1 hs2 : List Nat) (extra h : Nat)
    (hth : s.threads[t]? = some th) (hpc : th.pc = Pc.outside)
    (hidle : s.first_idle_thread_ = none) (hscript : ∀ c ∈ s.task_script, quiet c)
    (hq : queue_is s (ws1 ++ handler_ref.task :: ws2))
    (hn1 : ws1.map (handler_of s) = hs1.map some)
    (hn2 : ws2.map (handler_of s) = hs2.map some)
    (hw : s.outstanding_work_ = (hs1.length : Int) + (hs2.length : Int) + (extra : Int))
    (hb : hs1.length + hs2.length + extra < 2 ^ 31)
    (hp : ∀ x ∈ hs1 ++ hs2, quiet (prog x)) (hph : quiet (prog h)) :
    reset s = { s with interrupted_ := false } ∧
    (∃ s1, run_begin prog (reset s) t = some s1 ∧
      ∀ fuel, moves prog (hs1 ++ hs2) + (s.task_script.headD []).length + 1 ≤ fuel →
        drained s t (hs1 ++ hs2) extra (run_for prog t fuel s1) ∧
        (extra = 0 → run prog fuel (reset s) t = some (run_for prog t fuel s1))) ∧
    (hs1.length + hs2.length + extra + 1 < 2 ^ 31 →
      ∃ sp s1, post (reset s) h = some sp ∧ run_begin prog sp t = some s1 ∧
        ∀ fuel, moves prog (hs1 ++ hs2 ++ [h]) + (s.task_script.headD []).length + 1 ≤ fuel →
          drained s t (hs1 ++ hs2 ++ [h]) extra (run_for prog t fuel s1) ∧
          (extra = 0 → run prog fuel sp t = some (run_for prog t fuel s1))) := by
  have hqr : queue_is (reset s) (ws1 ++ handler_ref.task :: ws2) :=
    @queue_is_congr s _ _ rfl rfl rfl rfl hq
  refine ⟨rfl, ?_, ?_⟩
  · obtain ⟨s0, hb0, ha0, hq0, hho0, hw0, hsc0, htr0⟩ :=
      run_begin_spec prog (reset s) t th _ hth hpc hqr rfl hidle hscript
    have hm1 : ws1.map (handler_of s0) = hs1.map some := by
      rw [← hn1]
      exact List.map_congr_left (fun r _ => hho0 r)
    have hm2 : ws2.map (handler_of s0) = hs2.map some := by
      rw [← hn2]
      exact List.map_congr_left (fun r _ => hho0 r)
    obtain ⟨s1, h1, hd⟩ := drain prog t extra hs1 hs2 ws1 ws2 s0 ha0 hq0 hm1 hm2
      (by rw [hw0]; exact hw) hb hp
    refine ⟨s1, hb0.trans h1, fun fuel hfuel => ?_⟩
    have hdf := hd fuel (by rw [hsc0]; exact hfuel)
    refine ⟨⟨by rw [hdf.invoked, htr0]; rfl, hdf.work, hdf.returned⟩, fun he => ?_⟩
    subst he
    exact run_of_drained prog (reset s) s0 s1 t fuel _ hb0 h1 hdf
  · intro hb1
    obtain ⟨sp, hpost, hqp, hname, hnames, hwp, hintp, hfip, hthp, hscp, htrp⟩ :=
      post_quiet h hqr (by simp) hidle
    have hqp2 : queue_is sp (ws1 ++ handler_ref.task ::
        (ws2 ++ [handler_ref.wrapper (reset s).heap.length])) := by
      simpa using hqp
    obtain ⟨s0, hb0, ha0, hq0, hho0, hw0, hsc0, htr0⟩ :=
      run_begin_spec prog sp t th _ (by rw [hthp]; exact hth) hpc hqp2
        (by rw [hintp]; rfl) hfip (by rw [hscp]; exact hscript)
    have hm1 : ws1.map (handler_of s0) = hs1.map some := by
      rw [← hn1]
      apply List.map_congr_left
      intro r hr
      rw [hho0, hnames r (List.mem_append_left _ hr)]
      cases r <;> rfl
    have hm2 : (ws2 ++ [handler_ref.wrapper (reset s).heap.length]).map (handler_of s0) =
        (hs2 ++ [h]).map some := by
      rw [List.map_append, List.map_append, ← hn2]
      congr 1
      · apply List.map_congr_left
        intro r hr
        rw [hho0, hnames r (List.mem_append_right _ (List.mem_cons_of_mem _ hr))]
        cases r <;> rfl
      · simp only [List.map_cons, List.map_nil, List.cons.injEq, and_true]
        rw [hho0]; exact hname
    have hw2 : s0.outstanding_work_ = (hs1.length : Int) + ((hs2 ++ [h]).length : Int) +
        (extra : Int) := by
      rw [hw0, hwp]
      show to_int (s.outstanding_work_ + 1) = _
      rw [hw]
      simp only [List.length_append, List.length_singleton]
      have h1 : -2 ^ 31 ≤ (hs1.length : Int) + (hs2.length : Int) + (extra : Int) + 1 := by omega
      have h2 : (hs1.length : Int) + (hs2.length : Int) + (extra : Int) + 1 < 2 ^ 31 := by omega
      rw [to_int_of_range h1 h2]
      push_cast
      ring
    have hp2 : ∀ x ∈ hs1 ++ (hs2 ++ [h]), quiet (prog x) := by
      intro x hx
      rw [← List.append_assoc, List.mem_append] at hx
      rcases hx with hx | hx
      · exact hp x hx
      · simp only [List.mem_singleton] at hx
        rw [hx]; exact hph
    obtain ⟨s1, h1, hd⟩ := drain prog t extra hs1 (hs2 ++ [h]) ws1 _ s0 ha0 hq0 hm1 hm2 hw2
      (by simp only [List.length_append, List.length_singleton]; omega) hp2
    refine ⟨sp, s1, hpost, hb0.trans h1, fun fuel hfuel => ?_⟩
    have hsc : s0.task_script = s.task_script := by rw [hsc0, hscp]; rfl
    have hdf := hd fuel (by rw [hsc, ← List.append_assoc]; exact hfuel)
    rw [← List.append_assoc] at hdf
    refine ⟨⟨by rw [hdf.invoked, htr0, htrp]; rfl, hdf.work, hdf.returned⟩, fun he => ?_⟩
    subst he
    exact run_of_drained prog sp s0 s1 t fuel _ hb0 h1 hdf

/-- C4 fails as stated: handler `1` neither posts nor throws, but it calls
`interrupt()`. On the interrupted dispatcher that holds the handlers `1` and
`2` (after `post(1); post(2); interrupt()`), `reset()` followed by `run()`
invokes handler `1` only and returns with handler `2` still queued, however
long it is given. -/
theorem reset_then_run_interrupted :
    ∃ s0, post_all (init 1 []) [1, 2] = some s0 ∧
      ∃ s, interrupt s0 = some s ∧ s.interrupted_ = true ∧
        queue_is s [handler_ref.task, handler_ref.wrapper 0, handler_ref.wrapper 1] ∧
        handler_of s (handler_ref.wrapper 0) = some 1 ∧
        handler_of s (handler_ref.wrapper 1) = some 2 ∧
        ∃ s2, run interrupting_program 3 (reset s) 0 = some s2 ∧
          (∀ fuel, 3 ≤ fuel → run interrupting_program fuel (reset s) 0 = some s2) ∧
          invocations s2.trace = [1] ∧ s2.outstanding_work_ = 1 ∧ is_outside s2 0 = true ∧
          s2.trace.getLast? = some (Event.run_return 0) ∧
          handler_of s2 (handler_ref.wrapper 1) = some 2 :=
  ⟨_, rfl, _, rfl, rfl, ⟨⟨rfl, rfl, rfl, rfl⟩, rfl, by decide⟩, rfl, rfl, _, rfl,
    fun fuel hf => run_mono interrupting_program 0 3 fuel _ _ rfl hf, rfl, rfl, rfl, rfl, rfl⟩

end task_io_service

end asio.detail

/-! ## Nested dispatch -/

namespace asio.detail

namespace task_io_service

/-- Inside `run`, `dispatch` is the upcall in place. -/
theorem dispatch_inside (prog : Program) (s : task_io_service) (t h : Nat) (th : run_thread)
    (hth : s.threads[t]? = some th) (hpc : th.pc ≠ Pc.outside) :
    dispatch prog s t h = upcall prog s t h := by
  simp [dispatch, call_stack_contains, hth, hpc]

theorem step_dispatch (prog : Program) (s : task_io_service) (t x : Nat) (th : run_thread)
    (k : List Cmd) (hth : s.threads[t]? = some th)
    (hpc : th.pc = Pc.in_handler (Cmd.dispatch x :: k)) :
    thread_step prog s t =
      some { s with threads := s.threads.set t { th with pc := Pc.in_handler (prog x ++ k) }
                    trace := s.trace ++ [Event.invoke t x] } := by
  have hlt : t < s.threads.length := (List.getElem?_eq_some.1 hth).1
  simp [thread_step, hth, hpc, set_pc, exec, dispatch, call_stack_contains, upcall,
    List.getElem?_set, hlt]

theorem step_post (prog : Program) (s : task_io_service) (t y : Nat) (th : run_thread)
    (k : List Cmd) (hth : s.threads[t]? = some th)
    (hpc : th.pc = Pc.in_handler (Cmd.post y :: k)) :
    thread_step prog s t =
      post { s with threads := s.threads.set t { th with pc := Pc.in_handler k } } y := by
  simp [thread_step, hth, hpc, set_pc, exec]

theorem headD_of_no_call {script : List (List Cmd)} (h : ∀ c ∈ script, c = []) :
    script.headD [] = [] ∧ ∀ c ∈ script.tail, c = [] := by
  cases script with
  | nil => exact ⟨rfl, fun c hc => by cases hc⟩
  | cons c0 rest =>
    exact ⟨h c0 (List.mem_cons_self _ _), fun c hc => h c (List.mem_cons_of_mem _ hc)⟩

/-- The scenario of the nested dispatch: handler `A` calls `dispatch(X)` and
then `post(Y)`, with the handlers `hs` queued behind `A`. -/
theorem nested_dispatch_order (prog : Program) (n t : Nat) (script : List (List Cmd))
    (hs : List Nat) (A X Y : Nat) (ht : t < n) (hscript : ∀ c ∈ script, c = [])
    (hA : prog A = [Cmd.dispatch X, Cmd.post Y]) (hX : prog X = []) (hY : prog Y = [])
    (hprog : ∀ h ∈ hs, prog h = []) (hlen : hs.length + 2 < 2 ^ 31) :
    ∃ s1, post_all (init n script) (A :: hs) = some s1 ∧
      ∀ fuel, hs.length + 6 ≤ fuel →
        ∃ s2, run prog fuel s1 t = some s2 ∧
          invocations s2.trace = A :: X :: (hs ++ [Y]) ∧
          s2.outstanding_work_ = 0 ∧ is_outside s2 t = true ∧
          s2.trace.getLast? = some (Event.run_return t) := by
  obtain ⟨sa, ws, hpa, hqa, hna, _, hwa, hinta, hfia, htha, hsca, htra⟩ :=
    post_all_spec (A :: hs) (init n script) [handler_ref.task] (queue_init n script)
      (by simp) rfl
  obtain ⟨a, ws1, rfl, hhA, hn1⟩ := map_handler_cons hna
  have hth : sa.threads[t]? = some
      { pc := Pc.outside, this_idle_thread := { wakeup_event := false, prev := t, next := t } } := by
    rw [htha]; exact init_thread n script t ht
  obtain ⟨s0, hb, ha0, hq0, hho0, hw0, hsc0, htr0⟩ :=
    run_begin_spec prog sa t _ _ hth rfl hqa (by rw [hinta]; rfl) hfia
      (by rw [hsca]; exact quiet_of_no_call hscript)
  have hW0 : s0.outstanding_work_ = (hs.length : Int) + 1 := by
    rw [hw0, hwa]
    have e : (init n script).outstanding_work_ = 0 := rfl
    rw [e, iterate_incr (A :: hs).length 0 (by omega)
      (by simp only [List.length_cons]; push_cast; omega)]
    simp
  have hsc0s : s0.task_script = script := by rw [hsc0, hsca]; rfl
  obtain ⟨hhd, htl⟩ := headD_of_no_call hscript
  -- the task runs first, without blocking
  obtain ⟨s1, s2, s3, h1, hrun1, ho2, hstep2, ha3, hq3, hho3, hw3, hsc3, htr3⟩ :=
    step_task prog s0 t (handler_ref.wrapper a :: ws1) ha0 (by simpa using hq0) (by simp)
      (by rw [hW0]; positivity)
  rw [hsc0s, hhd] at hrun1
  rw [hsc0s] at hsc3
  -- then `A` is taken off the queue
  obtain ⟨s4, th4, h4, hth4, hpc4, ha4, hq4, hho4, hw4, hsc4, htr4⟩ :=
    pop_wrapper prog s3 t a A (ws1 ++ [handler_ref.task]) ha3 (by simpa using hq3)
      (by rw [hw3, hW0]; positivity) (by rw [hho3, hho0]; exact hhA)
  rw [hA] at hpc4
  -- `A` calls `dispatch(X)`: `X` is invoked in place
  have h5 := step_dispatch prog s4 t X th4 [Cmd.post Y] hth4 hpc4
  rw [hX, List.nil_append] at h5
  have hv4 : t < s4.threads.length := ha4.valid
  -- `A` calls `post(Y)`
  have hq5 : queue_is ({ s4 with
      threads := (s4.threads.set t { th4 with pc := Pc.in_handler [Cmd.post Y] }).set t
        { th4 with pc := Pc.in_handler [] }
      trace := s4.trace ++ [Event.invoke t X] } : task_io_service)
      (ws1 ++ [handler_ref.task]) := @queue_is_congr s4 _ _ rfl rfl rfl rfl hq4
  obtain ⟨s6, hp6, hq6, hname6, hnames6, hw6, hint6, hfi6, hth6, hsc6, htr6⟩ :=
    post_quiet Y hq5 (by simp) ha4.no_idle
  have h6 : thread_step prog ({ s4 with
      threads := s4.threads.set t { th4 with pc := Pc.in_handler [Cmd.post Y] }
      trace := s4.trace ++ [Event.invoke t X] } : task_io_service) t = some s6 := by
    rw [step_post prog _ t Y { th4 with pc := Pc.in_handler [Cmd.post Y] } []
      (by simp [List.getElem?_set, hv4]) rfl]
    exact hp6
  have hth6t : s6.threads[t]? = some { th4 with pc := Pc.in_handler [] } := by
    rw [hth6]; simp [List.getElem?_set, hv4]
  -- `A` returns, and the rest of the queue is drained
  have hsc7 : (handler_cleanup s6).task_script = script.tail := by
    show s6.task_script = _
    rw [hsc6]
    show s4.task_script = _
    rw [hsc4, hsc3]
  have ha7 : solo (handler_cleanup s6) t :=
    ⟨by
      show t < s6.threads.length
      rw [hth6]; simpa using hv4,
     by
      show s6.interrupted_ = false
      rw [hint6]; exact ha4.not_interrupted,
     hfi6,
     by
      rw [hsc7]; exact quiet_of_no_call htl⟩
  have hq7 : queue_is (handler_cleanup s6)
      (ws1 ++ handler_ref.task :: [handler_ref.wrapper s4.heap.length]) := by
    have : queue_is s6 (ws1 ++ handler_ref.task :: [handler_ref.wrapper s4.heap.length]) := by
      simpa using hq6
    exact @queue_is_congr s6 _ _ rfl rfl rfl rfl this
  have hho7 : ∀ r, handler_of (handler_cleanup s6) r = handler_of s6 r :=
    fun r => by cases r <;> rfl
  have hm1 : ws1.map (handler_of (handler_cleanup s6)) = hs.map some := by
    rw [← hn1]
    apply List.map_congr_left
    intro r hr
    rw [hho7, hnames6 r (List.mem_append_left _ hr)]
    have e4 := hho4 r (List.mem_append_left _ hr)
    have : handler_of s4 r = handler_of sa r := by rw [e4, hho3, hho0]
    rw [← this]
    cases r <;> rfl
  have hm2 : [handler_ref.wrapper s4.heap.length].map (handler_of (handler_cleanup s6)) =
      [Y].map some := by
    simp only [List.map_cons, List.map_nil, List.cons.injEq, and_true]
    rw [hho7]; exact hname6
  have hw7 : (handler_cleanup s6).outstanding_work_ =
      (hs.length : Int) + ([Y].length : Int) + ((0 : Nat) : Int) := by
    show to_int (s6.outstanding_work_ - 1) = _
    rw [hw6]
    show to_int (to_int (s4.outstanding_work_ + 1) - 1) = _
    rw [hw4, hw3, hW0, to_int_sub]
    have e : (hs.length : Int) + 1 + 1 - 1 = (hs.length : Int) + 1 := by ring
    have h1 : -2 ^ 31 ≤ (hs.length : Int) + 1 := by omega
    have h2 : (hs.length : Int) + 1 < 2 ^ 31 := by omega
    rw [e, to_int_of_range h1 h2]
    simp
  have hpq : ∀ x ∈ hs ++ [Y], prog x = [] := by
    intro x hx
    rw [List.mem_append] at hx
    rcases hx with hx | hx
    · exact hprog x hx
    · simp only [List.mem_singleton] at hx
      rw [hx]; exact hY
  obtain ⟨s8, h8, hd⟩ := drain prog t 0 hs [Y] ws1 _ (handler_cleanup s6) ha7 hq7 hm1 hm2 hw7
    (by simp only [List.length_singleton]; omega) (fun x hx => quiet_of_nil (hpq x hx))
  rw [hsc7, moves_of_inert prog (hs ++ [Y]) script.tail hpq htl] at hd
  refine ⟨sa, hpa, fun fuel hfuel => ?_⟩
  obtain ⟨f, rfl⟩ : ∃ f, fuel = f + 4 := ⟨fuel - 4, by omega⟩
  have hdf := hd f (by simp only [List.length_append, List.length_singleton]; omega)
  have e0 : run_for prog t (f + 4) s1 = run_for prog t (f + 4) s2 := by
    have := hrun1 (f + 4)
    simpa using this
  have e1 : run_for prog t (f + 4) s1 = run_for prog t f s8 := by
    rw [e0, run_for_step prog t (f + 3) s2 s4 ho2 (hstep2.trans h4),
      run_for_step prog t (f + 2) s4 _ (is_outside_of_pc hth4 (by rw [hpc4]; simp [Pc.kind])) h5,
      run_for_step prog t (f + 1) _ s6
        (@is_outside_of_pc _ t { th4 with pc := Pc.in_handler [Cmd.post Y] }
          (by simp [List.getElem?_set, hv4]) (by simp [Pc.kind])) h6,
      run_for_step prog t f s6 s8 (is_outside_of_pc hth6t (by simp [Pc.kind]))
        ((thread_step_handler_done prog s6 t _ hth6t rfl).trans h8)]
  obtain ⟨ho, _, hlast, _⟩ := hdf.returned rfl
  have hrun : run prog (f + 4) sa t = some (run_for prog t (f + 4) s1) := by
    unfold run
    rw [hb, h1]
    apply run_steps_of_run_for
    rw [e1]; exact ho
  refine ⟨_, hrun, ?_, ?_, ?_, ?_⟩
  · rw [e1, hdf.invoked]
    show invocations s6.trace ++ _ = _
    rw [htr6]
    show invocations (s4.trace ++ [Event.invoke t X]) ++ _ = _
    rw [htr4, htr3, htr0, htra]
    simp [invocations_append, invocations, init]
  · rw [e1]; simpa using hdf.work
  · rw [e1]; exact ho
  · rw [e1]; exact hlast

end task_io_service

end asio.detail

/-! ## The invariants in every reachable state -/

namespace asio.detail

namespace task_io_service

theorem chain_head_none (s : task_io_service) (p : Option handler_ref) (L : List handler_ref)
    (h : chain s p L) : p = none ↔ L = [] := by
  cases L with
  | nil => rw [chain_nil] at h; simp [h]
  | cons r L =>
    rw [chain_cons] at h
    simp [h.1]

theorem chain_last_next (s : task_io_service) (e : handler_ref) :
    ∀ (L : List handler_ref) (p : Option handler_ref), chain s p (L ++ [e]) →
      get_next_ s e = some none := by
  intro L
  induction L with
  | nil =>
    intro p h
    rw [List.nil_append, chain_cons] at h
    obtain ⟨_, nx, hg, hc⟩ := h
    rw [chain_nil] at hc
    rw [hg, hc]
  | cons r L ih =>
    intro p h
    rw [List.cons_append, chain_cons] at h
    obtain ⟨_, nx, _, hc⟩ := h
    exact ih nx hc

theorem chain_follow (s : task_io_service) (e : handler_ref) :
    ∀ (L : List handler_ref) (p : Option handler_ref), chain s p (L ++ [e]) →
      follow s L.length p = some (some e) := by
  intro L
  induction L with
  | nil =>
    intro p h
    rw [List.nil_append, chain_cons] at h
    rw [h.1]
    rfl
  | cons r L ih =>
    intro p h
    rw [List.cons_append, chain_cons] at h
    obtain ⟨hp, nx, hg, hc⟩ := h
    rw [hp]
    simp only [List.length_cons, follow, hg]
    exact ih nx hc

/-- What `queue_is` says about the raw pointers of the queue. -/
theorem queue_is_pointers {s : task_io_service} {L : List handler_ref} (hq : queue_is s L) :
    (s.handler_queue_ = none ↔ s.handler_queue_end_ = none) ∧
    ∀ e, s.handler_queue_end_ = some e →
      get_next_ s e = some none ∧ ∃ n, follow s n s.handler_queue_ = some (some e) := by
  constructor
  · rw [chain_head_none s _ L hq.links, hq.last, List.getLast?_eq_none_iff]
  · intro e he
    rw [hq.last] at he
    obtain ⟨L1, hL1⟩ : ∃ L1, L = L1 ++ [e] := by
      rcases List.eq_nil_or_concat L with h | ⟨L1, x, h⟩
      · rw [h] at he; cases he
      · rw [List.concat_eq_append] at h
        rw [h, List.getLast?_append] at he
        simp only [List.getLast?_singleton] at he
        have he2 : some x = some e := he
        simp only [Option.some.injEq] at he2
        exact ⟨L1, by rw [h, he2]⟩
    have hl := hq.links
    rw [hL1] at hl
    exact ⟨chain_last_next s e L1 _ hl, L1.length, chain_follow s e L1 _ hl⟩

theorem run_loop_work {prog : Program} {s s1 : task_io_service} {t : Nat}
    (h : run_loop prog s t = some s1) : s1.outstanding_work_ = s.outstanding_work_ := by
  by_cases hcond : s.interrupted_ = false ∧ 0 < s.outstanding_work_
  · cases hQ : s.handler_queue_ with
    | none =>
      rw [run_loop_park prog s t hcond hQ] at h
      obtain ⟨s2, hf, hs⟩ := park_spec h
      rw [(set_pc_fields hs).2.2.1, hf.work]
    | some r =>
      cases r with
      | task =>
        rw [run_loop_task prog s t hcond hQ] at h
        rw [(set_pc_fields h).2.2.1]
      | wrapper a =>
        cases hc : s.heap[a]? with
        | none => simp [run_loop, hcond, hQ, get_next_, hc] at h
        | some oc =>
          cases oc with
          | none => simp [run_loop, hcond, hQ, get_next_, hc] at h
          | some c =>
            rw [run_loop_wrapper prog s t a c hcond hQ hc] at h
            rw [(set_pc_fields h).2.2.1]
  · rw [run_loop_exit prog s t hcond] at h
    obtain ⟨s2, hs2, _, hs⟩ := run_exit_spec h
    rw [(set_pc_fields hs).2.2.1]
    rcases hs2 with rfl | hf
    · rfl
    · exact hf.work

theorem run_unwind_work {s s1 : task_io_service} {t : Nat} (h : run_unwind s t = some s1) :
    s1.outstanding_work_ = s.outstanding_work_ := by
  unfold run_unwind at h
  rw [(set_pc_fields h).2.2.1]

theorem task_cleanup_work {s s1 : task_io_service} (h : task_cleanup s = some s1) :
    s1.outstanding_work_ = s.outstanding_work_ := by
  unfold task_cleanup at h
  rw [(enqueue_frame h).work]

theorem delta_eq (c : Option Cmd) : delta c = (started c : Int) - (finished c : Int) := by
  cases c with
  | none => rfl
  | some c => cases c <;> rfl

theorem inv_of_counted_reach {prog : Program} {s : task_io_service} {ws wf : Nat}
    (h : counted_reach prog s ws wf) : ∃ L, inv s L ((ws : Int) - (wf : Int)) := by
  induction h with
  | init n script => exact ⟨_, by simpa using inv_init n script⟩
  | step s s1 a ws wf _ hs ih =>
    obtain ⟨L, hi⟩ := ih
    obtain ⟨L1, hi1⟩ := inv_step hs hi
    refine ⟨L1, ?_⟩
    have e : ((ws + started (cmd_of s a) : Nat) : Int) - ((wf + finished (cmd_of s a) : Nat) : Int)
        = (ws : Int) - (wf : Int) + delta (cmd_of s a) := by
      rw [delta_eq]
      push_cast
      ring
    rw [e]
    exact hi1

/-- Every reachable state is reached with some numbers of `work_started` and
`work_finished` calls, and conversely. -/
theorem counted_reach_iff (prog : Program) (s : task_io_service) :
    reach prog s ↔ ∃ ws wf, counted_reach prog s ws wf := by
  constructor
  · intro h
    induction h with
    | init n script => exact ⟨0, 0, counted_reach.init n script⟩
    | step s s1 a _ hs ih =>
      obtain ⟨ws, wf, hc⟩ := ih
      exact ⟨_, _, counted_reach.step s s1 a ws wf hc hs⟩
  · rintro ⟨ws, wf, h⟩
    induction h with
    | init n script => exact reach.init n script
    | step s s1 a ws wf _ hs ih => exact reach.step s s1 a ih hs

/-- C15. In every state reachable from construction by atomic transitions
(every block of code run under the mutex is one transition: `post` with its
enqueue, the dequeue of `run`, the reinsertion of the task by the cleanup),
`handler_queue_` is null exactly when `handler_queue_end_` is null, and when
`handler_queue_end_` is not null its `next_` is null and it is reached from
`handler_queue_` by following `next_` links. -/
theorem queue_well_formed (prog : Program) (s : task_io_service) (h : reach prog s) :
    (s.handler_queue_ = none ↔ s.handler_queue_end_ = none) ∧
    ∀ e, s.handler_queue_end_ = some e →
      get_next_ s e = some none ∧ ∃ n, follow s n s.handler_queue_ = some (some e) := by
  obtain ⟨L, k, hi⟩ := inv_of_reach h
  exact queue_is_pointers hi.queue

/-- Witness of C15: the dispatcher after `post(7)`. -/
theorem queue_well_formed_witness :
    ∃ s1, step (fun _ => []) (init 1 []) (Action.call 0 (Cmd.post 7)) = some s1 ∧
      (s1.handler_queue_ = none ↔ s1.handler_queue_end_ = none) ∧
      ∀ e, s1.handler_queue_end_ = some e →
        get_next_ s1 e = some none ∧ ∃ n, follow s1 n s1.handler_queue_ = some (some e) :=
  ⟨_, rfl, queue_well_formed (fun _ => []) _
    (reach.step _ _ (Action.call 0 (Cmd.post 7)) (reach.init 1 []) rfl)⟩

/-- C16. In every state reachable from construction, with any number of
threads, the queue is a list `L` of handler objects (the only such list) and
the number of occurrences of the task in `L` plus the number of threads that
are inside `task_.run` (they have taken the task off the queue and their
cleanup has not yet put it back) is one. Hence the task is at most once in
the queue and at most one thread is inside `task_.run`. -/
theorem task_sentinel_once (prog : Program) (s : task_io_service) (h : reach prog s) :
    ∃ L, queue_is s L ∧ (∀ L1, queue_is s L1 → L1 = L) ∧
      L.count handler_ref.task + (kinds s).countP Kind.is_task = 1 ∧
      L.count handler_ref.task ≤ 1 ∧ (kinds s).countP Kind.is_task ≤ 1 := by
  obtain ⟨L, k, hi⟩ := inv_of_reach h
  refine ⟨L, hi.queue, fun L1 h1 => chain_unique s L L1 _ hi.queue.links h1.links,
    hi.task_once, ?_, ?_⟩
  · have := hi.task_once
    omega
  · have := hi.task_once
    omega

/-- Witness of C16: a thread that has entered `run` on a dispatcher with work
outstanding and is inside `task_.run`. -/
theorem task_sentinel_once_witness :
    ∃ L, queue_is parked_example L ∧ (∀ L1, queue_is parked_example L1 → L1 = L) ∧
      L.count handler_ref.task + (kinds parked_example).countP Kind.is_task = 1 ∧
      L.count handler_ref.task ≤ 1 ∧ (kinds parked_example).countP Kind.is_task ≤ 1 :=
  task_sentinel_once (fun _ => []) parked_example
    (reach.step _ _ (Action.run 1)
      (reach.step _ _ (Action.run 0)
        (reach.step _ _ (Action.run 2)
          (reach.step _ _ (Action.call 9 Cmd.work_started) (reach.init 3 []) rfl) rfl) rfl) rfl)

/-- Every state reached by counted transitions holds a counter in the range
of `int`. -/
theorem counter_range {prog : Program} {s : task_io_service} {ws wf : Nat}
    (h : counted_reach prog s ws wf) :
    -2 ^ 31 ≤ s.outstanding_work_ ∧ s.outstanding_work_ < 2 ^ 31 := by
  obtain ⟨L, hi⟩ := inv_of_counted_reach h
  rw [hi.work]
  exact to_int_range _

/-- The dispatcher after `n` calls of `work_started`. -/
theorem work_started_reach (prog : Program) (n : Nat) :
    counted_reach prog { init 1 [] with outstanding_work_ := to_int (n : Int) } n 0 := by
  induction n with
  | zero => exact counted_reach.init 1 []
  | succ n ih =>
    have hs : step prog { init 1 [] with outstanding_work_ := to_int (n : Int) }
        (Action.call 0 Cmd.work_started) =
        some { init 1 [] with outstanding_work_ := to_int ((n + 1 : Nat) : Int) } := by
      have e : to_int (to_int (n : Int) + 1) = to_int ((n + 1 : Nat) : Int) := by
        rw [to_int_add]
        push_cast
        rfl
      show some (work_started _) = _
      simp only [work_started, e]
    exact counted_reach.step _ _ (Action.call 0 Cmd.work_started) n 0 ih hs

/-- C17 (as amended). In every reachable state, `outstanding_work_` is, as a
C++ `int` (that is, modulo `2 ^ 32`), the number of user handlers linked in
the queue, plus the number of threads inside the call of a user handler
(taken off the queue, cleanup not yet run), plus the number of calls of
`work_started`, minus the number of calls of `work_finished`; it is exactly
that number whenever that number is in the range of `int`. Moreover `post`
increments the counter; the loop of `run` (which takes a handler or the task
off the queue, parks, or leaves) does not change it; the cleanup that runs
when the call of a user handler ends, by return or by exception, decrements
it; and a thread that leaves `task_.run`, by return or by exception, does not
change it. -/
theorem work_accounting (prog : Program) (s : task_io_service) (ws wf : Nat)
    (h : counted_reach prog s ws wf) :
    (∃ L, queue_is s L ∧
      s.outstanding_work_ = to_int ((L.countP handler_ref.is_wrapper : Int) +
        ((kinds s).countP Kind.is_handler : Int) + (ws : Int) - (wf : Int)) ∧
      (-2 ^ 31 ≤ (L.countP handler_ref.is_wrapper : Int) +
          ((kinds s).countP Kind.is_handler : Int) + (ws : Int) - (wf : Int) →
        (L.countP handler_ref.is_wrapper : Int) +
          ((kinds s).countP Kind.is_handler : Int) + (ws : Int) - (wf : Int) < 2 ^ 31 →
        s.outstanding_work_ = (L.countP handler_ref.is_wrapper : Int) +
          ((kinds s).countP Kind.is_handler : Int) + (ws : Int) - (wf : Int))) ∧
    (∀ x s1, post s x = some s1 →
      s1.outstanding_work_ = to_int (s.outstanding_work_ + 1) ∧
      (s.outstanding_work_ + 1 < 2 ^ 31 → s1.outstanding_work_ = s.outstanding_work_ + 1)) ∧
    (∀ t s1, run_loop prog s t = some s1 → s1.outstanding_work_ = s.outstanding_work_) ∧
    (∀ t th s1, s.threads[t]? = some th → thread_step prog s t = some s1 →
      (th.pc = Pc.in_handler [] ∨ ∃ k, th.pc = Pc.in_handler (Cmd.throws :: k)) →
      s1.outstanding_work_ = to_int (s.outstanding_work_ - 1) ∧
      (-2 ^ 31 < s.outstanding_work_ → s1.outstanding_work_ = s.outstanding_work_ - 1)) ∧
    (∀ t th s1 b, s.threads[t]? = some th → thread_step prog s t = some s1 →
      (th.pc = Pc.in_task b [] ∨ ∃ k, th.pc = Pc.in_task b (Cmd.throws :: k)) →
      s1.outstanding_work_ = s.outstanding_work_) := by
  obtain ⟨hlo, hhi⟩ := counter_range h
  refine ⟨?_, ?_, ?_, ?_, ?_⟩
  · obtain ⟨L, hi⟩ := inv_of_counted_reach h
    have e : (L.countP handler_ref.is_wrapper : Int) +
        ((kinds s).countP Kind.is_handler : Int) + ((ws : Int) - (wf : Int)) =
        (L.countP handler_ref.is_wrapper : Int) +
        ((kinds s).countP Kind.is_handler : Int) + (ws : Int) - (wf : Int) := by ring
    have hw := hi.work
    rw [e] at hw
    exact ⟨L, hi.queue, hw, fun h1 h2 => by rw [hw]; exact to_int_of_range h1 h2⟩
  · intro x s1 hp
    have e := (post_control hp).2.2.1
    refine ⟨e, fun h2 => ?_⟩
    have h1 : -2 ^ 31 ≤ s.outstanding_work_ + 1 := by omega
    rw [e]
    exact to_int_of_range h1 h2
  · intro t s1 hl
    exact run_loop_work hl
  · intro t th s1 hth hs hpc
    have e : s1.outstanding_work_ = to_int (s.outstanding_work_ - 1) := by
      rcases hpc with hpc | ⟨k, hpc⟩
      · simp only [thread_step, hth, hpc] at hs
        rw [run_loop_work hs]
        rfl
      · simp only [thread_step, hth, hpc] at hs
        rw [run_unwind_work hs]
        rfl
    refine ⟨e, fun h1 => ?_⟩
    have h1a : -2 ^ 31 ≤ s.outstanding_work_ - 1 := by omega
    have h2 : s.outstanding_work_ - 1 < 2 ^ 31 := by omega
    rw [e]
    exact to_int_of_range h1a h2
  · intro t th s1 b hth hs hpc
    rcases hpc with hpc | ⟨k, hpc⟩
    · simp only [thread_step, hth, hpc] at hs
      split at hs
      · rename_i s2 hs2
        rw [run_loop_work hs, task_cleanup_work hs2]
      · cases hs
    · simp only [thread_step, hth, hpc] at hs
      split at hs
      · rename_i s2 hs2
        rw [run_unwind_work hs, task_cleanup_work hs2]
      · cases hs

/-- Witness of C17: the dispatcher after `work_started()` and `post(7)`. -/
theorem work_accounting_witness :
    ∃ s1, step (fun _ => []) (work_started (init 1 [])) (Action.call 0 (Cmd.post 7)) = some s1 ∧
      ∃ L, queue_is s1 L ∧
        s1.outstanding_work_ = to_int ((L.countP handler_ref.is_wrapper : Int) +
          ((kinds s1).countP Kind.is_handler : Int) + ((1 : Nat) : Int) - ((0 : Nat) : Int)) ∧
        (-2 ^ 31 ≤ (L.countP handler_ref.is_wrapper : Int) +
            ((kinds s1).countP Kind.is_handler : Int) + ((1 : Nat) : Int) - ((0 : Nat) : Int) →
          (L.countP handler_ref.is_wrapper : Int) +
            ((kinds s1).countP Kind.is_handler : Int) + ((1 : Nat) : Int) - ((0 : Nat) : Int) <
              2 ^ 31 →
          s1.outstanding_work_ = (L.countP handler_ref.is_wrapper : Int) +
            ((kinds s1).countP Kind.is_handler : Int) + ((1 : Nat) : Int) - ((0 : Nat) : Int)) :=
  ⟨_, rfl, (work_accounting (fun _ => []) _ 1 0
    (counted_reach.step _ _ (Action.call 0 (Cmd.post 7)) 1 0
      (counted_reach.step (init 1 []) (work_started (init 1 [])) (Action.call 0 Cmd.work_started)
        0 0 (counted_reach.init 1 []) rfl) rfl)).1⟩

/-- C17 fails as stated: after `2 ^ 31` calls of `work_started()` on a
freshly constructed dispatcher, with no handler queued or running, the `int`
counter has wrapped around to `-2 ^ 31`, which is not the number of calls
made. -/
theorem work_accounting_overflow :
    counted_reach (fun _ => [])
      { init 1 [] with outstanding_work_ := -2 ^ 31 } (2 ^ 31) 0 ∧
    queue_is { init 1 [] with outstanding_work_ := -2 ^ 31 } [handler_ref.task] ∧
    ({ init 1 [] with outstanding_work_ := -2 ^ 31 } : task_io_service).outstanding_work_ ≠
      (([handler_ref.task].countP handler_ref.is_wrapper : Nat) : Int) +
        (((kinds { init 1 [] with outstanding_work_ := -2 ^ 31 }).countP Kind.is_handler : Nat) :
          Int) + ((2 ^ 31 : Nat) : Int) - ((0 : Nat) : Int) := by
  refine ⟨?_, @queue_is_congr (init 1 []) _ _ rfl rfl rfl rfl (inv_init 1 []).queue, by decide⟩
  have h := work_started_reach (fun _ => []) (2 ^ 31)
  have e : to_int ((2 ^ 31 : Nat) : Int) = -2 ^ 31 := by decide
  rw [e] at h
  exact h

end task_io_service

end asio.detail

/-! ## Exceptions thrown by a handler or by the task -/

namespace asio.detail

namespace task_io_service

theorem throwing_example_reach : reach throwing_program throwing_example :=
  reach.step _ _ (Action.move 0)
    (reach.step _ _ (Action.run 0)
      (reach.step _ _ (Action.call 0 (Cmd.post 2))
        (reach.step _ _ (Action.call 0 (Cmd.post 1)) (reach.init 1 []) rfl) rfl) rfl) rfl

end task_io_service

end asio.detail

/-! ## The invariant of the idle ring -/

namespace asio.detail

namespace task_io_service

theorem link_frame_refl (s : task_io_service) : link_frame s s :=
  ⟨fun _ => rfl, fun _ => rfl, rfl, rfl⟩

theorem link_frame_trans {s s1 s2 : task_io_service} (h1 : link_frame s s1)
    (h2 : link_frame s1 s2) : link_frame s s2 :=
  ⟨fun w => (h2.next w).trans (h1.next w), fun w => (h2.prev w).trans (h1.prev w),
    h2.first.trans h1.first, h2.length.trans h1.length⟩

theorem link_frame_of_threads {s s1 : task_io_service} (hth : s1.threads = s.threads)
    (hf : s1.first_idle_thread_ = s.first_idle_thread_) : link_frame s s1 :=
  ⟨fun w => by simp only [idle_next, hth], fun w => by simp only [idle_prev, hth], hf,
    by rw [hth]⟩

theorem link_frame_of_set {s s1 : task_io_service} {t : Nat} {th th1 : run_thread}
    (hth : s.threads[t]? = some th) (h1 : s1.threads = s.threads.set t th1)
    (hn : th1.this_idle_thread.next = th.this_idle_thread.next)
    (hp : th1.this_idle_thread.prev = th.this_idle_thread.prev)
    (hf : s1.first_idle_thread_ = s.first_idle_thread_) : link_frame s s1 := by
  have hlt : t < s.threads.length := (List.getElem?_eq_some.1 hth).1
  refine ⟨?_, ?_, hf, by rw [h1]; simp⟩
  · intro w
    simp only [idle_next, h1]
    by_cases hw : w = t
    · subst hw
      simp [List.getElem?_set, hlt, hth, hn]
    · rw [List.getElem?_set_ne (Ne.symm hw)]
  · intro w
    simp only [idle_prev, h1]
    by_cases hw : w = t
    · subst hw
      simp [List.getElem?_set, hlt, hth, hp]
    · rw [List.getElem?_set_ne (Ne.symm hw)]

theorem set_pc_link {s s1 : task_io_service} {t : Nat} {pc : Pc}
    (h : set_pc s t pc = some s1) : link_frame s s1 := by
  obtain ⟨th, hth, rfl⟩ := set_pc_some h
  exact link_frame_of_set hth rfl rfl rfl rfl

theorem signal_link {s s1 : task_io_service} {u : Nat} (h : signal s u = some s1) :
    link_frame s s1 := by
  obtain ⟨th, hth, rfl⟩ := signal_some h
  exact link_frame_of_set hth rfl rfl rfl rfl

theorem signal_loop_link (first : Nat) :
    ∀ (fuel cur : Nat) (s s1 : task_io_service),
      signal_loop first fuel cur s = some s1 → link_frame s s1 := by
  intro fuel
  induction fuel with
  | zero =>
    intro cur s s1 h
    unfold signal_loop at h
    split at h
    · simp only [Option.some.injEq] at h
      rw [← h]
      exact link_frame_refl s
    · cases h
  | succ n ih =>
    intro cur s s1 h
    unfold signal_loop at h
    split at h
    · simp only [Option.some.injEq] at h
      rw [← h]
      exact link_frame_refl s
    · split at h
      · rename_i s0 hs0
        split at h
        · exact link_frame_trans (signal_link hs0) (ih _ _ _ h)
        · cases h
      · cases h

theorem interrupt_all_idle_threads_link {s s1 : task_io_service}
    (h : interrupt_all_idle_threads s = some s1) : link_frame s s1 := by
  unfold interrupt_all_idle_threads at h
  split at h
  · split at h
    · rename_i s0 hs0
      split at h
      · exact link_frame_trans (signal_link hs0) (signal_loop_link _ _ _ _ _ h)
      · cases h
    · cases h
  · simp only [Option.some.injEq] at h
    rw [← h]
    exact link_frame_refl s

theorem interrupt_all_threads_link {s s1 : task_io_service}
    (h : interrupt_all_threads s = some s1) : link_frame s s1 := by
  unfold interrupt_all_threads at h
  split at h
  · rename_i s0 hs0
    have hf : link_frame s s0 :=
      link_frame_trans (@link_frame_of_threads s { s with interrupted_ := true } rfl rfl)
        (interrupt_all_idle_threads_link hs0)
    split at h
    · simp only [Option.some.injEq] at h
      rw [← h]
      exact link_frame_trans hf (@link_frame_of_threads s0 (task_interrupt s0) rfl rfl)
    · simp only [Option.some.injEq] at h
      rw [← h]
      exact hf
  · cases h

theorem upcall_link {prog : Program} {s s1 : task_io_service} {t h : Nat}
    (hu : upcall prog s t h = some s1) : link_frame s s1 := by
  unfold upcall at hu
  split at hu
  · rename_i th hth
    simp only [Option.some.injEq] at hu
    rw [← hu]
    exact link_frame_of_set hth rfl rfl rfl rfl
  · cases hu

/-- What `wake_one` does to the idle ring: the links stay, and
`first_idle_thread_` advances to the next node when there is one. -/
theorem wake_one_link {s s1 : task_io_service} (h : wake_one s = some s1) :
    (∀ w, idle_next s1 w = idle_next s w) ∧ (∀ w, idle_prev s1 w = idle_prev s w) ∧
    s1.threads.length = s.threads.length ∧
    (link_frame s s1 ∨
      ∃ f n, s.first_idle_thread_ = some f ∧ idle_next s f = some n ∧
        s1.first_idle_thread_ = some n) := by
  cases hf : s.first_idle_thread_ with
  | none =>
    have hone : interrupt_one_idle_thread s = some (s, false) := by
      simp only [interrupt_one_idle_thread, hf]
    simp only [wake_one, hone] at h
    have hl : link_frame s s1 := by
      split at h
      · simp only [Option.some.injEq] at h
        rw [← h]
        exact @link_frame_of_threads s (task_interrupt s) rfl rfl
      · simp only [Option.some.injEq] at h
        rw [← h]
        exact link_frame_refl s
    exact ⟨hl.next, hl.prev, hl.length, Or.inl hl⟩
  | some f =>
    simp only [wake_one, interrupt_one_idle_thread, hf] at h
    cases hs : signal s f with
    | none => simp only [hs] at h; cases h
    | some s0 =>
      simp only [hs] at h
      have hl := signal_link hs
      cases hn : idle_next s0 f with
      | none => simp only [hn] at h; cases h
      | some n =>
        simp only [hn, Option.some.injEq] at h
        have hn0 : idle_next s f = some n := by rw [← hl.next]; exact hn
        rw [← h]
        exact ⟨hl.next, hl.prev, hl.length, Or.inr ⟨f, n, rfl, hn0, rfl⟩⟩

theorem post_link {s s1 : task_io_service} {h : Nat} (hp : post s h = some s1) :
    (∀ w, idle_next s1 w = idle_next s w) ∧ (∀ w, idle_prev s1 w = idle_prev s w) ∧
    s1.threads.length = s.threads.length ∧
    (link_frame s s1 ∨
      ∃ f n, s.first_idle_thread_ = some f ∧ idle_next s f = some n ∧
        s1.first_idle_thread_ = some n) := by
  unfold post at hp
  split at hp
  · rename_i s2 hs2
    have hf := enqueue_frame hs2
    have hl0 : link_frame s ({ s2 with outstanding_work_ := to_int (s2.outstanding_work_ + 1) } :
        task_io_service) := link_frame_of_threads hf.threads hf.first_idle
    obtain ⟨n1, p1, l1, hor⟩ := wake_one_link hp
    refine ⟨fun w => (n1 w).trans (hl0.next w), fun w => (p1 w).trans (hl0.prev w),
      l1.trans hl0.length, ?_⟩
    rcases hor with hl | ⟨f, n, e1, e2, e3⟩
    · exact Or.inl (link_frame_trans hl0 hl)
    · exact Or.inr ⟨f, n, hl0.first.symm.trans e1, (hl0.next f).symm.trans e2, e3⟩
  · cases hp

theorem ring_inv_at_congr {s s1 : task_io_service} {ks : List Kind} {R : List Nat}
    (hf : link_frame s s1) (h : ring_inv_at s ks R) : ring_inv_at s1 ks R :=
  ⟨ring_is_congr hf.first hf.next hf.prev h.ring, h.parked, fun u hu hnot => by
    rw [hf.next, hf.prev]
    exact h.self u (by rw [← hf.length]; exact hu) hnot⟩

/-- The invariant of the ring after `first_idle_thread_` has stayed or has
advanced to the next node. -/
theorem ring_inv_at_advance {s s1 : task_io_service} {ks : List Kind} {R : List Nat}
    (hn : ∀ w, idle_next s1 w = idle_next s w) (hp : ∀ w, idle_prev s1 w = idle_prev s w)
    (hl : s1.threads.length = s.threads.length)
    (hor : link_frame s s1 ∨
      ∃ f n, s.first_idle_thread_ = some f ∧ idle_next s f = some n ∧
        s1.first_idle_thread_ = some n)
    (h : ring_inv_at s ks R) : ∃ R1, ring_inv_at s1 ks R1 := by
  rcases hor with hf | ⟨f, n, e1, e2, e3⟩
  · exact ⟨R, ring_inv_at_congr hf h⟩
  · cases R with
    | nil =>
      have : s.first_idle_thread_ = none := h.ring
      rw [this] at e1
      cases e1
    | cons f1 rest =>
      have hf1 : s.first_idle_thread_ = some f1 := h.ring.1
      rw [hf1] at e1
      simp only [Option.some.injEq] at e1
      subst e1
      refine ⟨rest ++ [f1], ring_is_rotate h.ring e2 e3 hn hp, ?_, ?_⟩
      · intro u
        rw [← h.parked u]
        simp only [List.mem_append, List.mem_singleton, List.mem_cons]
        tauto
      · intro u hu hnot
        rw [hn, hp]
        refine h.self u (by rw [← hl]; exact hu) ?_
        intro hmem
        apply hnot
        simp only [List.mem_append, List.mem_singleton, List.mem_cons] at hmem ⊢
        tauto

theorem exec_ring {prog : Program} {s s1 : task_io_service} {t : Nat} {c : Cmd}
    {ks : List Kind} {R : List Nat} (he : exec prog s t c = some s1)
    (hi : ring_inv_at s ks R) : ∃ R1, ring_inv_at s1 ks R1 := by
  cases c with
  | post h =>
    obtain ⟨n1, p1, l1, hor⟩ := post_link he
    exact ring_inv_at_advance n1 p1 l1 hor hi
  | dispatch h =>
    simp only [exec, dispatch] at he
    split at he
    · exact ⟨R, ring_inv_at_congr (upcall_link he) hi⟩
    · obtain ⟨n1, p1, l1, hor⟩ := post_link he
      exact ring_inv_at_advance n1 p1 l1 hor hi
  | interrupt => exact ⟨R, ring_inv_at_congr (interrupt_all_threads_link he) hi⟩
  | reset =>
    simp only [exec, reset, Option.some.injEq] at he
    rw [← he]
    exact ⟨R, ring_inv_at_congr (@link_frame_of_threads s _ rfl rfl) hi⟩
  | work_started =>
    simp only [exec, work_started, Option.some.injEq] at he
    rw [← he]
    exact ⟨R, ring_inv_at_congr (@link_frame_of_threads s _ rfl rfl) hi⟩
  | work_finished =>
    simp only [exec, work_finished] at he
    have h0 : ring_inv_at ({ s with outstanding_work_ := to_int (s.outstanding_work_ - 1) } :
        task_io_service) ks R := ring_inv_at_congr (@link_frame_of_threads s _ rfl rfl) hi
    split at he
    · exact ⟨R, ring_inv_at_congr (interrupt_all_threads_link he) h0⟩
    · simp only [Option.some.injEq] at he
      rw [← he]
      exact ⟨R, h0⟩
  | throws => simp [exec] at he

theorem parked_set {ks : List Kind} {R : List Nat} {t : Nat} {x y : Kind}
    (hx : ks[t]? = some x) (hxw : x ≠ Kind.waiting) (hyw : y ≠ Kind.waiting)
    (h : ∀ u, u ∈ R ↔ ks[u]? = some Kind.waiting) :
    ∀ u, u ∈ R ↔ (ks.set t y)[u]? = some Kind.waiting := by
  have hlt : t < ks.length := (List.getElem?_eq_some.1 hx).1
  intro u
  rw [h u]
  by_cases hu : u = t
  · subst hu
    rw [hx]
    simp only [List.getElem?_set, hlt, if_true, Option.some.injEq]
    constructor
    · intro hh; exact absurd hh hxw
    · intro hh; exact absurd hh hyw
  · rw [List.getElem?_set_ne (Ne.symm hu)]

/-- A thread that is not parked may be placed anywhere but in the wait. -/
theorem ring_inv_at_neutral {s : task_io_service} {R : List Nat} {t : Nat} {x : Kind}
    (hi : ring_inv s R) (hx : (kinds s)[t]? = some x) (hxw : x ≠ Kind.waiting) :
    ring_inv_at s ((kinds s).set t Kind.outside) R :=
  ⟨hi.ring, parked_set hx hxw (by simp) hi.parked, hi.self⟩

theorem ring_inv_of_set_pc {s s1 : task_io_service} {R : List Nat} {t : Nat} {pc : Pc}
    (hi : ring_inv_at s ((kinds s).set t Kind.outside) R)
    (hs : set_pc s t pc = some s1) (hpc : pc.kind ≠ Kind.waiting) : ring_inv s1 R := by
  obtain ⟨th, hth, _⟩ := set_pc_some hs
  have hlt : t < (kinds s).length := by
    rw [kinds_length]; exact (List.getElem?_eq_some.1 hth).1
  have hk : kinds s1 = (kinds s).set t pc.kind := set_pc_kinds hs
  have h1 := ring_inv_at_congr (set_pc_link hs) hi
  unfold ring_inv
  rw [hk]
  refine ⟨h1.ring, ?_, h1.self⟩
  have hx : ((kinds s).set t Kind.outside)[t]? = some Kind.outside := by
    simp [List.getElem?_set, hlt]
  have := parked_set hx (by simp) hpc hi.parked
  simpa [List.set_set] using this

theorem not_parked_of_outside {s : task_io_service} {ks : List Kind} {R : List Nat} {t : Nat}
    (hi : ring_inv_at s (ks.set t Kind.outside) R) (hlt : t < ks.length) : t ∉ R := by
  intro hmem
  have := (hi.parked t).1 hmem
  simp [List.getElem?_set, hlt] at this

/-- The function `park` on a well-formed ring that does not hold the node of
the thread, which is linked to itself: the new ring has the node in front,
and no other node outside the ring is touched. -/
theorem park_full {s : task_io_service} {t : Nat} {R : List Nat} (hr : ring_is s R)
    (ht : t < s.threads.length) (hnot : t ∉ R)
    (hself : idle_next s t = some t ∧ idle_prev s t = some t) :
    ∃ s1, park s t = some s1 ∧ ring_is s1 (t :: R) ∧
      ∀ u, u ∉ t :: R → idle_next s1 u = idle_next s u ∧ idle_prev s1 u = idle_prev s u := by
  cases R with
  | nil =>
    have hfirst : s.first_idle_thread_ = none := hr
    have ht0 : t < ({ s with first_idle_thread_ := some t } : task_io_service).threads.length :=
      ht
    obtain ⟨s5, s6, h5, h6, n6, p6, f6, hth⟩ :=
      wait_view { s with first_idle_thread_ := some t } t ht0
    obtain ⟨s1, h1, hring, _⟩ := park_empty hfirst ht hself.1 hself.2
    have hpark : park s t = some s6 := by
      simp only [park, hfirst, h5, h6]
    have e : s1 = s6 := by
      rw [h1] at hpark
      simpa using hpark
    subst e
    exact ⟨s1, h1, hring, fun u _ => ⟨n6 u, p6 u⟩⟩
  | cons f rest =>
    have hr0 := hr
    simp only [ring_is] at hr
    obtain ⟨hfirst, _, _, _⟩ := hr
    have hlts := ring_is_lt hr0
    obtain ⟨p, hlast⟩ : ∃ p, (f :: rest).getLast? = some p := by
      cases h : (f :: rest).getLast? with
      | none => simp at h
      | some p => exact ⟨p, rfl⟩
    have hpmem : p ∈ f :: rest := List.mem_of_getLast?_eq_some hlast
    have hft : f ≠ t := fun h => hnot (h ▸ List.mem_cons_self _ _)
    obtain ⟨_, hpf⟩ := ring_last hr0 hlast
    obtain ⟨s1, h1, n1, p1, l1, _⟩ := set_idle_next_view s t f ht
    have hp1 : idle_prev s1 f = some p := by rw [p1, hpf]
    obtain ⟨s2, h2, p2, n2, l2, _⟩ := set_idle_prev_view s1 t p (by rw [l1]; exact ht)
    have hp2 : idle_prev s2 f = some p := by rw [p2, if_neg hft, hp1]
    obtain ⟨s3, h3, n3, p3, l3, _⟩ := set_idle_next_view s2 p t
      (by rw [l2, l1]; exact hlts p hpmem)
    obtain ⟨s4, h4, p4, n4, l4, _⟩ := set_idle_prev_view s3 f t
      (by rw [l3, l2, l1]; exact hlts f (List.mem_cons_self _ _))
    have ht4 : t < ({ s4 with first_idle_thread_ := some t } :
        task_io_service).threads.length := by
      show t < s4.threads.length
      rw [l4, l3, l2, l1]; exact ht
    obtain ⟨s5, s6, h5, h6, n6, p6, f6, hth⟩ :=
      wait_view { s4 with first_idle_thread_ := some t } t ht4
    have hnext : ∀ w, idle_next s6 w =
        if w = p then some t else if w = t then some f else idle_next s w := by
      intro w
      rw [n6]
      show idle_next s4 w = _
      rw [n4, n3, n2, n1]
    have hprev : ∀ w, idle_prev s6 w =
        if w = f then some t else if w = t then some p else idle_prev s w := by
      intro w
      rw [p6]
      show idle_prev s4 w = _
      rw [p4, p3, p2, p1]
    have hpark : park s t = some s6 := by
      simp only [park, hfirst, h1, hp1, h2, hp2, h3, h4, h5, h6]
    refine ⟨s6, hpark, ring_is_insert hr0 hnot hlast f6 hnext hprev, ?_⟩
    intro u hu
    have hut : u ≠ t := fun h => hu (by rw [h]; exact List.mem_cons_self _ _)
    have hup : u ≠ p := fun h => hu (by rw [h]; exact List.mem_cons_of_mem _ hpmem)
    have huf : u ≠ f := fun h => hu (by rw [h]; simp)
    rw [hnext, hprev, if_neg hup, if_neg hut, if_neg huf, if_neg hut]
    exact ⟨rfl, rfl⟩

theorem run_exit_ring {s s1 : task_io_service} {t : Nat} {R : List Nat}
    (h : run_exit s t = some s1) (hi : ring_inv_at s ((kinds s).set t Kind.outside) R) :
    ring_inv s1 R := by
  unfold run_exit at h
  simp only at h
  split at h
  · rename_i s2 hs2
    have hl : link_frame s s2 ∧ kinds s2 = kinds s := by
      split at hs2
      · exact ⟨interrupt_all_threads_link hs2, (interrupt_all_threads_frame hs2).kinds⟩
      · simp only [Option.some.injEq] at hs2
        rw [← hs2]
        exact ⟨link_frame_refl s, rfl⟩
    have hi2 : ring_inv_at ({ s2 with trace := s2.trace ++ [Event.run_return t] } :
        task_io_service)
        ((kinds ({ s2 with trace := s2.trace ++ [Event.run_return t] } :
          task_io_service)).set t Kind.outside) R := by
      show ring_inv_at _ ((kinds s2).set t Kind.outside) R
      rw [hl.2]
      exact ring_inv_at_congr (link_frame_trans hl.1 (@link_frame_of_threads s2 _ rfl rfl)) hi
    exact ring_inv_of_set_pc hi2 h (by simp [Pc.kind])
  · cases h

/-- The loop of `run`, entered by a thread that is not in the ring,
re-establishes the invariant of the ring. -/
theorem run_loop_ring {prog : Program} {s s1 : task_io_service} {t : Nat} {R : List Nat}
    (h : run_loop prog s t = some s1)
    (hi : ring_inv_at s ((kinds s).set t Kind.outside) R) (ht : t < s.threads.length) :
    ∃ R1, ring_inv s1 R1 := by
  have hltk : t < (kinds s).length := by rw [kinds_length]; exact ht
  by_cases hcond : s.interrupted_ = false ∧ 0 < s.outstanding_work_
  · cases hQ : s.handler_queue_ with
    | none =>
      rw [run_loop_park prog s t hcond hQ] at h
      have hnot : t ∉ R := not_parked_of_outside hi hltk
      obtain ⟨s2, hp, hring, hun⟩ := park_full hi.ring ht hnot (hi.self t ht hnot)
      have e : s2 = s1 := by
        rw [h] at hp
        simpa using hp.symm
      subst e
      obtain ⟨s3, hf, hs⟩ := park_spec h
      have hk : kinds s2 = (kinds s).set t Kind.waiting := by
        rw [set_pc_kinds hs, hf.kinds]; rfl
      have hlen : s2.threads.length = s.threads.length := by
        rw [← kinds_length, hk, List.length_set, kinds_length]
      refine ⟨t :: R, hring, ?_, ?_⟩
      · intro u
        rw [hk]
        by_cases hu : u = t
        · subst hu
          simp [List.getElem?_set, hltk]
        · rw [List.getElem?_set_ne (Ne.symm hu), List.mem_cons]
          have := hi.parked u
          rw [List.getElem?_set_ne (Ne.symm hu)] at this
          rw [← this]
          constructor
          · rintro (h1 | h1)
            · exact absurd h1 hu
            · exact h1
          · exact Or.inr
      · intro u hu hnotu
        obtain ⟨e1, e2⟩ := hun u hnotu
        rw [e1, e2]
        exact hi.self u (by rw [← hlen]; exact hu) (fun hm => hnotu (List.mem_cons_of_mem _ hm))
    | some r =>
      cases r with
      | task =>
        rw [run_loop_task prog s t hcond hQ] at h
        refine ⟨R, ring_inv_of_set_pc ?_ h (by simp [Pc.kind])⟩
        show ring_inv_at _ ((kinds s).set t Kind.outside) R
        exact ring_inv_at_congr (@link_frame_of_threads s _ rfl rfl) hi
      | wrapper a =>
        cases hc : s.heap[a]? with
        | none => simp [run_loop, hcond, hQ, get_next_, hc] at h
        | some oc =>
          cases oc with
          | none => simp [run_loop, hcond, hQ, get_next_, hc] at h
          | some c =>
            rw [run_loop_wrapper prog s t a c hcond hQ hc] at h
            refine ⟨R, ring_inv_of_set_pc ?_ h (by simp [Pc.kind])⟩
            show ring_inv_at _ ((kinds s).set t Kind.outside) R
            exact ring_inv_at_congr (@link_frame_of_threads s _ rfl rfl) hi
  · rw [run_loop_exit prog s t hcond] at h
    exact ⟨R, run_exit_ring h hi⟩

theorem run_begin_ring {prog : Program} {s s1 : task_io_service} {t : Nat} {R : List Nat}
    (h : run_begin prog s t = some s1) (hi : ring_inv s R) : ∃ R1, ring_inv s1 R1 := by
  unfold run_begin at h
  split at h
  · rename_i th hth
    have hlt : t < s.threads.length := (List.getElem?_eq_some.1 hth).1
    have hkind := kinds_get s t th hth
    split at h
    · rename_i hpc
      rw [hpc] at hkind
      have hnot : t ∉ R := by
        intro hm
        have := (hi.parked t).1 hm
        rw [hkind] at this
        simp [Pc.kind] at this
      obtain ⟨hn, hp⟩ := hi.self t hlt hnot
      obtain ⟨s2, h2, p2, n2, l2, f2⟩ := set_idle_prev_view s t t hlt
      obtain ⟨s3, h3, n3, p3, l3, f3⟩ := set_idle_next_view s2 t t (by rw [l2]; exact hlt)
      simp only [h2, h3] at h
      have hl : link_frame s s3 := by
        refine ⟨?_, ?_, f3.trans f2, l3.trans l2⟩
        · intro w
          rw [n3, n2]
          split
          · rename_i hw
            rw [hw, hn]
          · rfl
        · intro w
          rw [p3, p2]
          split
          · rename_i hw
            rw [hw, hp]
          · rfl
      have hk : kinds s3 = kinds s :=
        ((set_idle_prev_frame h2).trans (set_idle_next_frame h3)).kinds
      have hi3 : ring_inv_at s3 ((kinds s3).set t Kind.outside) R := by
        rw [hk]
        exact ring_inv_at_congr hl (ring_inv_at_neutral hi hkind (by simp [Pc.kind]))
      exact run_loop_ring h hi3 (by rw [l3, l2]; exact hlt)
    · cases h
  · cases h

theorem task_cleanup_link {s s1 : task_io_service} (h : task_cleanup s = some s1) :
    link_frame s s1 ∧ kinds s1 = kinds s := by
  unfold task_cleanup at h
  have hf := enqueue_frame h
  exact ⟨link_frame_of_threads hf.threads hf.first_idle, kinds_congr hf.threads⟩

theorem mem_split_nodup {R : List Nat} {t : Nat} (ht : t ∈ R) (hnd : R.Nodup) :
    ∃ a b, R = a ++ t :: b ∧ ∀ u, u ∈ a ++ b ↔ u ∈ R ∧ u ≠ t := by
  obtain ⟨a, b, hab⟩ := List.append_of_mem ht
  refine ⟨a, b, hab, ?_⟩
  subst hab
  have h1 := List.nodup_append.1 hnd
  have h2 := List.nodup_cons.1 h1.2.1
  intro u
  simp only [List.mem_append, List.mem_cons]
  constructor
  · rintro (h | h)
    · refine ⟨Or.inl h, ?_⟩
      intro hu
      subst hu
      exact h1.2.2 h (List.mem_cons_self _ _)
    · refine ⟨Or.inr (Or.inr h), ?_⟩
      intro hu
      subst hu
      exact h2.1 h
  · rintro ⟨h | h | h, hne⟩
    · exact Or.inl h
    · exact absurd h hne
    · exact Or.inr h

/-- The unlinking of a parked thread, seen from the invariant of the ring. -/
theorem unpark_inv {s : task_io_service} {R : List Nat} {t : Nat} (hi : ring_inv s R)
    (hx : (kinds s)[t]? = some Kind.waiting) :
    ∃ s1 R1, unpark s t = some s1 ∧ ring_inv_at s1 ((kinds s1).set t Kind.outside) R1 ∧
      (∀ u, u ∈ R1 ↔ u ∈ R ∧ u ≠ t) ∧ idle_next s1 t = some t ∧ idle_prev s1 t = some t ∧
      kinds s1 = kinds s ∧ (R1 = [] → s1 = { s with first_idle_thread_ := none }) := by
  have htR : t ∈ R := (hi.parked t).2 hx
  have hltk : t < (kinds s).length := (List.getElem?_eq_some.1 hx).1
  obtain ⟨a, b, hab, hmem⟩ := mem_split_nodup htR (ring_is_nodup hi.ring)
  have hr := hi.ring
  rw [hab] at hr
  obtain ⟨s1, h1, hring, hun, hn, hp, hlast⟩ := unpark_ring hr
  have hk : kinds s1 = kinds s := (unpark_frame h1).kinds
  have hlen : s1.threads.length = s.threads.length := by
    rw [← kinds_length, hk, kinds_length]
  refine ⟨s1, a ++ b, h1, ⟨hring, ?_, ?_⟩, hmem, hn, hp, hk, hlast⟩
  · intro u
    rw [hmem u, hk, hi.parked u]
    by_cases hu : u = t
    · subst hu
      simp [List.getElem?_set, hltk]
    · rw [List.getElem?_set_ne (Ne.symm hu)]
      simp [hu]
  · intro u hu hnot
    by_cases hut : u = t
    · rw [hut]; exact ⟨hn, hp⟩
    · have hnR : u ∉ R := fun hm => hnot ((hmem u).2 ⟨hm, hut⟩)
      obtain ⟨e1, e2⟩ := hun u (by rw [← hab]; exact hnR)
      rw [e1, e2]
      exact hi.self u (by rw [← hlen]; exact hu) hnR

theorem thread_step_ring {prog : Program} {s s1 : task_io_service} {t : Nat} {R : List Nat}
    (h : thread_step prog s t = some s1) (hi : ring_inv s R) : ∃ R1, ring_inv s1 R1 := by
  unfold thread_step at h
  split at h
  · rename_i th hth
    have hlt : t < s.threads.length := (List.getElem?_eq_some.1 hth).1
    have hkind := kinds_get s t th hth
    split at h
    · cases h
    · rename_i hpc
      rw [hpc] at hkind
      split at h
      · split at h
        · rename_i s2 hs2
          obtain ⟨s3, R1, h3, hi3, _, _, _, hk, _⟩ := unpark_inv hi hkind
          have e : s3 = s2 := by
            rw [hs2] at h3
            simpa using h3.symm
          subst e
          exact run_loop_ring h hi3 (by rw [← kinds_length, hk, kinds_length]; exact hlt)
        · cases h
      · cases h
    · rename_i hpc
      rw [hpc] at hkind
      refine @run_loop_ring prog _ s1 t R h ?_ hlt
      show ring_inv_at _ ((kinds s).set t Kind.outside) R
      exact ring_inv_at_congr (@link_frame_of_threads s _ rfl rfl)
        (ring_inv_at_neutral hi hkind (by simp [Pc.kind]))
    · rename_i hpc
      rw [hpc] at hkind
      unfold run_unwind at h
      refine ⟨R, ring_inv_of_set_pc ?_ h (by simp [Pc.kind])⟩
      show ring_inv_at _ ((kinds s).set t Kind.outside) R
      exact ring_inv_at_congr (@link_frame_of_threads s _ rfl rfl)
        (ring_inv_at_neutral hi hkind (by simp [Pc.kind]))
    · rename_i c k0 hnot hpc
      rw [hpc] at hkind
      split at h
      · rename_i s2 hs2
        have hi2 : ring_inv s2 R :=
          ring_inv_of_set_pc (ring_inv_at_neutral hi hkind (by simp [Pc.kind])) hs2
            (by simp [Pc.kind])
        obtain ⟨R1, h1⟩ := exec_ring h hi2
        refine ⟨R1, ?_⟩
        unfold ring_inv
        rw [exec_kinds h]
        exact h1
      · cases h
    · rename_i hpc
      rw [hpc] at hkind
      split at h
      · rename_i s2 hs2
        obtain ⟨hl, hk⟩ := task_cleanup_link hs2
        refine @run_loop_ring prog _ s1 t R h ?_ (by rw [hl.length]; exact hlt)
        rw [hk]
        exact ring_inv_at_congr hl (ring_inv_at_neutral hi hkind (by simp [Pc.kind]))
      · cases h
    · rename_i hpc
      rw [hpc] at hkind
      split at h
      · rename_i s2 hs2
        obtain ⟨hl, hk⟩ := task_cleanup_link hs2
        unfold run_unwind at h
        refine ⟨R, ring_inv_of_set_pc ?_ h (by simp [Pc.kind])⟩
        show ring_inv_at _ ((kinds s2).set t Kind.outside) R
        rw [hk]
        exact ring_inv_at_congr (link_frame_trans hl (@link_frame_of_threads s2 _ rfl rfl))
          (ring_inv_at_neutral hi hkind (by simp [Pc.kind]))
      · cases h
    · rename_i b c k0 hnot hpc
      rw [hpc] at hkind
      split at h
      · rename_i s2 hs2
        have hi2 : ring_inv s2 R :=
          ring_inv_of_set_pc (ring_inv_at_neutral hi hkind (by simp [Pc.kind])) hs2
            (by simp [Pc.kind])
        obtain ⟨R1, h1⟩ := exec_ring h hi2
        refine ⟨R1, ?_⟩
        unfold ring_inv
        rw [exec_kinds h]
        exact h1
      · cases h
  · cases h

theorem step_ring {prog : Program} {s s1 : task_io_service} {a : Action} {R : List Nat}
    (h : step prog s a = some s1) (hi : ring_inv s R) : ∃ R1, ring_inv s1 R1 := by
  cases a with
  | call t c =>
    simp only [step] at h
    split at h
    · cases h
    · obtain ⟨R1, h1⟩ := exec_ring h hi
      refine ⟨R1, ?_⟩
      unfold ring_inv
      rw [exec_kinds h]
      exact h1
  | run t => exact run_begin_ring h hi
  | move t => exact thread_step_ring h hi

theorem ring_inv_init (n : Nat) (script : List (List Cmd)) : ring_inv (init n script) [] := by
  unfold ring_inv
  rw [kinds_init]
  refine ⟨rfl, ?_, ?_⟩
  · intro u
    simp only [List.not_mem_nil, false_iff]
    intro h
    have hmem : Kind.waiting ∈ List.replicate n Kind.outside := by
      obtain ⟨hlt, hget⟩ := List.getElem?_eq_some.1 h
      rw [← hget]
      exact List.getElem_mem hlt
    have := List.eq_of_mem_replicate hmem
    cases this
  · intro u hu _
    have hun : u < n := by simpa [init] using hu
    have hth := init_thread n script u hun
    simp [idle_next, idle_prev, hth]

/-- Every reachable state satisfies the invariant of the idle ring. -/
theorem ring_inv_of_reach {prog : Program} {s : task_io_service} (h : reach prog s) :
    ∃ R, ring_inv s R := by
  induction h with
  | init n script => exact ⟨[], ring_inv_init n script⟩
  | step s s1 a _ hstep ih =>
    obtain ⟨R, hR⟩ := ih
    exact step_ring hstep hR

end task_io_service

end asio.detail

/-! ## Leaving `run` -/

namespace asio.detail

namespace task_io_service

/-- On a well-formed idle ring, what follows the loop of `run` ends: the
thread returns from `run`. -/
theorem run_exit_returns {s : task_io_service} {t : Nat} {R : List Nat}
    (hr : ring_is s R) (ht : t < s.threads.length) :
    ∃ s1, run_exit s t = some s1 ∧ is_outside s1 t = true := by
  have hset : ∀ s2 : task_io_service, t < s2.threads.length →
      ∃ s1, set_pc { s2 with trace := s2.trace ++ [Event.run_return t] } t Pc.outside = some s1 ∧
        is_outside s1 t = true := by
    intro s2 hlen
    have hget : ({ s2 with trace := s2.trace ++ [Event.run_return t] } :
        task_io_service).threads[t]? = some s2.threads[t] := List.getElem?_eq_getElem hlen
    refine ⟨{ s2 with trace := s2.trace ++ [Event.run_return t]
                      threads := s2.threads.set t { s2.threads[t] with pc := Pc.outside } },
      by simp only [set_pc, hget], ?_⟩
    simp [is_outside, List.getElem?_set, hlen]
  by_cases hI : s.interrupted_ = false
  · obtain ⟨s2, h2, hc, _⟩ := cascade_of_ring hr
    have hlen : t < s2.threads.length := by
      have h3 := hc.threads t
      rw [List.getElem?_eq_getElem ht] at h3
      exact (List.getElem?_eq_some.1 h3).1
    obtain ⟨s1, h1, ho⟩ := hset s2 hlen
    refine ⟨s1, ?_, ho⟩
    unfold run_exit
    simp only
    rw [if_pos hI, h2]
    exact h1
  · obtain ⟨s1, h1, ho⟩ := hset s ht
    refine ⟨s1, ?_, ho⟩
    unfold run_exit
    simp only
    rw [if_neg hI]
    exact h1

/-- In a reachable state that is interrupted or has no outstanding work,
`run()` called on a thread that is outside `run` returns at once. -/
theorem run_begin_returns {prog : Program} {s : task_io_service} {t : Nat} {th : run_thread}
    (hr : reach prog s) (hth : s.threads[t]? = some th) (hpc : th.pc = Pc.outside)
    (hcond : ¬ (s.interrupted_ = false ∧ 0 < s.outstanding_work_)) :
    ∃ s1, run_begin prog s t = some s1 ∧ is_outside s1 t = true := by
  obtain ⟨R, hi⟩ := ring_inv_of_reach hr
  have hlt : t < s.threads.length := (List.getElem?_eq_some.1 hth).1
  have hkind := kinds_get s t th hth
  rw [hpc] at hkind
  have hnot : t ∉ R := by
    intro hm
    have := (hi.parked t).1 hm
    rw [hkind] at this
    simp [Pc.kind] at this
  obtain ⟨hn, hp⟩ := hi.self t hlt hnot
  obtain ⟨s2, h2, p2, n2, l2, f2⟩ := set_idle_prev_view s t t hlt
  obtain ⟨s3, h3, n3, p3, l3, f3⟩ := set_idle_next_view s2 t t (by rw [l2]; exact hlt)
  have hfr := (set_idle_prev_frame h2).trans (set_idle_next_frame h3)
  have hring : ring_is s3 R := by
    refine ring_is_congr (f3.trans f2) ?_ ?_ hi.ring
    · intro w
      rw [n3, n2]
      split
      · rename_i hw
        rw [hw, hn]
      · rfl
    · intro w
      rw [p3, p2]
      split
      · rename_i hw
        rw [hw, hp]
      · rfl
  have hcond3 : ¬ (s3.interrupted_ = false ∧ 0 < s3.outstanding_work_) := by
    rw [hfr.interrupted, hfr.work]; exact hcond
  obtain ⟨s1, h1, ho⟩ := @run_exit_returns s3 t R hring (by rw [l3, l2]; exact hlt)
  refine ⟨s1, ?_, ho⟩
  simp only [run_begin, hth, hpc, if_true, h2, h3]
  rw [run_loop_exit prog s3 t hcond3]
  exact h1

/-- C5. When a transition made by thread `t` (entering `run` or moving
inside it) leaves `t` outside `run`, then either `run` has returned normally
and `interrupted_` is set (so that `interrupted_` is set or
`outstanding_work_` is zero), or `run` was left by an exception. When
`interrupted_` was clear before a transition in which `run` returns, the
loop was left because no work is outstanding, and it is `run` itself that has
set `interrupted_`. Moreover no transition other than a call of `reset`
clears `interrupted_`. Finally, in a reachable state that is interrupted or
has no outstanding work, `run()` called on a thread outside `run` does return,
at once, with `interrupted_` set. -/
theorem interrupted_after_run (prog : Program) (s s1 : task_io_service) (a : Action)
    (h : step prog s a = some s1) :
    (∀ t, (a = Action.run t ∨ a = Action.move t) → is_outside s1 t = true →
      (s1.trace.getLast? = some (Event.run_return t) ∧ s1.interrupted_ = true ∧
        (s1.interrupted_ = true ∨ s1.outstanding_work_ = 0) ∧
        (s.interrupted_ = false → s1.outstanding_work_ ≤ 0)) ∨
      s1.trace.getLast? = some (Event.run_throw t)) ∧
    (s.interrupted_ = true → cmd_of s a ≠ some Cmd.reset → s1.interrupted_ = true) ∧
    (∀ t th, reach prog s → s.threads[t]? = some th → th.pc = Pc.outside →
      (s.interrupted_ = true ∨ s.outstanding_work_ ≤ 0) →
      ∃ s2, step prog s (Action.run t) = some s2 ∧ is_outside s2 t = true ∧
        s2.trace.getLast? = some (Event.run_return t) ∧ s2.interrupted_ = true) := by
  refine ⟨?_, ?_, ?_⟩
  · intro t ha ho
    rcases ha with rfl | rfl
    · obtain ⟨r1, r2, r3⟩ := run_begin_outside h ho
      exact Or.inl ⟨r2, r1, Or.inl r1, r3⟩
    · rcases thread_step_outside h ho with h1 | h1
      · exact Or.inl ⟨h1.2.1, h1.1, Or.inl h1.1, h1.2.2⟩
      · exact Or.inr h1
  · intro hi hc
    cases a with
    | call t c =>
      simp only [step] at h
      split at h
      · cases h
      · exact exec_sticky h (fun hh => hc (by rw [hh]; rfl)) hi
    | run t => exact run_begin_sticky h hi
    | move t => exact thread_step_sticky h hc hi
  · intro t th hr hth hpc hx
    have hcond : ¬ (s.interrupted_ = false ∧ 0 < s.outstanding_work_) := by
      rintro ⟨h1, h2⟩
      rcases hx with hx | hx
      · rw [h1] at hx; cases hx
      · omega
    obtain ⟨s2, h2, ho⟩ := run_begin_returns hr hth hpc hcond
    obtain ⟨r1, r2, _⟩ := run_begin_outside h2 ho
    exact ⟨s2, h2, ho, r2, r1⟩

end task_io_service

end asio.detail

/-! ## The theorems at concrete states -/

namespace asio.detail

namespace task_io_service

theorem parked_example_reach : reach (fun _ => []) parked_example :=
  reach.step _ _ (Action.run 1)
    (reach.step _ _ (Action.run 0)
      (reach.step _ _ (Action.run 2)
        (reach.step _ _ (Action.call 9 Cmd.work_started) (reach.init 3 []) rfl) rfl) rfl) rfl

theorem parked_example_inv : inv parked_example [] 1 := by
  refine ⟨⟨(chain_nil _ _).2 rfl, rfl, List.nodup_nil⟩, by decide, ?_, by decide⟩
  intro b hb
  have : b = true := by
    cases b with
    | true => rfl
    | false => exact absurd hb (by decide)
  subst this
  exact ⟨fun _ => rfl, fun _ => rfl⟩

theorem parked_example_ring : ring_is parked_example [1, 0] := by
  refine ⟨rfl, by decide, ⟨rfl, by decide, rfl⟩, ?_⟩
  intro u hu n hn
  simp only [List.mem_cons, List.mem_singleton, List.not_mem_nil, or_false] at hu
  rcases hu with rfl | rfl
  · have : n = 0 := by
      simpa [idle_next, parked_example] using hn.symm
    subst this
    rfl
  · have : n = 1 := by
      simpa [idle_next, parked_example] using hn.symm
    subst this
    rfl

theorem interrupted_example_queue :
    queue_is interrupted_example [handler_ref.task, handler_ref.wrapper 0] := by
  refine ⟨?_, rfl, by decide⟩
  rw [chain_cons]
  refine ⟨rfl, some (handler_ref.wrapper 0), rfl, ?_⟩
  rw [chain_cons]
  exact ⟨rfl, none, rfl, (chain_nil _ _).2 rfl⟩

end task_io_service

end asio.detail

namespace asio.detail

namespace task_io_service

/-- C2. Called on a thread `t` that is inside `run` of this dispatcher,
`dispatch(h)` makes the upcall of `h` in place: the calls of `h` come before
what the calling handler (or the task) still has to do, and the heap, the
queue pointers, `outstanding_work_`, `interrupted_`, the idle ring and the
other threads are unchanged. Consequently, when handler `A` calls
`dispatch(X)` and then `post(Y)`, with the handlers `hs` already queued
behind `A` (fewer than `2 ^ 31 - 2`, so that the `int` counter does not
overflow), one thread invokes `A`, `X`, the handlers `hs`, `Y`, in this
order: `X` runs before every handler that was in the queue. -/
theorem dispatch_runs_in_place (prog : Program) :
    (∀ (s : task_io_service) (t h : Nat) (th : run_thread),
      s.threads[t]? = some th → th.pc ≠ Pc.outside →
      ∃ s1, dispatch prog s t h = some s1 ∧
        s1.trace = s.trace ++ [Event.invoke t h] ∧
        (∀ k, th.pc = Pc.in_handler k →
          s1.threads[t]? = some { th with pc := Pc.in_handler (prog h ++ k) }) ∧
        (∀ b k, th.pc = Pc.in_task b k →
          s1.threads[t]? = some { th with pc := Pc.in_task b (prog h ++ k) }) ∧
        (∀ u, u ≠ t → s1.threads[u]? = s.threads[u]?) ∧
        s1.threads.map (fun x => x.this_idle_thread) =
          s.threads.map (fun x => x.this_idle_thread) ∧
        s1.heap = s.heap ∧ s1.handler_queue_ = s.handler_queue_ ∧
        s1.handler_queue_end_ = s.handler_queue_end_ ∧
        s1.task_handler_next_ = s.task_handler_next_ ∧
        s1.outstanding_work_ = s.outstanding_work_ ∧ s1.interrupted_ = s.interrupted_ ∧
        s1.first_idle_thread_ = s.first_idle_thread_) ∧
    (∀ (n t : Nat) (script : List (List Cmd)) (hs : List Nat) (A X Y : Nat),
      t < n → (∀ c ∈ script, c = []) → prog A = [Cmd.dispatch X, Cmd.post Y] →
      prog X = [] → prog Y = [] → (∀ h ∈ hs, prog h = []) → hs.length + 2 < 2 ^ 31 →
      ∃ s1, post_all (init n script) (A :: hs) = some s1 ∧
        ∀ fuel, hs.length + 6 ≤ fuel →
          ∃ s2, run prog fuel s1 t = some s2 ∧
            invocations s2.trace = A :: X :: (hs ++ [Y]) ∧
            s2.outstanding_work_ = 0 ∧ is_outside s2 t = true ∧
            s2.trace.getLast? = some (Event.run_return t)) := by
  constructor
  · intro s t h th hth hpc
    have hlt : t < s.threads.length := (List.getElem?_eq_some.1 hth).1
    rw [dispatch_inside prog s t h th hth hpc]
    simp only [upcall, hth]
    refine ⟨_, rfl, rfl, ?_, ?_, ?_, ?_, rfl, rfl, rfl, rfl, rfl, rfl, rfl⟩
    · intro k hk
      simp [List.getElem?_set, hlt, hk]
    · intro b k hk
      simp [List.getElem?_set, hlt, hk]
    · intro u hu
      exact List.getElem?_set_ne (fun h => hu h.symm)
    · apply List.ext_getElem?
      intro i
      by_cases hi : t = i
      · subst hi
        have hget : s.threads[t] = th := (List.getElem?_eq_some.1 hth).2
        simp [List.getElem?_set, List.getElem?_map, hlt, hget]
      · simp [List.getElem?_map, List.getElem?_set_ne hi]
  · intro n t script hs A X Y ht hscript hA hX hY hprog hlen
    exact nested_dispatch_order prog n t script hs A X Y ht hscript hA hX hY hprog hlen

/-- Witness of C2: handler `1` calls `dispatch(7)` and `post(9)`, with
handler `2` queued behind it. -/
theorem dispatch_runs_in_place_witness :
    ∃ s1, post_all (init 1 []) [1, 2] = some s1 ∧
      ∀ fuel, [2].length + 6 ≤ fuel →
        ∃ s2, run nested_example fuel s1 0 = some s2 ∧
          invocations s2.trace = [1, 7, 2, 9] ∧
          s2.outstanding_work_ = 0 ∧ is_outside s2 0 = true ∧
          s2.trace.getLast? = some (Event.run_return 0) :=
  (dispatch_runs_in_place nested_example).2 1 0 [] [2] 1 7 9 (by decide)
    (fun c hc => by cases hc) rfl rfl rfl
    (fun h hh => by
      simp only [List.mem_singleton] at hh
      subst hh
      rfl)
    (by decide)

/-- Witness of C4: an interrupted dispatcher with handler `5`, which calls
`reset()`, queued behind the task; handler `6` is posted after the
`reset()`. -/
theorem reset_then_run_resumes_witness :
    reset interrupted_example = { interrupted_example with interrupted_ := false } ∧
    (∃ s1, run_begin (fun h => if h = 5 then [Cmd.reset] else [])
        (reset interrupted_example) 0 = some s1 ∧
      ∀ fuel, 3 ≤ fuel →
        drained interrupted_example 0 [5] 0
          (run_for (fun h => if h = 5 then [Cmd.reset] else []) 0 fuel s1) ∧
        run (fun h => if h = 5 then [Cmd.reset] else []) fuel (reset interrupted_example) 0 =
          some (run_for (fun h => if h = 5 then [Cmd.reset] else []) 0 fuel s1)) ∧
    (∃ sp s1, post (reset interrupted_example) 6 = some sp ∧
      run_begin (fun h => if h = 5 then [Cmd.reset] else []) sp 0 = some s1 ∧
      ∀ fuel, 4 ≤ fuel →
        drained interrupted_example 0 [5, 6] 0
          (run_for (fun h => if h = 5 then [Cmd.reset] else []) 0 fuel s1) ∧
        run (fun h => if h = 5 then [Cmd.reset] else []) fuel sp 0 =
          some (run_for (fun h => if h = 5 then [Cmd.reset] else []) 0 fuel s1)) := by
  have hq5 : quiet ((fun h => if h = 5 then [Cmd.reset] else []) 5) := by
    intro c hc
    simpa using hc
  have hq6 : quiet ((fun h => if h = 5 then [Cmd.reset] else []) 6) := by
    intro c hc
    simp at hc
  obtain ⟨h1, ⟨s1, hb1, hd1⟩, h3⟩ :=
    reset_then_run_resumes (fun h => if h = 5 then [Cmd.reset] else []) interrupted_example 0
      { pc := Pc.outside, this_idle_thread := { wakeup_event := false, prev := 0, next := 0 } }
      [] [handler_ref.wrapper 0] [] [5] 0 6 rfl rfl rfl (fun c hc => by cases hc)
      interrupted_example_queue rfl rfl rfl (by decide)
      (fun x hx => by
        simp only [List.nil_append, List.mem_singleton] at hx
        subst hx
        exact hq5)
      hq6
  obtain ⟨sp, s2, hp, hb2, hd2⟩ := h3 (by decide)
  refine ⟨h1, ⟨s1, hb1, fun fuel hf => ?_⟩, sp, s2, hp, hb2, fun fuel hf => ?_⟩
  · have h := hd1 fuel hf
    exact ⟨h.1, h.2 rfl⟩
  · have h := hd2 fuel hf
    exact ⟨h.1, h.2 rfl⟩

/-- Witness of C5: `run()` on a freshly constructed dispatcher, which is
not interrupted and has no work, returns at once, having set
`interrupted_`. -/
theorem interrupted_after_run_witness :
    ∃ s1, step (fun _ => []) (init 1 []) (Action.run 0) = some s1 ∧
      (init 1 []).interrupted_ = false ∧ is_outside s1 0 = true ∧
      s1.trace.getLast? = some (Event.run_return 0) ∧
      s1.interrupted_ = true ∧ s1.outstanding_work_ ≤ 0 :=
  ⟨_, rfl, rfl, rfl, rfl,
    ((interrupted_after_run (fun _ => []) (init 1 []) _ (Action.run 0) rfl).1 0
      (Or.inl rfl) rfl).elim (fun h => ⟨h.2.1, h.2.2.2 rfl⟩) (fun h => absurd h (by decide))⟩

/-- Witness of C7: `post` on the dispatcher with two parked threads and a
blocking task signals the first idle thread only. -/
theorem post_wakes_one_consumer_witness :
    ∃ s1, post parked_example 5 = some s1 ∧
      s1.trace = parked_example.trace ++ [Event.signal 1] ∧
      s1.first_idle_thread_ = some 0 ∧ s1.outstanding_work_ = 2 := by
  obtain ⟨s1, h1, _, _, _, hw, _, _, hsig, _⟩ :=
    post_wakes_one_consumer parked_example [] 1 5 parked_example_inv
      (fun f hf => by
        have : f = 1 := by
          have h2 : some 1 = some f := hf
          simpa using h2.symm
        subst this
        decide)
  obtain ⟨e1, e2, _⟩ := hsig 1 _ rfl rfl
  exact ⟨s1, h1, e1, e2, (hw.2 (by decide)).trans rfl⟩

/-- Witness of C8: `interrupt` on the dispatcher with two parked threads and
a blocking task signals both threads, in ring order, and interrupts the
task. -/
theorem interruption_cascade_witness :
    ring_is parked_example [1, 0] ∧
    ∃ s1, interrupt parked_example = some s1 ∧ s1.interrupted_ = true ∧
      s1.trace = parked_example.trace ++
        [Event.signal 1, Event.signal 0, Event.task_interrupt] := by
  obtain ⟨_, ⟨s1, _, h1, hc, _⟩, _⟩ := interruption_cascade parked_example [1, 0]
    parked_example_ring
  refine ⟨parked_example_ring, s1, h1, hc.interrupted, ?_⟩
  rw [hc.trace]
  rfl

end task_io_service

end asio.detail

namespace asio.detail

namespace task_io_service

/-- Witness of C20: two posts on the dispatcher with thread 1 and thread 0
parked signal thread 1 and then thread 0, and `first_idle_thread_` is back at
thread 1. -/
theorem round_robin_wakeup_witness :
    ∃ s1, post_all parked_example [5, 6] = some s1 ∧
      s1.trace = parked_example.trace ++ [Event.signal 1, Event.signal 0] ∧
      s1.first_idle_thread_ = some 1 := by
  obtain ⟨s1, h1, h2, _, _, _, _, _, h3⟩ := round_robin_wakeup parked_example [] [1, 0] []
    [5, 6] parked_example_inv.queue parked_example_ring rfl
  exact ⟨s1, h1, h2, (h3 rfl).1⟩

end task_io_service

end asio.detail

/-! ## The idle ring in every reachable state -/

namespace asio.detail

namespace task_io_service

theorem kinds_waiting_iff (s : task_io_service) (u : Nat) :
    (kinds s)[u]? = some Kind.waiting ↔ ∃ th, s.threads[u]? = some th ∧ th.pc = Pc.waiting := by
  cases hth : s.threads[u]? with
  | none =>
    have : (kinds s)[u]? = none := by simp [kinds, hth]
    rw [this]
    simp
  | some th =>
    rw [kinds_get s u th hth]
    simp only [Option.some.injEq, exists_eq_left']
    cases hpc : th.pc <;> simp [Pc.kind]

theorem ring_is_first {s : task_io_service} {R : List Nat} (hr : ring_is s R) :
    (s.first_idle_thread_ = none ↔ R = []) ∧ ∀ f, s.first_idle_thread_ = some f → f ∈ R := by
  cases R with
  | nil =>
    have h0 : s.first_idle_thread_ = none := hr
    refine ⟨⟨fun _ => rfl, fun _ => h0⟩, ?_⟩
    intro f hf
    rw [h0] at hf
    cases hf
  | cons f rest =>
    have h0 : s.first_idle_thread_ = some f := hr.1
    refine ⟨⟨fun h => (by rw [h0] at h; cases h), fun h => (by cases h)⟩, ?_⟩
    intro f1 hf
    rw [h0] at hf
    simp only [Option.some.injEq] at hf
    rw [← hf]
    exact List.mem_cons_self _ _

theorem ring_is_inverse {s : task_io_service} {R : List Nat} (hr : ring_is s R) :
    ∀ u ∈ R, ∀ n, idle_next s u = some n → idle_prev s n = some u := by
  cases R with
  | nil => intro u hu; cases hu
  | cons f rest =>
    simp only [ring_is] at hr
    exact hr.2.2.2

/-- C21. In every state reachable from construction there is a list `R` of
threads, none occurring twice, such that the idle ring is the well-formed
ring `R` started at `first_idle_thread_`: `first_idle_thread_` is null
exactly when `R` is empty and otherwise is a thread of `R`; the threads of
`R` are exactly the parked threads; on `R` the links `next` and `prev` stay
in `R` and are inverse to each other; the idle node of every thread that is
not parked is linked to itself; and the unlinking of a parked thread leaves
a well-formed ring of the other parked threads, with the node of the thread
linked to itself and `first_idle_thread_` null when it was the last. -/
theorem idle_ring_well_formed (prog : Program) (s : task_io_service) (h : reach prog s) :
    ∃ R, ring_is s R ∧ R.Nodup ∧
      (∀ u, u ∈ R ↔ ∃ th, s.threads[u]? = some th ∧ th.pc = Pc.waiting) ∧
      (s.first_idle_thread_ = none ↔ R = []) ∧
      (∀ f, s.first_idle_thread_ = some f → f ∈ R) ∧
      (∀ u ∈ R, ∃ n ∈ R, ∃ p ∈ R, idle_next s u = some n ∧ idle_prev s u = some p ∧
        idle_prev s n = some u ∧ idle_next s p = some u) ∧
      (∀ (u : Nat) (th : run_thread), s.threads[u]? = some th → th.pc ≠ Pc.waiting →
        th.this_idle_thread.next = u ∧ th.this_idle_thread.prev = u) ∧
      (∀ t ∈ R, ∃ s1 R1, unpark s t = some s1 ∧ ring_is s1 R1 ∧
        (∀ u, u ∈ R1 ↔ u ∈ R ∧ u ≠ t) ∧ idle_next s1 t = some t ∧ idle_prev s1 t = some t ∧
        (R = [t] → s1.first_idle_thread_ = none)) := by
  obtain ⟨R, hi⟩ := ring_inv_of_reach h
  have hr := hi.ring
  obtain ⟨hf1, hf2⟩ := ring_is_first hr
  refine ⟨R, hr, ring_is_nodup hr, ?_, hf1, hf2, ?_, ?_, ?_⟩
  · intro u
    rw [hi.parked u, kinds_waiting_iff]
  · intro u hu
    have hlt := ring_is_lt hr u hu
    have hget : s.threads[u]? = some s.threads[u] := List.getElem?_eq_getElem hlt
    have hn : idle_next s u = some s.threads[u].this_idle_thread.next := by
      simp only [idle_next, hget]
    obtain ⟨p, hp, hp1, hp2⟩ := ring_prev_mem hr u hu
    exact ⟨_, ring_next_mem hr u hu _ hn, p, hp, hn, hp2, ring_is_inverse hr u hu _ hn, hp1⟩
  · intro u th hth hpc
    have hlt : u < s.threads.length := (List.getElem?_eq_some.1 hth).1
    have hnot : u ∉ R := by
      intro hm
      obtain ⟨th1, h1, h2⟩ := (kinds_waiting_iff s u).1 ((hi.parked u).1 hm)
      rw [hth] at h1
      simp only [Option.some.injEq] at h1
      rw [h1] at hpc
      exact hpc h2
    obtain ⟨e1, e2⟩ := hi.self u hlt hnot
    simp only [idle_next, idle_prev, hth, Option.some.injEq] at e1 e2
    exact ⟨e1, e2⟩
  · intro t ht
    obtain ⟨s1, R1, h1, hi1, hmem, hn, hp, _, _⟩ := unpark_inv hi ((hi.parked t).1 ht)
    refine ⟨s1, R1, h1, hi1.ring, hmem, hn, hp, ?_⟩
    intro hR
    have hnil : R1 = [] := by
      apply List.eq_nil_iff_forall_not_mem.2
      intro u hu
      have := (hmem u).1 hu
      rw [hR] at this
      simp only [List.mem_singleton] at this
      exact this.2 this.1
    have := hi1.ring
    rw [hnil] at this
    exact this

/-- Witness of C21: the dispatcher with thread 1 and thread 0 parked and
thread 2 inside the task. -/
theorem idle_ring_well_formed_witness :
    ∃ R, ring_is parked_example R ∧ R.Nodup ∧
      (∀ u, u ∈ R ↔ ∃ th, parked_example.threads[u]? = some th ∧ th.pc = Pc.waiting) ∧
      (parked_example.first_idle_thread_ = none ↔ R = []) ∧
      (∀ f, parked_example.first_idle_thread_ = some f → f ∈ R) ∧
      (∀ u ∈ R, ∃ n ∈ R, ∃ p ∈ R, idle_next parked_example u = some n ∧
        idle_prev parked_example u = some p ∧
        idle_prev parked_example n = some u ∧ idle_next parked_example p = some u) ∧
      (∀ (u : Nat) (th : run_thread), parked_example.threads[u]? = some th → th.pc ≠ Pc.waiting →
        th.this_idle_thread.next = u ∧ th.this_idle_thread.prev = u) ∧
      (∀ t ∈ R, ∃ s1 R1, unpark parked_example t = some s1 ∧ ring_is s1 R1 ∧
        (∀ u, u ∈ R1 ↔ u ∈ R ∧ u ≠ t) ∧ idle_next s1 t = some t ∧ idle_prev s1 t = some t ∧
        (R = [t] → s1.first_idle_thread_ = none)) :=
  idle_ring_well_formed (fun _ => []) parked_example parked_example_reach

end task_io_service

end asio.detail
